import Mathlib

/-!
# Network topology simulator (`s3/f_network.cpp`)

A shallow embedding of the node / segment classes of the network simulator.

* A `node*` is an address (`Ptr`); the address `0` is `nullptr`.
* The program state is the heap of live `node` objects, an association list
  from addresses to node records kept in increasing address order.  The set
  `network::nodes` of the segment at address `seg` is the sub-list of the
  objects whose `_segment` field is `seg` (the constructor stores `this`
  there and nothing ever changes it).
* A `std::set<node*>` is a strictly increasing list of addresses.
* Every operation returns an `Option`; `none` stands for undefined behaviour
  of the C++ program (dereferencing an address at which no node lives,
  `erase( end() )`) or, for the recursive traversals, for running out of
  fuel.
-/

namespace Network

/-- Addresses of `node` and `network` objects; `0` is `nullptr`. -/
abbrev Ptr := Nat

/-- The enumeration `node_type`, in declaration order. -/
inductive node_type where
  | ENDPOINT
  | BRIDGE
  | ROUTER
  deriving DecidableEq, Repr

/-- The fields of a `node` object together with those of its subclasses
(`capacity` and `_id` exist for `bridge` and `router` only). -/
structure node where
  _segment : Ptr
  _type : node_type
  capacity : Nat
  _id : String
  connected : List Ptr
  deriving DecidableEq, Repr

/-- The heap of live nodes, in increasing address order. -/
abbrev State := List (Ptr × node)

/-- Dereference a `node*`. -/
def deref : State → Ptr → Option node
  | [], _ => none
  | (q, nd) :: rest, p => if q = p then some nd else deref rest p

/-- Overwrite the object living at address `p`. -/
def modify (f : node → node) (p : Ptr) : State → State
  | [] => []
  | (q, nd) :: rest =>
    if q = p then (q, f nd) :: modify f p rest else (q, nd) :: modify f p rest

/-- Place a newly constructed object at address `p`. -/
def alloc (p : Ptr) (nd : node) : State → State
  | [] => [(p, nd)]
  | (q, x) :: rest =>
    if p < q then (p, nd) :: (q, x) :: rest else (q, x) :: alloc p nd rest

/-- Insertion into a `std::set<node*>`. -/
def set_insert (x : Ptr) : List Ptr → List Ptr
  | [] => [x]
  | y :: ys =>
    if x < y then x :: y :: ys
    else if x = y then y :: ys
    else y :: set_insert x ys

/-- The method `node::get_capacity` (virtual). -/
def get_capacity (nd : node) : Nat :=
  match nd._type with
  | node_type.ENDPOINT => 1
  | node_type.BRIDGE => nd.capacity
  | node_type.ROUTER => nd.capacity

/-- The method `node::get_id` (virtual). -/
def get_id (nd : node) : String :=
  match nd._type with
  | node_type.ENDPOINT => ""
  | node_type.BRIDGE => nd._id
  | node_type.ROUTER => nd._id

/-- The loop of `router::can_add`: `some false` when a neighbor lives in the
segment of `n`, `some true` when the loop runs to its end. -/
def router_scan (s : State) (n : Ptr) : List Ptr → Option Bool
  | [] => some true
  | i :: rest =>
    match deref s i, deref s n with
    | some ni, some nn =>
      if ni._segment = nn._segment then some false else router_scan s n rest
    | _, _ => none

/-- The virtual method `can_add` of `endpoint`, `bridge` and `router`. -/
def can_add (s : State) (this n : Ptr) : Option Bool :=
  match deref s this with
  | none => none
  | some nd =>
    match nd._type with
    | node_type.ENDPOINT => some (decide (n ≠ 0) && nd.connected.isEmpty)
    | node_type.BRIDGE =>
      if n = 0 then some false
      else if n ∈ nd.connected then some false
      else some (decide (nd.connected.length < nd.capacity))
    | node_type.ROUTER =>
      if n = 0 then some false
      else
        match router_scan s n nd.connected with
        | none => none
        | some false => some false
        | some true => some (decide (nd.connected.length < nd.capacity))

/-- The method `node::add`. -/
def add (s : State) (this n : Ptr) : Option State :=
  match deref s this with
  | none => none
  | some _ =>
    some (modify (fun nd => { nd with connected := set_insert n nd.connected }) this s)

/-- The method `node::can_remove`. -/
def can_remove (s : State) (this n : Ptr) : Option Bool :=
  if n = 0 then some false
  else
    match deref s this with
    | none => none
    | some nd => some (decide (n ∈ nd.connected))

/-- The method `node::remove`: `connected.erase( connected.find( n ) )`, which
is undefined when `n` is not in the set. -/
def remove (s : State) (this n : Ptr) : Option State :=
  match deref s this with
  | none => none
  | some nd =>
    if n ∈ nd.connected then
      some (modify (fun nd => { nd with connected := nd.connected.erase n }) this s)
    else none

/-- The method `node::connect`. -/
def connect (s : State) (this n : Ptr) : Option (Bool × State) :=
  match can_add s this n with
  | none => none
  | some false => some (false, s)
  | some true =>
    match can_add s n this with
    | none => none
    | some false => some (false, s)
    | some true =>
      match add s this n with
      | none => none
      | some s1 =>
        match add s1 n this with
        | none => none
        | some s2 => some (true, s2)

/-- The method `node::disconnect`. -/
def disconnect (s : State) (this n : Ptr) : Option (Bool × State) :=
  match can_remove s this n with
  | none => none
  | some false => some (false, s)
  | some true =>
    match can_remove s n this with
    | none => none
    | some false => some (false, s)
    | some true =>
      match remove s this n with
      | none => none
      | some s1 =>
        match remove s1 n this with
        | none => none
        | some s2 => some (true, s2)

/-- The loop of `node::find_node` over `get_connected()`; `call` is the
recursive call `i->find_node( n, visited )`. -/
def find_node_loop (call : Ptr → List Ptr → Option (Bool × List Ptr)) (n : Ptr) :
    List Ptr → List Ptr → Option (Bool × List Ptr)
  | [], visited => some (false, visited)
  | i :: rest, visited =>
    if i ∈ visited then find_node_loop call n rest visited
    else if i = n then some (true, set_insert i visited)
    else
      match call i (set_insert i visited) with
      | none => none
      | some (true, v) => some (true, v)
      | some (false, v) => find_node_loop call n rest v

/-- The method `node::find_node`; the result carries the final value of the
reference parameter `visited`.  The fuel bounds the recursion depth. -/
def find_node : Nat → State → Ptr → Ptr → List Ptr → Option (Bool × List Ptr)
  | 0, _, _, _, _ => none
  | fuel + 1, s, this, n, visited =>
    match deref s this with
    | none => none
    | some nd => find_node_loop (fun i v => find_node fuel s i n v) n nd.connected visited

/-- The method `node::reachable`, the recursion depth bounded by the number
of live nodes. -/
def reachable (s : State) (this n : Ptr) : Option Bool :=
  if n = this then some true
  else (find_node (s.length + 1) s this n []).map Prod.fst

/-- The loop of `network::find_cycle`; `call v i p` is the recursive call
`find_cycle( visited, current, i, cycle_pair )`. -/
def find_cycle_loop (s : State)
    (call : List Ptr → Ptr → Ptr × Ptr → Option (Bool × List Ptr × (Ptr × Ptr)))
    (src current cur_segment : Ptr) :
    List Ptr → List Ptr → Ptr × Ptr → Option (Bool × List Ptr × (Ptr × Ptr))
  | [], visited, p => some (false, visited, p)
  | i :: rest, visited, p =>
    match deref s i with
    | none => none
    | some ni =>
      if ni._segment ≠ cur_segment then
        find_cycle_loop s call src current cur_segment rest visited p
      else if i ∈ visited then
        if i ≠ src then some (true, visited, (current, i))
        else find_cycle_loop s call src current cur_segment rest visited p
      else
        match call (set_insert i visited) i p with
        | none => none
        | some (true, v, q) => some (true, v, q)
        | some (false, v, q) => find_cycle_loop s call src current cur_segment rest v q

/-- The method `network::find_cycle`; `src` is the parameter `from`.  The
result carries the final values of `visited` and `cycle_pair`. -/
def find_cycle : Nat → State → List Ptr → Ptr → Ptr → Ptr × Ptr →
    Option (Bool × List Ptr × (Ptr × Ptr))
  | 0, _, _, _, _, _ => none
  | fuel + 1, s, visited, src, current, p =>
    match deref s current with
    | none => none
    | some nc =>
      find_cycle_loop s (fun v i q => find_cycle fuel s v current i q)
        src current nc._segment nc.connected visited p

/-- The member `network::nodes` of the segment at address `seg`. -/
def network_nodes (s : State) (seg : Ptr) : List Ptr :=
  (s.filter (fun e => decide (e.2._segment = seg))).map Prod.fst

/-- The local set `all_nodes` of `has_loops` and `fix_loops`. -/
def all_nodes (s : State) (seg : Ptr) : List Ptr :=
  (network_nodes s seg).foldl (fun acc i => set_insert i acc) []

/-- The loop of `network::has_loops` over `all_nodes`. -/
def has_loops_loop (fuel : Nat) (s : State) :
    List Ptr → List Ptr → Ptr × Ptr → Option Bool
  | [], _, _ => some false
  | node_ptr :: rest, visited, p =>
    if node_ptr ∈ visited then has_loops_loop fuel s rest visited p
    else
      match find_cycle fuel s (set_insert node_ptr visited) 0 node_ptr p with
      | none => none
      | some (true, _, _) => some true
      | some (false, v, q) => has_loops_loop fuel s rest v q

/-- The method `network::has_loops` with an explicit recursion bound. -/
def has_loops_fuel (fuel : Nat) (s : State) (seg : Ptr) : Option Bool :=
  has_loops_loop fuel s (all_nodes s seg) [] (0, 0)

/-- A bound on the recursion depth and on the number of loop iterations of
the traversals: the number of live nodes plus the number of stored neighbor
references. -/
def fuel_bound (s : State) : Nat :=
  s.length + (s.map (fun e => e.2.connected.length)).sum + 1

/-- The method `network::has_loops`. -/
def has_loops (s : State) (seg : Ptr) : Option Bool :=
  has_loops_fuel (fuel_bound s) s seg

/-- The `while ( cycle_found )` loop of `network::fix_loops`; `depth` bounds
the recursion of `find_cycle`, the first argument the number of
iterations. -/
def fix_loops_while (depth : Nat) (node_ptr : Ptr) :
    Nat → State → Bool → List Ptr → Ptr × Ptr → Option (State × List Ptr × (Ptr × Ptr))
  | 0, _, _, _, _ => none
  | iters + 1, s, cycle_found, component_set, p =>
    if cycle_found then
      match disconnect s p.1 p.2 with
      | none => none
      | some (_, s1) =>
        match find_cycle depth s1 [node_ptr] 0 node_ptr p with
        | none => none
        | some (found, cs, q) => fix_loops_while depth node_ptr iters s1 found cs q
    else some (s, component_set, p)

/-- The `for` loop of `network::fix_loops` over `all_nodes`. -/
def fix_loops_loop (fuel : Nat) :
    List Ptr → State → List Ptr → Ptr × Ptr → Option State
  | [], s, _, _ => some s
  | node_ptr :: rest, s, visited, p =>
    if node_ptr ∈ visited then fix_loops_loop fuel rest s visited p
    else
      match find_cycle fuel s [node_ptr] 0 node_ptr p with
      | none => none
      | some (found, cs, q) =>
        match fix_loops_while fuel node_ptr fuel s found cs q with
        | none => none
        | some (s1, cs1, q1) =>
          fix_loops_loop fuel rest s1 (cs1.foldl (fun acc i => set_insert i acc) visited) q1

/-- The method `network::fix_loops` with an explicit bound on recursion depth
and iteration count. -/
def fix_loops_fuel (fuel : Nat) (s : State) (seg : Ptr) : Option State :=
  fix_loops_loop fuel (all_nodes s seg) s [] (0, 0)

/-- The method `network::fix_loops`. -/
def fix_loops (s : State) (seg : Ptr) : Option State :=
  fix_loops_fuel (fuel_bound s) s seg

/-- The conversion of the `int` constructor argument to the `std::size_t`
member `capacity`. -/
def to_size_t (p : Int) : Nat := (p % 2 ^ 64).toNat

/-- The method `network::add_endpoint` of the segment at `seg`; `p` is the
address of the new object. -/
def add_endpoint (s : State) (seg p : Ptr) : State :=
  alloc p { _segment := seg, _type := node_type.ENDPOINT, capacity := 1, _id := "",
            connected := [] } s

/-- The method `network::add_bridge` of the segment at `seg`; `p` is the
address of the new object. -/
def add_bridge (s : State) (seg : Ptr) (cap : Int) (id : String) (p : Ptr) : State :=
  alloc p { _segment := seg, _type := node_type.BRIDGE, capacity := to_size_t cap, _id := id,
            connected := [] } s

/-- The method `network::add_router` of the segment at `seg`; `p` is the
address of the new object. -/
def add_router (s : State) (seg : Ptr) (cap : Int) (id : String) (p : Ptr) : State :=
  alloc p { _segment := seg, _type := node_type.ROUTER, capacity := to_size_t cap, _id := id,
            connected := [] } s

/-- One call of a public operation.  A new object is placed at any non-null
address at which no node lives. -/
inductive Step : State → State → Prop
  | add_endpoint (s : State) (seg p : Ptr) :
      p ≠ 0 → deref s p = none → Step s (add_endpoint s seg p)
  | add_bridge (s : State) (seg : Ptr) (cap : Int) (id : String) (p : Ptr) :
      p ≠ 0 → deref s p = none → Step s (add_bridge s seg cap id p)
  | add_router (s : State) (seg : Ptr) (cap : Int) (id : String) (p : Ptr) :
      p ≠ 0 → deref s p = none → Step s (add_router s seg cap id p)
  | connect (s : State) (a b : Ptr) (r : Bool) (t : State) :
      connect s a b = some (r, t) → Step s t
  | disconnect (s : State) (a b : Ptr) (r : Bool) (t : State) :
      disconnect s a b = some (r, t) → Step s t
  | fix_loops (s : State) (seg : Ptr) (fuel : Nat) (t : State) :
      fix_loops_fuel fuel s seg = some t → Step s t

/-- The states reachable from empty segments through the public operations. -/
inductive Reachable : State → Prop
  | init : Reachable []
  | step (s t : State) : Reachable s → Step s t → Reachable t

/-- The neighbor set of the node at `p` (empty when no node lives there). -/
def neighbors (s : State) (p : Ptr) : List Ptr :=
  match deref s p with
  | some nd => nd.connected
  | none => []

/-- Every stored neighbor reference points to a live node, and no node lives
at the null address. -/
def closed (s : State) : Prop :=
  deref s 0 = none ∧
    ∀ p nd, deref s p = some nd → ∀ i ∈ nd.connected, ∃ ni, deref s i = some ni

/-- The neighbor relation: `y` is in the neighbor set of the node at `x`. -/
def edge (s : State) (x y : Ptr) : Prop :=
  ∃ nd, deref s x = some nd ∧ y ∈ nd.connected

/-- The connection policy of the node `na` towards the live node `nb` at
address `b`, as a proposition over the neighbor set. -/
def may_add (s : State) (na : node) (b : Ptr) (nb : node) : Prop :=
  match na._type with
  | node_type.ENDPOINT => na.connected = []
  | node_type.BRIDGE => b ∉ na.connected ∧ na.connected.length < na.capacity
  | node_type.ROUTER =>
    (∀ i ∈ na.connected, ∀ ni, deref s i = some ni → ni._segment ≠ nb._segment) ∧
      na.connected.length < na.capacity

/-- Replace the neighbor set of a node record. -/
def upd (g : List Ptr → List Ptr) (nd : node) : node :=
  { nd with connected := g nd.connected }

/-- The representation invariant of the reachable states. -/
structure Inv (s : State) : Prop where
  closed : closed s
  sorted : ∀ p nd, deref s p = some nd → nd.connected.Pairwise (· < ·)
  symm : ∀ x y, edge s x y → edge s y x
  cap : ∀ p nd, deref s p = some nd → nd.connected.length ≤ get_capacity nd
  router : ∀ r nr, deref s r = some nr → nr._type = node_type.ROUTER →
    ∀ x ∈ nr.connected, ∀ y ∈ nr.connected, x ≠ y →
      ∀ nx ny, deref s x = some nx → deref s y = some ny → nx._segment ≠ ny._segment

/-- The number of live addresses that are not in `visited`. -/
def unvisited (s : State) (visited : List Ptr) : Nat :=
  ((s.map Prod.fst).toFinset \ visited.toFinset).card

/-- The neighbor set of the node at `q` after a successful `a.connect(b)`. -/
def conn_after_connect (a b q : Ptr) (l : List Ptr) : List Ptr :=
  (if q = b then set_insert a else id) ((if q = a then set_insert b else id) l)

/-- The neighbor set of the node at `q` after a successful
`a.disconnect(b)`. -/
def conn_after_disconnect (a b q : Ptr) (l : List Ptr) : List Ptr :=
  (if q = b then fun l => l.erase a else id) ((if q = a then fun l => l.erase b else id) l)

/-- What a call `this->find_node( n, visited )` that returns `r` with the
final set `w` guarantees. -/
def find_node_post (s : State) (n this : Ptr) (visited w : List Ptr) (r : Bool) : Prop :=
  visited ⊆ w ∧ (r = true → Relation.TransGen (edge s) this n) ∧
    (r = false →
      (∀ x ∈ w, x ∉ visited → x ≠ n ∧ ∀ y, edge s x y → y ∈ w) ∧
        ∀ y, edge s this y → y ∈ w)

/-- A decision procedure for `closed`. -/
def closed_check (s : State) : Bool :=
  s.all fun e => decide (e.1 ≠ 0) && e.2.connected.all fun i => (deref s i).isSome

/-- Two endpoints of the segment at address `100`, at the addresses `1`
and `2`. -/
def two_endpoints : State := add_endpoint (add_endpoint [] 100 1) 100 2

/-- The state built by `test_sigsegv`: the endpoint `1` and the router `3`
of the segment at `100`, the endpoint `2` and the router `4` of the segment
at `200`, connected `1 - 3 - 4 - 2`. -/
def two_segments : State :=
  [(1, { _segment := 100, _type := node_type.ENDPOINT, capacity := 1, _id := "",
         connected := [3] }),
   (2, { _segment := 200, _type := node_type.ENDPOINT, capacity := 1, _id := "",
         connected := [4] }),
   (3, { _segment := 100, _type := node_type.ROUTER, capacity := 2, _id := "r0",
         connected := [1, 4] }),
   (4, { _segment := 200, _type := node_type.ROUTER, capacity := 2, _id := "r1",
         connected := [2, 3] })]

/-- Three bridges of capacity 2 of one segment, connected pairwise (the
state of `test_disconnect`). -/
def triangle : State :=
  [(1, { _segment := 100, _type := node_type.BRIDGE, capacity := 2, _id := "A",
         connected := [2, 3] }),
   (2, { _segment := 100, _type := node_type.BRIDGE, capacity := 2, _id := "B",
         connected := [1, 3] }),
   (3, { _segment := 100, _type := node_type.BRIDGE, capacity := 2, _id := "C",
         connected := [1, 2] })]

/-- The state `triangle` after `fix_loops`: the connection between the
bridges at `1` and `3` is gone. -/
def triangle_fixed : State :=
  [(1, { _segment := 100, _type := node_type.BRIDGE, capacity := 2, _id := "A",
         connected := [2] }),
   (2, { _segment := 100, _type := node_type.BRIDGE, capacity := 2, _id := "B",
         connected := [1, 3] }),
   (3, { _segment := 100, _type := node_type.BRIDGE, capacity := 2, _id := "C",
         connected := [2] })]

/-- An endpoint at address `1` that has been connected to itself. -/
def self_loop : State :=
  [(1, { _segment := 100, _type := node_type.ENDPOINT, capacity := 1, _id := "",
         connected := [1] })]

/-! ## Canonical ordering and `serialize` -/

/-- The comparison `a.compare( b ) < 0` of two `std::string`s: the
lexicographic order of the character sequences. -/
def str_lt (a b : String) : Bool := decide (a.data < b.data)

/-- The numeric value of a `node_type` enumerator. -/
def type_val : node_type → Nat
  | node_type.ENDPOINT => 0
  | node_type.BRIDGE => 1
  | node_type.ROUTER => 2

/-- The comparator `node_cmp::operator()`. -/
def node_cmp (s : State) (n1 n2 : Ptr) : Option Bool :=
  if n1 = n2 then some false
  else
    match deref s n1, deref s n2 with
    | some d1, some d2 =>
      if d1._type ≠ d2._type then some (decide (type_val d1._type < type_val d2._type))
      else if d1._type ≠ node_type.ENDPOINT then some (str_lt (get_id d1) (get_id d2))
      else if d1.connected.length ≠ d2.connected.length then
        some (decide (d1.connected.length < d2.connected.length))
      else
        match d1.connected with
        | [] => some (decide (n1 < n2))
        | i1 :: _ =>
          match d2.connected with
          | [] => none
          | i2 :: _ =>
            match deref s i1, deref s i2 with
            | some e1, some e2 =>
              if e1._type ≠ e2._type then some (decide (type_val e1._type < type_val e2._type))
              else some (decide (n1 < n2))
            | _, _ => none
    | _, _ => none

/-- Insertion into a `std::set<node*,node_cmp>`, kept as the list of its
elements in comparator order: an element equivalent to one already present
is not inserted. -/
def cmp_insert (s : State) (x : Ptr) : List Ptr → Option (List Ptr)
  | [] => some [x]
  | y :: ys =>
    match node_cmp s x y with
    | none => none
    | some true => some (x :: y :: ys)
    | some false =>
      match node_cmp s y x with
      | none => none
      | some false => some (y :: ys)
      | some true =>
        match cmp_insert s x ys with
        | none => none
        | some r => some (y :: r)

/-- Insert the elements of a range, in order, into a
`std::set<node*,node_cmp>`. -/
def cmp_insert_all (s : State) : List Ptr → List Ptr → Option (List Ptr)
  | [], acc => some acc
  | x :: xs, acc =>
    match cmp_insert s x acc with
    | none => none
    | some acc1 => cmp_insert_all s xs acc1

/-- The method `network::get_node_vec` of the segment at `seg`. -/
def get_node_vec (s : State) (seg : Ptr) (type : node_type) : Option (List Ptr) :=
  cmp_insert_all s
    ((s.filter fun e => decide (e.2._segment = seg) && decide (e.2._type = type)).map Prod.fst) []

/-- The method `network::endpoints`. -/
def endpoints (s : State) (seg : Ptr) : Option (List Ptr) :=
  get_node_vec s seg node_type.ENDPOINT

/-- The method `network::bridges`. -/
def bridges (s : State) (seg : Ptr) : Option (List Ptr) :=
  get_node_vec s seg node_type.BRIDGE

/-- The method `network::routers`. -/
def routers (s : State) (seg : Ptr) : Option (List Ptr) :=
  get_node_vec s seg node_type.ROUTER

/-- The function template `get_index` on a vector of segment addresses. -/
def get_index : List Ptr → Ptr → Int
  | [], _ => -1
  | x :: xs, e =>
    if x = e then 0
    else if get_index xs e = -1 then -1 else get_index xs e + 1

/-- The function `get_id_prefix`. -/
def get_id_prefix (nd : node) : String :=
  match nd._type with
  | node_type.ENDPOINT => "e_"
  | node_type.BRIDGE => "b_"
  | node_type.ROUTER => "r_"

/-- The function `count_endpoints`, as a loop over the neighbor set. -/
def count_endpoints_loop (s : State) : List Ptr → Nat → Option Nat
  | [], count => some count
  | c :: cs, count =>
    match deref s c with
    | none => none
    | some dc =>
      count_endpoints_loop s cs (if dc._type = node_type.ENDPOINT then count + 1 else count)

/-- The function `count_endpoints`. -/
def count_endpoints (s : State) (n : Ptr) : Option Nat :=
  match deref s n with
  | none => none
  | some dn => count_endpoints_loop s dn.connected 0

/-- The loop of `node_to_string` over `node_set`: the text written so far
and the value of `e_count`. -/
def refs_to_string (s : State) (system : List Ptr) (is_router : Bool) :
    List Ptr → String → Nat → Option (String × Nat)
  | [], oss, e_count => some (oss, e_count)
  | c :: cs, oss, e_count =>
    match deref s c with
    | none => none
    | some dc =>
      if dc._type = node_type.ENDPOINT then
        refs_to_string s system is_router cs oss (e_count + 1)
      else
        refs_to_string s system is_router cs
          ((if is_router then oss ++ toString (get_index system dc._segment) ++ ":" else oss)
            ++ get_id_prefix dc ++ get_id dc ++ " ")
          e_count

/-- The function `node_to_string`. -/
def node_to_string (s : State) (n : Ptr) (system : List Ptr) : Option String :=
  match deref s n with
  | none => none
  | some dn =>
    match dn._type with
    | node_type.ENDPOINT =>
      match dn.connected with
      | [] => some "node\x7b type= endpoint e_count= 0 \x7d"
      | c :: _ =>
        match deref s c with
        | none => none
        | some dc =>
          if dc._type = node_type.ENDPOINT then some "node\x7b type= endpoint e_count= 1 \x7d"
          else some "node\x7b type= endpoint e_count= 0 \x7d"
    | ty =>
      match cmp_insert_all s dn.connected [] with
      | none => none
      | some node_set =>
        match refs_to_string s system (decide (ty = node_type.ROUTER)) node_set
            ("node\x7b type= " ++ (if ty = node_type.BRIDGE then "bridge" else "router")
              ++ " id= " ++ get_id dn ++ " capacity= " ++ toString (get_capacity dn)
              ++ " connected=( ") 0 with
        | none => none
        | some (oss, e_count) => some (oss ++ ") e_count= " ++ toString e_count ++ " \x7d")

/-- One of the three loops of `net_to_string` over a vector of nodes. -/
def nodes_to_string (s : State) (system : List Ptr) : List Ptr → String → Option String
  | [], oss => some oss
  | n :: ns, oss =>
    match node_to_string s n system with
    | none => none
    | some str => nodes_to_string s system ns (oss ++ str ++ " ")

/-- The function `net_to_string` for the segment at `net`. -/
def net_to_string (s : State) (net : Ptr) (system : List Ptr) : Option String :=
  match endpoints s net, bridges s net, routers s net with
  | some es, some bs, some rs =>
    match nodes_to_string s system es "network[ endpoints=( " with
    | none => none
    | some o1 =>
      match nodes_to_string s system bs (o1 ++ ")\n" ++ "bridges=( ") with
      | none => none
      | some o2 =>
        match nodes_to_string s system rs (o2 ++ ")\n" ++ "routers=( ") with
        | none => none
        | some o3 => some (o3 ++ ") ]\n")
  | _, _, _ => none

/-- The loop of `serialize` over the list of segments. -/
def nets_to_string (s : State) (p_nets : List Ptr) : List Ptr → String → Option String
  | [], oss => some oss
  | net :: rest, oss =>
    match net_to_string s net p_nets with
    | none => none
    | some str => nets_to_string s p_nets rest (oss ++ str)

/-- The function `serialize`; `nets` are the addresses of the segments of the
list. -/
def serialize (s : State) (nets : List Ptr) : Option String :=
  match nets_to_string s nets nets "net_series\x7b\n" with
  | none => none
  | some oss => some (oss ++ "\x7dser_end\n")

/-! ## String streams and `deserialize` -/

/-- The state of a `std::istringstream`: the characters not yet read, the
`eofbit` and the `failbit`. -/
structure istringstream where
  buf : List Char
  eofbit : Bool
  failbit : Bool
  deriving DecidableEq, Repr

/-- A stream constructed from a string. -/
def stream_of (str : String) : istringstream :=
  { buf := str.data, eofbit := false, failbit := false }

/-- The classification `std::isspace` of the classic locale. -/
def isspace (c : Char) : Bool :=
  decide (c.toNat = 32) || (decide (9 ≤ c.toNat) && decide (c.toNat ≤ 13))

/-- Skip leading white space. -/
def skipws : List Char → List Char
  | [] => []
  | c :: cs => if isspace c then skipws cs else c :: cs

/-- The constructor of `std::istream::sentry`: whether extraction may go
ahead, and the stream after it. -/
def sentry (noskip : Bool) (i : istringstream) : Bool × istringstream :=
  if i.eofbit || i.failbit then (false, { i with failbit := true })
  else if noskip then (true, i)
  else
    match skipws i.buf with
    | [] => (false, { buf := [], eofbit := true, failbit := true })
    | c :: cs => (true, { i with buf := c :: cs })

/-- The longest prefix of characters that are not white space, and the
rest. -/
def take_word : List Char → List Char × List Char
  | [] => ([], [])
  | c :: cs =>
    if isspace c then ([], c :: cs)
    else ((c :: (take_word cs).1), (take_word cs).2)

/-- The extraction `is >> str` for a `std::string`; `old` is the value of
the string before. -/
def extract_string (i : istringstream) (old : String) : String × istringstream :=
  match sentry false i with
  | (false, i1) => (old, i1)
  | (true, i1) =>
    (String.mk (take_word i1.buf).1,
      { buf := (take_word i1.buf).2, eofbit := (take_word i1.buf).2.isEmpty, failbit := false })

/-- Whether a character is a decimal digit. -/
def isdigit (c : Char) : Bool := decide (48 ≤ c.toNat) && decide (c.toNat ≤ 57)

/-- The longest prefix of decimal digits, and the rest. -/
def take_digits : List Char → List Char × List Char
  | [] => ([], [])
  | c :: cs =>
    if isdigit c then ((c :: (take_digits cs).1), (take_digits cs).2)
    else ([], c :: cs)

/-- The value of a sequence of decimal digits, continuing from `acc`. -/
def digits_value : List Char → Nat → Nat
  | [], acc => acc
  | c :: cs, acc => digits_value cs (acc * 10 + (c.toNat - 48))

/-- The largest value of an `int`. -/
def INT_MAX : Int := 2147483647

/-- The smallest value of an `int`. -/
def INT_MIN : Int := -2147483648

/-- Parse an optional sign and decimal digits: the value (if there is a
digit), and the rest of the characters. -/
def parse_int (cs : List Char) : Option Int × List Char :=
  match cs with
  | [] => (none, [])
  | c :: rest =>
    if c = '-' then
      match take_digits rest with
      | ([], r) => (none, r)
      | (d :: ds, r) => (some (-(digits_value (d :: ds) 0 : Int)), r)
    else if c = '+' then
      match take_digits rest with
      | ([], r) => (none, r)
      | (d :: ds, r) => (some (digits_value (d :: ds) 0 : Int), r)
    else
      match take_digits (c :: rest) with
      | ([], r) => (none, r)
      | (d :: ds, r) => (some (digits_value (d :: ds) 0 : Int), r)

/-- The extraction `is >> n` for an `int`: `none` when the variable is left
untouched (the sentry failed), otherwise the value stored. -/
def extract_int (i : istringstream) : Option Int × istringstream :=
  match sentry false i with
  | (false, i1) => (none, i1)
  | (true, i1) =>
    match parse_int i1.buf with
    | (none, r) => (some 0, { buf := r, eofbit := r.isEmpty, failbit := true })
    | (some v, r) =>
      if v < INT_MIN then (some INT_MIN, { buf := r, eofbit := r.isEmpty, failbit := true })
      else if INT_MAX < v then
        (some INT_MAX, { buf := r, eofbit := r.isEmpty, failbit := true })
      else (some v, { buf := r, eofbit := r.isEmpty, failbit := false })

/-- The extraction `is >> c` for a `char`: `none` when the variable is left
untouched. -/
def extract_char (i : istringstream) : Option Char × istringstream :=
  match sentry false i with
  | (false, i1) => (none, i1)
  | (true, i1) =>
    match i1.buf with
    | [] => (none, { i1 with eofbit := true, failbit := true })
    | c :: cs => (some c, { i1 with buf := cs })

/-- The characters before the first occurrence of `delim`, and what follows
that occurrence (`none` when there is none). -/
def split_at_delim (delim : Char) : List Char → List Char × Option (List Char)
  | [] => ([], none)
  | c :: cs =>
    if c = delim then ([], some cs)
    else ((c :: (split_at_delim delim cs).1), (split_at_delim delim cs).2)

/-- The function `std::getline( is, str, delim )`; `old` is the value of the
string before. -/
def getline (i : istringstream) (old : String) (delim : Char) : String × istringstream :=
  match sentry true i with
  | (false, i1) => (old, i1)
  | (true, i1) =>
    match split_at_delim delim i1.buf with
    | (pre, some rest) => (String.mk pre, { buf := rest, eofbit := false, failbit := false })
    | (pre, none) => (String.mk pre, { buf := [], eofbit := true, failbit := pre.isEmpty })

/-- The function `std::stoi`: `none` when it throws. -/
def stoi (cs : List Char) : Option Int :=
  match parse_int (skipws cs) with
  | (none, _) => none
  | (some v, _) => if v < INT_MIN ∨ INT_MAX < v then none else some v

/-- The order of `std::tuple< node*, std::string >`. -/
def conn_lt (a b : Ptr × String) : Bool :=
  decide (a.1 < b.1) || (decide (a.1 = b.1) && str_lt a.2 b.2)

/-- Insertion into a `std::set<node_connection>`. -/
def conn_insert (x : Ptr × String) : List (Ptr × String) → List (Ptr × String)
  | [] => [x]
  | y :: ys =>
    if conn_lt x y then x :: y :: ys
    else if conn_lt y x then y :: conn_insert x ys
    else y :: ys

/-- The loop `while ( token != ")" )` of `read_node`.  The first argument
bounds the number of iterations: an extraction that succeeds consumes a
character, one that fails leaves `token` as it is for ever. -/
def read_refs (new_node : Ptr) :
    Nat → istringstream → String → List (Ptr × String) →
      Option (istringstream × List (Ptr × String))
  | 0, _, _, _ => none
  | fuel + 1, iss, token, connects =>
    if token = ")" then some (iss, connects)
    else
      read_refs new_node fuel (extract_string iss token).2 (extract_string iss token).1
        (conn_insert (new_node, token) connects)

/-- The function `read_node` for the segment at `net`.  The heap `s` holds
the nodes created so far, `k` counts them and `node_addr k` is the address
at which the next node is created. -/
def read_node (node_addr : Nat → Ptr) (node_str : String) (net : Ptr) (s : State) (k : Nat)
    (connects : List (Ptr × String)) : Option (State × Nat × List (Ptr × String)) :=
  let r1 := extract_string (stream_of node_str) ""
  if r1.1 ≠ "type=" then none
  else
    let r2 := extract_string r1.2 ""
    if r2.1 = "endpoint" then
      let r3 := extract_string r2.2 r1.1
      if r3.1 ≠ "e_count=" then none
      else
        match (extract_int r3.2).1 with
        | none => none
        | some epts =>
          some (add_endpoint s net (node_addr k), k + 1,
            if epts ≠ 0 then conn_insert (node_addr k, "e_1") connects else connects)
    else
      let r3 := extract_string r2.2 r1.1
      if r3.1 ≠ "id=" then none
      else
        let r4 := extract_string r3.2 ""
        let r5 := extract_string r4.2 r3.1
        if r5.1 ≠ "capacity=" then none
        else
          let r6 := extract_int r5.2
          let r7 := extract_string r6.2 r5.1
          if r7.1 ≠ "connected=(" then none
          else
            match r6.1 with
            | none => none
            | some cap =>
              if r2.1 = "bridge" ∨ r2.1 = "router" then
                let r8 := extract_string r7.2 r7.1
                match read_refs (node_addr k) (r8.2.buf.length + 2) r8.2 r8.1 connects with
                | none => none
                | some (iss9, connects1) =>
                  let r10 := extract_string iss9 ")"
                  if r10.1 ≠ "e_count=" then none
                  else
                    match (extract_int r10.2).1 with
                    | none => none
                    | some epts =>
                      some
                        (if r2.1 = "bridge" then add_bridge s net cap r4.1 (node_addr k)
                          else add_router s net cap r4.1 (node_addr k),
                          k + 1,
                          if epts ≠ 0 then
                            conn_insert (node_addr k, "e_" ++ toString epts) connects1
                          else connects1)
              else none

/-- The `while` loop of `read_node_list`, with a bound on the number of
iterations. -/
def read_node_list_loop (node_addr : Nat → Ptr) (net : Ptr) :
    Nat → istringstream → String → String → State → Nat → List (Ptr × String) →
      Option (istringstream × State × Nat × List (Ptr × String))
  | 0, _, _, _, _, _, _ => none
  | fuel + 1, iss, token, node_str, s, k, connects =>
    if token = ")" then some (iss, s, k, connects)
    else if token ≠ "node\x7b" then none
    else
      let g := getline iss node_str (Char.ofNat 125)
      match read_node node_addr g.1 net s k connects with
      | none => none
      | some (s1, k1, c1) =>
        read_node_list_loop node_addr net fuel (extract_string g.2 token).2
          (extract_string g.2 token).1 g.1 s1 k1 c1

/-- The function `read_node_list`. -/
def read_node_list (node_addr : Nat → Ptr) (net : Ptr) (iss : istringstream) (s : State)
    (k : Nat) (connects : List (Ptr × String)) :
    Option (istringstream × State × Nat × List (Ptr × String)) :=
  read_node_list_loop node_addr net ((extract_string iss "").2.buf.length + 2)
    (extract_string iss "").2 (extract_string iss "").1 "" s k connects

/-- The function `read_net`; `net` is the address of the segment that
`emplace_back` creates. -/
def read_net (node_addr : Nat → Ptr) (net_str : String) (net : Ptr) (s : State) (k : Nat) :
    Option (State × Nat × List (Ptr × String)) :=
  let r1 := extract_string (stream_of net_str) ""
  if r1.1 ≠ "endpoints=(" then none
  else
    match read_node_list node_addr net r1.2 s k [] with
    | none => none
    | some (iss2, s2, k2, c2) =>
      let r3 := extract_string iss2 r1.1
      if r3.1 ≠ "bridges=(" then none
      else
        match read_node_list node_addr net r3.2 s2 k2 c2 with
        | none => none
        | some (iss4, s4, k4, c4) =>
          let r5 := extract_string iss4 r3.1
          if r5.1 ≠ "routers=(" then none
          else
            match read_node_list node_addr net r5.2 s4 k4 c4 with
            | none => none
            | some (_, s6, k6, c6) => some (s6, k6, c6)

/-- The first loop of `deserialize`: the segments created, the sets of
recorded references and the heap. -/
def read_nets (seg_addr node_addr : Nat → Ptr) :
    Nat → istringstream → String → String → List Ptr → List (List (Ptr × String)) →
      State → Nat → Option (List Ptr × List (List (Ptr × String)) × State)
  | 0, _, _, _, _, _, _, _ => none
  | fuel + 1, iss, token, net_str, nets, cons, s, k =>
    if token ≠ "network[" then some (nets, cons, s)
    else
      let g := getline iss net_str (Char.ofNat 93)
      match read_net node_addr g.1 (seg_addr nets.length) s k with
      | none => none
      | some (s1, k1, c1) =>
        read_nets seg_addr node_addr fuel (extract_string g.2 token).2
          (extract_string g.2 token).1 g.1 (nets ++ [seg_addr nets.length]) (cons ++ [c1]) s1 k1

/-- The keys `e_0`, `e_1`, ... given to the endpoints by `get_structure`. -/
def endpoint_keys : List Ptr → Nat → List (String × Ptr) → List (String × Ptr)
  | [], _, ids => ids
  | e :: es, i, ids => endpoint_keys es (i + 1) (("e_" ++ toString i, e) :: ids)

/-- The keys given to bridges and routers by `get_structure`. -/
def id_keys (s : State) : List Ptr → List (String × Ptr) → Option (List (String × Ptr))
  | [], ids => some ids
  | b :: bs, ids =>
    match deref s b with
    | none => none
    | some db => id_keys s bs (( get_id_prefix db ++ get_id db, b) :: ids)

/-- The map built by `get_structure` for one segment; an assignment is put
in front, so that the first match is the value last assigned. -/
def net_structure (s : State) (net : Ptr) : Option (List (String × Ptr)) :=
  match endpoints s net, bridges s net, routers s net with
  | some es, some bs, some rs =>
    match id_keys s bs (endpoint_keys es 0 []) with
    | none => none
    | some ids => id_keys s rs ids
  | _, _, _ => none

/-- The function `get_structure`. -/
def get_structure (s : State) : List Ptr → Option (List (List (String × Ptr)))
  | [] => some []
  | net :: rest =>
    match net_structure s net, get_structure s rest with
    | some ids, some series => some (ids :: series)
    | _, _ => none

/-- The value of `ids[ key ]`: the null pointer when the key is absent. -/
def map_lookup (ids : List (String × Ptr)) (key : String) : Ptr :=
  match ids with
  | [] => 0
  | (k, v) :: rest => if k = key then v else map_lookup rest key

/-- The function `connect_endpoint`. -/
def connect_endpoint (s : State) (n : Ptr) : List Ptr → Option (Bool × State)
  | [] => some (false, s)
  | e :: es =>
    if n = e then connect_endpoint s n es
    else
      match deref s e with
      | none => none
      | some de =>
        if de.connected.isEmpty then
          match connect s n e with
          | none => none
          | some (_, s1) => some (true, s1)
        else connect_endpoint s n es

/-- The loop `for ( j = count_endpoints( node_p ); j < e_count; ++j )` of
`deserialize`, given the number of its iterations. -/
def connect_endpoints (n : Ptr) (epts : List Ptr) : Nat → State → Option State
  | 0, s => some s
  | m + 1, s =>
    match connect_endpoint s n epts with
    | some (true, s1) => connect_endpoints n epts m s1
    | _ => none

/-- The body of the inner loop of the second pass of `deserialize` for the
entry `( node_p, id )` of `cons[ i ]`.  The variables `node_id` and `sep`
live across iterations; `sep` is `none` while it is uninitialised. -/
def resolve_entry (series : List (List (String × Ptr))) (i : Nat) (node_p : Ptr)
    (id : String) (s : State) (node_id : String) (sep : Option Char) :
    Option (State × String × Option Char) :=
  if id.data.head? = some 'e' then
    if id.length < 2 then none
    else
      match stoi (id.data.drop 2), deref s node_p with
      | some e_count, some dp =>
        match endpoints s dp._segment, count_endpoints s node_p with
        | some epts, some c =>
          match connect_endpoints node_p epts (e_count - (c : Int)).toNat s with
          | none => none
          | some s1 => some (s1, node_id, sep)
        | _, _ => none
      | _, _ => none
  else
    match deref s node_p with
    | none => none
    | some dp =>
      if dp._type = node_type.ROUTER then
        let r1 := extract_int (stream_of id)
        let r2 := extract_char r1.2
        let sep1 := if r2.1.isSome then r2.1 else sep
        if sep1 ≠ some ':' then none
        else
          let r3 := extract_string r2.2 node_id
          let target_net : Int := r1.1.getD (i : Int)
          if target_net < 0 then none
          else
            match series.get? target_net.toNat with
            | none => none
            | some ids =>
              match connect s node_p (map_lookup ids r3.1) with
              | none => none
              | some (_, s1) => some (s1, r3.1, sep1)
      else
        let r3 := extract_string (stream_of id) node_id
        match series.get? i with
        | none => none
        | some ids =>
          match connect s node_p (map_lookup ids r3.1) with
          | none => none
          | some (_, s1) => some (s1, r3.1, sep)

/-- The inner loop of the second pass of `deserialize` over `cons[ i ]`. -/
def resolve_entries (series : List (List (String × Ptr))) (i : Nat) :
    List (Ptr × String) → State → String → Option Char →
      Option (State × String × Option Char)
  | [], s, node_id, sep => some (s, node_id, sep)
  | (node_p, id) :: rest, s, node_id, sep =>
    match resolve_entry series i node_p id s node_id sep with
    | none => none
    | some (s1, node_id1, sep1) => resolve_entries series i rest s1 node_id1 sep1

/-- The outer loop of the second pass of `deserialize`. -/
def resolve_all (series : List (List (String × Ptr))) :
    List (List (Ptr × String)) → Nat → State → String → Option Char → Option State
  | [], _, s, _, _ => some s
  | c :: cs, i, s, node_id, sep =>
    match resolve_entries series i c s node_id sep with
    | none => none
    | some (s1, node_id1, sep1) => resolve_all series cs (i + 1) s1 node_id1 sep1

/-- The function `deserialize`: the heap of the nodes it creates and the
addresses of the segments of the list it returns.  The `i`-th segment is
created at `seg_addr i` and the `k`-th node at `node_addr k`; `none` stands
for a failed assertion, an uncaught exception, undefined behaviour or a loop
that does not end. -/
def deserialize (seg_addr node_addr : Nat → Ptr) (view : String) :
    Option (State × List Ptr) :=
  let g := getline (stream_of view) "" (Char.ofNat 10)
  if g.1 ≠ "net_series\x7b" then none
  else
    let r := extract_string g.2 g.1
    match read_nets seg_addr node_addr (r.2.buf.length + 2) r.2 r.1 "" [] [] [] 0 with
    | none => none
    | some (nets, cons, s) =>
      match get_structure s nets with
      | none => none
      | some series =>
        match resolve_all series cons 0 s "" none with
        | none => none
        | some s1 => some (s1, nets)

/-- The addresses of the live nodes are in strictly increasing order. -/
def keys_sorted (s : State) : Prop := (s.map Prod.fst).Pairwise (· < ·)

/-- Two bridges with the identifier `A` in the segment at `100`. -/
def twin_bridges : State := add_bridge (add_bridge [] 100 2 "A" 1) 100 3 "A" 2

/-- The nodes of kind `type` owned by the segment at `seg`, in address
order. -/
def nodes_of_kind (s : State) (seg : Ptr) (type : node_type) : List Ptr :=
  (s.filter fun e => decide (e.2._segment = seg) && decide (e.2._type = type)).map Prod.fst

/-- No two nodes of kind `type` of the segment at `seg` have the same
identifier. -/
def ids_distinct (s : State) (seg : Ptr) (type : node_type) : Prop :=
  ∀ p q dp dq, deref s p = some dp → deref s q = some dq → dp._segment = seg →
    dq._segment = seg → dp._type = type → dq._type = type → p ≠ q → get_id dp ≠ get_id dq

/-- A decision procedure for `ids_distinct`. -/
def ids_distinct_check (s : State) (seg : Ptr) (type : node_type) : Bool :=
  s.all fun e1 => s.all fun e2 =>
    !(decide (e1.2._segment = seg) && decide (e2.2._segment = seg) &&
        decide (e1.2._type = type) && decide (e2.2._type = type) && decide (e1.1 ≠ e2.1)) ||
      decide (get_id e1.2 ≠ get_id e2.2)

/-- A bridge `b` (address `1`) and a router `r` (address `2`) in the segment
at `100`, a router `r` (address `3`) in the segment at `200`; the bridge is
connected to the router of the other segment only. -/
def bridge_foreign_router : State :=
  [(1, { _segment := 100, _type := node_type.BRIDGE, capacity := 2, _id := "b",
         connected := [3] }),
   (2, { _segment := 100, _type := node_type.ROUTER, capacity := 2, _id := "r",
         connected := [] }),
   (3, { _segment := 200, _type := node_type.ROUTER, capacity := 2, _id := "r",
         connected := [1] })]

/-- The result of `serialize` for `bridge_foreign_router`. -/
def bridge_foreign_router_text : String :=
  "net_series\x7b\nnetwork[ endpoints=( )\nbridges=( node\x7b type= bridge id= b capacity= 2 connected=( r_r ) e_count= 0 \x7d )\nrouters=( node\x7b type= router id= r capacity= 2 connected=( ) e_count= 0 \x7d ) ]\nnetwork[ endpoints=( )\nbridges=( )\nrouters=( node\x7b type= router id= r capacity= 2 connected=( 0:b_b ) e_count= 0 \x7d ) ]\n\x7dser_end\n"

/-- What `deserialize` builds from `bridge_foreign_router_text` when the
nodes are created at the addresses `1, 2, 3` and the segments at `1000` and
`1001`: the bridge is connected to both routers. -/
def bridge_foreign_router_loaded : State :=
  [(1, { _segment := 1000, _type := node_type.BRIDGE, capacity := 2, _id := "b",
         connected := [2, 3] }),
   (2, { _segment := 1000, _type := node_type.ROUTER, capacity := 2, _id := "r",
         connected := [1] }),
   (3, { _segment := 1001, _type := node_type.ROUTER, capacity := 2, _id := "r",
         connected := [1] })]

/-- The result of `serialize` for `bridge_foreign_router_loaded`. -/
def bridge_foreign_router_text2 : String :=
  "net_series\x7b\nnetwork[ endpoints=( )\nbridges=( node\x7b type= bridge id= b capacity= 2 connected=( r_r ) e_count= 0 \x7d )\nrouters=( node\x7b type= router id= r capacity= 2 connected=( 0:b_b ) e_count= 0 \x7d ) ]\nnetwork[ endpoints=( )\nbridges=( )\nrouters=( node\x7b type= router id= r capacity= 2 connected=( 0:b_b ) e_count= 0 \x7d ) ]\n\x7dser_end\n"

/-- An endpoint (address `1`) of the segment at `100` connected to the
router `r` (address `2`) of the segment at `200`. -/
def endpoint_foreign_router : State :=
  [(1, { _segment := 100, _type := node_type.ENDPOINT, capacity := 1, _id := "",
         connected := [2] }),
   (2, { _segment := 200, _type := node_type.ROUTER, capacity := 1, _id := "r",
         connected := [1] })]

/-- The result of `serialize` for `endpoint_foreign_router`. -/
def endpoint_foreign_router_text : String :=
  "net_series\x7b\nnetwork[ endpoints=( node\x7b type= endpoint e_count= 0 \x7d )\nbridges=( )\nrouters=( ) ]\nnetwork[ endpoints=( )\nbridges=( )\nrouters=( node\x7b type= router id= r capacity= 1 connected=( ) e_count= 1 \x7d ) ]\n\x7dser_end\n"

/-- A router `r` (address `1`) of the segment at `100` connected to an
endpoint of its own segment (address `2`) and to an endpoint of the segment
at `200` (address `3`). -/
def router_two_endpoints : State :=
  [(1, { _segment := 100, _type := node_type.ROUTER, capacity := 2, _id := "r",
         connected := [2, 3] }),
   (2, { _segment := 100, _type := node_type.ENDPOINT, capacity := 1, _id := "",
         connected := [1] }),
   (3, { _segment := 200, _type := node_type.ENDPOINT, capacity := 1, _id := "",
         connected := [1] })]

/-- The result of `serialize` for `router_two_endpoints`. -/
def router_two_endpoints_text : String :=
  "net_series\x7b\nnetwork[ endpoints=( node\x7b type= endpoint e_count= 0 \x7d )\nbridges=( )\nrouters=( node\x7b type= router id= r capacity= 2 connected=( ) e_count= 2 \x7d ) ]\nnetwork[ endpoints=( node\x7b type= endpoint e_count= 0 \x7d )\nbridges=( )\nrouters=( ) ]\n\x7dser_end\n"

/-- A router `c` of the segment at `100` connected to the router `A` of the
segment at `200` (address `2`) and to the router `A` of the segment at `300`
(address `3`). -/
def hub_low_first : State :=
  [(1, { _segment := 100, _type := node_type.ROUTER, capacity := 2, _id := "c",
         connected := [2, 3] }),
   (2, { _segment := 200, _type := node_type.ROUTER, capacity := 1, _id := "A",
         connected := [1] }),
   (3, { _segment := 300, _type := node_type.ROUTER, capacity := 1, _id := "A",
         connected := [1] })]

/-- The same three routers and connections as in `hub_low_first`, with the
addresses of the two routers `A` exchanged. -/
def hub_high_first : State :=
  [(1, { _segment := 100, _type := node_type.ROUTER, capacity := 2, _id := "c",
         connected := [2, 3] }),
   (2, { _segment := 300, _type := node_type.ROUTER, capacity := 1, _id := "A",
         connected := [1] }),
   (3, { _segment := 200, _type := node_type.ROUTER, capacity := 1, _id := "A",
         connected := [1] })]

/-- The bijection between the nodes of `hub_low_first` and those of
`hub_high_first`. -/
def hub_swap (p : Ptr) : Ptr := if p = 2 then 3 else if p = 3 then 2 else p

/-- What an isomorphism preserves of a node: the index of its segment, its
kind, identifier and capacity, and its neighbor set carried over by `f`. -/
def node_view (nets : List Ptr) (f : Ptr → Ptr) (nd : node) :
    Int × node_type × String × Nat × List Ptr :=
  (get_index nets nd._segment, nd._type, get_id nd, get_capacity nd,
    (nd.connected.map f).foldl (fun acc i => set_insert i acc) [])

/-! ## Cycles of a segment -/

/-- A connection of the segment at `seg`: `y` is a neighbor of `x` and both
nodes are owned by the segment. -/
def seg_edge (s : State) (seg : Ptr) (x y : Ptr) : Prop :=
  ∃ nx ny, deref s x = some nx ∧ deref s y = some ny ∧ y ∈ nx.connected ∧
    nx._segment = seg ∧ ny._segment = seg

/-- A connection of the segment other than the connection between `a` and
`b`. -/
def seg_edge_except (s : State) (seg : Ptr) (a b : Ptr) (x y : Ptr) : Prop :=
  seg_edge s seg x y ∧ ¬(x = a ∧ y = b) ∧ ¬(x = b ∧ y = a)

/-- The connection between `x` and `y` lies on a cycle of the segment: `y`
is still reached from `x` when that connection is not used.  A node that is
its own neighbor is a cycle of length one. -/
def on_cycle (s : State) (seg : Ptr) (x y : Ptr) : Prop :=
  seg_edge s seg x y ∧ Relation.ReflTransGen (seg_edge_except s seg x y) x y

/-- The segment at `seg` has a cycle. -/
def has_cycle (s : State) (seg : Ptr) : Prop := ∃ x y, on_cycle s seg x y

/-- The simple graph of the segment at `seg`: its vertices are addresses,
two distinct addresses are adjacent when they are connected nodes of the
segment. -/
def seg_graph (s : State) (seg : Ptr) : SimpleGraph Ptr :=
  SimpleGraph.fromRel (seg_edge s seg)

/-- A relation restricted to a region. -/
def within (E : Ptr → Ptr → Prop) (R : Ptr → Prop) (a b : Ptr) : Prop :=
  E a b ∧ R a ∧ R b

/-- The connection between `x` and `y` is an edge of the forest described by
the parent map `par` and the depth map `dep`. -/
def edge_class (par : Ptr → Ptr) (dep : Ptr → Nat) (x y : Ptr) : Prop :=
  (par x = y ∧ dep x = dep y + 1) ∨ (par y = x ∧ dep y = dep x + 1)

/-- What holds when `find_cycle( visited, src, current, p )` is called in the
course of `has_loops` or `fix_loops`: `done` are the nodes of the components
scanned before, `par` and `dep` describe the search tree built so far. -/
structure cycle_pre (s : State) (seg : Ptr) (done visited : List Ptr) (src current : Ptr)
    (par : Ptr → Ptr) (dep : Ptr → Nat) : Prop where
  cur_live : ∃ nc, deref s current = some nc ∧ nc._segment = seg
  cur_mem : current ∈ visited
  cur_new : current ∉ done
  done_sub : done ⊆ visited
  done_closed : ∀ x ∈ done, ∀ y, seg_edge s seg x y → y ∈ done
  parent : src = 0 ∨ (src ∈ visited ∧ src ∉ done ∧ src ≠ current ∧
    seg_edge s seg current src ∧ par current = src ∧ dep current = dep src + 1)
  conn : ∀ v ∈ visited, v ∉ done → v ≠ current →
    src ≠ 0 ∧ Relation.ReflTransGen
      (within (seg_edge s seg) fun a => a ∈ visited ∧ a ∉ done ∧ a ≠ current) src v

/-- What `find_cycle( visited, src, current, p )` guarantees when it returns
`found` with the final set `w` and the final pair `q`. -/
def cycle_post (s : State) (seg : Ptr) (visited : List Ptr) (src current : Ptr)
    (par : Ptr → Ptr) (dep : Ptr → Nat) (p : Ptr × Ptr) (found : Bool) (w : List Ptr)
    (q : Ptr × Ptr) : Prop :=
  visited ⊆ w ∧
    (found = true → on_cycle s seg q.1 q.2) ∧
    (found = false →
      q = p ∧
      (∀ v ∈ w, v ∉ visited → Relation.ReflTransGen
        (within (seg_edge s seg) fun a => a = current ∨ (a ∈ w ∧ a ∉ visited)) current v) ∧
      ∃ par2 dep2, (∀ v ∈ visited, par2 v = par v ∧ dep2 v = dep v) ∧
        (∀ v ∈ w, v ∉ visited → ∀ y, seg_edge s seg v y → y ∈ w ∧ edge_class par2 dep2 v y) ∧
        ∀ y, seg_edge s seg current y →
          y = src ∨ (y ∈ w ∧ y ∉ visited ∧ par2 y = current ∧ dep2 y = dep2 current + 1))

/-- The invariant of the loop of `find_cycle` over the neighbors of
`current`: `entry` is the visited set at the call, `l` the neighbors still to
be looked at, `w` the visited set now. -/
structure cycle_inv (s : State) (seg : Ptr) (entry : List Ptr) (current : Ptr)
    (par : Ptr → Ptr) (dep : Ptr → Nat) (l w : List Ptr) (par1 : Ptr → Ptr) (dep1 : Ptr → Nat) :
    Prop where
  sub : entry ⊆ w
  conn : ∀ v ∈ w, v ∉ entry → ∃ c, c ∈ w ∧ c ∉ entry ∧ c ∉ l ∧ seg_edge s seg current c ∧
    Relation.ReflTransGen (within (seg_edge s seg) fun a => a ∈ w ∧ a ∉ entry) c v
  agree : ∀ v ∈ entry, par1 v = par v ∧ dep1 v = dep v
  cls : ∀ v ∈ w, v ∉ entry → ∀ y, seg_edge s seg v y → y ∈ w ∧ edge_class par1 dep1 v y

/-- A bridge at address `1` that has been connected to itself and to the
endpoint at address `2` of the same segment. -/
def self_loop_bridge : State :=
  [(1, { _segment := 100, _type := node_type.BRIDGE, capacity := 3, _id := "A",
         connected := [1, 2] }),
   (2, { _segment := 100, _type := node_type.ENDPOINT, capacity := 1, _id := "",
         connected := [1] })]

/-- The number of stored neighbor references of a state. -/
def ref_count (s : State) : Nat :=
  (s.map fun e => e.2.connected.length).sum

/-- No node of the segment `seg` is its own neighbor. -/
@[reducible] def no_self_connection (s : State) (seg : Ptr) : Prop :=
  ∀ e ∈ s, e.2._segment = seg → e.1 ∉ e.2.connected

/-- The state `t` arises from the state `s` by removing connections between
nodes of the segment `seg`: the same nodes live at the same addresses, a
node keeps everything but its neighbor set, which can only lose other nodes
of `seg`, and the two nodes of every connection of `s` are still joined by a
path in `t`. -/
structure loops_cut (seg : Ptr) (s t : State) : Prop where
  keys : t.map Prod.fst = s.map Prod.fst
  node : ∀ p n, deref s p = some n → ∃ m, deref t p = some m ∧
    m._segment = n._segment ∧ m._type = n._type ∧ m.capacity = n.capacity ∧ m._id = n._id ∧
    (∀ y ∈ m.connected, y ∈ n.connected) ∧
    ∀ y ∈ n.connected, y ∉ m.connected → y ≠ p ∧ seg_edge s seg p y
  paths : ∀ u v, edge s u v → Relation.ReflTransGen (edge t) u v
  seg_paths : ∀ u v, seg_edge s seg u v → Relation.ReflTransGen (seg_edge t seg) u v
  count : ref_count t ≤ ref_count s

/-- The kind of the first neighbor of a node, as a number; `0` when the node
has no neighbor. -/
def first_kind (s : State) (d : node) : Nat :=
  match d.connected with
  | [] => 0
  | i :: _ =>
    match deref s i with
    | some e => type_val e._type
    | none => 0

/-- The sort key that `node_cmp` compares lexicographically: the kind; for a
bridge or a router the identifier; for an endpoint the number of neighbors,
the kind of the first neighbor and the address. -/
def cmp_key (s : State) (p : Ptr) : ℕ ×ₗ String ×ₗ ℕ ×ₗ ℕ ×ₗ ℕ :=
  match deref s p with
  | none => toLex (0, toLex ("", toLex (0, toLex (0, 0))))
  | some d =>
    if d._type = node_type.ENDPOINT then
      toLex (0, toLex ("", toLex (d.connected.length, toLex (first_kind s d, p))))
    else toLex (type_val d._type, toLex (get_id d, toLex (0, toLex (0, 0))))

/-- A router of capacity 3 at address `3` connected to the bridge at `1` of
its own segment, and a second bridge at `2` of that segment (from
`test_multinet`). -/
def router_conflict : State :=
  [(1, { _segment := 100, _type := node_type.BRIDGE, capacity := 3, _id := "b11",
         connected := [3] }),
   (2, { _segment := 100, _type := node_type.BRIDGE, capacity := 10, _id := "b12",
         connected := [] }),
   (3, { _segment := 100, _type := node_type.ROUTER, capacity := 3, _id := "r1",
         connected := [1] })]

/-- The calls `b.connect( n )` for the nodes `n` of a list, in order: the
values they return and the final state. -/
def connect_each (b : Ptr) : List Ptr → State → Option (List Bool × State)
  | [], s => some ([], s)
  | n :: rest, s =>
    match connect s b n with
    | none => none
    | some (r, s1) =>
      match connect_each b rest s1 with
      | none => none
      | some (rs, s2) => some (r :: rs, s2)

/-- Every node of the list can accept `b` at the time `b.connect` is called
on it. -/
def accepts_each (b : Ptr) : List Ptr → State → Prop
  | [], _ => True
  | n :: rest, s =>
    can_add s n b = some true ∧ ∀ r s1, connect s b n = some (r, s1) → accepts_each b rest s1

/-- A bridge of capacity 2 at address `1` without neighbors and three
endpoints without neighbors. -/
def bridge_and_endpoints : State :=
  [(1, { _segment := 100, _type := node_type.BRIDGE, capacity := 2, _id := "b",
         connected := [] }),
   (2, { _segment := 100, _type := node_type.ENDPOINT, capacity := 1, _id := "",
         connected := [] }),
   (3, { _segment := 100, _type := node_type.ENDPOINT, capacity := 1, _id := "",
         connected := [] }),
   (4, { _segment := 100, _type := node_type.ENDPOINT, capacity := 1, _id := "",
         connected := [] })]

/-- Whether a node that is not a router accepts the node at `x`: an endpoint
when it has no neighbor, a bridge when `x` is not a neighbor yet and a port
is free.  The segments of the two nodes play no role. -/
def port_free (nd : node) (x : Ptr) : Bool :=
  match nd._type with
  | node_type.ENDPOINT => nd.connected.isEmpty
  | _ => decide (x ∉ nd.connected) && decide (nd.connected.length < nd.capacity)

/-- A bridge of the segment `100` and an endpoint of the segment `200`,
not connected. -/
def bridge_foreign_endpoint_before : State :=
  [(1, { _segment := 100, _type := node_type.BRIDGE, capacity := 2, _id := "b",
         connected := [] }),
   (2, { _segment := 200, _type := node_type.ENDPOINT, capacity := 1, _id := "",
         connected := [] })]

/-- A bridge of the segment `100` connected to an endpoint of the segment
`200`. -/
def bridge_foreign_endpoint : State :=
  [(1, { _segment := 100, _type := node_type.BRIDGE, capacity := 2, _id := "b",
         connected := [2] }),
   (2, { _segment := 200, _type := node_type.ENDPOINT, capacity := 1, _id := "",
         connected := [1] })]

/-- The state `two_segments` without the connection between the two
routers. -/
def two_segments_unlinked : State :=
  [(1, { _segment := 100, _type := node_type.ENDPOINT, capacity := 1, _id := "",
         connected := [3] }),
   (2, { _segment := 200, _type := node_type.ENDPOINT, capacity := 1, _id := "",
         connected := [4] }),
   (3, { _segment := 100, _type := node_type.ROUTER, capacity := 2, _id := "r0",
         connected := [1] }),
   (4, { _segment := 200, _type := node_type.ROUTER, capacity := 2, _id := "r1",
         connected := [2] })]

/-- Release the storage of the object at address `p`. -/
def dealloc (p : Ptr) (s : State) : State :=
  s.filter fun e => decide (e.1 ≠ p)

/-- The loop of the destructor `node::~node` over `connected`, calling
`n->remove( this )`.  When the node is its own neighbor, `remove` erases the
element the loop stands on, and the next step of the loop is undefined. -/
def destroy_loop (this : Ptr) : List Ptr → State → Option State
  | [], s => some s
  | n :: rest, s =>
    if n = this then none
    else
      match remove s n this with
      | none => none
      | some s1 => destroy_loop this rest s1

/-- The destructor `node::~node` of the node at `this`, followed by the
release of the object. -/
def destroy_node (s : State) (this : Ptr) : Option State :=
  match deref s this with
  | none => none
  | some nd =>
    match destroy_loop this nd.connected s with
    | none => none
    | some s1 => some (dealloc this s1)

/-- The destruction of the nodes at the addresses of a list, in that
order. -/
def destroy_nodes : List Ptr → State → Option State
  | [], s => some s
  | p :: rest, s =>
    match destroy_node s p with
    | none => none
    | some s1 => destroy_nodes rest s1

/-- The implicit destructor of `network` for the segment at `seg`: the
member `nodes` destroys the nodes it owns; `order` is the order in which it
does so, which the standard library is free to choose. -/
def destroy_segment (s : State) (seg : Ptr) (order : List Ptr) : Option State :=
  if order.Perm (network_nodes s seg) then destroy_nodes order s else none

/-- What the destruction of nodes relies on and keeps: no dangling
reference, no address twice in a neighbor set, and a symmetric neighbor
relation. -/
structure well_linked (s : State) : Prop where
  closed : closed s
  nodup : ∀ p nd, deref s p = some nd → nd.connected.Nodup
  symm : ∀ x y, edge s x y → edge s y x

/-- The adjacency relation of a finite set of pairs of addresses, read as
undirected connections. -/
def pair_adj (Ed : Finset (Ptr × Ptr)) (x y : Ptr) : Prop :=
  (x, y) ∈ Ed ∨ (y, x) ∈ Ed

/-- The connections between two nodes of the segment `seg`, each listed
once, from the node at the lower address. -/
def seg_connections (s : State) (seg : Ptr) : List (Ptr × Ptr) :=
  (network_nodes s seg).flatMap fun x =>
    ((neighbors s x).filter fun y => decide (x ≤ y) && decide (y ∈ network_nodes s seg)).map
      fun y => (x, y)

/-- The list `reps` holds exactly one node of every connected component of
the graph of the segment `seg`; its length is the number of components. -/
def is_component_system (s : State) (seg : Ptr) (reps : List Ptr) : Prop :=
  reps.Nodup ∧ (∀ r ∈ reps, r ∈ network_nodes s seg) ∧
    (∀ x ∈ network_nodes s seg, ∃ r ∈ reps, Relation.ReflTransGen (seg_edge s seg) r x) ∧
    ∀ r1 ∈ reps, ∀ r2 ∈ reps, Relation.ReflTransGen (seg_edge s seg) r1 r2 → r1 = r2

/-- The loop of `node::find_node` with a counter of the recursive calls made
so far (the counter is not part of the program). -/
def find_node_loop_count (call : Ptr → List Ptr → Option (Bool × List Ptr × Nat)) (n : Ptr) :
    List Ptr → List Ptr → Nat → Option (Bool × List Ptr × Nat)
  | [], visited, c => some (false, visited, c)
  | i :: rest, visited, c =>
    if i ∈ visited then find_node_loop_count call n rest visited c
    else if i = n then some (true, set_insert i visited, c)
    else
      match call i (set_insert i visited) with
      | none => none
      | some (true, v, k) => some (true, v, c + 1 + k)
      | some (false, v, k) => find_node_loop_count call n rest v (c + 1 + k)

/-- The method `node::find_node` together with the number of recursive calls
`i->find_node( n, visited )` made during the call. -/
def find_node_count : Nat → State → Ptr → Ptr → List Ptr → Option (Bool × List Ptr × Nat)
  | 0, _, _, _, _ => none
  | fuel + 1, s, this, n, visited =>
    match deref s this with
    | none => none
    | some nd =>
      find_node_loop_count (fun i v => find_node_count fuel s i n v) n nd.connected visited 0

/-! ## The minimal simulator `s2/d_network.cpp`

The objects of the minimal simulator are kept in the same heap model.  The
field `_type` stands for the class of the object, and no definition of this
section reads `_id`.  The methods `add`, `can_remove`, `find_node`,
`reachable`, `find_cycle` and `has_loops` have the same bodies in both
files (`connected.count(n)` for `connected.contains(n)`), and the
definitions above embed both; the definitions below are the methods whose
bodies differ, and those that call them. -/

/-- The virtual method `can_add` of the minimal simulator:
`endpoint::can_add( node * )` is `connected.empty()`, without a null test. -/
def can_add_s2 (s : State) (this n : Ptr) : Option Bool :=
  match deref s this with
  | none => none
  | some nd =>
    match nd._type with
    | node_type.ENDPOINT => some nd.connected.isEmpty
    | node_type.BRIDGE =>
      if n = 0 then some false
      else if n ∈ nd.connected then some false
      else some (decide (nd.connected.length < nd.capacity))
    | node_type.ROUTER =>
      if n = 0 then some false
      else
        match router_scan s n nd.connected with
        | none => none
        | some false => some false
        | some true => some (decide (nd.connected.length < nd.capacity))

/-- The method `node::remove` of the minimal simulator:
`connected.erase( n )`, which is defined whether `n` is in the set or not. -/
def remove_s2 (s : State) (this n : Ptr) : Option State :=
  match deref s this with
  | none => none
  | some _ => some (modify (fun nd => { nd with connected := nd.connected.erase n }) this s)

/-- The method `node::connect` of the minimal simulator. -/
def connect_s2 (s : State) (this n : Ptr) : Option (Bool × State) :=
  match can_add_s2 s this n with
  | none => none
  | some false => some (false, s)
  | some true =>
    match can_add_s2 s n this with
    | none => none
    | some false => some (false, s)
    | some true =>
      match add s this n with
      | none => none
      | some s1 =>
        match add s1 n this with
        | none => none
        | some s2 => some (true, s2)

/-- The method `node::disconnect` of the minimal simulator. -/
def disconnect_s2 (s : State) (this n : Ptr) : Option (Bool × State) :=
  match can_remove s this n with
  | none => none
  | some false => some (false, s)
  | some true =>
    match can_remove s n this with
    | none => none
    | some false => some (false, s)
    | some true =>
      match remove_s2 s this n with
      | none => none
      | some s1 =>
        match remove_s2 s1 n this with
        | none => none
        | some s2 => some (true, s2)

/-- The `while ( cycle_found )` loop of `network::fix_loops` of the minimal
simulator. -/
def fix_loops_while_s2 (depth : Nat) (node_ptr : Ptr) :
    Nat → State → Bool → List Ptr → Ptr × Ptr → Option (State × List Ptr × (Ptr × Ptr))
  | 0, _, _, _, _ => none
  | iters + 1, s, cycle_found, component_set, p =>
    if cycle_found then
      match disconnect_s2 s p.1 p.2 with
      | none => none
      | some (_, s1) =>
        match find_cycle depth s1 [node_ptr] 0 node_ptr p with
        | none => none
        | some (found, cs, q) => fix_loops_while_s2 depth node_ptr iters s1 found cs q
    else some (s, component_set, p)

/-- The `for` loop of `network::fix_loops` of the minimal simulator. -/
def fix_loops_loop_s2 (fuel : Nat) :
    List Ptr → State → List Ptr → Ptr × Ptr → Option State
  | [], s, _, _ => some s
  | node_ptr :: rest, s, visited, p =>
    if node_ptr ∈ visited then fix_loops_loop_s2 fuel rest s visited p
    else
      match find_cycle fuel s [node_ptr] 0 node_ptr p with
      | none => none
      | some (found, cs, q) =>
        match fix_loops_while_s2 fuel node_ptr fuel s found cs q with
        | none => none
        | some (s1, cs1, q1) =>
          fix_loops_loop_s2 fuel rest s1 (cs1.foldl (fun acc i => set_insert i acc) visited) q1

/-- The method `network::fix_loops` of the minimal simulator. -/
def fix_loops_s2 (s : State) (seg : Ptr) : Option State :=
  fix_loops_loop_s2 (fuel_bound s) (all_nodes s seg) s [] (0, 0)

/-- A call of a public operation of either simulator.  The address of a new
object is part of the call; the identifier is used by the fuller simulator
only. -/
inductive call
  | add_endpoint (seg p : Ptr)
  | add_bridge (seg : Ptr) (cap : Int) (id : String) (p : Ptr)
  | add_router (seg : Ptr) (cap : Int) (id : String) (p : Ptr)
  | connect (a b : Ptr)
  | disconnect (a b : Ptr)
  | reachable (a b : Ptr)
  | has_loops (seg : Ptr)
  | fix_loops (seg : Ptr)

/-- Whether a new object can be placed at `p`. -/
def fresh (s : State) (p : Ptr) : Bool :=
  decide (p ≠ 0) && (deref s p).isNone

/-- One call on the fuller simulator `s3/f_network.cpp`: the boolean it
returns (`true` for a call that returns none) and the state after it. -/
def call_s3 (s : State) : call → Option (Bool × State)
  | call.add_endpoint seg p => if fresh s p then some (true, add_endpoint s seg p) else none
  | call.add_bridge seg cap id p =>
    if fresh s p then some (true, add_bridge s seg cap id p) else none
  | call.add_router seg cap id p =>
    if fresh s p then some (true, add_router s seg cap id p) else none
  | call.connect a b => connect s a b
  | call.disconnect a b => disconnect s a b
  | call.reachable a b => (reachable s a b).map fun r => (r, s)
  | call.has_loops seg => (has_loops s seg).map fun r => (r, s)
  | call.fix_loops seg => (fix_loops s seg).map fun t => (true, t)

/-- One call on the minimal simulator `s2/d_network.cpp`. -/
def call_s2 (s : State) : call → Option (Bool × State)
  | call.add_endpoint seg p => if fresh s p then some (true, add_endpoint s seg p) else none
  | call.add_bridge seg cap id p =>
    if fresh s p then some (true, add_bridge s seg cap id p) else none
  | call.add_router seg cap id p =>
    if fresh s p then some (true, add_router s seg cap id p) else none
  | call.connect a b => connect_s2 s a b
  | call.disconnect a b => disconnect_s2 s a b
  | call.reachable a b => (reachable s a b).map fun r => (r, s)
  | call.has_loops seg => (has_loops s seg).map fun r => (r, s)
  | call.fix_loops seg => (fix_loops_s2 s seg).map fun t => (true, t)

/-- A sequence of calls: the booleans returned and the final state. -/
def run (step : State → call → Option (Bool × State)) : State → List call →
    Option (List Bool × State)
  | s, [] => some ([], s)
  | s, c :: cs =>
    match step s c with
    | none => none
    | some (r, t) =>
      match run step t cs with
      | none => none
      | some (rs, u) => some (r :: rs, u)

/-- The calls on which the two simulators are compared below: a `connect`
whose argument is not null, a `disconnect` other than that of a node from
itself while it is its own neighbor, a `fix_loops` on a segment in which no
node is its own neighbor, and every other call. -/
def plain_call (s : State) : call → Bool
  | call.connect _ b => decide (b ≠ 0)
  | call.disconnect a b => decide (a ≠ b) || decide (a ∉ neighbors s a)
  | call.fix_loops seg => decide (no_self_connection s seg)
  | _ => true

/-- Every call of the sequence is a `plain_call` in the state in which the
fuller simulator makes it. -/
def plain_run : State → List call → Bool
  | _, [] => true
  | s, c :: cs =>
    plain_call s c &&
      match call_s3 s c with
      | none => true
      | some (_, t) => plain_run t cs

/-! ## The text of a record -/

/-- Whether the node at `c` is an endpoint. -/
def is_endpoint (s : State) (c : Ptr) : Bool :=
  match deref s c with
  | some dc => decide (dc._type = node_type.ENDPOINT)
  | none => false

/-- The concatenation of a list of texts. -/
def concat_texts : List String → String
  | [] => ""
  | t :: ts => t ++ concat_texts ts

/-- The reference to the neighbor `dc` in the record of a node; `is_router`
tells whether the node that emits the reference is a router. -/
def ref_text (system : List Ptr) (is_router : Bool) (dc : node) : String :=
  (if is_router then toString (get_index system dc._segment) ++ ":" else "")
    ++ get_id_prefix dc ++ get_id dc ++ " "

/-- The reference to the neighbor at the address `c`. -/
def ref_text_at (s : State) (system : List Ptr) (is_router : Bool) (c : Ptr) : String :=
  match deref s c with
  | some dc => ref_text system is_router dc
  | none => ""

/-- The record of a bridge or router up to the opening parenthesis of its
reference list. -/
def record_head (dn : node) : String :=
  "node\x7b type= " ++ (if dn._type = node_type.BRIDGE then "bridge" else "router")
    ++ " id= " ++ get_id dn ++ " capacity= " ++ toString (get_capacity dn) ++ " connected=( "

/-- The record of a bridge or router `dn` with references to the nodes
`refs`, in this order, and the given `e_count`. -/
def record_text (s : State) (system : List Ptr) (dn : node) (refs : List Ptr)
    (e_count : Nat) : String :=
  record_head dn
    ++ concat_texts (refs.map (ref_text_at s system (decide (dn._type = node_type.ROUTER))))
    ++ ") e_count= " ++ toString e_count ++ " \x7d"

/-- The comparator `node_cmp` does not tell the nodes at `a` and `b` apart:
they are two bridges, or two routers, with the same identifier. -/
def same_reference (s : State) (a b : Ptr) : Prop :=
  ∃ da db, deref s a = some da ∧ deref s b = some db ∧ da._type = db._type ∧
    da._type ≠ node_type.ENDPOINT ∧ get_id da = get_id db

/-- The class of an endpoint in the canonical order: `0` when it has no
neighbor, `1` when its neighbor is an endpoint, `2` when its neighbor is a
bridge or a router. -/
def endpoint_class (s : State) (p : Ptr) : Nat :=
  match deref s p with
  | none => 0
  | some d =>
    match d.connected with
    | [] => 0
    | c :: _ => if is_endpoint s c then 1 else 2

/-- The record of an endpoint of the given class, with the blank that
`net_to_string` writes after it. -/
def endpoint_record : Nat → String
  | 1 => "node\x7b type= endpoint e_count= 1 \x7d "
  | _ => "node\x7b type= endpoint e_count= 0 \x7d "

/-- The number of endpoints of the class `k` in the segment at `seg`. -/
def class_count (s : State) (seg : Ptr) (k : Nat) : Nat :=
  (nodes_of_kind s seg node_type.ENDPOINT).countP fun p => decide (endpoint_class s p = k)

/-- Four endpoints of the segment at `100`: those at `1` and `2` have no
neighbor, those at `3` and `4` are connected to each other. -/
def free_and_paired : State :=
  [(1, { _segment := 100, _type := node_type.ENDPOINT, capacity := 1, _id := "",
         connected := [] }),
   (2, { _segment := 100, _type := node_type.ENDPOINT, capacity := 1, _id := "",
         connected := [] }),
   (3, { _segment := 100, _type := node_type.ENDPOINT, capacity := 1, _id := "",
         connected := [4] }),
   (4, { _segment := 100, _type := node_type.ENDPOINT, capacity := 1, _id := "",
         connected := [3] })]

/-- The result of `serialize` for `free_and_paired`. -/
def free_and_paired_text : String :=
  "net_series\x7b\nnetwork[ endpoints=( node\x7b type= endpoint e_count= 0 \x7d node\x7b type= endpoint e_count= 0 \x7d node\x7b type= endpoint e_count= 1 \x7d node\x7b type= endpoint e_count= 1 \x7d )\nbridges=( )\nrouters=( ) ]\n\x7dser_end\n"

/-- What `deserialize` builds from `free_and_paired_text` when the nodes are
created at the addresses `1, 2, 3, 4` and the segment at `1000`: the two
endpoints read with `e_count= 0` are connected to the two endpoints read with
`e_count= 1`. -/
def free_and_paired_loaded : State :=
  [(1, { _segment := 1000, _type := node_type.ENDPOINT, capacity := 1, _id := "",
         connected := [3] }),
   (2, { _segment := 1000, _type := node_type.ENDPOINT, capacity := 1, _id := "",
         connected := [4] }),
   (3, { _segment := 1000, _type := node_type.ENDPOINT, capacity := 1, _id := "",
         connected := [1] }),
   (4, { _segment := 1000, _type := node_type.ENDPOINT, capacity := 1, _id := "",
         connected := [2] })]

/-- The result of `serialize` for `free_and_paired_loaded`. -/
def free_and_paired_text2 : String :=
  "net_series\x7b\nnetwork[ endpoints=( node\x7b type= endpoint e_count= 1 \x7d node\x7b type= endpoint e_count= 1 \x7d node\x7b type= endpoint e_count= 1 \x7d node\x7b type= endpoint e_count= 1 \x7d )\nbridges=( )\nrouters=( ) ]\n\x7dser_end\n"

/-- A text with one endpoint record with `e_count= 0` followed by two with
`e_count= 1` (the serialization of one free endpoint and one pair). -/
def one_free_and_paired_text : String :=
  "net_series\x7b\nnetwork[ endpoints=( node\x7b type= endpoint e_count= 0 \x7d node\x7b type= endpoint e_count= 1 \x7d node\x7b type= endpoint e_count= 1 \x7d )\nbridges=( )\nrouters=( ) ]\n\x7dser_end\n"

/-- Four endpoints without neighbors in the segment at `1000`: the state
after the first pass of `deserialize` on `free_and_paired_text`. -/
def four_endpoints : State :=
  add_endpoint (add_endpoint (add_endpoint (add_endpoint [] 1000 1) 1000 2) 1000 3) 1000 4

/-- Whether a call creates a node of kind `type` in the segment at `seg`. -/
def creates (seg : Ptr) (type : node_type) : call → Bool
  | call.add_endpoint sg _ => decide (sg = seg) && decide (node_type.ENDPOINT = type)
  | call.add_bridge sg _ _ _ => decide (sg = seg) && decide (node_type.BRIDGE = type)
  | call.add_router sg _ _ _ => decide (sg = seg) && decide (node_type.ROUTER = type)
  | _ => false

/-- The number of calls of a sequence that create a node of kind `type` in
the segment at `seg`. -/
def added (seg : Ptr) (type : node_type) (cs : List call) : Nat :=
  cs.countP (creates seg type)

/-- The address, owning segment and kind of every live node. -/
def kinds (s : State) : List (Ptr × Ptr × node_type) :=
  s.map fun e => (e.1, e.2._segment, e.2._type)

/-- The calls of the first part of `main` in `f_network.cpp`: three
endpoints, a bridge and two routers in two segments, and four connections. -/
def main_calls : List call :=
  [call.add_endpoint 100 1, call.add_endpoint 100 2, call.add_endpoint 200 3,
   call.add_bridge 100 2 "ufo" 4, call.add_router 100 2 "r1" 5, call.add_router 200 2 "r2" 6,
   call.connect 4 1, call.connect 4 5, call.connect 5 6, call.connect 6 3]

/-- The state after `main_calls`. -/
def main_state : State :=
  [(1, { _segment := 100, _type := node_type.ENDPOINT, capacity := 1, _id := "",
         connected := [4] }),
   (2, { _segment := 100, _type := node_type.ENDPOINT, capacity := 1, _id := "",
         connected := [] }),
   (3, { _segment := 200, _type := node_type.ENDPOINT, capacity := 1, _id := "",
         connected := [6] }),
   (4, { _segment := 100, _type := node_type.BRIDGE, capacity := 2, _id := "ufo",
         connected := [1, 5] }),
   (5, { _segment := 100, _type := node_type.ROUTER, capacity := 2, _id := "r1",
         connected := [4, 6] }),
   (6, { _segment := 200, _type := node_type.ROUTER, capacity := 2, _id := "r2",
         connected := [3, 5] })]

theorem mem_of_deref (s : State) (p : Ptr) (nd : node) (h : deref s p = some nd) :
    (p, nd) ∈ s := by
  induction s with
  | nil => simp [deref] at h
  | cons e rest ih =>
    obtain ⟨k, x⟩ := e
    by_cases hk : k = p
    · simp [deref, hk] at h
      simp [hk, h]
    · simp [deref, hk] at h
      exact List.mem_cons_of_mem _ (ih h)

theorem closed_of_check (s : State) (h : closed_check s = true) : closed s := by
  unfold closed_check at h
  rw [List.all_eq_true] at h
  constructor
  · cases h0 : deref s 0 with
    | none => rfl
    | some nd =>
      have := h _ (mem_of_deref s 0 nd h0)
      simp at this
  · intro p nd hp i hi
    have := h _ (mem_of_deref s p nd hp)
    simp only [Bool.and_eq_true, List.all_eq_true] at this
    have hsome := this.2 i hi
    cases hd : deref s i with
    | none => simp [hd] at hsome
    | some ni => exact ⟨ni, rfl⟩


theorem deref_modify (f : node → node) (p q : Ptr) (s : State) :
    deref (modify f p s) q = if q = p then (deref s q).map f else deref s q := by
  induction s with
  | nil => simp [modify, deref]
  | cons e rest ih =>
    obtain ⟨k, nd⟩ := e
    by_cases hk : k = p
    · by_cases hq : k = q
      · subst hk; subst hq; simp [modify, deref]
      · have h1 : q ≠ p := fun h => hq (by rw [hk, h])
        have h2 : p ≠ q := fun h => h1 h.symm
        simp [modify, deref, hk, ih, h1, h2]
    · by_cases hq : k = q
      · have : q ≠ p := fun h => hk (by rw [hq, h])
        simp [modify, deref, hk, hq, this]
      · simp [modify, deref, hk, hq, ih]

theorem deref_modify_self (f : node → node) (p : Ptr) (s : State) :
    deref (modify f p s) p = (deref s p).map f := by
  simp [deref_modify]

theorem deref_modify_ne (f : node → node) {p q : Ptr} (s : State) (h : q ≠ p) :
    deref (modify f p s) q = deref s q := by
  simp [deref_modify, h]

theorem deref_alloc (p q : Ptr) (nd : node) (s : State) (hfresh : deref s p = none) :
    deref (alloc p nd s) q = if q = p then some nd else deref s q := by
  induction s with
  | nil =>
    by_cases h : q = p
    · simp [alloc, deref, h]
    · have : p ≠ q := fun e => h e.symm
      simp [alloc, deref, h, this]
  | cons e rest ih =>
    obtain ⟨k, x⟩ := e
    have hk : k ≠ p := by
      intro hkp
      simp [deref, hkp] at hfresh
    have hrest : deref rest p = none := by
      simpa [deref, hk] using hfresh
    by_cases hlt : p < k
    · by_cases h : q = p
      · simp [alloc, deref, hlt, h]
      · have : p ≠ q := fun e => h e.symm
        simp [alloc, deref, hlt, h, this]
    · by_cases h : q = p
      · subst h
        simp [alloc, deref, hlt, hk, ih hrest]
      · by_cases hkq : k = q
        · subst hkq
          simp [alloc, deref, hlt, h]
        · simp [alloc, deref, hlt, hkq, h, ih hrest]

theorem map_fst_modify (f : node → node) (p : Ptr) (s : State) :
    (modify f p s).map Prod.fst = s.map Prod.fst := by
  induction s with
  | nil => rfl
  | cons e rest ih =>
    obtain ⟨k, x⟩ := e
    by_cases hk : k = p <;> simp [modify, hk, ih]

theorem mem_set_insert (x b : Ptr) (l : List Ptr) :
    x ∈ set_insert b l ↔ x = b ∨ x ∈ l := by
  induction l with
  | nil => simp [set_insert]
  | cons y ys ih =>
    unfold set_insert
    split_ifs with h1 h2
    · simp
    · subst h2; simp
    · simp [ih]; tauto

theorem set_insert_idem (b : Ptr) (l : List Ptr) :
    set_insert b (set_insert b l) = set_insert b l := by
  induction l with
  | nil => simp [set_insert]
  | cons y ys ih =>
    by_cases h1 : b < y
    · simp [set_insert, h1]
    · by_cases h2 : b = y
      · subst h2; simp [set_insert]
      · simp [set_insert, h1, h2, ih]

theorem modify_comm (f g : node → node) (a b : Ptr) (hab : a ≠ b) (s : State) :
    modify f a (modify g b s) = modify g b (modify f a s) := by
  induction s with
  | nil => rfl
  | cons e rest ih =>
    obtain ⟨k, x⟩ := e
    by_cases hka : k = a
    · subst hka
      simp [modify, hab, ih]
    · by_cases hkb : k = b
      · subst hkb
        simp [modify, hka, ih]
      · simp [modify, hka, hkb, ih]

theorem length_set_insert_le (b : Ptr) (l : List Ptr) :
    (set_insert b l).length ≤ l.length + 1 := by
  induction l with
  | nil => simp [set_insert]
  | cons y ys ih =>
    unfold set_insert
    split_ifs with h1 h2
    · simp
    · simp
    · simp only [List.length_cons]; omega

theorem sorted_set_insert (b : Ptr) (l : List Ptr) (h : l.Pairwise (· < ·)) :
    (set_insert b l).Pairwise (· < ·) := by
  induction l with
  | nil => simp [set_insert]
  | cons y ys ih =>
    unfold set_insert
    rw [List.pairwise_cons] at h
    split_ifs with h1 h2
    · rw [List.pairwise_cons]
      refine ⟨?_, List.pairwise_cons.mpr h⟩
      intro z hz
      rcases List.mem_cons.mp hz with rfl | hz
      · exact h1
      · exact lt_trans h1 (h.1 z hz)
    · exact List.pairwise_cons.mpr h
    · rw [List.pairwise_cons]
      refine ⟨?_, ih h.2⟩
      intro z hz
      rcases (mem_set_insert z b ys).mp hz with rfl | hz
      · exact lt_of_le_of_ne (not_lt.mp h1) (fun e => h2 e.symm)
      · exact h.1 z hz

/-! ## `can_add`, `connect` -/

theorem router_scan_total (s : State) (n : Ptr) (nn : node) (hn : deref s n = some nn)
    (l : List Ptr) (hl : ∀ i ∈ l, ∃ ni, deref s i = some ni) :
    router_scan s n l =
      some (decide (∀ i ∈ l, ∀ ni, deref s i = some ni → ni._segment ≠ nn._segment)) := by
  induction l with
  | nil => simp [router_scan]
  | cons i rest ih =>
    obtain ⟨ni, hi⟩ := hl i (List.mem_cons_self _ _)
    have hrest := ih (fun j hj => hl j (List.mem_cons_of_mem _ hj))
    simp only [router_scan, hi, hn]
    by_cases hseg : ni._segment = nn._segment
    · simp [hseg, hi]
    · simp [hseg, hi, hrest]

theorem can_add_null (s : State) (a : Ptr) (na : node) (ha : deref s a = some na) :
    can_add s a 0 = some false := by
  unfold can_add
  rw [ha]
  obtain ⟨seg, ty, cap, id, conn⟩ := na
  cases ty <;> simp

theorem can_add_total (s : State) (a b : Ptr) (na nb : node) (hcl : closed s)
    (ha : deref s a = some na) (hb : deref s b = some nb) :
    ∃ c, can_add s a b = some c := by
  unfold can_add
  rw [ha]
  have hscan := router_scan_total s b nb hb na.connected (hcl.2 a na ha)
  obtain ⟨seg, ty, cap, id, conn⟩ := na
  cases ty with
  | ENDPOINT => exact ⟨_, rfl⟩
  | BRIDGE =>
    simp only
    split_ifs <;> exact ⟨_, rfl⟩
  | ROUTER =>
    simp only at hscan ⊢
    rw [hscan]
    split_ifs
    · exact ⟨_, rfl⟩
    · split <;> first | exact ⟨_, rfl⟩ | simp_all

theorem add_eq (s : State) (a b : Ptr) (na : node) (ha : deref s a = some na) :
    add s a b =
      some (modify (fun nd => { nd with connected := set_insert b nd.connected }) a s) := by
  simp [add, ha]

theorem connect_eq (s : State) (a b : Ptr) (na nb : node)
    (ha : deref s a = some na) (hb : deref s b = some nb) (ca cb : Bool)
    (hca : can_add s a b = some ca) (hcb : ca = true → can_add s b a = some cb) :
    connect s a b = some (ca && cb,
      if (ca && cb) = true then
        modify (fun nd => { nd with connected := set_insert a nd.connected }) b
          (modify (fun nd => { nd with connected := set_insert b nd.connected }) a s)
      else s) := by
  unfold connect
  rw [hca]
  cases ca with
  | false => simp
  | true =>
    rw [hcb rfl]
    cases cb with
    | false => simp
    | true =>
      rw [add_eq s a b na ha]
      have hb1 : ∃ nb1, deref (modify (fun nd => { nd with connected := set_insert b nd.connected }) a s) b
          = some nb1 := by
        rw [deref_modify]
        split_ifs <;> simp [hb]
      obtain ⟨nb1, hb1⟩ := hb1
      simp [add_eq _ b a nb1 hb1]

theorem can_add_true_iff (s : State) (a b : Ptr) (na nb : node) (hcl : closed s)
    (ha : deref s a = some na) (hb : deref s b = some nb) :
    can_add s a b = some true ↔ may_add s na b nb := by
  have hb0 : b ≠ 0 := by
    intro h
    rw [h, hcl.1] at hb
    cases hb
  unfold can_add may_add
  rw [ha]
  have hscan := router_scan_total s b nb hb na.connected (hcl.2 a na ha)
  obtain ⟨seg, ty, cap, id, conn⟩ := na
  cases ty with
  | ENDPOINT => simp [hb0]
  | BRIDGE =>
    simp only [hb0, if_false]
    split_ifs with h <;> simp [h]
  | ROUTER =>
    simp only [hb0, if_false] at hscan ⊢
    rw [hscan]
    by_cases hall : ∀ i ∈ conn, ∀ ni, deref s i = some ni → ni._segment ≠ nb._segment
    · rw [decide_eq_true hall]
      simp only [decide_eq_true_eq, Option.some.injEq]
      exact ⟨fun h => ⟨hall, h⟩, fun h => h.2⟩
    · rw [decide_eq_false hall]
      simp only [Option.some.injEq]
      exact ⟨fun h => absurd h Bool.false_ne_true, fun h => absurd h.1 hall⟩

/-- C1. For two distinct live nodes `a` and `b` of a state whose neighbor
references are all live, `a.connect(b)` returns the conjunction of
`a.can_add(b)` and `b.can_add(a)`; when that is true the new state is the
old one with `b` inserted into the neighbor set of `a` and `a` into that of
`b` and nothing else changed; when it is false the state is unchanged. -/
theorem connect_iff_can_add (s : State) (a b : Ptr) (na nb : node) (hcl : closed s)
    (ha : deref s a = some na) (hb : deref s b = some nb) (hab : a ≠ b) :
    ∃ ca cb t, can_add s a b = some ca ∧ can_add s b a = some cb ∧
      connect s a b = some (ca && cb, t) ∧
      ((ca && cb) = true →
        deref t a = some { na with connected := set_insert b na.connected } ∧
        deref t b = some { nb with connected := set_insert a nb.connected } ∧
        (∀ x, x ∈ neighbors t a ↔ x = b ∨ x ∈ neighbors s a) ∧
        (∀ x, x ∈ neighbors t b ↔ x = a ∨ x ∈ neighbors s b) ∧
        (∀ q, q ≠ a → q ≠ b → deref t q = deref s q) ∧
        t.map Prod.fst = s.map Prod.fst) ∧
      ((ca && cb) = false → t = s) := by
  obtain ⟨ca, hca⟩ := can_add_total s a b na nb hcl ha hb
  obtain ⟨cb, hcb⟩ := can_add_total s b a nb na hcl hb ha
  refine ⟨ca, cb, _, hca, hcb, connect_eq s a b na nb ha hb ca cb hca (fun _ => hcb), ?_, ?_⟩
  · intro htrue
    have hba : b ≠ a := fun h => hab h.symm
    have hta : deref (modify (fun nd => { nd with connected := set_insert a nd.connected }) b
        (modify (fun nd => { nd with connected := set_insert b nd.connected }) a s)) a
        = some { na with connected := set_insert b na.connected } := by
      rw [deref_modify_ne _ _ hab, deref_modify_self, ha]; rfl
    have htb : deref (modify (fun nd => { nd with connected := set_insert a nd.connected }) b
        (modify (fun nd => { nd with connected := set_insert b nd.connected }) a s)) b
        = some { nb with connected := set_insert a nb.connected } := by
      rw [deref_modify_self, deref_modify_ne _ _ hba, hb]; rfl
    rw [if_pos htrue]
    refine ⟨hta, htb, ?_, ?_, ?_, ?_⟩
    · intro x
      simp only [neighbors, hta, ha]
      exact mem_set_insert x b na.connected
    · intro x
      simp only [neighbors, htb, hb]
      exact mem_set_insert x a nb.connected
    · intro q hqa hqb
      rw [deref_modify_ne _ _ hqb, deref_modify_ne _ _ hqa]
    · rw [map_fst_modify, map_fst_modify]
  · intro hfalse
    rw [if_neg]
    rw [hfalse]
    exact Bool.false_ne_true

/-- C1 (witness). The theorem applied to two fresh endpoints of one
segment. -/
theorem connect_iff_can_add_witness :
    ∃ ca cb t, can_add two_endpoints 1 2 = some ca ∧ can_add two_endpoints 2 1 = some cb ∧
      connect two_endpoints 1 2 = some (ca && cb, t) ∧
      ((ca && cb) = true →
        deref t 1 = some { _segment := 100, _type := node_type.ENDPOINT, capacity := 1,
                           _id := "", connected := set_insert 2 [] } ∧
        deref t 2 = some { _segment := 100, _type := node_type.ENDPOINT, capacity := 1,
                           _id := "", connected := set_insert 1 [] } ∧
        (∀ x, x ∈ neighbors t 1 ↔ x = 2 ∨ x ∈ neighbors two_endpoints 1) ∧
        (∀ x, x ∈ neighbors t 2 ↔ x = 1 ∨ x ∈ neighbors two_endpoints 2) ∧
        (∀ q, q ≠ 1 → q ≠ 2 → deref t q = deref two_endpoints q) ∧
        t.map Prod.fst = two_endpoints.map Prod.fst) ∧
      ((ca && cb) = false → t = two_endpoints) :=
  connect_iff_can_add two_endpoints 1 2 _ _ (closed_of_check _ (by decide)) rfl rfl (by decide)

/-- C6. In a state whose neighbor references are all live, `a.connect(b)`
and `b.connect(a)` for live nodes `a`, `b` return the same boolean and the
same resulting state. -/
theorem connect_symmetric (s : State) (a b : Ptr) (na nb : node) (hcl : closed s)
    (ha : deref s a = some na) (hb : deref s b = some nb) :
    connect s a b = connect s b a := by
  obtain ⟨ca, hca⟩ := can_add_total s a b na nb hcl ha hb
  obtain ⟨cb, hcb⟩ := can_add_total s b a nb na hcl hb ha
  rw [connect_eq s a b na nb ha hb ca cb hca (fun _ => hcb),
    connect_eq s b a nb na hb ha cb ca hcb (fun _ => hca), Bool.and_comm cb ca]
  by_cases hab : a = b
  · subst hab; rfl
  · rw [modify_comm _ _ a b hab]

/-- C6 (witness). The theorem applied to two fresh endpoints of one
segment. -/
theorem connect_symmetric_witness : connect two_endpoints 1 2 = connect two_endpoints 2 1 :=
  connect_symmetric two_endpoints 1 2 _ _ (closed_of_check _ (by decide)) rfl rfl

/-! ## The effect of `connect` and `disconnect` on the heap -/

theorem deref_modify2 (g1 g2 : List Ptr → List Ptr) (a b q : Ptr) (s : State) :
    deref (modify (upd g2) b (modify (upd g1) a s)) q =
      (deref s q).map
        (upd fun l => (if q = b then g2 else id) ((if q = a then g1 else id) l)) := by
  rw [deref_modify, deref_modify]
  cases hq : deref s q with
  | none => split_ifs <;> rfl
  | some nd => split_ifs <;> rfl

theorem connect_true_inv (s t : State) (a b : Ptr) (h : connect s a b = some (true, t)) :
    ∃ na nb, deref s a = some na ∧ deref s b = some nb ∧
      can_add s a b = some true ∧ can_add s b a = some true ∧
      t = modify (upd (set_insert a)) b (modify (upd (set_insert b)) a s) := by
  unfold connect at h
  cases hca : can_add s a b with
  | none => simp [hca] at h
  | some ca =>
    cases ca with
    | false => simp [hca] at h
    | true =>
      cases hcb : can_add s b a with
      | none => simp [hca, hcb] at h
      | some cb =>
        cases cb with
        | false => simp [hca, hcb] at h
        | true =>
          have ha : ∃ na, deref s a = some na := by
            cases hd : deref s a with
            | none => simp [can_add, hd] at hca
            | some na => exact ⟨na, rfl⟩
          have hb : ∃ nb, deref s b = some nb := by
            cases hd : deref s b with
            | none => simp [can_add, hd] at hcb
            | some nb => exact ⟨nb, rfl⟩
          obtain ⟨na, ha⟩ := ha
          obtain ⟨nb, hb⟩ := hb
          have hc := connect_eq s a b na nb ha hb true true hca (fun _ => hcb)
          unfold connect at hc
          rw [hc] at h
          simp only [Bool.and_self, if_true, Option.some.injEq, Prod.mk.injEq, true_and] at h
          exact ⟨na, nb, ha, hb, rfl, rfl, h.symm⟩

theorem connect_false_inv (s t : State) (a b : Ptr) (h : connect s a b = some (false, t)) :
    t = s := by
  unfold connect at h
  cases hca : can_add s a b with
  | none => simp [hca] at h
  | some ca =>
    cases ca with
    | false => simpa [hca] using h.symm
    | true =>
      cases hcb : can_add s b a with
      | none => simp [hca, hcb] at h
      | some cb =>
        cases cb with
        | false => simpa [hca, hcb] using h.symm
        | true =>
          simp only [hca, hcb] at h
          cases h1 : add s a b with
          | none => simp [h1] at h
          | some s1 =>
            cases h2 : add s1 b a with
            | none => simp [h1, h2] at h
            | some s2 => simp [h1, h2] at h

theorem remove_eq (s : State) (a b : Ptr) (na : node) (ha : deref s a = some na)
    (hmem : b ∈ na.connected) :
    remove s a b = some (modify (upd fun l => l.erase b) a s) := by
  simp only [remove, ha, hmem, if_true]
  rfl

theorem disconnect_true_inv (s t : State) (a b : Ptr)
    (hsorted : ∀ p nd, deref s p = some nd → nd.connected.Pairwise (· < ·))
    (h : disconnect s a b = some (true, t)) :
    ∃ na nb, a ≠ b ∧ deref s a = some na ∧ deref s b = some nb ∧
      b ∈ na.connected ∧ a ∈ nb.connected ∧
      t = modify (upd fun l => l.erase a) b (modify (upd fun l => l.erase b) a s) := by
  unfold disconnect at h
  cases hca : can_remove s a b with
  | none => simp [hca] at h
  | some ca =>
    cases ca with
    | false => simp [hca] at h
    | true =>
      cases hcb : can_remove s b a with
      | none => simp [hca, hcb] at h
      | some cb =>
        cases cb with
        | false => simp [hca, hcb] at h
        | true =>
          simp only [hca, hcb] at h
          unfold can_remove at hca hcb
          have hb0 : b ≠ 0 := by
            intro h0
            simp [h0] at hca
          have ha0 : a ≠ 0 := by
            intro h0
            simp [h0] at hcb
          simp only [hb0, ha0, if_false] at hca hcb
          cases ha : deref s a with
          | none => simp [ha] at hca
          | some na =>
            cases hb : deref s b with
            | none => simp [hb] at hcb
            | some nb =>
              simp only [ha, Option.some.injEq, decide_eq_true_eq] at hca
              simp only [hb, Option.some.injEq, decide_eq_true_eq] at hcb
              rw [remove_eq s a b na ha hca] at h
              simp only at h
              have hab : a ≠ b := by
                intro hab
                subst hab
                have hd : deref (modify (upd fun l => l.erase a) a s) a
                    = some (upd (fun l => l.erase a) na) := by
                  rw [deref_modify_self, ha]; rfl
                have hnd : na.connected.Nodup :=
                  (hsorted a na ha).imp (fun hlt => ne_of_lt hlt)
                have hnot : a ∉ na.connected.erase a := hnd.not_mem_erase
                simp [remove, hd, upd, hnot] at h
              have hd : deref (modify (upd fun l => l.erase b) a s) b = some nb := by
                rw [deref_modify_ne _ _ (fun e => hab e.symm), hb]
              rw [remove_eq _ b a nb hd hcb] at h
              simp only [Option.some.injEq, Prod.mk.injEq, true_and] at h
              exact ⟨na, nb, hab, rfl, rfl, hca, hcb, h.symm⟩

theorem disconnect_false_inv (s t : State) (a b : Ptr)
    (h : disconnect s a b = some (false, t)) : t = s := by
  unfold disconnect at h
  cases hca : can_remove s a b with
  | none => simp [hca] at h
  | some ca =>
    cases ca with
    | false => simpa [hca] using h.symm
    | true =>
      cases hcb : can_remove s b a with
      | none => simp [hca, hcb] at h
      | some cb =>
        cases cb with
        | false => simpa [hca, hcb] using h.symm
        | true =>
          simp only [hca, hcb] at h
          cases h1 : remove s a b with
          | none => simp [h1] at h
          | some s1 =>
            cases h2 : remove s1 b a with
            | none => simp [h1, h2] at h
            | some s2 => simp [h1, h2] at h

theorem conn_after_connect_eq (a b q : Ptr) (l : List Ptr) :
    conn_after_connect a b q l =
      if q = b then (if q = a then set_insert a l else set_insert a l)
      else if q = a then set_insert b l else l := by
  unfold conn_after_connect
  by_cases hb : q = b
  · subst hb
    by_cases ha : q = a
    · subst ha
      simp [set_insert_idem]
    · simp [ha]
  · by_cases ha : q = a
    · subst ha
      simp [hb]
    · simp [hb, ha]

theorem mem_conn_after_connect (a b q x : Ptr) (l : List Ptr) :
    x ∈ conn_after_connect a b q l ↔ x ∈ l ∨ (q = a ∧ x = b) ∨ (q = b ∧ x = a) := by
  rw [conn_after_connect_eq]
  by_cases hb : q = b
  · by_cases ha : q = a
    · have hab : a = b := by rw [← ha, hb]
      rw [if_pos hb, if_pos ha, mem_set_insert]
      subst hab
      tauto
    · rw [if_pos hb, if_neg ha, mem_set_insert]
      tauto
  · by_cases ha : q = a
    · rw [if_neg hb, if_pos ha, mem_set_insert]
      tauto
    · rw [if_neg hb, if_neg ha]
      tauto

theorem length_conn_after_connect (a b q : Ptr) (l : List Ptr) :
    (conn_after_connect a b q l).length ≤ l.length + 1 := by
  rw [conn_after_connect_eq]
  split_ifs
  · exact length_set_insert_le _ _
  · exact length_set_insert_le _ _
  · exact length_set_insert_le _ _
  · exact Nat.le_succ _

theorem conn_after_connect_other (a b q : Ptr) (l : List Ptr) (ha : q ≠ a) (hb : q ≠ b) :
    conn_after_connect a b q l = l := by
  rw [conn_after_connect_eq, if_neg hb, if_neg ha]

theorem sorted_conn_after_connect (a b q : Ptr) (l : List Ptr) (h : l.Pairwise (· < ·)) :
    (conn_after_connect a b q l).Pairwise (· < ·) := by
  rw [conn_after_connect_eq]
  split_ifs
  · exact sorted_set_insert _ _ h
  · exact sorted_set_insert _ _ h
  · exact sorted_set_insert _ _ h
  · exact h

theorem conn_after_disconnect_eq (a b q : Ptr) (l : List Ptr) (hab : a ≠ b) :
    conn_after_disconnect a b q l =
      if q = b then l.erase a else if q = a then l.erase b else l := by
  unfold conn_after_disconnect
  by_cases hb : q = b
  · subst hb
    have ha : q ≠ a := fun e => hab e.symm
    simp [ha]
  · by_cases ha : q = a
    · subst ha
      simp [hb]
    · simp [hb, ha]

theorem sublist_conn_after_disconnect (a b q : Ptr) (l : List Ptr) (hab : a ≠ b) :
    (conn_after_disconnect a b q l).Sublist l := by
  rw [conn_after_disconnect_eq a b q l hab]
  split_ifs
  · exact List.erase_sublist _ _
  · exact List.erase_sublist _ _
  · exact List.Sublist.refl _

theorem mem_conn_after_disconnect (a b q x : Ptr) (l : List Ptr) (hab : a ≠ b)
    (h : l.Pairwise (· < ·)) :
    x ∈ conn_after_disconnect a b q l ↔ x ∈ l ∧ ¬(q = a ∧ x = b) ∧ ¬(q = b ∧ x = a) := by
  have hnd : l.Nodup := h.imp (fun hlt => ne_of_lt hlt)
  rw [conn_after_disconnect_eq a b q l hab]
  by_cases hb : q = b
  · have ha : q ≠ a := fun e => hab (by rw [← e, hb])
    rw [if_pos hb, hnd.mem_erase_iff]
    tauto
  · by_cases ha : q = a
    · rw [if_neg hb, if_pos ha, hnd.mem_erase_iff]
      tauto
    · rw [if_neg hb, if_neg ha]
      tauto

theorem deref_after_connect (s : State) (a b q : Ptr) :
    deref (modify (upd (set_insert a)) b (modify (upd (set_insert b)) a s)) q =
      (deref s q).map (upd (conn_after_connect a b q)) :=
  deref_modify2 _ _ a b q s

theorem deref_after_disconnect (s : State) (a b q : Ptr) :
    deref (modify (upd fun l => l.erase a) b (modify (upd fun l => l.erase b) a s)) q =
      (deref s q).map (upd (conn_after_disconnect a b q)) :=
  deref_modify2 _ _ a b q s

theorem deref_map_upd_some {s t : State} {g : Ptr → List Ptr → List Ptr}
    (ht : ∀ q, deref t q = (deref s q).map (upd (g q))) {q : Ptr} {nd : node}
    (h : deref t q = some nd) :
    ∃ nd0, deref s q = some nd0 ∧ nd = upd (g q) nd0 := by
  rw [ht q] at h
  cases hd : deref s q with
  | none => simp [hd] at h
  | some nd0 =>
    rw [hd] at h
    exact ⟨nd0, rfl, by simpa using h.symm⟩

theorem edge_connect (s : State) (a b : Ptr) (na nb : node) (ha : deref s a = some na)
    (hb : deref s b = some nb) (x y : Ptr) :
    edge (modify (upd (set_insert a)) b (modify (upd (set_insert b)) a s)) x y ↔
      edge s x y ∨ (x = a ∧ y = b) ∨ (x = b ∧ y = a) := by
  unfold edge
  constructor
  · rintro ⟨nd, hd, hy⟩
    obtain ⟨nd0, hd0, rfl⟩ := deref_map_upd_some (deref_after_connect s a b) hd
    rcases (mem_conn_after_connect a b x y nd0.connected).mp hy with h | h | h
    · exact Or.inl ⟨nd0, hd0, h⟩
    · exact Or.inr (Or.inl h)
    · exact Or.inr (Or.inr h)
  · intro h
    rcases h with ⟨nd, hd, hy⟩ | ⟨rfl, rfl⟩ | ⟨rfl, rfl⟩
    · refine ⟨upd (conn_after_connect a b x) nd, ?_, ?_⟩
      · rw [deref_after_connect, hd]; rfl
      · exact (mem_conn_after_connect a b x y nd.connected).mpr (Or.inl hy)
    · refine ⟨upd (conn_after_connect x y x) na, ?_, ?_⟩
      · rw [deref_after_connect, ha]; rfl
      · exact (mem_conn_after_connect x y x y na.connected).mpr (Or.inr (Or.inl ⟨rfl, rfl⟩))
    · refine ⟨upd (conn_after_connect y x x) nb, ?_, ?_⟩
      · rw [deref_after_connect, hb]; rfl
      · exact (mem_conn_after_connect y x x y nb.connected).mpr (Or.inr (Or.inr ⟨rfl, rfl⟩))

theorem edge_disconnect (s : State) (a b : Ptr) (hab : a ≠ b)
    (hsorted : ∀ p nd, deref s p = some nd → nd.connected.Pairwise (· < ·)) (x y : Ptr) :
    edge (modify (upd fun l => l.erase a) b (modify (upd fun l => l.erase b) a s)) x y ↔
      edge s x y ∧ ¬(x = a ∧ y = b) ∧ ¬(x = b ∧ y = a) := by
  unfold edge
  constructor
  · rintro ⟨nd, hd, hy⟩
    obtain ⟨nd0, hd0, rfl⟩ := deref_map_upd_some (deref_after_disconnect s a b) hd
    have := (mem_conn_after_disconnect a b x y nd0.connected hab (hsorted x nd0 hd0)).mp hy
    exact ⟨⟨nd0, hd0, this.1⟩, this.2⟩
  · rintro ⟨⟨nd, hd, hy⟩, h2⟩
    refine ⟨upd (conn_after_disconnect a b x) nd, ?_, ?_⟩
    · rw [deref_after_disconnect, hd]; rfl
    · exact (mem_conn_after_disconnect a b x y nd.connected hab (hsorted x nd hd)).mpr ⟨hy, h2⟩

/-! ## The representation invariant -/

theorem may_add_length (s : State) (na : node) (b : Ptr) (nb : node)
    (h : may_add s na b nb) : na.connected.length < get_capacity na := by
  unfold may_add at h
  unfold get_capacity
  obtain ⟨seg, ty, cap, id, conn⟩ := na
  cases ty with
  | ENDPOINT =>
    simp only at h
    simp [h]
  | BRIDGE => exact h.2
  | ROUTER => exact h.2

theorem inv_init : Inv [] where
  closed := ⟨rfl, fun p nd h => by simp [deref] at h⟩
  sorted := fun p nd h => by simp [deref] at h
  symm := fun x y h => by
    obtain ⟨nd, h, _⟩ := h
    simp [deref] at h
  cap := fun p nd h => by simp [deref] at h
  router := fun r nr h => by simp [deref] at h

theorem inv_alloc (s : State) (p : Ptr) (nd : node) (hinv : Inv s) (hp : p ≠ 0)
    (hfresh : deref s p = none) (hconn : nd.connected = []) : Inv (alloc p nd s) := by
  have hD : ∀ q, deref (alloc p nd s) q = if q = p then some nd else deref s q :=
    fun q => deref_alloc p q nd s hfresh
  have hold : ∀ q n0, deref s q = some n0 → deref (alloc p nd s) q = some n0 := by
    intro q n0 h
    have hq : q ≠ p := by
      intro e
      rw [e, hfresh] at h
      cases h
    rw [hD, if_neg hq, h]
  have hnew : ∀ q n0, deref (alloc p nd s) q = some n0 → n0.connected ≠ [] →
      deref s q = some n0 := by
    intro q n0 h hne
    rw [hD] at h
    by_cases hq : q = p
    · rw [if_pos hq] at h
      have : n0 = nd := by simpa using h.symm
      rw [this] at hne
      exact absurd hconn hne
    · rw [if_neg hq] at h
      exact h
  have hmem : ∀ q n0 (i : Ptr), deref (alloc p nd s) q = some n0 → i ∈ n0.connected →
      deref s q = some n0 := by
    intro q n0 i h hi
    exact hnew q n0 h (List.ne_nil_of_mem hi)
  constructor
  · constructor
    · rw [hD, if_neg (fun e => hp e.symm)]
      exact hinv.closed.1
    · intro q n0 h i hi
      obtain ⟨ni, hni⟩ := hinv.closed.2 q n0 (hmem q n0 i h hi) i hi
      exact ⟨ni, hold i ni hni⟩
  · intro q n0 h
    by_cases hne : n0.connected = []
    · rw [hne]
      exact List.Pairwise.nil
    · exact hinv.sorted q n0 (hnew q n0 h hne)
  · rintro x y ⟨nx, hx, hy⟩
    obtain ⟨ny, hy1, hy2⟩ := hinv.symm x y ⟨nx, hmem x nx y hx hy, hy⟩
    exact ⟨ny, hold y ny hy1, hy2⟩
  · intro q n0 h
    by_cases hne : n0.connected = []
    · rw [hne]
      exact Nat.zero_le _
    · exact hinv.cap q n0 (hnew q n0 h hne)
  · intro r nr hr hty x hx y hy hxy nx ny hnx hny
    have hr0 := hmem r nr x hr hx
    obtain ⟨nx0, hnx0⟩ := hinv.closed.2 r nr hr0 x hx
    obtain ⟨ny0, hny0⟩ := hinv.closed.2 r nr hr0 y hy
    have e1 : nx = nx0 := by
      have := hold x nx0 hnx0
      rw [hnx] at this
      simpa using this
    have e2 : ny = ny0 := by
      have := hold y ny0 hny0
      rw [hny] at this
      simpa using this
    rw [e1, e2]
    exact hinv.router r nr hr0 hty x hx y hy hxy nx0 ny0 hnx0 hny0

theorem inv_connect (s t : State) (a b : Ptr) (r : Bool) (hinv : Inv s)
    (h : connect s a b = some (r, t)) : Inv t := by
  cases r with
  | false =>
    rw [connect_false_inv s t a b h]
    exact hinv
  | true =>
    obtain ⟨na, nb, ha, hb, hca, hcb, rfl⟩ := connect_true_inv s t a b h
    have hma := (can_add_true_iff s a b na nb hinv.closed ha hb).mp hca
    have hmb := (can_add_true_iff s b a nb na hinv.closed hb ha).mp hcb
    have hT := deref_after_connect s a b
    have hlive : ∀ q n0, deref s q = some n0 →
        deref (modify (upd (set_insert a)) b (modify (upd (set_insert b)) a s)) q =
          some (upd (conn_after_connect a b q) n0) := by
      intro q n0 hq
      rw [hT, hq]
      rfl
    have hseg : ∀ q nq n0, deref s q = some n0 →
        deref (modify (upd (set_insert a)) b (modify (upd (set_insert b)) a s)) q = some nq →
        nq._segment = n0._segment := by
      intro q nq n0 hq hq2
      rw [hlive q n0 hq] at hq2
      have : nq = upd (conn_after_connect a b q) n0 := by simpa using hq2.symm
      rw [this]
      rfl
    constructor
    · constructor
      · rw [hT, hinv.closed.1]
        rfl
      · intro q nq hq i hi
        have he : edge (modify (upd (set_insert a)) b (modify (upd (set_insert b)) a s)) q i :=
          ⟨nq, hq, hi⟩
        rcases (edge_connect s a b na nb ha hb q i).mp he with ⟨n0, h0, hi0⟩ | ⟨_, rfl⟩ | ⟨_, rfl⟩
        · obtain ⟨ni, hni⟩ := hinv.closed.2 q n0 h0 i hi0
          exact ⟨_, hlive i ni hni⟩
        · exact ⟨_, hlive _ nb hb⟩
        · exact ⟨_, hlive _ na ha⟩
    · intro q nq hq
      obtain ⟨n0, h0, rfl⟩ := deref_map_upd_some hT hq
      exact sorted_conn_after_connect a b q _ (hinv.sorted q n0 h0)
    · intro x y hxy
      rw [edge_connect s a b na nb ha hb] at hxy ⊢
      rcases hxy with h1 | h1 | h1
      · exact Or.inl (hinv.symm x y h1)
      · exact Or.inr (Or.inr ⟨h1.2, h1.1⟩)
      · exact Or.inr (Or.inl ⟨h1.2, h1.1⟩)
    · intro q nq hq
      obtain ⟨n0, h0, rfl⟩ := deref_map_upd_some hT hq
      show (conn_after_connect a b q n0.connected).length ≤ get_capacity n0
      by_cases hqa : q = a
      · subst hqa
        have e : n0 = na := by
          rw [h0] at ha
          simpa using ha
        rw [e]
        have := may_add_length s na b nb hma
        have := length_conn_after_connect q b q na.connected
        omega
      · by_cases hqb : q = b
        · subst hqb
          have e : n0 = nb := by
            rw [h0] at hb
            simpa using hb
          rw [e]
          have := may_add_length s nb a na hmb
          have := length_conn_after_connect a q q nb.connected
          omega
        · rw [conn_after_connect_other a b q _ hqa hqb]
          exact hinv.cap q n0 h0
    · intro q nq hq hty x hx y hy hxy nx ny hnx hny
      obtain ⟨n0, h0, rfl⟩ := deref_map_upd_some hT hq
      have hty0 : n0._type = node_type.ROUTER := hty
      obtain ⟨nx0, hx0, rfl⟩ := deref_map_upd_some hT hnx
      obtain ⟨ny0, hy0, rfl⟩ := deref_map_upd_some hT hny
      show nx0._segment ≠ ny0._segment
      have key : ∀ u v nu nv, ((q = a ∧ u = b) ∨ (q = b ∧ u = a)) → v ∈ n0.connected →
          deref s u = some nu → deref s v = some nv → nv._segment ≠ nu._segment := by
        intro u v nu nv hu hv hnu hnv
        rcases hu with ⟨rfl, rfl⟩ | ⟨rfl, rfl⟩
        · have e : n0 = na := by
            rw [h0] at ha
            simpa using ha
          have e2 : nu = nb := by
            rw [hnu] at hb
            simpa using hb
          subst e
          subst e2
          unfold may_add at hma
          rw [hty0] at hma
          exact hma.1 v hv nv hnv
        · have e : n0 = nb := by
            rw [h0] at hb
            simpa using hb
          have e2 : nu = na := by
            rw [hnu] at ha
            simpa using ha
          subst e
          subst e2
          unfold may_add at hmb
          rw [hty0] at hmb
          exact hmb.1 v hv nv hnv
      rcases (mem_conn_after_connect a b q x n0.connected).mp hx with hx1 | hx1
      · rcases (mem_conn_after_connect a b q y n0.connected).mp hy with hy1 | hy1
        · exact hinv.router q n0 h0 hty0 x hx1 y hy1 hxy nx0 ny0 hx0 hy0
        · exact key y x ny0 nx0 hy1 hx1 hy0 hx0
      · rcases (mem_conn_after_connect a b q y n0.connected).mp hy with hy1 | hy1
        · exact fun e => key x y nx0 ny0 hx1 hy1 hx0 hy0 e.symm
        · exfalso
          apply hxy
          rcases hx1 with ⟨e1, e2⟩ | ⟨e1, e2⟩ <;> rcases hy1 with ⟨e3, e4⟩ | ⟨e3, e4⟩
          · rw [e2, e4]
          · rw [e2, e4, ← e1, ← e3]
          · rw [e2, e4, ← e1, ← e3]
          · rw [e2, e4]

theorem inv_disconnect (s t : State) (a b : Ptr) (r : Bool) (hinv : Inv s)
    (h : disconnect s a b = some (r, t)) : Inv t := by
  cases r with
  | false =>
    rw [disconnect_false_inv s t a b h]
    exact hinv
  | true =>
    obtain ⟨na, nb, hab, ha, hb, hba, hab2, rfl⟩ := disconnect_true_inv s t a b hinv.sorted h
    have hT := deref_after_disconnect s a b
    have hlive : ∀ q n0, deref s q = some n0 →
        deref (modify (upd fun l => l.erase a) b (modify (upd fun l => l.erase b) a s)) q =
          some (upd (conn_after_disconnect a b q) n0) := by
      intro q n0 hq
      rw [hT, hq]
      rfl
    have hsub : ∀ q (l : List Ptr) x, x ∈ conn_after_disconnect a b q l → x ∈ l :=
      fun q l x hx => (sublist_conn_after_disconnect a b q l hab).subset hx
    constructor
    · constructor
      · rw [hT, hinv.closed.1]
        rfl
      · intro q nq hq i hi
        obtain ⟨n0, h0, rfl⟩ := deref_map_upd_some hT hq
        obtain ⟨ni, hni⟩ := hinv.closed.2 q n0 h0 i (hsub q _ i hi)
        exact ⟨_, hlive i ni hni⟩
    · intro q nq hq
      obtain ⟨n0, h0, rfl⟩ := deref_map_upd_some hT hq
      exact (hinv.sorted q n0 h0).sublist (sublist_conn_after_disconnect a b q _ hab)
    · intro x y hxy
      rw [edge_disconnect s a b hab hinv.sorted] at hxy ⊢
      exact ⟨hinv.symm x y hxy.1, fun e => hxy.2.2 ⟨e.2, e.1⟩, fun e => hxy.2.1 ⟨e.2, e.1⟩⟩
    · intro q nq hq
      obtain ⟨n0, h0, rfl⟩ := deref_map_upd_some hT hq
      show (conn_after_disconnect a b q n0.connected).length ≤ get_capacity n0
      exact le_trans (sublist_conn_after_disconnect a b q _ hab).length_le (hinv.cap q n0 h0)
    · intro q nq hq hty x hx y hy hxy nx ny hnx hny
      obtain ⟨n0, h0, rfl⟩ := deref_map_upd_some hT hq
      obtain ⟨nx0, hx0, rfl⟩ := deref_map_upd_some hT hnx
      obtain ⟨ny0, hy0, rfl⟩ := deref_map_upd_some hT hny
      exact hinv.router q n0 h0 hty x (hsub q _ x hx) y (hsub q _ y hy) hxy nx0 ny0 hx0 hy0

/-- Whatever `disconnect` preserves, the `while` loop of `fix_loops`
preserves. -/
theorem fix_loops_while_induct (P : State → Prop)
    (hP : ∀ s a b r t, P s → disconnect s a b = some (r, t) → P t)
    (depth : Nat) (node_ptr : Ptr) (iters : Nat) :
    ∀ (s : State) (found : Bool) (cs : List Ptr) (p : Ptr × Ptr)
      (res : State × List Ptr × (Ptr × Ptr)),
      P s → fix_loops_while depth node_ptr iters s found cs p = some res → P res.1 := by
  induction iters with
  | zero =>
    intro s found cs p res _ h
    simp [fix_loops_while] at h
  | succ k ih =>
    intro s found cs p res hs h
    unfold fix_loops_while at h
    cases found with
    | false =>
      simp only [Bool.false_eq_true, if_false, Option.some.injEq] at h
      rw [← h]
      exact hs
    | true =>
      simp only [if_true] at h
      cases hd : disconnect s p.1 p.2 with
      | none => simp [hd] at h
      | some rs =>
        obtain ⟨r, s1⟩ := rs
        simp only [hd] at h
        cases hc : find_cycle depth s1 [node_ptr] 0 node_ptr p with
        | none => simp [hc] at h
        | some fr =>
          obtain ⟨f1, cs1, q1⟩ := fr
          simp only [hc] at h
          exact ih s1 f1 cs1 q1 res (hP s p.1 p.2 r s1 hs hd) h

/-- Whatever `disconnect` preserves, `fix_loops` preserves. -/
theorem fix_loops_loop_induct (P : State → Prop)
    (hP : ∀ s a b r t, P s → disconnect s a b = some (r, t) → P t) (fuel : Nat)
    (l : List Ptr) :
    ∀ (s : State) (visited : List Ptr) (p : Ptr × Ptr) (t : State),
      P s → fix_loops_loop fuel l s visited p = some t → P t := by
  induction l with
  | nil =>
    intro s visited p t hs h
    simp only [fix_loops_loop, Option.some.injEq] at h
    rw [← h]
    exact hs
  | cons node_ptr rest ih =>
    intro s visited p t hs h
    unfold fix_loops_loop at h
    split_ifs at h with hv
    · exact ih s visited p t hs h
    · cases hc : find_cycle fuel s [node_ptr] 0 node_ptr p with
      | none => simp [hc] at h
      | some fr =>
        obtain ⟨f1, cs1, q1⟩ := fr
        simp only [hc] at h
        cases hw : fix_loops_while fuel node_ptr fuel s f1 cs1 q1 with
        | none => simp [hw] at h
        | some res =>
          obtain ⟨s1, cs2, q2⟩ := res
          simp only [hw] at h
          have hs1 : P s1 :=
            fix_loops_while_induct P hP fuel node_ptr fuel s f1 cs1 q1 _ hs hw
          exact ih s1 _ q2 t hs1 h

theorem fix_loops_induct (P : State → Prop)
    (hP : ∀ s a b r t, P s → disconnect s a b = some (r, t) → P t) (fuel : Nat)
    (s t : State) (seg : Ptr) (hs : P s) (h : fix_loops_fuel fuel s seg = some t) : P t :=
  fix_loops_loop_induct P hP fuel _ s [] (0, 0) t hs h

theorem inv_step (s t : State) (hinv : Inv s) (h : Step s t) : Inv t := by
  match h with
  | Step.add_endpoint _ seg p hp hfresh => exact inv_alloc s p _ hinv hp hfresh rfl
  | Step.add_bridge _ seg cap id p hp hfresh => exact inv_alloc s p _ hinv hp hfresh rfl
  | Step.add_router _ seg cap id p hp hfresh => exact inv_alloc s p _ hinv hp hfresh rfl
  | Step.connect _ a b r _ hc => exact inv_connect s t a b r hinv hc
  | Step.disconnect _ a b r _ hd => exact inv_disconnect s t a b r hinv hd
  | Step.fix_loops _ seg fuel _ hf =>
    exact fix_loops_induct Inv (fun s a b r t hs hd => inv_disconnect s t a b r hs hd)
      fuel s t seg hinv hf

theorem inv_of_reachable (s : State) (h : Reachable s) : Inv s := by
  induction h with
  | init => exact inv_init
  | step s t _ hst ih => exact inv_step s t ih hst

theorem mem_neighbors_iff (s : State) (a b : Ptr) : b ∈ neighbors s a ↔ edge s a b := by
  unfold neighbors edge
  cases h : deref s a with
  | none => simp
  | some nd => simp

theorem two_segments_reachable : Reachable two_segments := by
  have h1 := Reachable.step _ _ Reachable.init
    (Step.add_endpoint [] 100 1 (by decide) rfl)
  have h2 := Reachable.step _ _ h1 (Step.add_endpoint _ 200 2 (by decide) rfl)
  have h3 := Reachable.step _ _ h2 (Step.add_router _ 100 2 "r0" 3 (by decide) rfl)
  have h4 := Reachable.step _ _ h3 (Step.add_router _ 200 2 "r1" 4 (by decide) rfl)
  have h5 := Reachable.step _ _ h4 (Step.connect _ 1 3 true _ rfl)
  have h6 := Reachable.step _ _ h5 (Step.connect _ 2 4 true _ rfl)
  exact Reachable.step _ _ h6 (Step.connect _ 3 4 true two_segments rfl)

theorem triangle_reachable : Reachable triangle := by
  have h1 := Reachable.step _ _ Reachable.init
    (Step.add_bridge [] 100 2 "A" 1 (by decide) rfl)
  have h2 := Reachable.step _ _ h1 (Step.add_bridge _ 100 2 "B" 2 (by decide) rfl)
  have h3 := Reachable.step _ _ h2 (Step.add_bridge _ 100 2 "C" 3 (by decide) rfl)
  have h4 := Reachable.step _ _ h3 (Step.connect _ 1 2 true _ rfl)
  have h5 := Reachable.step _ _ h4 (Step.connect _ 1 3 true _ rfl)
  exact Reachable.step _ _ h5 (Step.connect _ 2 3 true triangle rfl)

theorem triangle_fixed_reachable : Reachable triangle_fixed :=
  Reachable.step _ _ triangle_reachable (Step.fix_loops _ 100 8 triangle_fixed rfl)

/-- C3. In every state reachable through `add_endpoint`, `add_bridge`,
`add_router`, `connect`, `disconnect` and `fix_loops`, the neighbor set of
every node holds no address twice and has at most `get_capacity()` elements;
an endpoint has at most one neighbor. -/
theorem capacity_invariant (s : State) (h : Reachable s) (p : Ptr) (nd : node)
    (hp : deref s p = some nd) :
    nd.connected.Nodup ∧ nd.connected.length ≤ get_capacity nd ∧
      (nd._type = node_type.ENDPOINT → nd.connected.length ≤ 1) := by
  have hinv := inv_of_reachable s h
  refine ⟨(hinv.sorted p nd hp).imp (fun hlt => ne_of_lt hlt), hinv.cap p nd hp, ?_⟩
  intro hty
  have := hinv.cap p nd hp
  unfold get_capacity at this
  rw [hty] at this
  exact this

/-- C3 (witness). The router at address `3` of the two-segment state. -/
theorem capacity_invariant_witness :
    ([1, 4] : List Ptr).Nodup ∧
      ([1, 4] : List Ptr).length ≤
        get_capacity { _segment := 100, _type := node_type.ROUTER, capacity := 2, _id := "r0",
                       connected := [1, 4] } ∧
      (node_type.ROUTER = node_type.ENDPOINT → ([1, 4] : List Ptr).length ≤ 1) :=
  capacity_invariant two_segments two_segments_reachable 3
    { _segment := 100, _type := node_type.ROUTER, capacity := 2, _id := "r0",
      connected := [1, 4] } rfl

/-- C4. In every reachable state any two distinct neighbors of a router are
live nodes of different segments. -/
theorem router_invariant (s : State) (h : Reachable s) (r : Ptr) (nr : node)
    (hr : deref s r = some nr) (hty : nr._type = node_type.ROUTER) (x y : Ptr)
    (hx : x ∈ nr.connected) (hy : y ∈ nr.connected) (hxy : x ≠ y) :
    ∃ nx ny, deref s x = some nx ∧ deref s y = some ny ∧ nx._segment ≠ ny._segment := by
  have hinv := inv_of_reachable s h
  obtain ⟨nx, hnx⟩ := hinv.closed.2 r nr hr x hx
  obtain ⟨ny, hny⟩ := hinv.closed.2 r nr hr y hy
  exact ⟨nx, ny, hnx, hny, hinv.router r nr hr hty x hx y hy hxy nx ny hnx hny⟩

/-- C4 (witness). The two neighbors `1` and `4` of the router at address
`3` of the two-segment state. -/
theorem router_invariant_witness :
    ∃ nx ny, deref two_segments 1 = some nx ∧ deref two_segments 4 = some ny ∧
      nx._segment ≠ ny._segment :=
  router_invariant two_segments two_segments_reachable 3
    { _segment := 100, _type := node_type.ROUTER, capacity := 2, _id := "r0",
      connected := [1, 4] } rfl rfl 1 4 (by decide) (by decide) (by decide)

/-- C5. In every reachable state `b` is a neighbor of `a` if and only if `a`
is a neighbor of `b`. -/
theorem neighbor_symmetry (s : State) (h : Reachable s) (a b : Ptr) :
    b ∈ neighbors s a ↔ a ∈ neighbors s b := by
  have hinv := inv_of_reachable s h
  rw [mem_neighbors_iff, mem_neighbors_iff]
  exact ⟨hinv.symm a b, hinv.symm b a⟩

/-- C5 (witness). The bridges `1` and `3` of the triangle after
`fix_loops`. -/
theorem neighbor_symmetry_witness :
    (3 : Ptr) ∈ neighbors triangle_fixed 1 ↔ (1 : Ptr) ∈ neighbors triangle_fixed 3 :=
  neighbor_symmetry triangle_fixed triangle_fixed_reachable 1 3

/-- C8. In every reachable state, if `b` is a neighbor of `a` then
`a.connect(b)` returns false and leaves the state unchanged, whatever the
kinds of `a` and `b`. -/
theorem connect_duplicate_rejected (s : State) (h : Reachable s) (a b : Ptr)
    (hab : b ∈ neighbors s a) : connect s a b = some (false, s) := by
  have hinv := inv_of_reachable s h
  obtain ⟨na, ha, hmem⟩ := (mem_neighbors_iff s a b).mp hab
  obtain ⟨nb, hb⟩ := hinv.closed.2 a na ha b hmem
  obtain ⟨c, hc⟩ := can_add_total s a b na nb hinv.closed ha hb
  have hne : c ≠ true := by
    intro hct
    rw [hct] at hc
    have hm := (can_add_true_iff s a b na nb hinv.closed ha hb).mp hc
    unfold may_add at hm
    obtain ⟨seg, ty, cap, id, conn⟩ := na
    cases ty with
    | ENDPOINT =>
      simp only at hm hmem
      rw [hm] at hmem
      cases hmem
    | BRIDGE => exact hm.1 hmem
    | ROUTER => exact hm.1 b hmem nb hb rfl
  have hcf : c = false := by
    cases c with
    | false => rfl
    | true => exact absurd rfl hne
  rw [hcf] at hc
  unfold connect
  rw [hc]

/-- C8 (witness). The router `3` and its neighbor, the endpoint `1`, in the
two-segment state. -/
theorem connect_duplicate_rejected_witness :
    connect two_segments 3 1 = some (false, two_segments) :=
  connect_duplicate_rejected two_segments two_segments_reachable 3 1 (by decide)

/-! ## `find_node` and `reachable` -/

theorem live_mem (s : State) (i : Ptr) (ni : node) (h : deref s i = some ni) :
    i ∈ (s.map Prod.fst).toFinset := by
  rw [List.mem_toFinset, List.mem_map]
  exact ⟨(i, ni), mem_of_deref s i ni h, rfl⟩

theorem unvisited_mono (s : State) (v w : List Ptr) (h : v ⊆ w) :
    unvisited s w ≤ unvisited s v := by
  unfold unvisited
  apply Finset.card_le_card
  intro x hx
  rw [Finset.mem_sdiff] at hx ⊢
  exact ⟨hx.1, fun hv => hx.2 (List.mem_toFinset.mpr (h (List.mem_toFinset.mp hv)))⟩

theorem unvisited_insert_lt (s : State) (v : List Ptr) (i : Ptr) (ni : node)
    (hi : deref s i = some ni) (hv : i ∉ v) :
    unvisited s (set_insert i v) < unvisited s v := by
  unfold unvisited
  apply Finset.card_lt_card
  rw [Finset.ssubset_iff_of_subset]
  · refine ⟨i, ?_, ?_⟩
    · rw [Finset.mem_sdiff]
      exact ⟨live_mem s i ni hi, fun h => hv (List.mem_toFinset.mp h)⟩
    · rw [Finset.mem_sdiff]
      exact fun h => h.2 (List.mem_toFinset.mpr ((mem_set_insert i i v).mpr (Or.inl rfl)))
  · intro x hx
    rw [Finset.mem_sdiff] at hx ⊢
    refine ⟨hx.1, fun h => hx.2 (List.mem_toFinset.mpr ?_)⟩
    exact (mem_set_insert x i v).mpr (Or.inr (List.mem_toFinset.mp h))

theorem unvisited_nil_le (s : State) : unvisited s [] ≤ s.length := by
  unfold unvisited
  calc ((s.map Prod.fst).toFinset \ ([] : List Ptr).toFinset).card
      ≤ (s.map Prod.fst).toFinset.card := Finset.card_le_card Finset.sdiff_subset
    _ ≤ (s.map Prod.fst).length := List.toFinset_card_le _
    _ = s.length := List.length_map _ _

theorem find_node_loop_spec (s : State) (hcl : closed s) (n this : Ptr) (fuel : Nat)
    (call : Ptr → List Ptr → Option (Bool × List Ptr))
    (hcall : ∀ i v, (∃ ni, deref s i = some ni) → unvisited s v < fuel →
      ∃ r w, call i v = some (r, w) ∧ find_node_post s n i v w r)
    (l : List Ptr) :
    ∀ visited, (∀ i ∈ l, edge s this i) → unvisited s visited ≤ fuel →
      ∃ r w, find_node_loop call n l visited = some (r, w) ∧ visited ⊆ w ∧
        (r = true → Relation.TransGen (edge s) this n) ∧
        (r = false →
          (∀ x ∈ w, x ∉ visited → x ≠ n ∧ ∀ y, edge s x y → y ∈ w) ∧
            ∀ y ∈ l, y ∈ w) := by
  induction l with
  | nil =>
    intro visited _ _
    refine ⟨false, visited, rfl, List.Subset.refl _, (fun h => by cases h), fun _ => ?_⟩
    exact ⟨fun x hx hnx => absurd hx hnx, fun y hy => by cases hy⟩
  | cons i rest ih =>
    intro visited hedge hfuel
    have hrest : ∀ j ∈ rest, edge s this j := fun j hj => hedge j (List.mem_cons_of_mem _ hj)
    have hei : edge s this i := hedge i (List.mem_cons_self _ _)
    unfold find_node_loop
    by_cases hiv : i ∈ visited
    · rw [if_pos hiv]
      obtain ⟨r, w, hrun, hsub, htrue, hfalse⟩ := ih visited hrest hfuel
      refine ⟨r, w, hrun, hsub, htrue, fun hr => ?_⟩
      obtain ⟨h1, h2⟩ := hfalse hr
      refine ⟨h1, fun y hy => ?_⟩
      rcases List.mem_cons.mp hy with rfl | hy
      · exact hsub hiv
      · exact h2 y hy
    · rw [if_neg hiv]
      have hsub0 : visited ⊆ set_insert i visited :=
        fun x hx => (mem_set_insert x i visited).mpr (Or.inr hx)
      by_cases hin : i = n
      · rw [if_pos hin]
        refine ⟨true, _, rfl, hsub0, fun _ => ?_, (fun h => by cases h)⟩
        rw [← hin]
        exact Relation.TransGen.single hei
      · rw [if_neg hin]
        obtain ⟨nthis, hthis, himem⟩ := hei
        obtain ⟨ni, hni⟩ := hcl.2 this nthis hthis i himem
        have hlt := unvisited_insert_lt s visited i ni hni hiv
        obtain ⟨r1, w1, hrun1, hsub1, htrue1, hfalse1⟩ :=
          hcall i (set_insert i visited) ⟨ni, hni⟩ (lt_of_lt_of_le hlt hfuel)
        rw [hrun1]
        cases r1 with
        | true =>
          refine ⟨true, w1, rfl, fun x hx => hsub1 (hsub0 hx), fun _ => ?_,
            (fun h => by cases h)⟩
          exact Relation.TransGen.head ⟨nthis, hthis, himem⟩ (htrue1 rfl)
        | false =>
          obtain ⟨hnew1, hclosed1⟩ := hfalse1 rfl
          have hsubv : visited ⊆ w1 := fun x hx => hsub1 (hsub0 hx)
          have hfuel1 : unvisited s w1 ≤ fuel := le_trans (unvisited_mono s visited w1 hsubv) hfuel
          obtain ⟨r2, w2, hrun2, hsub2, htrue2, hfalse2⟩ := ih w1 hrest hfuel1
          have hi1 : i ∈ w1 := hsub1 ((mem_set_insert i i visited).mpr (Or.inl rfl))
          refine ⟨r2, w2, hrun2, fun x hx => hsub2 (hsubv hx), htrue2, fun hr => ?_⟩
          obtain ⟨hnew2, hlist2⟩ := hfalse2 hr
          refine ⟨fun x hx hxv => ?_, fun y hy => ?_⟩
          · by_cases hx1 : x ∈ w1
            · by_cases hxi : x = i
              · rw [hxi]
                exact ⟨hin, fun y hy => hsub2 (hclosed1 y hy)⟩
              · have hxs : x ∉ set_insert i visited := by
                  rw [mem_set_insert]
                  exact fun h => h.elim hxi hxv
                obtain ⟨hne, hcl1⟩ := hnew1 x hx1 hxs
                exact ⟨hne, fun y hy => hsub2 (hcl1 y hy)⟩
            · exact hnew2 x hx hx1
          · rcases List.mem_cons.mp hy with rfl | hy
            · exact hsub2 hi1
            · exact hlist2 y hy

theorem find_node_spec (s : State) (hcl : closed s) (n : Ptr) (fuel : Nat) :
    ∀ this visited, (∃ nd, deref s this = some nd) → unvisited s visited < fuel →
      ∃ r w, find_node fuel s this n visited = some (r, w) ∧
        find_node_post s n this visited w r := by
  induction fuel with
  | zero =>
    intro this visited _ h
    exact absurd h (Nat.not_lt_zero _)
  | succ k ih =>
    intro this visited hlive hfuel
    obtain ⟨nd, hnd⟩ := hlive
    unfold find_node
    rw [hnd]
    obtain ⟨r, w, hrun, hsub, htrue, hfalse⟩ :=
      find_node_loop_spec s hcl n this k (fun i v => find_node k s i n v)
        (fun i v hi hv => ih i v hi hv) nd.connected visited
        (fun i hi => ⟨nd, hnd, hi⟩) (Nat.lt_succ_iff.mp hfuel)
    refine ⟨r, w, hrun, hsub, htrue, fun hr => ?_⟩
    obtain ⟨h1, h2⟩ := hfalse hr
    refine ⟨h1, fun y hy => ?_⟩
    obtain ⟨nd2, hnd2, hy2⟩ := hy
    rw [hnd] at hnd2
    have : nd = nd2 := by simpa using hnd2
    rw [← this] at hy2
    exact h2 y hy2

/-- The method `reachable` decides the reflexive transitive closure of the
neighbor relation. -/
theorem reachable_spec (s : State) (hcl : closed s) (a b : Ptr) (na : node)
    (ha : deref s a = some na) :
    ∃ r, reachable s a b = some r ∧ (r = true ↔ Relation.ReflTransGen (edge s) a b) := by
  unfold reachable
  by_cases hba : b = a
  · rw [if_pos hba, hba]
    exact ⟨true, rfl, fun _ => Relation.ReflTransGen.refl, fun _ => rfl⟩
  · rw [if_neg hba]
    obtain ⟨r, w, hrun, _, htrue, hfalse⟩ :=
      find_node_spec s hcl b (s.length + 1) a [] ⟨na, ha⟩
        (Nat.lt_succ_of_le (unvisited_nil_le s))
    rw [hrun]
    refine ⟨r, rfl, fun hr => (htrue hr).to_reflTransGen, fun hpath => ?_⟩
    cases r with
    | true => rfl
    | false =>
      exfalso
      obtain ⟨hnew, hfirst⟩ := hfalse rfl
      have hab : Relation.TransGen (edge s) a b := by
        rcases Relation.reflTransGen_iff_eq_or_transGen.mp hpath with h | h
        · exact absurd h hba
        · exact h
      have hin : ∀ c, Relation.TransGen (edge s) a c → c ∈ w := by
        intro c hc
        induction hc with
        | single h1 => exact hfirst _ h1
        | tail _ h2 ih => exact (hnew _ ih (List.not_mem_nil _)).2 _ h2
      exact (hnew b (hin b hab) (List.not_mem_nil _)).1 rfl

theorem reachable_true_iff (s : State) (hcl : closed s) (a b : Ptr) (na : node)
    (ha : deref s a = some na) :
    reachable s a b = some true ↔ Relation.ReflTransGen (edge s) a b := by
  obtain ⟨r, hr, hiff⟩ := reachable_spec s hcl a b na ha
  rw [hr]
  constructor
  · intro h
    exact hiff.mp (by simpa using h)
  · intro h
    rw [hiff.mpr h]

/-- C9. For a live node `a` of a state whose neighbor references are all
live (symmetric or not) and any address `b`, `a.reachable(b)` returns, and it
returns true if and only if `a = b` or there is a sequence
`a = n0, n1, ..., nk = b` with `k ≥ 1` in which every `n(i+1)` is in the
neighbor set of `n(i)`; the segments of the nodes play no part. -/
theorem reachable_iff_path (s : State) (hcl : closed s) (a b : Ptr) (na : node)
    (ha : deref s a = some na) :
    ∃ r, reachable s a b = some r ∧
      (r = true ↔ a = b ∨ ∃ l : List Ptr, l ≠ [] ∧ List.Chain (edge s) a l ∧
        (a :: l).getLast (List.cons_ne_nil a l) = b) := by
  obtain ⟨r, hr, hiff⟩ := reachable_spec s hcl a b na ha
  refine ⟨r, hr, ?_⟩
  rw [hiff]
  constructor
  · intro h
    obtain ⟨l, hchain, hlast⟩ := List.exists_chain_of_relationReflTransGen h
    cases l with
    | nil => exact Or.inl (by simpa using hlast)
    | cons x xs => exact Or.inr ⟨x :: xs, List.cons_ne_nil _ _, hchain, hlast⟩
  · intro h
    rcases h with rfl | ⟨l, _, hchain, hlast⟩
    · exact Relation.ReflTransGen.refl
    · exact List.relationReflTransGen_of_exists_chain l hchain hlast

/-- C9 (witness). The two endpoints of the two-segment state. -/
theorem reachable_iff_path_witness :
    ∃ r, reachable two_segments 1 2 = some r ∧
      (r = true ↔ (1 : Ptr) = 2 ∨ ∃ l : List Ptr, l ≠ [] ∧ List.Chain (edge two_segments) 1 l ∧
        ((1 : Ptr) :: l).getLast (List.cons_ne_nil 1 l) = 2) :=
  reachable_iff_path two_segments (closed_of_check _ (by decide)) 1 2 _ rfl

/-- C10. In every reachable state `reachable` is reflexive, symmetric and
transitive on the live nodes. -/
theorem reachable_equivalence (s : State) (h : Reachable s) (a b c : Ptr) (na nb : node)
    (ha : deref s a = some na) (hb : deref s b = some nb) :
    reachable s a a = some true ∧
      (reachable s a b = some true → reachable s b a = some true) ∧
      (reachable s a b = some true → reachable s b c = some true →
        reachable s a c = some true) := by
  have hinv := inv_of_reachable s h
  have hcl := hinv.closed
  refine ⟨?_, ?_, ?_⟩
  · simp [reachable]
  · intro hab
    rw [reachable_true_iff s hcl a b na ha] at hab
    rw [reachable_true_iff s hcl b a nb hb]
    exact Relation.ReflTransGen.symmetric hinv.symm hab
  · intro hab hbc
    rw [reachable_true_iff s hcl a b na ha] at hab
    rw [reachable_true_iff s hcl b c nb hb] at hbc
    rw [reachable_true_iff s hcl a c na ha]
    exact hab.trans hbc

/-- C10 (witness). The endpoint `1`, the router `3` and the endpoint `2` of
the two-segment state. -/
theorem reachable_equivalence_witness :
    reachable two_segments 1 1 = some true ∧
      (reachable two_segments 1 3 = some true → reachable two_segments 3 1 = some true) ∧
      (reachable two_segments 1 3 = some true → reachable two_segments 3 2 = some true →
        reachable two_segments 1 2 = some true) :=
  reachable_equivalence two_segments two_segments_reachable 1 3 2 _ _ rfl rfl

/-! ## `disconnect` -/

theorem self_loop_reachable : Reachable self_loop :=
  Reachable.step _ _
    (Reachable.step _ _ Reachable.init (Step.add_endpoint [] 100 1 (by decide) rfl))
    (Step.connect _ 1 1 true self_loop rfl)

/-- For two distinct live nodes of a state whose neighbor sets are
duplicate-free, `a.disconnect(b)` returns true exactly when each is in the
neighbor set of the other, and then erases each from the set of the other. -/
theorem disconnect_eq (s : State) (a b : Ptr) (na nb : node) (hab : a ≠ b)
    (ha : deref s a = some na) (hb : deref s b = some nb) (ha0 : a ≠ 0) (hb0 : b ≠ 0) :
    disconnect s a b =
      some (decide (b ∈ na.connected ∧ a ∈ nb.connected),
        if b ∈ na.connected ∧ a ∈ nb.connected then
          modify (upd fun l => l.erase a) b (modify (upd fun l => l.erase b) a s)
        else s) := by
  unfold disconnect can_remove
  simp only [ha, hb, ha0, hb0, if_false]
  by_cases h1 : b ∈ na.connected
  · by_cases h2 : a ∈ nb.connected
    · have hd : deref (modify (upd fun l => l.erase b) a s) b = some nb := by
        rw [deref_modify_ne _ _ (fun e => hab e.symm), hb]
      simp only [h1, h2, decide_True, and_self, if_true, remove_eq s a b na ha h1,
        remove_eq _ b a nb hd h2]
    · simp [h1, h2]
  · simp [h1]

/-- C7 (failing input). The state in which the endpoint at address `1` is
its own neighbor is reachable through `add_endpoint` and `connect`, the
endpoint is connected to itself, and `disconnect` of the endpoint from itself
has no defined result: the second `remove` erases `end()`. -/
theorem disconnect_self_loop_undefined :
    Reachable self_loop ∧ connect (add_endpoint [] 100 1) 1 1 = some (true, self_loop) ∧
      (1 : Ptr) ∈ neighbors self_loop 1 ∧ can_remove self_loop 1 1 = some true ∧
      remove self_loop 1 1 = some (add_endpoint [] 100 1) ∧
      remove (add_endpoint [] 100 1) 1 1 = none ∧
      disconnect self_loop 1 1 = none :=
  ⟨self_loop_reachable, rfl, by decide, rfl, rfl, rfl, rfl⟩

/-! ## Addresses of the live nodes -/

theorem deref_eq_none_iff (s : State) (p : Ptr) : deref s p = none ↔ p ∉ s.map Prod.fst := by
  induction s with
  | nil => simp [deref]
  | cons e rest ih =>
    obtain ⟨k, x⟩ := e
    by_cases hk : k = p
    · subst hk
      simp [deref]
    · have hk2 : ¬ p = k := fun h => hk h.symm
      simp [deref, hk, hk2, ih]

theorem keys_sorted_alloc (p : Ptr) (nd : node) (s : State) (hs : keys_sorted s)
    (hfresh : deref s p = none) : keys_sorted (alloc p nd s) := by
  unfold keys_sorted at *
  induction s with
  | nil => simp [alloc]
  | cons e rest ih =>
    obtain ⟨k, x⟩ := e
    have hk : k ≠ p := by
      intro hkp
      simp [deref, hkp] at hfresh
    have hrest : deref rest p = none := by
      simpa [deref, hk] using hfresh
    simp only [List.map_cons, List.pairwise_cons] at hs
    unfold alloc
    by_cases hlt : p < k
    · rw [if_pos hlt]
      simp only [List.map_cons, List.pairwise_cons]
      refine ⟨?_, hs⟩
      intro z hz
      rcases List.mem_cons.mp hz with rfl | hz
      · exact hlt
      · exact lt_trans hlt (hs.1 z hz)
    · rw [if_neg hlt]
      simp only [List.map_cons, List.pairwise_cons]
      refine ⟨?_, ih hs.2 hrest⟩
      intro z hz
      have hz2 : z = p ∨ z ∈ rest.map Prod.fst := by
        clear ih hs hfresh hrest
        induction rest with
        | nil =>
          simp [alloc] at hz
          exact Or.inl hz
        | cons e2 rest2 ih2 =>
          obtain ⟨k2, x2⟩ := e2
          unfold alloc at hz
          split_ifs at hz
          · simp only [List.map_cons, List.mem_cons] at hz ⊢
            tauto
          · simp only [List.map_cons, List.mem_cons] at hz ⊢
            rcases hz with h | h
            · exact Or.inr (Or.inl h)
            · rcases ih2 h with h2 | h2
              · exact Or.inl h2
              · exact Or.inr (Or.inr h2)
      rcases hz2 with rfl | hz2
      · exact lt_of_le_of_ne (not_lt.mp hlt) hk
      · exact hs.1 z hz2

theorem keys_connect (s t : State) (a b : Ptr) (r : Bool) (h : connect s a b = some (r, t)) :
    t.map Prod.fst = s.map Prod.fst := by
  cases r with
  | false => rw [connect_false_inv s t a b h]
  | true =>
    obtain ⟨_, _, _, _, _, _, rfl⟩ := connect_true_inv s t a b h
    rw [map_fst_modify, map_fst_modify]

theorem keys_remove (s t : State) (a b : Ptr) (h : remove s a b = some t) :
    t.map Prod.fst = s.map Prod.fst := by
  unfold remove at h
  cases hd : deref s a with
  | none => simp [hd] at h
  | some nd =>
    simp only [hd] at h
    split_ifs at h
    simp only [Option.some.injEq] at h
    rw [← h, map_fst_modify]

theorem keys_disconnect (s t : State) (a b : Ptr) (r : Bool)
    (h : disconnect s a b = some (r, t)) : t.map Prod.fst = s.map Prod.fst := by
  cases r with
  | false => rw [disconnect_false_inv s t a b h]
  | true =>
    unfold disconnect at h
    cases hca : can_remove s a b with
    | none => simp [hca] at h
    | some ca =>
      cases ca with
      | false => simp [hca] at h
      | true =>
        cases hcb : can_remove s b a with
        | none => simp [hca, hcb] at h
        | some cb =>
          cases cb with
          | false => simp [hca, hcb] at h
          | true =>
            simp only [hca, hcb] at h
            cases h1 : remove s a b with
            | none => simp [h1] at h
            | some s1 =>
              cases h2 : remove s1 b a with
              | none => simp [h1, h2] at h
              | some s2 =>
                simp only [h1, h2, Option.some.injEq, Prod.mk.injEq, true_and] at h
                rw [← h, keys_remove s1 s2 b a h2, keys_remove s s1 a b h1]

theorem keys_sorted_step (s t : State) (hs : keys_sorted s) (h : Step s t) : keys_sorted t := by
  match h with
  | Step.add_endpoint _ seg p hp hfresh => exact keys_sorted_alloc p _ s hs hfresh
  | Step.add_bridge _ seg cap id p hp hfresh => exact keys_sorted_alloc p _ s hs hfresh
  | Step.add_router _ seg cap id p hp hfresh => exact keys_sorted_alloc p _ s hs hfresh
  | Step.connect _ a b r _ hc =>
    unfold keys_sorted
    rw [keys_connect s t a b r hc]
    exact hs
  | Step.disconnect _ a b r _ hd =>
    unfold keys_sorted
    rw [keys_disconnect s t a b r hd]
    exact hs
  | Step.fix_loops _ seg fuel _ hf =>
    refine fix_loops_induct keys_sorted ?_ fuel s t seg hs hf
    intro s1 a b r t1 hs1 hd
    unfold keys_sorted
    rw [keys_disconnect s1 t1 a b r hd]
    exact hs1

theorem keys_sorted_of_reachable (s : State) (h : Reachable s) : keys_sorted s := by
  induction h with
  | init => exact List.Pairwise.nil
  | step s t _ hst ih => exact keys_sorted_step s t ih hst

theorem keys_nodup (s : State) (h : keys_sorted s) : (s.map Prod.fst).Nodup :=
  h.imp (fun hlt => ne_of_lt hlt)

/-! ## Node creation -/

/-- C19 (counterexample). Two calls `add_bridge( 2, "A" )` and
`add_bridge( 3, "A" )` on one segment both create a bridge, so a reachable
segment holds two bridges with the identifier `A`; `add_router( 2, "" )`
creates a router with the empty identifier. -/
theorem add_bridge_duplicate_accepted :
    Reachable twin_bridges ∧
      deref twin_bridges 1 = some { _segment := 100, _type := node_type.BRIDGE, capacity := 2,
                                    _id := "A", connected := [] } ∧
      deref twin_bridges 2 = some { _segment := 100, _type := node_type.BRIDGE, capacity := 3,
                                    _id := "A", connected := [] } ∧
      Reachable (add_router [] 100 2 "" 1) ∧
      deref (add_router [] 100 2 "" 1) 1 =
        some { _segment := 100, _type := node_type.ROUTER, capacity := 2, _id := "",
               connected := [] } :=
  ⟨Reachable.step _ _
      (Reachable.step _ _ Reachable.init (Step.add_bridge [] 100 2 "A" 1 (by decide) rfl))
      (Step.add_bridge _ 100 3 "A" 2 (by decide) rfl),
    rfl, rfl,
    Reachable.step _ _ Reachable.init (Step.add_router [] 100 2 "" 1 (by decide) rfl),
    rfl⟩

/-- C19 (amended). `add_bridge` and `add_router` validate nothing: for every
reachable state, every segment and every identifier (empty or already in use
or not), the call creates, at the new address, a node of the requested kind
with the given identifier, the capacity converted to `std::size_t` and no
neighbors, leaves every other node as it is, and the result is a reachable
state again. -/
theorem add_node_unconditional (s : State) (seg : Ptr) (cap : Int) (id : String) (p : Ptr)
    (hs : Reachable s) (hp : p ≠ 0) (hfresh : deref s p = none) :
    (Reachable (add_bridge s seg cap id p) ∧
      deref (add_bridge s seg cap id p) p =
        some { _segment := seg, _type := node_type.BRIDGE, capacity := to_size_t cap,
               _id := id, connected := [] } ∧
      ∀ q, q ≠ p → deref (add_bridge s seg cap id p) q = deref s q) ∧
    (Reachable (add_router s seg cap id p) ∧
      deref (add_router s seg cap id p) p =
        some { _segment := seg, _type := node_type.ROUTER, capacity := to_size_t cap,
               _id := id, connected := [] } ∧
      ∀ q, q ≠ p → deref (add_router s seg cap id p) q = deref s q) := by
  refine ⟨⟨Reachable.step _ _ hs (Step.add_bridge s seg cap id p hp hfresh), ?_, ?_⟩,
    ⟨Reachable.step _ _ hs (Step.add_router s seg cap id p hp hfresh), ?_, ?_⟩⟩
  · unfold add_bridge
    rw [deref_alloc p p _ s hfresh, if_pos rfl]
  · intro q hq
    unfold add_bridge
    rw [deref_alloc p q _ s hfresh, if_neg hq]
  · unfold add_router
    rw [deref_alloc p p _ s hfresh, if_pos rfl]
  · intro q hq
    unfold add_router
    rw [deref_alloc p q _ s hfresh, if_neg hq]

/-- C19 (witness). A second bridge with the identifier `A` is added to a
segment that already owns one. -/
theorem add_node_unconditional_witness :
    (Reachable (add_bridge (add_bridge [] 100 2 "A" 1) 100 3 "A" 2) ∧
      deref (add_bridge (add_bridge [] 100 2 "A" 1) 100 3 "A" 2) 2 =
        some { _segment := 100, _type := node_type.BRIDGE, capacity := to_size_t 3,
               _id := "A", connected := [] } ∧
      ∀ q, q ≠ 2 → deref (add_bridge (add_bridge [] 100 2 "A" 1) 100 3 "A" 2) q =
        deref (add_bridge [] 100 2 "A" 1) q) ∧
    (Reachable (add_router (add_bridge [] 100 2 "A" 1) 100 3 "A" 2) ∧
      deref (add_router (add_bridge [] 100 2 "A" 1) 100 3 "A" 2) 2 =
        some { _segment := 100, _type := node_type.ROUTER, capacity := to_size_t 3,
               _id := "A", connected := [] } ∧
      ∀ q, q ≠ 2 → deref (add_router (add_bridge [] 100 2 "A" 1) 100 3 "A" 2) q =
        deref (add_bridge [] 100 2 "A" 1) q) :=
  add_node_unconditional (add_bridge [] 100 2 "A" 1) 100 3 "A" 2
    (Reachable.step _ _ Reachable.init (Step.add_bridge [] 100 2 "A" 1 (by decide) rfl))
    (by decide) rfl

/-! ## Disconnect followed by connect -/

theorem set_insert_erase (b : Ptr) (l : List Ptr) (h : l.Pairwise (· < ·)) (hb : b ∈ l) :
    set_insert b (l.erase b) = l := by
  induction l with
  | nil => cases hb
  | cons y ys ih =>
    rw [List.pairwise_cons] at h
    by_cases hby : y = b
    · subst hby
      rw [List.erase_cons_head]
      cases ys with
      | nil => rfl
      | cons z zs =>
        have hlt : y < z := h.1 z (List.mem_cons_self _ _)
        simp [set_insert, hlt]
    · have hb2 : b ∈ ys := by
        rcases List.mem_cons.mp hb with h1 | h1
        · exact absurd h1.symm hby
        · exact h1
      have hyb : y < b := h.1 b hb2
      have hnot : ¬ b < y := not_lt.mpr (le_of_lt hyb)
      have hne : ¬ b = y := fun e => hby e.symm
      rw [List.erase_cons_tail (by simpa using hby)]
      simp only [set_insert, hnot, hne, if_false]
      rw [ih h.2 hb2]

theorem modify_modify (f g : node → node) (p : Ptr) (s : State) :
    modify f p (modify g p s) = modify (f ∘ g) p s := by
  induction s with
  | nil => rfl
  | cons e rest ih =>
    obtain ⟨k, x⟩ := e
    by_cases hk : k = p <;> simp [modify, hk, ih]

theorem deref_of_mem (s : State) (hs : keys_sorted s) (k : Ptr) (x : node) (h : (k, x) ∈ s) :
    deref s k = some x := by
  induction s with
  | nil => cases h
  | cons e rest ih =>
    obtain ⟨k2, x2⟩ := e
    unfold keys_sorted at hs
    simp only [List.map_cons, List.pairwise_cons] at hs
    rcases List.mem_cons.mp h with h1 | h1
    · simp only [Prod.mk.injEq] at h1
      simp [deref, h1.1, h1.2]
    · have hmem : k ∈ rest.map Prod.fst := List.mem_map.mpr ⟨(k, x), h1, rfl⟩
      have hne : k2 ≠ k := ne_of_lt (hs.1 k hmem)
      simp only [deref, hne, if_false]
      exact ih hs.2 h1

theorem modify_eq_self (f : node → node) (p : Ptr) (s : State) (hs : keys_sorted s) (nd : node)
    (hp : deref s p = some nd) (hf : f nd = nd) : modify f p s = s := by
  have key : ∀ (l : State), (∀ e ∈ l, e ∈ s) → modify f p l = l := by
    intro l
    induction l with
    | nil => intro _; rfl
    | cons e rest ih =>
      intro hsub
      obtain ⟨k, x⟩ := e
      have hrest := ih (fun e he => hsub e (List.mem_cons_of_mem _ he))
      by_cases hk : k = p
      · have hx : deref s k = some x := deref_of_mem s hs k x (hsub _ (List.mem_cons_self _ _))
        rw [hk, hp] at hx
        have hx2 : nd = x := by simpa using hx
        simp [modify, hk, hrest, ← hx2, hf]
      · simp [modify, hk, hrest]
  exact key s (fun e he => he)

/-- C18. In every reachable state in which the distinct nodes `a` and `b`
are connected, `a.disconnect(b)` returns true, the following `b.connect(a)`
returns true, and the state after the two calls is the state before them; so
`serialize` gives the same result for every list of segments. -/
theorem disconnect_connect_identity (s : State) (h : Reachable s) (a b : Ptr) (hab : a ≠ b)
    (hconn : b ∈ neighbors s a) :
    ∃ t u, disconnect s a b = some (true, t) ∧ connect t b a = some (true, u) ∧ u = s ∧
      ∀ nets, serialize u nets = serialize s nets := by
  have hinv := inv_of_reachable s h
  have hkeys := keys_sorted_of_reachable s h
  obtain ⟨na, ha, hba⟩ := (mem_neighbors_iff s a b).mp hconn
  obtain ⟨nb, hb, hab2⟩ := hinv.symm a b ⟨na, ha, hba⟩
  have ha0 : a ≠ 0 := by
    intro e
    rw [e, hinv.closed.1] at ha
    cases ha
  have hb0 : b ≠ 0 := by
    intro e
    rw [e, hinv.closed.1] at hb
    cases hb
  have hdis := disconnect_eq s a b na nb hab ha hb ha0 hb0
  have hboth : b ∈ na.connected ∧ a ∈ nb.connected := ⟨hba, hab2⟩
  rw [decide_eq_true hboth, if_pos hboth] at hdis
  have hinvt := inv_disconnect s _ a b true hinv hdis
  have hT := deref_after_disconnect s a b
  have hsorta := hinv.sorted a na ha
  have hsortb := hinv.sorted b nb hb
  have hnda : na.connected.Nodup := hsorta.imp (fun hlt => ne_of_lt hlt)
  have hndb : nb.connected.Nodup := hsortb.imp (fun hlt => ne_of_lt hlt)
  have hba' : b ≠ a := fun e => hab e.symm
  have hta : deref (modify (upd fun l => l.erase a) b (modify (upd fun l => l.erase b) a s)) a
      = some (upd (fun l => l.erase b) na) := by
    rw [deref_modify_ne _ _ hab, deref_modify_self, ha]
    rfl
  have htb : deref (modify (upd fun l => l.erase a) b (modify (upd fun l => l.erase b) a s)) b
      = some (upd (fun l => l.erase a) nb) := by
    rw [deref_modify_self, deref_modify_ne _ _ hba', hb]
    rfl
  -- the policy of each node admits the other one again
  have hpol : ∀ (x y : Ptr) (nx ny : node), deref s x = some nx → deref s y = some ny →
      y ∈ nx.connected → nx.connected.Nodup → ∀ ny2 : node, ny2._segment = ny._segment →
      may_add (modify (upd fun l => l.erase a) b (modify (upd fun l => l.erase b) a s))
        (upd (fun l => l.erase y) nx) y ny2 := by
    intro x y nx ny hx hy hmem hnd ny2 hseg
    have hlen : (nx.connected.erase y).length < nx.connected.length := by
      have hpos := List.length_pos_of_mem hmem
      rw [List.length_erase_of_mem hmem]
      omega
    have hcap := hinv.cap x nx hx
    unfold may_add
    obtain ⟨seg, ty, cap, id, conn⟩ := nx
    cases ty with
    | ENDPOINT =>
      simp only [upd]
      simp only [get_capacity] at hcap
      simp only at hlen
      have : (conn.erase y).length = 0 := by omega
      exact List.length_eq_zero.mp this
    | BRIDGE =>
      simp only [upd]
      simp only [get_capacity] at hcap
      simp only at hlen hnd
      exact ⟨hnd.not_mem_erase, by omega⟩
    | ROUTER =>
      simp only [upd]
      simp only [get_capacity] at hcap
      simp only at hlen hnd hmem
      refine ⟨?_, by omega⟩
      intro i hi ni hni
      obtain ⟨ni0, hni0, rfl⟩ := deref_map_upd_some hT hni
      have hiy : i ≠ y := (hnd.mem_erase_iff.mp hi).1
      have himem : i ∈ conn := (hnd.mem_erase_iff.mp hi).2
      rw [hseg]
      exact hinv.router x _ hx rfl i himem y hmem hiy ni0 ny hni0 hy
  have hmb := hpol b a nb na hb ha hab2 hndb (upd (fun l => l.erase b) na) rfl
  have hma := hpol a b na nb ha hb hba hnda (upd (fun l => l.erase a) nb) rfl
  have hcb := (can_add_true_iff _ b a _ _ hinvt.closed htb hta).mpr hmb
  have hca := (can_add_true_iff _ a b _ _ hinvt.closed hta htb).mpr hma
  have hconnect := connect_eq _ b a _ _ htb hta true true hcb (fun _ => hca)
  simp only [Bool.and_self, if_true] at hconnect
  have hus : modify (upd (set_insert b)) a (modify (upd (set_insert a)) b
      (modify (upd fun l => l.erase a) b (modify (upd fun l => l.erase b) a s))) = s := by
    rw [modify_modify (upd (set_insert a)) (upd fun l => l.erase a) b,
      modify_comm _ _ b a hba', modify_modify (upd (set_insert b)) (upd fun l => l.erase b) a]
    have hfb : (upd (set_insert a) ∘ upd fun l => l.erase a) nb = nb := by
      show upd (set_insert a) (upd (fun l => l.erase a) nb) = nb
      simp only [upd, set_insert_erase a nb.connected hsortb hab2]
    have hfa : (upd (set_insert b) ∘ upd fun l => l.erase b) na = na := by
      show upd (set_insert b) (upd (fun l => l.erase b) na) = na
      simp only [upd, set_insert_erase b na.connected hsorta hba]
    rw [modify_eq_self _ b s hkeys nb hb hfb, modify_eq_self _ a s hkeys na ha hfa]
  have hus2 : modify (fun nd => { nd with connected := set_insert b nd.connected }) a
      (modify (fun nd => { nd with connected := set_insert a nd.connected }) b
        (modify (upd fun l => l.erase a) b (modify (upd fun l => l.erase b) a s))) = s := hus
  rw [hus2] at hconnect
  exact ⟨_, s, hdis, hconnect, rfl, fun _ => rfl⟩

/-- C18 (witness). The bridges `1` and `2` of the triangle. -/
theorem disconnect_connect_identity_witness :
    ∃ t u, disconnect triangle 1 2 = some (true, t) ∧ connect t 2 1 = some (true, u) ∧
      u = triangle ∧ ∀ nets, serialize u nets = serialize triangle nets :=
  disconnect_connect_identity triangle triangle_reachable 1 2 (by decide) (by decide)

/-! ## `node_cmp` and `get_node_vec` -/

theorem str_lt_iff (a b : String) : str_lt a b = true ↔ a < b := by
  unfold str_lt
  rw [decide_eq_true_iff]
  exact String.lt_iff_toList_lt.symm

theorem str_lt_total (a b : String) (h : a ≠ b) :
    (str_lt a b = true ∧ str_lt b a = false) ∨ (str_lt a b = false ∧ str_lt b a = true) := by
  have hf : ∀ x y : String, ¬ x < y → str_lt x y = false := by
    intro x y hxy
    cases hc : str_lt x y with
    | false => rfl
    | true => exact absurd ((str_lt_iff x y).mp hc) hxy
  rcases lt_or_gt_of_ne h with h1 | h1
  · exact Or.inl ⟨(str_lt_iff a b).mpr h1, hf b a (not_lt.mpr (le_of_lt h1))⟩
  · exact Or.inr ⟨hf a b (not_lt.mpr (le_of_lt h1)), (str_lt_iff b a).mpr h1⟩

theorem type_val_injective (t1 t2 : node_type) (h : type_val t1 = type_val t2) : t1 = t2 := by
  cases t1 <;> cases t2 <;> simp [type_val] at h <;> rfl

/-- Two distinct live endpoints are ordered by `node_cmp`, one way or the
other. -/
theorem node_cmp_endpoints (s : State) (hcl : closed s) (x y : Ptr) (dx dy : node)
    (hx : deref s x = some dx) (hy : deref s y = some dy)
    (tx : dx._type = node_type.ENDPOINT) (ty : dy._type = node_type.ENDPOINT) (hne : x ≠ y) :
    (node_cmp s x y = some true ∧ node_cmp s y x = some false) ∨
      (node_cmp s x y = some false ∧ node_cmp s y x = some true) := by
  have hne2 : y ≠ x := fun e => hne e.symm
  have hptr : (x < y ∧ ¬ y < x) ∨ (¬ x < y ∧ y < x) := by
    rcases lt_or_gt_of_ne hne with h | h
    · exact Or.inl ⟨h, not_lt.mpr (le_of_lt h)⟩
    · exact Or.inr ⟨not_lt.mpr (le_of_lt h), h⟩
  obtain ⟨segx, tyx, capx, idx, cx⟩ := dx
  obtain ⟨segy, tyy, capy, idy, cy⟩ := dy
  simp only at tx ty
  subst tx
  subst ty
  unfold node_cmp
  simp only [hne, hne2, if_false, hx, hy, ne_eq, not_true_eq_false]
  by_cases hlen : cx.length = cy.length
  · rw [if_neg (not_not.mpr hlen), if_neg (not_not.mpr hlen.symm)]
    cases cx with
    | nil =>
      have hcy : cy = [] := List.length_eq_zero.mp hlen.symm
      subst hcy
      simp only
      rcases hptr with ⟨h1, h2⟩ | ⟨h1, h2⟩
      · exact Or.inl ⟨by simp [h1], by simp [h2]⟩
      · exact Or.inr ⟨by simp [h1], by simp [h2]⟩
    | cons i1 r1 =>
      cases cy with
      | nil => simp at hlen
      | cons i2 r2 =>
        obtain ⟨e1, he1⟩ := hcl.2 x _ hx i1 (List.mem_cons_self _ _)
        obtain ⟨e2, he2⟩ := hcl.2 y _ hy i2 (List.mem_cons_self _ _)
        simp only [he1, he2]
        by_cases hty : e1._type = e2._type
        · rw [if_neg (not_not.mpr hty), if_neg (not_not.mpr hty.symm)]
          rcases hptr with ⟨h1, h2⟩ | ⟨h1, h2⟩
          · exact Or.inl ⟨by simp [h1], by simp [h2]⟩
          · exact Or.inr ⟨by simp [h1], by simp [h2]⟩
        · have hty2 : ¬ e2._type = e1._type := fun e => hty e.symm
          rw [if_pos hty, if_pos hty2]
          have hv : type_val e1._type ≠ type_val e2._type :=
            fun e => hty (type_val_injective _ _ e)
          rcases lt_or_gt_of_ne hv with h | h
          · exact Or.inl ⟨by simp [h], by simp [not_lt.mpr (le_of_lt h)]⟩
          · exact Or.inr ⟨by simp [not_lt.mpr (le_of_lt h)], by simp [h]⟩
  · have hlen2 : ¬ cy.length = cx.length := fun e => hlen e.symm
    rw [if_pos hlen, if_pos hlen2]
    rcases lt_or_gt_of_ne hlen with h | h
    · exact Or.inl ⟨by simp [h], by simp [not_lt.mpr (le_of_lt h)]⟩
    · exact Or.inr ⟨by simp [not_lt.mpr (le_of_lt h)], by simp [h]⟩

/-- Two live bridges, or two live routers, with different identifiers are
ordered by `node_cmp`, one way or the other. -/
theorem node_cmp_ids (s : State) (x y : Ptr) (dx dy : node)
    (hx : deref s x = some dx) (hy : deref s y = some dy) (hty : dx._type = dy._type)
    (hnot : dx._type ≠ node_type.ENDPOINT) (hid : get_id dx ≠ get_id dy) :
    (node_cmp s x y = some true ∧ node_cmp s y x = some false) ∨
      (node_cmp s x y = some false ∧ node_cmp s y x = some true) := by
  have hne : x ≠ y := by
    intro e
    rw [e, hy] at hx
    have : dy = dx := by simpa using hx
    exact hid (by rw [this])
  have hne2 : y ≠ x := fun e => hne e.symm
  have hnot2 : dy._type ≠ node_type.ENDPOINT := by rw [← hty]; exact hnot
  unfold node_cmp
  simp only [hne, hne2, if_false, hx, hy, hty, ne_eq, not_true_eq_false, hnot2,
    not_false_eq_true, if_true]
  rcases str_lt_total _ _ hid with h | h
  · exact Or.inl ⟨by rw [h.1], by rw [h.2]⟩
  · exact Or.inr ⟨by rw [h.1], by rw [h.2]⟩

/-- An element that the comparator orders against every element of the set
is inserted. -/
theorem cmp_insert_perm (s : State) (x : Ptr) (acc : List Ptr)
    (h : ∀ y ∈ acc, (node_cmp s x y = some true ∧ node_cmp s y x = some false) ∨
      (node_cmp s x y = some false ∧ node_cmp s y x = some true)) :
    ∃ r, cmp_insert s x acc = some r ∧ r.Perm (x :: acc) := by
  induction acc with
  | nil => exact ⟨[x], rfl, List.Perm.refl _⟩
  | cons y ys ih =>
    obtain ⟨r, hr, hperm⟩ := ih (fun z hz => h z (List.mem_cons_of_mem _ hz))
    unfold cmp_insert
    rcases h y (List.mem_cons_self _ _) with ⟨h1, _⟩ | ⟨h1, h2⟩
    · rw [h1]
      exact ⟨_, rfl, List.Perm.refl _⟩
    · rw [h1, h2, hr]
      exact ⟨_, rfl, (List.Perm.cons y hperm).trans (List.Perm.swap x y ys)⟩

theorem cmp_insert_all_perm (s : State) (l : List Ptr) :
    ∀ acc : List Ptr,
      (∀ x ∈ l ++ acc, ∀ y ∈ l ++ acc, x ≠ y →
        (node_cmp s x y = some true ∧ node_cmp s y x = some false) ∨
          (node_cmp s x y = some false ∧ node_cmp s y x = some true)) →
      (l ++ acc).Nodup →
      ∃ r, cmp_insert_all s l acc = some r ∧ r.Perm (l ++ acc) := by
  induction l with
  | nil =>
    intro acc _ _
    exact ⟨acc, rfl, List.Perm.refl _⟩
  | cons x xs ih =>
    intro acc hord hnd
    have hx : x ∉ xs ++ acc := (List.nodup_cons.mp hnd).1
    obtain ⟨r1, hr1, hp1⟩ := cmp_insert_perm s x acc (fun y hy =>
      hord x (List.mem_cons_self _ _) y
        (List.mem_cons_of_mem _ (List.mem_append_right _ hy))
        (fun e => hx (by rw [e]; exact List.mem_append_right _ hy)))
    have hp2 : (xs ++ r1).Perm (x :: xs ++ acc) :=
      ((List.Perm.refl xs).append hp1).trans List.perm_middle
    obtain ⟨r, hr, hp⟩ := ih r1
      (fun a ha b hb hab => hord a (hp2.subset ha) b (hp2.subset hb) hab)
      (hp2.nodup_iff.mpr hnd)
    refine ⟨r, ?_, hp.trans hp2⟩
    unfold cmp_insert_all
    rw [hr1]
    exact hr

theorem mem_nodes_of_kind (s : State) (hs : keys_sorted s) (seg : Ptr) (type : node_type)
    (p : Ptr) :
    p ∈ nodes_of_kind s seg type ↔
      ∃ nd, deref s p = some nd ∧ nd._segment = seg ∧ nd._type = type := by
  unfold nodes_of_kind
  rw [List.mem_map]
  constructor
  · rintro ⟨⟨k, x⟩, hmem, rfl⟩
    rw [List.mem_filter] at hmem
    simp only [Bool.and_eq_true, decide_eq_true_eq] at hmem
    exact ⟨x, deref_of_mem s hs k x hmem.1, hmem.2.1, hmem.2.2⟩
  · rintro ⟨nd, hd, hseg, hty⟩
    refine ⟨(p, nd), ?_, rfl⟩
    rw [List.mem_filter]
    simp only [Bool.and_eq_true, decide_eq_true_eq]
    exact ⟨mem_of_deref s p nd hd, hseg, hty⟩

theorem nodup_nodes_of_kind (s : State) (hs : keys_sorted s) (seg : Ptr) (type : node_type) :
    (nodes_of_kind s seg type).Nodup := by
  unfold nodes_of_kind
  exact ((List.filter_sublist _).map Prod.fst).nodup (keys_nodup s hs)

/-- In a state without dangling references, `get_node_vec` returns the nodes
of the requested kind of the segment, each once, provided that for bridges
and routers the identifiers are pairwise distinct. -/
theorem get_node_vec_perm (s : State) (hcl : closed s) (hs : keys_sorted s) (seg : Ptr)
    (type : node_type) (hid : type ≠ node_type.ENDPOINT → ids_distinct s seg type) :
    ∃ v, get_node_vec s seg type = some v ∧ v.Perm (nodes_of_kind s seg type) := by
  have hnd := nodup_nodes_of_kind s hs seg type
  obtain ⟨r, hr, hp⟩ := cmp_insert_all_perm s (nodes_of_kind s seg type) [] (by
    intro x hx y hy hxy
    rw [List.append_nil] at hx hy
    obtain ⟨dx, hdx, hsx, htx⟩ := (mem_nodes_of_kind s hs seg type x).mp hx
    obtain ⟨dy, hdy, hsy, hty⟩ := (mem_nodes_of_kind s hs seg type y).mp hy
    by_cases hep : type = node_type.ENDPOINT
    · exact node_cmp_endpoints s hcl x y dx dy hdx hdy (by rw [htx, hep]) (by rw [hty, hep]) hxy
    · exact node_cmp_ids s x y dx dy hdx hdy (by rw [htx, hty]) (by rw [htx]; exact hep)
        (hid hep x y dx dy hdx hdy hsx hsy htx hty hxy)) (by rw [List.append_nil]; exact hnd)
  rw [List.append_nil] at hp
  exact ⟨r, hr, hp⟩

theorem ids_distinct_of_check (s : State) (seg : Ptr) (type : node_type)
    (h : ids_distinct_check s seg type = true) : ids_distinct s seg type := by
  intro p q dp dq hp hq hsp hsq htp htq hpq
  unfold ids_distinct_check at h
  rw [List.all_eq_true] at h
  have h1 := h _ (mem_of_deref s p dp hp)
  rw [List.all_eq_true] at h1
  have h2 := h1 _ (mem_of_deref s q dq hq)
  simp only [hsp, hsq, htp, htq, decide_True, Bool.and_self, ne_eq, hpq, not_false_eq_true,
    Bool.not_true, Bool.false_or, decide_eq_true_eq] at h2
  exact h2

theorem neighbors_alloc (s : State) (p : Ptr) (nd : node) (hfresh : deref s p = none) :
    neighbors (alloc p nd s) p = nd.connected := by
  unfold neighbors
  rw [deref_alloc p p nd s hfresh, if_pos rfl]

/-! ## Round trips through `serialize` and `deserialize` -/

theorem bridge_foreign_router_reachable : Reachable bridge_foreign_router := by
  have h1 := Reachable.step _ _ Reachable.init
    (Step.add_bridge [] 100 2 "b" 1 (by decide) rfl)
  have h2 := Reachable.step _ _ h1 (Step.add_router _ 100 2 "r" 2 (by decide) rfl)
  have h3 := Reachable.step _ _ h2 (Step.add_router _ 200 2 "r" 3 (by decide) rfl)
  exact Reachable.step _ _ h3 (Step.connect _ 1 3 true bridge_foreign_router rfl)

theorem endpoint_foreign_router_reachable : Reachable endpoint_foreign_router := by
  have h1 := Reachable.step _ _ Reachable.init (Step.add_endpoint [] 100 1 (by decide) rfl)
  have h2 := Reachable.step _ _ h1 (Step.add_router _ 200 1 "r" 2 (by decide) rfl)
  exact Reachable.step _ _ h2 (Step.connect _ 1 2 true endpoint_foreign_router rfl)

theorem router_two_endpoints_reachable : Reachable router_two_endpoints := by
  have h1 := Reachable.step _ _ Reachable.init (Step.add_router [] 100 2 "r" 1 (by decide) rfl)
  have h2 := Reachable.step _ _ h1 (Step.add_endpoint _ 100 2 (by decide) rfl)
  have h3 := Reachable.step _ _ h2 (Step.add_endpoint _ 200 3 (by decide) rfl)
  have h4 := Reachable.step _ _ h3 (Step.connect _ 1 2 true _ rfl)
  exact Reachable.step _ _ h4 (Step.connect _ 3 1 true router_two_endpoints rfl)

theorem hub_low_first_reachable : Reachable hub_low_first := by
  have h1 := Reachable.step _ _ Reachable.init (Step.add_router [] 100 2 "c" 1 (by decide) rfl)
  have h2 := Reachable.step _ _ h1 (Step.add_router _ 200 1 "A" 2 (by decide) rfl)
  have h3 := Reachable.step _ _ h2 (Step.add_router _ 300 1 "A" 3 (by decide) rfl)
  have h4 := Reachable.step _ _ h3 (Step.connect _ 1 2 true _ rfl)
  exact Reachable.step _ _ h4 (Step.connect _ 1 3 true hub_low_first rfl)

theorem hub_high_first_reachable : Reachable hub_high_first := by
  have h1 := Reachable.step _ _ Reachable.init (Step.add_router [] 100 2 "c" 1 (by decide) rfl)
  have h2 := Reachable.step _ _ h1 (Step.add_router _ 300 1 "A" 2 (by decide) rfl)
  have h3 := Reachable.step _ _ h2 (Step.add_router _ 200 1 "A" 3 (by decide) rfl)
  have h4 := Reachable.step _ _ h3 (Step.connect _ 1 2 true _ rfl)
  exact Reachable.step _ _ h4 (Step.connect _ 1 3 true hub_high_first rfl)

set_option maxRecDepth 100000 in
/-- C14 (failing input). A bridge `b` and a router `r` in the first segment,
a router `r` in the second, the bridge connected to the router of the second
segment: the state is reachable, `deserialize` of its serialization connects
the bridge to the router of its own segment as well, and serializing the
result gives a different text. -/
theorem round_trip_not_idempotent :
    Reachable bridge_foreign_router ∧
      serialize bridge_foreign_router [100, 200] = some bridge_foreign_router_text ∧
      deserialize (fun i => 1000 + i) (fun k => k + 1) bridge_foreign_router_text =
        some (bridge_foreign_router_loaded, [1000, 1001]) ∧
      serialize bridge_foreign_router_loaded [1000, 1001] = some bridge_foreign_router_text2 ∧
      bridge_foreign_router_text ≠ bridge_foreign_router_text2 :=
  ⟨bridge_foreign_router_reachable, rfl, rfl, rfl, by decide⟩

set_option maxRecDepth 100000 in
/-- C15 (failing input). An endpoint of the first segment connected to a
router of the second: the state is reachable, the endpoint reaches the
router, and `deserialize` of its serialization has no result, because
`connect_endpoint` looks for a free endpoint in the router's own segment and
the assertion on its result fails. -/
theorem deserialize_fails_on_foreign_endpoint :
    Reachable endpoint_foreign_router ∧
      reachable endpoint_foreign_router 1 2 = some true ∧
      serialize endpoint_foreign_router [100, 200] = some endpoint_foreign_router_text ∧
      deserialize (fun i => 1000 + i) (fun k => k + 1) endpoint_foreign_router_text = none :=
  ⟨endpoint_foreign_router_reachable, rfl, rfl, rfl⟩

set_option maxRecDepth 100000 in
/-- C16 (failing input). A router `r` connected to an endpoint of its own
segment and to an endpoint of another segment: the state is reachable, the
only identifier is `r`, and `deserialize` of its serialization has no result:
the record of the router carries `e_count= 2` and its own segment has one
endpoint. -/
theorem deserialize_fails_on_inventory :
    Reachable router_two_endpoints ∧
      ids_distinct router_two_endpoints 100 node_type.ROUTER ∧
      serialize router_two_endpoints [100, 200] = some router_two_endpoints_text ∧
      deserialize (fun i => 1000 + i) (fun k => k + 1) router_two_endpoints_text = none :=
  ⟨router_two_endpoints_reachable, ids_distinct_of_check _ _ _ (by decide), rfl, rfl⟩

set_option maxRecDepth 100000 in
/-- C17 (failing input). Two reachable states that differ only in the
addresses of two routers, with a bijection that preserves segment index,
kind, identifier, capacity and neighbors, have different serializations: the
record of the router `c` names the router `A` of the segment with index `1`
in one and of the segment with index `2` in the other. -/
theorem serialize_not_canonical :
    Reachable hub_low_first ∧ Reachable hub_high_first ∧
      (∀ p ∈ [1, 2, 3],
        (deref hub_high_first (hub_swap p)).map (node_view [100, 200, 300] id) =
          (deref hub_low_first p).map (node_view [100, 200, 300] hub_swap)) ∧
      serialize hub_low_first [100, 200, 300] ≠ serialize hub_high_first [100, 200, 300] ∧
      node_to_string hub_low_first 1 [100, 200, 300] =
        some "node\x7b type= router id= c capacity= 2 connected=( 1:r_A ) e_count= 0 \x7d" ∧
      node_to_string hub_high_first 1 [100, 200, 300] =
        some "node\x7b type= router id= c capacity= 2 connected=( 2:r_A ) e_count= 0 \x7d" :=
  ⟨hub_low_first_reachable, hub_high_first_reachable, by decide, by decide, rfl, rfl⟩

/-! ## Forests have no cycle -/

theorem within_mono {E : Ptr → Ptr → Prop} {R Q : Ptr → Prop} (h : ∀ a, R a → Q a) {x y : Ptr}
    (p : Relation.ReflTransGen (within E R) x y) : Relation.ReflTransGen (within E Q) x y :=
  p.mono fun _ _ hab => ⟨hab.1, h _ hab.2.1, h _ hab.2.2⟩

/-- A path that starts outside a set and ends inside it has a step that
enters the set. -/
theorem path_enters (A : Ptr → Ptr → Prop) (D : Ptr → Prop) (x y : Ptr)
    (p : Relation.ReflTransGen A x y) (hx : ¬ D x) (hy : D y) :
    ∃ u v, A u v ∧ ¬ D u ∧ D v := by
  induction p with
  | refl => exact absurd hy hx
  | tail _ hstep ih =>
    rename_i b c hpath
    by_cases hb : D b
    · exact ih hb
    · exact ⟨b, c, hstep, hb, hy⟩

/-- If every connection joins a node with its parent in a forest given by a
parent map and a depth map, then no connection lies on a cycle: the
connection from a node `x` to its child `y` is the only way into the subtree
of `y`. -/
theorem forest_child_bridge (E : Ptr → Ptr → Prop) (par : Ptr → Ptr) (dep : Ptr → Nat)
    (hclass : ∀ x y, E x y → edge_class par dep x y) (x y : Ptr)
    (hxy : par y = x ∧ dep y = dep x + 1) :
    ¬ Relation.ReflTransGen (fun u v => E u v ∧ ¬(u = x ∧ v = y) ∧ ¬(u = y ∧ v = x)) x y := by
  intro hpath
  have hDx : ¬ ∃ k, par^[k] x = y ∧ dep x = dep y + k := by
    rintro ⟨k, _, hk⟩
    omega
  have hDy : ∃ k, par^[k] y = y ∧ dep y = dep y + k := ⟨0, rfl, rfl⟩
  obtain ⟨u, v, ⟨hE, hne1, _⟩, hu, ⟨k, hk1, hk2⟩⟩ :=
    path_enters _ (fun v => ∃ k, par^[k] v = y ∧ dep v = dep y + k) x y hpath hDx hDy
  rcases hclass u v hE with ⟨h1, h2⟩ | ⟨h1, h2⟩
  · apply hu
    refine ⟨k + 1, ?_, by omega⟩
    rw [Function.iterate_succ_apply, h1, hk1]
  · cases k with
    | zero =>
      simp only [Function.iterate_zero, id_eq] at hk1
      apply hne1
      rw [hk1] at h1
      exact ⟨by rw [← h1, hxy.1], hk1⟩
    | succ k2 =>
      apply hu
      refine ⟨k2, ?_, by omega⟩
      rw [Function.iterate_succ_apply, h1] at hk1
      exact hk1

theorem forest_no_cycle (E : Ptr → Ptr → Prop) (par : Ptr → Ptr) (dep : Ptr → Nat)
    (hsymm : ∀ x y, E x y → E y x) (hclass : ∀ x y, E x y → edge_class par dep x y)
    (x y : Ptr) (hE : E x y) :
    ¬ Relation.ReflTransGen (fun u v => E u v ∧ ¬(u = x ∧ v = y) ∧ ¬(u = y ∧ v = x)) x y := by
  rcases hclass x y hE with h | h
  · intro hpath
    have hrev : Relation.ReflTransGen
        (fun u v => E u v ∧ ¬(u = y ∧ v = x) ∧ ¬(u = x ∧ v = y)) y x := by
      have hsym : Symmetric (fun u v => E u v ∧ ¬(u = y ∧ v = x) ∧ ¬(u = x ∧ v = y)) := by
        intro u v huv
        exact ⟨hsymm u v huv.1, fun e => huv.2.2 ⟨e.2, e.1⟩, fun e => huv.2.1 ⟨e.2, e.1⟩⟩
      apply Relation.ReflTransGen.symmetric hsym
      exact hpath.mono fun u v huv => ⟨huv.1, huv.2.2, huv.2.1⟩
    exact forest_child_bridge E par dep hclass y x h hrev
  · exact forest_child_bridge E par dep hclass x y h

/-! ## `find_cycle` -/

theorem seg_edge_symm (s : State) (hinv : Inv s) (seg x y : Ptr) (h : seg_edge s seg x y) :
    seg_edge s seg y x := by
  obtain ⟨nx, ny, hx, hy, hmem, hsx, hsy⟩ := h
  obtain ⟨nd, hd, hmem2⟩ := hinv.symm x y ⟨nx, hx, hmem⟩
  rw [hy] at hd
  have e : ny = nd := by simpa using hd
  rw [← e] at hmem2
  exact ⟨ny, nx, hy, hx, hmem2, hsy, hsx⟩

theorem seg_edge_of_mem (s : State) (seg x y : Ptr) (nx ny : node) (hx : deref s x = some nx)
    (hy : deref s y = some ny) (hmem : y ∈ nx.connected) (hsx : nx._segment = seg)
    (hsy : ny._segment = seg) : seg_edge s seg x y :=
  ⟨nx, ny, hx, hy, hmem, hsx, hsy⟩

theorem cycle_inv_tail (s : State) (seg : Ptr) (entry : List Ptr) (current : Ptr)
    (par : Ptr → Ptr) (dep : Ptr → Nat) (i : Ptr) (rest w : List Ptr) (par1 : Ptr → Ptr)
    (dep1 : Ptr → Nat) (h : cycle_inv s seg entry current par dep (i :: rest) w par1 dep1) :
    cycle_inv s seg entry current par dep rest w par1 dep1 where
  sub := h.sub
  conn := fun v hv hve => by
    obtain ⟨c, hc1, hc2, hc3, hc4, hc5⟩ := h.conn v hv hve
    exact ⟨c, hc1, hc2, fun hm => hc3 (List.mem_cons_of_mem _ hm), hc4, hc5⟩
  agree := h.agree
  cls := h.cls

theorem cycle_inv_init (s : State) (seg : Ptr) (entry : List Ptr) (current : Ptr)
    (par : Ptr → Ptr) (dep : Ptr → Nat) (l : List Ptr) :
    cycle_inv s seg entry current par dep l entry par dep where
  sub := List.Subset.refl _
  conn := fun _ hv hve => absurd hv hve
  agree := fun _ _ => ⟨rfl, rfl⟩
  cls := fun _ hv hve => absurd hv hve

/-- A neighbor of `current` that is already visited and is not the node the
search came from closes a cycle. -/
theorem back_edge_on_cycle (s : State) (hinv : Inv s) (seg : Ptr) (done entry : List Ptr)
    (src current : Ptr) (par : Ptr → Ptr) (dep : Ptr → Nat)
    (hpre : cycle_pre s seg done entry src current par dep) (i : Ptr) (rest w : List Ptr)
    (par1 : Ptr → Ptr) (dep1 : Ptr → Nat)
    (hl : cycle_inv s seg entry current par dep (i :: rest) w par1 dep1)
    (hE : seg_edge s seg current i) (hiw : i ∈ w) (hisrc : i ≠ src) :
    on_cycle s seg current i := by
  refine ⟨hE, ?_⟩
  by_cases hic : i = current
  · rw [hic]
  have hidone : i ∉ done := by
    intro hd
    exact hpre.cur_new (hpre.done_closed i hd current (seg_edge_symm s hinv seg _ _ hE))
  by_cases hie : i ∈ entry
  · obtain ⟨hsrc0, hpath⟩ := hpre.conn i hie hidone hic
    rcases hpre.parent with h0 | ⟨_, _, hsc, hEs, _, _⟩
    · exact absurd h0 hsrc0
    · refine Relation.ReflTransGen.head
        ⟨hEs, fun e => hisrc e.2.symm, fun e => hsc e.2⟩ ?_
      exact hpath.mono fun a b hab =>
        ⟨hab.1, fun e => hab.2.1.2.2 e.1, fun e => hab.2.2.2.2 e.2⟩
  · obtain ⟨c, _, hce, hcl, hEc, hpath⟩ := hl.conn i hiw hie
    have hci : c ≠ i := fun e => hcl (by rw [e]; exact List.mem_cons_self _ _)
    have hcc : c ≠ current := fun e => hce (by rw [e]; exact hpre.cur_mem)
    refine Relation.ReflTransGen.head ⟨hEc, fun e => hci e.2, fun e => hcc e.2⟩ ?_
    refine hpath.mono fun a b hab => ⟨hab.1, fun e => ?_, fun e => ?_⟩
    · exact hab.2.1.2 (by rw [e.1]; exact hpre.cur_mem)
    · exact hab.2.2.2 (by rw [e.2]; exact hpre.cur_mem)

/-- The call of `find_cycle` for an unvisited neighbor `i` of `current`
satisfies the hypotheses of a call again. -/
theorem child_pre (s : State) (hinv : Inv s) (seg : Ptr) (done entry : List Ptr)
    (src current : Ptr) (par : Ptr → Ptr) (dep : Ptr → Nat)
    (hpre : cycle_pre s seg done entry src current par dep) (i : Ptr) (rest w : List Ptr)
    (par1 : Ptr → Ptr) (dep1 : Ptr → Nat)
    (hl : cycle_inv s seg entry current par dep (i :: rest) w par1 dep1)
    (hE : seg_edge s seg current i) (hiw : i ∉ w) :
    cycle_pre s seg done (set_insert i w) current i (Function.update par1 i current)
      (Function.update dep1 i (dep1 current + 1)) := by
  have hcw : current ∈ w := hl.sub hpre.cur_mem
  have hci : current ≠ i := fun e => hiw (by rw [← e]; exact hcw)
  have hc0 : current ≠ 0 := by
    intro e
    obtain ⟨nc, hnc, _⟩ := hpre.cur_live
    rw [e, hinv.closed.1] at hnc
    cases hnc
  obtain ⟨nx, ny, hx, hy, hmem, hsx, hsy⟩ := hE
  have hE : seg_edge s seg current i := ⟨nx, ny, hx, hy, hmem, hsx, hsy⟩
  have hreg : ∀ a, a ∈ w → a ∉ done → (a ∈ set_insert i w ∧ a ∉ done ∧ a ≠ i) :=
    fun a ha had => ⟨(mem_set_insert a i w).mpr (Or.inr ha), had,
      fun e => hiw (by rw [← e]; exact ha)⟩
  constructor
  · exact ⟨ny, hy, hsy⟩
  · exact (mem_set_insert i i w).mpr (Or.inl rfl)
  · exact fun hd => hiw (hl.sub (hpre.done_sub hd))
  · exact fun a ha => (mem_set_insert a i w).mpr (Or.inr (hl.sub (hpre.done_sub ha)))
  · exact hpre.done_closed
  · right
    refine ⟨(mem_set_insert current i w).mpr (Or.inr hcw), hpre.cur_new, hci,
      seg_edge_symm s hinv seg _ _ hE, ?_, ?_⟩
    · rw [Function.update_same]
    · rw [Function.update_same, Function.update_noteq hci]
  · intro v hv hvd hvi
    refine ⟨hc0, ?_⟩
    have hvw : v ∈ w := by
      rcases (mem_set_insert v i w).mp hv with e | h
      · exact absurd e hvi
      · exact h
    by_cases hvc : v = current
    · rw [hvc]
    by_cases hve : v ∈ entry
    · obtain ⟨hsrc0, hpath⟩ := hpre.conn v hve hvd hvc
      rcases hpre.parent with h0 | ⟨hse, hsd, _, hEs, _, _⟩
      · exact absurd h0 hsrc0
      · refine Relation.ReflTransGen.head
          ⟨hEs, hreg current hcw hpre.cur_new, hreg src (hl.sub hse) hsd⟩ ?_
        exact within_mono (fun a ha => hreg a (hl.sub ha.1) ha.2.1) hpath
    · obtain ⟨c, hcw2, hce, _, hEc, hpath⟩ := hl.conn v hvw hve
      have hcd : c ∉ done := fun hd => hce (hpre.done_sub hd)
      refine Relation.ReflTransGen.head
        ⟨hEc, hreg current hcw hpre.cur_new, hreg c hcw2 hcd⟩ ?_
      exact within_mono (fun a ha => hreg a ha.1 (fun hd => ha.2 (hpre.done_sub hd))) hpath

/-- When the call for the unvisited neighbor `i` returns false, the loop
invariant holds for the remaining neighbors, and `i` is a child of
`current` in the search tree. -/
theorem child_done (s : State) (seg : Ptr) (done entry : List Ptr)
    (src current : Ptr) (par : Ptr → Ptr) (dep : Ptr → Nat)
    (hpre : cycle_pre s seg done entry src current par dep) (i : Ptr) (rest w : List Ptr)
    (par1 : Ptr → Ptr) (dep1 : Ptr → Nat)
    (hl : cycle_inv s seg entry current par dep (i :: rest) w par1 dep1) (hnd : i ∉ rest)
    (hE : seg_edge s seg current i) (hiw : i ∉ w) (w1 : List Ptr) (p q : Ptr × Ptr)
    (hpost : cycle_post s seg (set_insert i w) current i (Function.update par1 i current)
      (Function.update dep1 i (dep1 current + 1)) p false w1 q) :
    q = p ∧ set_insert i w ⊆ w1 ∧ ∃ par2 dep2,
      cycle_inv s seg entry current par dep rest w1 par2 dep2 ∧
      (∀ v ∈ w, par2 v = par1 v ∧ dep2 v = dep1 v) ∧
      (i ∈ w1 ∧ i ∉ entry ∧ par2 i = current ∧ dep2 i = dep2 current + 1) := by
  obtain ⟨hsub1, _, hfalse⟩ := hpost
  obtain ⟨hq, hconn, par2, dep2, hag, hcls, hnb⟩ := hfalse rfl
  have hcw : current ∈ w := hl.sub hpre.cur_mem
  have hci : current ≠ i := fun e => hiw (by rw [← e]; exact hcw)
  have hins : ∀ a, a ∈ w → a ∈ set_insert i w :=
    fun a ha => (mem_set_insert a i w).mpr (Or.inr ha)
  have hii : i ∈ set_insert i w := (mem_set_insert i i w).mpr (Or.inl rfl)
  have hww1 : w ⊆ w1 := fun a ha => hsub1 (hins a ha)
  have hiw1 : i ∈ w1 := hsub1 hii
  have hie : i ∉ entry := fun h => hiw (hl.sub h)
  have hagw : ∀ v ∈ w, par2 v = par1 v ∧ dep2 v = dep1 v := by
    intro v hv
    have hvi : v ≠ i := fun e => hiw (by rw [← e]; exact hv)
    obtain ⟨h1, h2⟩ := hag v (hins v hv)
    rw [Function.update_noteq hvi] at h1 h2
    exact ⟨h1, h2⟩
  have hpi : par2 i = current := by
    rw [(hag i hii).1, Function.update_same]
  have hdi : dep2 i = dep2 current + 1 := by
    rw [(hag i hii).2, Function.update_same, (hagw current hcw).2]
  refine ⟨hq, hsub1, par2, dep2, ?_, hagw, ⟨hiw1, hie, hpi, hdi⟩⟩
  constructor
  · exact fun a ha => hww1 (hl.sub ha)
  · intro v hv hve
    by_cases hvw : v ∈ w
    · obtain ⟨c, hc1, hc2, hc3, hc4, hc5⟩ := hl.conn v hvw hve
      exact ⟨c, hww1 hc1, hc2, fun hm => hc3 (List.mem_cons_of_mem _ hm), hc4,
        within_mono (fun a ha => ⟨hww1 ha.1, ha.2⟩) hc5⟩
    · by_cases hvi : v = i
      · rw [hvi]
        exact ⟨i, hiw1, hie, hnd, hE, Relation.ReflTransGen.refl⟩
      · have hvs : v ∉ set_insert i w := by
          rw [mem_set_insert]
          exact fun h => h.elim hvi hvw
        refine ⟨i, hiw1, hie, hnd, hE, within_mono ?_ (hconn v hv hvs)⟩
        intro a ha
        rcases ha with e | ⟨h1, h2⟩
        · rw [e]
          exact ⟨hiw1, hie⟩
        · exact ⟨h1, fun h => h2 (hins a (hl.sub h))⟩
  · intro v hv
    obtain ⟨h1, h2⟩ := hagw v (hl.sub hv)
    obtain ⟨h3, h4⟩ := hl.agree v hv
    exact ⟨h1.trans h3, h2.trans h4⟩
  · intro v hv hve y hy
    by_cases hvw : v ∈ w
    · obtain ⟨hyw, hc⟩ := hl.cls v hvw hve y hy
      refine ⟨hww1 hyw, ?_⟩
      unfold edge_class at hc ⊢
      rw [(hagw v hvw).1, (hagw v hvw).2, (hagw y hyw).1, (hagw y hyw).2]
      exact hc
    · by_cases hvi : v = i
      · rw [hvi] at hy ⊢
        rcases hnb y hy with e | ⟨h1, _, h3, h4⟩
        · rw [e]
          exact ⟨hww1 hcw, Or.inl ⟨hpi, hdi⟩⟩
        · exact ⟨h1, Or.inr ⟨h3, h4⟩⟩
      · have hvs : v ∉ set_insert i w := by
          rw [mem_set_insert]
          exact fun h => h.elim hvi hvw
        exact hcls v hv hvs y hy

/-- The loop of `find_cycle` over the neighbors of `current`, given that the
recursive calls behave as specified. -/
theorem find_cycle_loop_spec (s : State) (hinv : Inv s) (seg : Ptr) (done entry : List Ptr)
    (src current : Ptr) (par : Ptr → Ptr) (dep : Ptr → Nat)
    (hpre : cycle_pre s seg done entry src current par dep) (nc : node)
    (hnc : deref s current = some nc) (hseg : nc._segment = seg) (fuel : Nat)
    (call : List Ptr → Ptr → Ptr × Ptr → Option (Bool × List Ptr × (Ptr × Ptr)))
    (hcall : ∀ visited2 cur2 par2 dep2 p2,
      cycle_pre s seg done visited2 current cur2 par2 dep2 → unvisited s visited2 < fuel →
      ∃ found w q, call visited2 cur2 p2 = some (found, w, q) ∧
        cycle_post s seg visited2 current cur2 par2 dep2 p2 found w q) :
    ∀ (l w : List Ptr) (p : Ptr × Ptr) (par1 : Ptr → Ptr) (dep1 : Ptr → Nat),
      (∀ i ∈ l, i ∈ nc.connected) → l.Nodup →
      cycle_inv s seg entry current par dep l w par1 dep1 → unvisited s w ≤ fuel →
      ∃ found w2 q, find_cycle_loop s call src current seg l w p = some (found, w2, q) ∧
        w ⊆ w2 ∧ (found = true → on_cycle s seg q.1 q.2) ∧
        (found = false → q = p ∧ ∃ par2 dep2,
          cycle_inv s seg entry current par dep [] w2 par2 dep2 ∧
          (∀ v ∈ w, par2 v = par1 v ∧ dep2 v = dep1 v) ∧
          ∀ y ∈ l, seg_edge s seg current y →
            y = src ∨ (y ∈ w2 ∧ y ∉ entry ∧ par2 y = current ∧ dep2 y = dep2 current + 1)) := by
  intro l
  induction l with
  | nil =>
    intro w p par1 dep1 _ _ hl _
    refine ⟨false, w, p, rfl, List.Subset.refl _, (fun h => by cases h), fun _ => ⟨rfl, ?_⟩⟩
    exact ⟨par1, dep1, hl, fun _ _ => ⟨rfl, rfl⟩, fun y hy => by cases hy⟩
  | cons i rest ih =>
    intro w p par1 dep1 hmem hnd hl hfuel
    have hi : i ∈ nc.connected := hmem i (List.mem_cons_self _ _)
    have hmem2 : ∀ j ∈ rest, j ∈ nc.connected := fun j hj => hmem j (List.mem_cons_of_mem _ hj)
    have hnd2 : rest.Nodup := (List.nodup_cons.mp hnd).2
    have hir : i ∉ rest := (List.nodup_cons.mp hnd).1
    obtain ⟨ni, hni⟩ := hinv.closed.2 current nc hnc i hi
    unfold find_cycle_loop
    simp only [hni]
    by_cases hsi : ni._segment = seg
    · have hE : seg_edge s seg current i := ⟨nc, ni, hnc, hni, hi, hseg, hsi⟩
      rw [if_neg (not_not.mpr hsi)]
      by_cases hiw : i ∈ w
      · rw [if_pos hiw]
        by_cases hisrc : i = src
        · rw [if_neg (not_not.mpr hisrc)]
          obtain ⟨found, w2, q, hrun, hsub, htrue, hfalse⟩ :=
            ih w p par1 dep1 hmem2 hnd2 (cycle_inv_tail s seg entry current par dep i rest w
              par1 dep1 hl) hfuel
          refine ⟨found, w2, q, hrun, hsub, htrue, fun hf => ?_⟩
          obtain ⟨hq, par2, dep2, hinv2, hag, hch⟩ := hfalse hf
          refine ⟨hq, par2, dep2, hinv2, hag, fun y hy hEy => ?_⟩
          rcases List.mem_cons.mp hy with e | hy2
          · exact Or.inl (e.trans hisrc)
          · exact hch y hy2 hEy
        · rw [if_pos hisrc]
          refine ⟨true, w, (current, i), rfl, List.Subset.refl _, fun _ => ?_,
            fun h => by cases h⟩
          exact back_edge_on_cycle s hinv seg done entry src current par dep hpre i rest w
            par1 dep1 hl hE hiw hisrc
      · rw [if_neg hiw]
        have hpre2 := child_pre s hinv seg done entry src current par dep hpre i rest w
          par1 dep1 hl hE hiw
        have hlt : unvisited s (set_insert i w) < fuel :=
          lt_of_lt_of_le (unvisited_insert_lt s w i ni hni hiw) hfuel
        obtain ⟨found1, w1, q1, hrun1, hpost1⟩ :=
          hcall (set_insert i w) i (Function.update par1 i current)
            (Function.update dep1 i (dep1 current + 1)) p hpre2 hlt
        rw [hrun1]
        cases found1 with
        | true =>
          refine ⟨true, w1, q1, rfl, ?_, fun _ => hpost1.2.1 rfl, fun h => by cases h⟩
          exact fun a ha => hpost1.1 ((mem_set_insert a i w).mpr (Or.inr ha))
        | false =>
          obtain ⟨hq1, hsub1, par2, dep2, hinv2, hag2, hc1, hc2, hc3, hc4⟩ :=
            child_done s seg done entry src current par dep hpre i rest w par1 dep1 hl hir
              hE hiw w1 p q1 hpost1
          have hww1 : w ⊆ w1 := fun a ha => hsub1 ((mem_set_insert a i w).mpr (Or.inr ha))
          have hfuel1 : unvisited s w1 ≤ fuel :=
            le_trans (unvisited_mono s w w1 hww1) hfuel
          obtain ⟨found, w2, q, hrun, hsub, htrue, hfalse⟩ :=
            ih w1 q1 par2 dep2 hmem2 hnd2 hinv2 hfuel1
          refine ⟨found, w2, q, hrun, fun a ha => hsub (hww1 ha), htrue, fun hf => ?_⟩
          obtain ⟨hq, par3, dep3, hinv3, hag3, hch⟩ := hfalse hf
          have hcw : current ∈ w1 := hww1 (hl.sub hpre.cur_mem)
          refine ⟨hq.trans hq1, par3, dep3, hinv3, fun v hv => ?_, fun y hy hEy => ?_⟩
          · obtain ⟨h1, h2⟩ := hag3 v (hww1 hv)
            obtain ⟨h3, h4⟩ := hag2 v hv
            exact ⟨h1.trans h3, h2.trans h4⟩
          · rcases List.mem_cons.mp hy with e | hy2
            · right
              rw [e]
              refine ⟨hsub hc1, hc2, ?_, ?_⟩
              · rw [(hag3 i hc1).1, hc3]
              · rw [(hag3 i hc1).2, (hag3 current hcw).2, hc4]
            · exact hch y hy2 hEy
    · rw [if_pos hsi]
      obtain ⟨found, w2, q, hrun, hsub, htrue, hfalse⟩ :=
        ih w p par1 dep1 hmem2 hnd2 (cycle_inv_tail s seg entry current par dep i rest w
          par1 dep1 hl) hfuel
      refine ⟨found, w2, q, hrun, hsub, htrue, fun hf => ?_⟩
      obtain ⟨hq, par2, dep2, hinv2, hag, hch⟩ := hfalse hf
      refine ⟨hq, par2, dep2, hinv2, hag, fun y hy hEy => ?_⟩
      rcases List.mem_cons.mp hy with e | hy2
      · exfalso
        obtain ⟨_, ny, _, hy3, _, _, hsy⟩ := hEy
        rw [e, hni] at hy3
        have e2 : ni = ny := by simpa using hy3
        exact hsi (by rw [e2]; exact hsy)
      · exact hch y hy2 hEy

/-- Specification of `network::find_cycle`: with enough fuel the call
returns; a reported pair lies on a cycle of the segment; and when it returns
false, the newly visited nodes form a tree below `current`. -/
theorem find_cycle_spec (s : State) (hinv : Inv s) (seg : Ptr) (done : List Ptr) :
    ∀ (fuel : Nat) (visited : List Ptr) (src current : Ptr) (par : Ptr → Ptr) (dep : Ptr → Nat)
      (p : Ptr × Ptr), cycle_pre s seg done visited src current par dep →
      unvisited s visited < fuel →
      ∃ found w q, find_cycle fuel s visited src current p = some (found, w, q) ∧
        cycle_post s seg visited src current par dep p found w q := by
  intro fuel
  induction fuel with
  | zero => exact fun _ _ _ _ _ _ _ h => absurd h (Nat.not_lt_zero _)
  | succ k ih =>
    intro visited src current par dep p hpre hfuel
    obtain ⟨nc, hnc, hseg⟩ := hpre.cur_live
    have hnd : nc.connected.Nodup :=
      (hinv.sorted current nc hnc).imp fun h => Nat.ne_of_lt h
    obtain ⟨found, w2, q, hrun, hsub, htrue, hfalse⟩ :=
      find_cycle_loop_spec s hinv seg done visited src current par dep hpre nc hnc hseg k
        (fun v i q => find_cycle k s v current i q)
        (fun visited2 cur2 par2 dep2 p2 hp hl => ih visited2 current cur2 par2 dep2 p2 hp hl)
        nc.connected visited p par dep (fun _ h => h) hnd
        (cycle_inv_init s seg visited current par dep nc.connected) (Nat.lt_succ_iff.mp hfuel)
    refine ⟨found, w2, q, ?_, hsub, htrue, fun hf => ?_⟩
    · rw [find_cycle]
      simp only [hnc]
      rw [hseg]
      exact hrun
    · obtain ⟨hq, par2, dep2, hinv2, _, hch⟩ := hfalse hf
      refine ⟨hq, fun v hv hve => ?_, par2, dep2, hinv2.agree, hinv2.cls, fun y hEy => ?_⟩
      · obtain ⟨c, hc1, hc2, _, hEc, hpath⟩ := hinv2.conn v hv hve
        exact Relation.ReflTransGen.head ⟨hEc, Or.inl rfl, Or.inr ⟨hc1, hc2⟩⟩
          (within_mono (fun a ha => Or.inr ha) hpath)
      · have hy : y ∈ nc.connected := by
          obtain ⟨nx, _, hx, _, hmem, _, _⟩ := hEy
          rw [hnc] at hx
          have e : nc = nx := by simpa using hx
          rw [e]
          exact hmem
        exact hch y hy hEy

/-- A root of the scan that is not yet visited satisfies the hypotheses of
a call of `find_cycle`. -/
theorem root_pre (s : State) (seg : Ptr) (visited : List Ptr) (r : Ptr) (nr : node)
    (hr : deref s r = some nr) (hseg : nr._segment = seg) (hrv : r ∉ visited)
    (hclosed : ∀ x ∈ visited, ∀ y, seg_edge s seg x y → y ∈ visited) (par : Ptr → Ptr)
    (dep : Ptr → Nat) : cycle_pre s seg visited (set_insert r visited) 0 r par dep where
  cur_live := ⟨nr, hr, hseg⟩
  cur_mem := (mem_set_insert r r visited).mpr (Or.inl rfl)
  cur_new := hrv
  done_sub := fun a ha => (mem_set_insert a r visited).mpr (Or.inr ha)
  done_closed := hclosed
  parent := Or.inl rfl
  conn := fun v hv hvd hvr => by
    rcases (mem_set_insert v r visited).mp hv with e | h
    · exact absurd e hvr
    · exact absurd h hvd

/-- The loop of `has_loops` over the nodes of the segment. -/
theorem has_loops_loop_spec (s : State) (hinv : Inv s) (seg : Ptr) (fuel : Nat)
    (hfuel : s.length < fuel) :
    ∀ (roots visited : List Ptr) (p : Ptr × Ptr),
      (∀ r ∈ roots, ∃ nr, deref s r = some nr ∧ nr._segment = seg) →
      (∀ x ∈ visited, ∀ y, seg_edge s seg x y → y ∈ visited) →
      (∃ par dep, ∀ v ∈ visited, ∀ y, seg_edge s seg v y → edge_class par dep v y) →
      ∃ b, has_loops_loop fuel s roots visited p = some b ∧ (b = true → has_cycle s seg) ∧
        (b = false → ∃ w, visited ⊆ w ∧ roots ⊆ w ∧
          ∃ par dep, ∀ v ∈ w, ∀ y, seg_edge s seg v y → edge_class par dep v y) := by
  intro roots
  induction roots with
  | nil =>
    intro visited p _ _ hcls
    exact ⟨false, rfl, (fun h => by cases h),
      fun _ => ⟨visited, List.Subset.refl _, List.nil_subset _, hcls⟩⟩
  | cons r rest ih =>
    intro visited p hroots hclosed hcls
    have hroots2 : ∀ r2 ∈ rest, ∃ nr, deref s r2 = some nr ∧ nr._segment = seg :=
      fun r2 h => hroots r2 (List.mem_cons_of_mem _ h)
    unfold has_loops_loop
    by_cases hrv : r ∈ visited
    · rw [if_pos hrv]
      obtain ⟨b, hrun, htrue, hfalse⟩ := ih visited p hroots2 hclosed hcls
      refine ⟨b, hrun, htrue, fun hb => ?_⟩
      obtain ⟨w, hvw, hrw, hc⟩ := hfalse hb
      exact ⟨w, hvw, List.cons_subset.mpr ⟨hvw hrv, hrw⟩, hc⟩
    · rw [if_neg hrv]
      obtain ⟨nr, hr, hseg⟩ := hroots r (List.mem_cons_self _ _)
      obtain ⟨par, dep, hcl⟩ := hcls
      have hpre := root_pre s seg visited r nr hr hseg hrv hclosed par dep
      have hlt : unvisited s (set_insert r visited) < fuel :=
        lt_of_le_of_lt (le_trans (unvisited_mono s [] _ (List.nil_subset _))
          (unvisited_nil_le s)) hfuel
      obtain ⟨found, w, q, hrun, hsub, htrue, hfalse⟩ :=
        find_cycle_spec s hinv seg visited fuel (set_insert r visited) 0 r par dep p hpre hlt
      rw [hrun]
      have hins : ∀ a, a ∈ visited → a ∈ set_insert r visited :=
        fun a ha => (mem_set_insert a r visited).mpr (Or.inr ha)
      have hrw : r ∈ w := hsub ((mem_set_insert r r visited).mpr (Or.inl rfl))
      have hno0 : ∀ x, ¬ seg_edge s seg x 0 := by
        rintro x ⟨_, ny, _, hy, _⟩
        rw [hinv.closed.1] at hy
        cases hy
      cases found with
      | true => exact ⟨true, rfl, fun _ => ⟨q.1, q.2, htrue rfl⟩, fun h => by cases h⟩
      | false =>
        obtain ⟨_, _, par2, dep2, hag, hcls2, hnb⟩ := hfalse rfl
        have hclosed2 : ∀ x ∈ w, ∀ y, seg_edge s seg x y → y ∈ w := by
          intro x hx y hxy
          by_cases hxv : x ∈ visited
          · exact hsub (hins y (hclosed x hxv y hxy))
          · by_cases hxr : x = r
            · rw [hxr] at hxy
              rcases hnb y hxy with e | h
              · rw [e] at hxy
                exact absurd hxy (hno0 r)
              · exact h.1
            · have hxs : x ∉ set_insert r visited := by
                rw [mem_set_insert]
                exact fun h => h.elim hxr hxv
              exact (hcls2 x hx hxs y hxy).1
        have hcl2 : ∀ v ∈ w, ∀ y, seg_edge s seg v y → edge_class par2 dep2 v y := by
          intro x hx y hxy
          by_cases hxv : x ∈ visited
          · have hyv := hclosed x hxv y hxy
            have hc := hcl x hxv y hxy
            unfold edge_class at hc ⊢
            rw [(hag x (hins x hxv)).1, (hag x (hins x hxv)).2, (hag y (hins y hyv)).1,
              (hag y (hins y hyv)).2]
            exact hc
          · by_cases hxr : x = r
            · rw [hxr] at hxy ⊢
              rcases hnb y hxy with e | h
              · rw [e] at hxy
                exact absurd hxy (hno0 r)
              · exact Or.inr ⟨h.2.2.1, h.2.2.2⟩
            · have hxs : x ∉ set_insert r visited := by
                rw [mem_set_insert]
                exact fun h => h.elim hxr hxv
              exact (hcls2 x hx hxs y hxy).2
        obtain ⟨b, hrun2, htrue2, hfalse2⟩ := ih w q hroots2 hclosed2 ⟨par2, dep2, hcl2⟩
        refine ⟨b, hrun2, htrue2, fun hb => ?_⟩
        obtain ⟨w2, hvw, hrw2, hc⟩ := hfalse2 hb
        exact ⟨w2, fun a ha => hvw (hsub (hins a ha)),
          List.cons_subset.mpr ⟨hvw hrw, hrw2⟩, hc⟩

theorem mem_foldl_set_insert (l : List Ptr) :
    ∀ (acc : List Ptr) (x : Ptr),
      x ∈ l.foldl (fun acc i => set_insert i acc) acc ↔ x ∈ l ∨ x ∈ acc := by
  induction l with
  | nil => intro acc x; simp
  | cons i rest ih =>
    intro acc x
    rw [List.foldl_cons, ih, mem_set_insert, List.mem_cons]
    tauto

theorem mem_all_nodes (s : State) (hs : keys_sorted s) (seg p : Ptr) :
    p ∈ all_nodes s seg ↔ ∃ nd, deref s p = some nd ∧ nd._segment = seg := by
  unfold all_nodes network_nodes
  rw [mem_foldl_set_insert, List.mem_map]
  constructor
  · rintro (⟨⟨k, nd⟩, hmem, hk⟩ | h)
    · rw [List.mem_filter] at hmem
      simp only at hk
      rw [← hk]
      exact ⟨nd, deref_of_mem s hs k nd hmem.1, by simpa using hmem.2⟩
    · cases h
  · rintro ⟨nd, hd, hseg⟩
    left
    refine ⟨(p, nd), ?_, rfl⟩
    rw [List.mem_filter]
    exact ⟨mem_of_deref s p nd hd, by simpa using hseg⟩

/-- With more fuel than live nodes, `has_loops` returns, and it returns true
exactly when a connection of the segment lies on a cycle. -/
theorem has_loops_fuel_spec (s : State) (hinv : Inv s) (hs : keys_sorted s) (seg : Ptr)
    (fuel : Nat) (hfuel : s.length < fuel) :
    ∃ b, has_loops_fuel fuel s seg = some b ∧ (b = true ↔ has_cycle s seg) := by
  obtain ⟨b, hrun, htrue, hfalse⟩ :=
    has_loops_loop_spec s hinv seg fuel hfuel (all_nodes s seg) [] (0, 0)
      (fun r hr => (mem_all_nodes s hs seg r).mp hr) (fun x hx => by cases hx)
      ⟨fun _ => 0, fun _ => 0, fun v hv => by cases hv⟩
  refine ⟨b, hrun, htrue, fun hc => ?_⟩
  cases b with
  | true => rfl
  | false =>
    exfalso
    obtain ⟨w, _, hall, par, dep, hcls⟩ := hfalse rfl
    obtain ⟨x, y, hE, hpath⟩ := hc
    have hclass : ∀ u v, seg_edge s seg u v → edge_class par dep u v := by
      intro u v huv
      have huv2 := huv
      obtain ⟨nu, _, hu, _, _, hsu, _⟩ := huv2
      exact hcls u (hall ((mem_all_nodes s hs seg u).mpr ⟨nu, hu, hsu⟩)) v huv
    exact forest_no_cycle (seg_edge s seg) par dep (seg_edge_symm s hinv seg) hclass x y hE hpath

/-- The connections of the graph of a segment with one connection removed,
in terms of the neighbor relation. -/
theorem seg_graph_del_adj (s : State) (hinv : Inv s) (seg x y a b : Ptr) :
    (seg_graph s seg \ SimpleGraph.fromEdgeSet {s(x, y)}).Adj a b ↔
      a ≠ b ∧ seg_edge_except s seg x y a b := by
  unfold seg_graph seg_edge_except
  rw [SimpleGraph.sdiff_adj, SimpleGraph.fromRel_adj, SimpleGraph.fromEdgeSet_adj,
    Set.mem_singleton_iff, Sym2.eq_iff]
  constructor
  · rintro ⟨⟨hab, hE⟩, hnot⟩
    refine ⟨hab, hE.elim id (seg_edge_symm s hinv seg b a), fun e => hnot ⟨Or.inl e, hab⟩,
      fun e => hnot ⟨Or.inr e, hab⟩⟩
  · rintro ⟨hab, hE, h1, h2⟩
    exact ⟨⟨hab, Or.inl hE⟩, fun e => e.1.elim h1 h2⟩

/-- A connection lies on a cycle exactly when some node is connected to
itself or the simple graph of the segment is not acyclic. -/
theorem has_cycle_iff (s : State) (hinv : Inv s) (seg : Ptr) :
    has_cycle s seg ↔ (∃ x, seg_edge s seg x x) ∨ ¬ (seg_graph s seg).IsAcyclic := by
  constructor
  · rintro ⟨x, y, hE, hpath⟩
    by_cases hxy : x = y
    · left
      rw [hxy] at hE
      exact ⟨y, hE⟩
    · right
      intro hac
      rw [SimpleGraph.isAcyclic_iff_forall_adj_isBridge] at hac
      have hadj : (seg_graph s seg).Adj x y := by
        unfold seg_graph
        rw [SimpleGraph.fromRel_adj]
        exact ⟨hxy, Or.inl hE⟩
      have hb := hac hadj
      rw [SimpleGraph.isBridge_iff] at hb
      apply hb.2
      rw [SimpleGraph.reachable_iff_reflTransGen]
      have key : ∀ z, Relation.ReflTransGen (seg_edge_except s seg x y) x z →
          Relation.ReflTransGen
            (seg_graph s seg \ SimpleGraph.fromEdgeSet {s(x, y)}).Adj x z := by
        intro z hz
        induction hz with
        | refl => exact Relation.ReflTransGen.refl
        | tail _ hstep ih =>
          rename_i b c _
          by_cases hbc : b = c
          · rw [← hbc]
            exact ih
          · exact Relation.ReflTransGen.tail ih
              ((seg_graph_del_adj s hinv seg x y b c).mpr ⟨hbc, hstep⟩)
      exact key y hpath
  · rintro (⟨x, hE⟩ | hnot)
    · exact ⟨x, x, hE, Relation.ReflTransGen.refl⟩
    · by_contra h
      apply hnot
      rw [SimpleGraph.isAcyclic_iff_forall_adj_isBridge]
      intro v w hvw
      rw [SimpleGraph.isBridge_iff]
      refine ⟨hvw, fun hreach => h ?_⟩
      rw [SimpleGraph.reachable_iff_reflTransGen] at hreach
      have hE : seg_edge s seg v w := by
        unfold seg_graph at hvw
        rw [SimpleGraph.fromRel_adj] at hvw
        exact hvw.2.elim id (seg_edge_symm s hinv seg w v)
      exact ⟨v, w, hE, hreach.mono fun a b hab =>
        ((seg_graph_del_adj s hinv seg v w a b).mp hab).2⟩

/-! ## `has_loops` and `fix_loops` -/

/-- C11. In every reachable state and for every segment, `has_loops`
returns, and it returns true exactly when the graph of the segment (its
vertices are the nodes of the segment, its edges the connections between two
nodes of the segment) contains a cycle: some connection joins two nodes that
are also joined by a path that does not use this connection.  Equivalently:
some node of the segment is connected to itself, or the simple graph of the
segment is not acyclic. -/
theorem has_loops_iff_cycle (s : State) (h : Reachable s) (seg : Ptr) :
    ∃ b, has_loops s seg = some b ∧ (b = true ↔ has_cycle s seg) ∧
      (b = true ↔ ((∃ x, seg_edge s seg x x) ∨ ¬ (seg_graph s seg).IsAcyclic)) := by
  have hinv := inv_of_reachable s h
  obtain ⟨b, hrun, hb⟩ := has_loops_fuel_spec s hinv (keys_sorted_of_reachable s h) seg
    (fuel_bound s) (by unfold fuel_bound; omega)
  exact ⟨b, hrun, hb, hb.trans (has_cycle_iff s hinv seg)⟩

/-- C11 (witness). The three pairwise connected bridges. -/
theorem has_loops_iff_cycle_witness :
    Reachable triangle ∧ ∃ b, has_loops triangle 100 = some b ∧
      (b = true ↔ has_cycle triangle 100) ∧
      (b = true ↔ ((∃ x, seg_edge triangle 100 x x) ∨ ¬ (seg_graph triangle 100).IsAcyclic)) :=
  ⟨triangle_reachable, has_loops_iff_cycle triangle triangle_reachable 100⟩

theorem self_loop_bridge_reachable : Reachable self_loop_bridge := by
  have h1 := Reachable.step _ _ Reachable.init
    (Step.add_bridge [] 100 3 "A" 1 (by decide) rfl)
  have h2 := Reachable.step _ _ h1 (Step.add_endpoint _ 100 2 (by decide) rfl)
  have h3 := Reachable.step _ _ h2 (Step.connect _ 1 1 true _ rfl)
  exact Reachable.step _ _ h3 (Step.connect _ 1 2 true self_loop_bridge rfl)

/-! ## `fix_loops` -/

theorem fuel_bound_eq (s : State) : fuel_bound s = s.length + ref_count s + 1 := rfl

theorem ref_count_modify_le (g : List Ptr → List Ptr) (hg : ∀ l, (g l).length ≤ l.length)
    (a : Ptr) (s : State) : ref_count (modify (upd g) a s) ≤ ref_count s := by
  induction s with
  | nil => exact Nat.le_refl _
  | cons e rest ih =>
    obtain ⟨k, x⟩ := e
    unfold ref_count at ih ⊢
    unfold modify
    by_cases hk : k = a
    · rw [if_pos hk]
      simp only [List.map_cons, List.sum_cons, upd]
      have := hg x.connected
      omega
    · rw [if_neg hk]
      simp only [List.map_cons, List.sum_cons]
      omega

theorem ref_count_modify_lt (g : List Ptr → List Ptr) (hg : ∀ l, (g l).length ≤ l.length)
    (a : Ptr) (s : State) (na : node) (ha : deref s a = some na)
    (hlt : (g na.connected).length < na.connected.length) :
    ref_count (modify (upd g) a s) < ref_count s := by
  induction s with
  | nil => simp [deref] at ha
  | cons e rest ih =>
    obtain ⟨k, x⟩ := e
    unfold modify
    by_cases hk : k = a
    · rw [if_pos hk]
      unfold deref at ha
      rw [if_pos hk] at ha
      have e2 : x = na := by simpa using ha
      have hrest := ref_count_modify_le g hg a rest
      unfold ref_count at hrest ⊢
      simp only [List.map_cons, List.sum_cons, upd]
      rw [e2]
      omega
    · rw [if_neg hk]
      unfold deref at ha
      rw [if_neg hk] at ha
      have hrest := ih ha
      unfold ref_count at hrest ⊢
      simp only [List.map_cons, List.sum_cons]
      omega

theorem seg_edge_edge (s : State) (seg x y : Ptr) (h : seg_edge s seg x y) : edge s x y := by
  obtain ⟨nx, _, hx, _, hmem, _, _⟩ := h
  exact ⟨nx, hx, hmem⟩

theorem no_self_seg_edge (s : State) (seg : Ptr) (h : no_self_connection s seg) (x : Ptr) :
    ¬ seg_edge s seg x x := by
  rintro ⟨nx, _, hx, _, hmem, hsx, _⟩
  exact h (x, nx) (mem_of_deref s x nx hx) hsx hmem

theorem rtg_bind {R Q : Ptr → Ptr → Prop} (h : ∀ a b, R a b → Relation.ReflTransGen Q a b)
    {x y : Ptr} (p : Relation.ReflTransGen R x y) : Relation.ReflTransGen Q x y := by
  induction p with
  | refl => exact Relation.ReflTransGen.refl
  | tail _ hstep ih => exact ih.trans (h _ _ hstep)

theorem loops_cut_refl (seg : Ptr) (s : State) : loops_cut seg s s where
  keys := rfl
  node := fun _ n hn => ⟨n, hn, rfl, rfl, rfl, rfl, fun _ h => h, fun _ h1 h2 => absurd h1 h2⟩
  paths := fun _ _ h => Relation.ReflTransGen.single h
  seg_paths := fun _ _ h => Relation.ReflTransGen.single h
  count := Nat.le_refl _

/-- A node of the later state is a node of the earlier state with a larger
neighbor set. -/
theorem loops_cut_back (seg : Ptr) (s t : State) (h : loops_cut seg s t) (p : Ptr) (m : node)
    (hm : deref t p = some m) :
    ∃ n, deref s p = some n ∧ m._segment = n._segment ∧ m._type = n._type ∧
      ∀ y ∈ m.connected, y ∈ n.connected := by
  cases hn : deref s p with
  | none =>
    rw [deref_eq_none_iff, ← h.keys, ← deref_eq_none_iff, hm] at hn
    cases hn
  | some n =>
    obtain ⟨m2, hm2, h1, h2, _, _, h5, _⟩ := h.node p n hn
    rw [hm] at hm2
    have e : m = m2 := by simpa using hm2
    rw [e]
    exact ⟨n, rfl, h1, h2, h5⟩

theorem loops_cut_seg_edge (seg : Ptr) (s t : State) (h : loops_cut seg s t) (u v : Ptr)
    (huv : seg_edge t seg u v) : seg_edge s seg u v := by
  obtain ⟨mu, mv, hu, hv, hmem, hsu, hsv⟩ := huv
  obtain ⟨nu, hnu, h1, _, h3⟩ := loops_cut_back seg s t h u mu hu
  obtain ⟨nv, hnv, h4, _, _⟩ := loops_cut_back seg s t h v mv hv
  exact ⟨nu, nv, hnu, hnv, h3 v hmem, h1 ▸ hsu, h4 ▸ hsv⟩

theorem loops_cut_on_cycle (seg : Ptr) (s t : State) (h : loops_cut seg s t) (x y : Ptr)
    (hc : on_cycle t seg x y) : on_cycle s seg x y :=
  ⟨loops_cut_seg_edge seg s t h x y hc.1,
    hc.2.mono fun a b hab => ⟨loops_cut_seg_edge seg s t h a b hab.1, hab.2⟩⟩

theorem loops_cut_trans (seg : Ptr) (s t u : State) (h1 : loops_cut seg s t)
    (h2 : loops_cut seg t u) : loops_cut seg s u where
  keys := h2.keys.trans h1.keys
  node := fun p n hn => by
    obtain ⟨m, hm, a1, a2, a3, a4, a5, a6⟩ := h1.node p n hn
    obtain ⟨k, hk, b1, b2, b3, b4, b5, b6⟩ := h2.node p m hm
    refine ⟨k, hk, b1.trans a1, b2.trans a2, b3.trans a3, b4.trans a4,
      fun y hy => a5 y (b5 y hy), fun y hy hyk => ?_⟩
    by_cases hym : y ∈ m.connected
    · exact ⟨(b6 y hym hyk).1, loops_cut_seg_edge seg s t h1 p y (b6 y hym hyk).2⟩
    · exact a6 y hy hym
  paths := fun a b hab => rtg_bind h2.paths (h1.paths a b hab)
  seg_paths := fun a b hab => rtg_bind h2.seg_paths (h1.seg_paths a b hab)
  count := le_trans h2.count h1.count

theorem seg_edge_disconnect (s : State) (a b : Ptr) (hab : a ≠ b)
    (hsorted : ∀ p nd, deref s p = some nd → nd.connected.Pairwise (· < ·)) (seg x y : Ptr) :
    seg_edge (modify (upd fun l => l.erase a) b (modify (upd fun l => l.erase b) a s)) seg x y ↔
      seg_edge s seg x y ∧ ¬(x = a ∧ y = b) ∧ ¬(x = b ∧ y = a) := by
  unfold seg_edge
  constructor
  · rintro ⟨mx, my, hx, hy, hmem, hsx, hsy⟩
    rw [deref_after_disconnect] at hx hy
    obtain ⟨nx, hnx, ex⟩ := Option.map_eq_some'.mp hx
    obtain ⟨ny, hny, ey⟩ := Option.map_eq_some'.mp hy
    rw [← ex] at hmem hsx
    rw [← ey] at hsy
    have hm := (mem_conn_after_disconnect a b x y nx.connected hab (hsorted x nx hnx)).mp hmem
    exact ⟨⟨nx, ny, hnx, hny, hm.1, hsx, hsy⟩, hm.2⟩
  · rintro ⟨⟨nx, ny, hnx, hny, hmem, hsx, hsy⟩, hne⟩
    refine ⟨upd (conn_after_disconnect a b x) nx, upd (conn_after_disconnect a b y) ny, ?_, ?_,
      ?_, hsx, hsy⟩
    · rw [deref_after_disconnect, hnx]
      rfl
    · rw [deref_after_disconnect, hny]
      rfl
    · exact (mem_conn_after_disconnect a b x y nx.connected hab (hsorted x nx hnx)).mpr
        ⟨hmem, hne⟩

/-- Removing a connection that lies on a cycle: `disconnect` returns true,
the nodes of every connection are still joined by a path, and the number of
neighbor references decreases. -/
theorem cut_step (s : State) (hr : Reachable s) (seg x y : Ptr) (hc : on_cycle s seg x y)
    (hxy : x ≠ y) :
    ∃ s1, disconnect s x y = some (true, s1) ∧ Reachable s1 ∧ loops_cut seg s s1 ∧
      ref_count s1 < ref_count s := by
  have hinv := inv_of_reachable s hr
  obtain ⟨hE, hpath⟩ := hc
  have hE2 := hE
  obtain ⟨nx, ny, hx, hy, hmem, hsx, hsy⟩ := hE2
  have hmem2 : x ∈ ny.connected := by
    obtain ⟨nd, hd, hm⟩ := hinv.symm x y ⟨nx, hx, hmem⟩
    rw [hy] at hd
    have e : ny = nd := by simpa using hd
    rw [e]
    exact hm
  have hx0 : x ≠ 0 := fun e => by rw [e, hinv.closed.1] at hx; cases hx
  have hy0 : y ≠ 0 := fun e => by rw [e, hinv.closed.1] at hy; cases hy
  have hdis := disconnect_eq s x y nx ny hxy hx hy hx0 hy0
  rw [if_pos ⟨hmem, hmem2⟩, decide_eq_true ⟨hmem, hmem2⟩] at hdis
  have hstep1 : Reachable _ := Reachable.step _ _ hr (Step.disconnect s x y true _ hdis)
  have hinv1 := inv_of_reachable _ hstep1
  have hedge := edge_disconnect s x y hxy hinv.sorted
  have hsedge := seg_edge_disconnect s x y hxy hinv.sorted seg
  refine ⟨_, hdis, hstep1, ?_, ?_⟩
  · constructor
    · exact keys_disconnect s _ x y true hdis
    · intro p n hn
      refine ⟨upd (conn_after_disconnect x y p) n, ?_, rfl, rfl, rfl, rfl, ?_, ?_⟩
      · rw [deref_after_disconnect, hn]
        rfl
      · intro z hz
        exact ((mem_conn_after_disconnect x y p z n.connected hxy (hinv.sorted p n hn)).mp hz).1
      · intro z hz hnz
        have hnz2 : ¬(z ∈ n.connected ∧ ¬(p = x ∧ z = y) ∧ ¬(p = y ∧ z = x)) := fun h =>
          hnz ((mem_conn_after_disconnect x y p z n.connected hxy (hinv.sorted p n hn)).mpr h)
        by_cases h1 : p = x ∧ z = y
        · rw [h1.1, h1.2]
          exact ⟨fun e => hxy e.symm, hE⟩
        · by_cases h2 : p = y ∧ z = x
          · rw [h2.1, h2.2]
            exact ⟨hxy, seg_edge_symm s hinv seg x y hE⟩
          · exact absurd ⟨hz, h1, h2⟩ hnz2
    · intro u v huv
      have hp : Relation.ReflTransGen (edge
          (modify (upd fun l => l.erase x) y (modify (upd fun l => l.erase y) x s))) x y :=
        hpath.mono fun a b hab =>
          (hedge a b).mpr ⟨seg_edge_edge s seg a b hab.1, hab.2.1, hab.2.2⟩
      by_cases h1 : u = x ∧ v = y
      · rw [h1.1, h1.2]
        exact hp
      · by_cases h2 : u = y ∧ v = x
        · rw [h2.1, h2.2]
          exact Relation.ReflTransGen.symmetric hinv1.symm hp
        · exact Relation.ReflTransGen.single ((hedge u v).mpr ⟨huv, h1, h2⟩)
    · intro u v huv
      have hp : Relation.ReflTransGen (seg_edge
          (modify (upd fun l => l.erase x) y (modify (upd fun l => l.erase y) x s)) seg) x y :=
        hpath.mono fun a b hab => (hsedge a b).mpr ⟨hab.1, hab.2.1, hab.2.2⟩
      by_cases h1 : u = x ∧ v = y
      · rw [h1.1, h1.2]
        exact hp
      · by_cases h2 : u = y ∧ v = x
        · rw [h2.1, h2.2]
          exact Relation.ReflTransGen.symmetric (seg_edge_symm _ hinv1 seg) hp
        · exact Relation.ReflTransGen.single ((hsedge u v).mpr ⟨huv, h1, h2⟩)
    · exact le_trans
        (ref_count_modify_le _ (fun l => (List.erase_sublist x l).length_le) y _)
        (ref_count_modify_le _ (fun l => (List.erase_sublist y l).length_le) x s)
  · refine lt_of_le_of_lt
      (ref_count_modify_le _ (fun l => (List.erase_sublist x l).length_le) y _)
      (ref_count_modify_lt _ (fun l => (List.erase_sublist y l).length_le) x s nx hx ?_)
    have hpos := List.length_pos_of_mem hmem
    rw [List.length_erase_of_mem hmem]
    omega

/-- A set of nodes that is closed under the connections of the segment and
on which every connection joins a node with its parent in a tree holds no
node of a cycle. -/
theorem no_cycle_of_tree (s : State) (hinv : Inv s) (seg : Ptr) (w : List Ptr)
    (par : Ptr → Ptr) (dep : Ptr → Nat)
    (h : ∀ v ∈ w, ∀ y, seg_edge s seg v y → y ∈ w ∧ edge_class par dep v y) :
    ∀ x ∈ w, ∀ y, ¬ on_cycle s seg x y := by
  rintro x hx y ⟨hE, hpath⟩
  have hsymm : ∀ a b, (seg_edge s seg a b ∧ a ∈ w) → (seg_edge s seg b a ∧ b ∈ w) :=
    fun a b hab => ⟨seg_edge_symm s hinv seg a b hab.1, (h a hab.2 b hab.1).1⟩
  have hclass : ∀ a b, (seg_edge s seg a b ∧ a ∈ w) → edge_class par dep a b :=
    fun a b hab => (h a hab.2 b hab.1).2
  have key : ∀ z, Relation.ReflTransGen (seg_edge_except s seg x y) x z →
      z ∈ w ∧ Relation.ReflTransGen
        (fun u v => (seg_edge s seg u v ∧ u ∈ w) ∧ ¬(u = x ∧ v = y) ∧ ¬(u = y ∧ v = x)) x z := by
    intro z hz
    induction hz with
    | refl => exact ⟨hx, Relation.ReflTransGen.refl⟩
    | tail _ hstep ih =>
      rename_i b c _
      exact ⟨(h b ih.1 c hstep.1).1, Relation.ReflTransGen.tail ih.2 ⟨⟨hstep.1, ih.1⟩, hstep.2⟩⟩
  exact forest_no_cycle (fun u v => seg_edge s seg u v ∧ u ∈ w) par dep hsymm hclass x y
    ⟨hE, hx⟩ (key y hpath).2

/-- The call `find_cycle( component_set, nullptr, node_ptr, p )` of
`fix_loops` with `component_set = { node_ptr }`: it returns; a reported
pair lies on a cycle; when it returns false, `component_set` is the set of
nodes joined to `node_ptr` by connections of the segment, and none of them
lies on a cycle. -/
theorem find_cycle_root_spec (s : State) (hinv : Inv s) (seg r : Ptr) (nr : node)
    (hr : deref s r = some nr) (hseg : nr._segment = seg) (depth : Nat)
    (hdepth : s.length < depth) (p : Ptr × Ptr) :
    ∃ found w q, find_cycle depth s [r] 0 r p = some (found, w, q) ∧ r ∈ w ∧
      (found = true → on_cycle s seg q.1 q.2) ∧
      (found = false → q = p ∧ (∀ v ∈ w, Relation.ReflTransGen (seg_edge s seg) r v) ∧
        (∀ x ∈ w, ∀ y, seg_edge s seg x y → y ∈ w) ∧ ∀ x ∈ w, ∀ y, ¬ on_cycle s seg x y) := by
  have hpre : cycle_pre s seg [] [r] 0 r (fun _ => 0) (fun _ => 0) :=
    root_pre s seg [] r nr hr hseg (List.not_mem_nil r) (fun x hx => by cases hx) _ _
  have hlt : unvisited s [r] < depth :=
    lt_of_le_of_lt (le_trans (unvisited_mono s [] _ (List.nil_subset _))
      (unvisited_nil_le s)) hdepth
  obtain ⟨found, w, q, hrun, hsub, htrue, hfalse⟩ :=
    find_cycle_spec s hinv seg [] depth [r] 0 r _ _ p hpre hlt
  have hrw : r ∈ w := hsub (List.mem_singleton_self r)
  refine ⟨found, w, q, hrun, hrw, htrue, fun hf => ?_⟩
  obtain ⟨hq, hconn, par2, dep2, _, hcls, hnb⟩ := hfalse hf
  have hno0 : ∀ x, ¬ seg_edge s seg x 0 := by
    rintro x ⟨_, ny, _, hy, _⟩
    rw [hinv.closed.1] at hy
    cases hy
  have htree : ∀ v ∈ w, ∀ y, seg_edge s seg v y → y ∈ w ∧ edge_class par2 dep2 v y := by
    intro v hv y hvy
    by_cases hvr : v ∈ [r]
    · rw [List.mem_singleton.mp hvr] at hvy ⊢
      rcases hnb y hvy with e | h
      · rw [e] at hvy
        exact absurd hvy (hno0 r)
      · exact ⟨h.1, Or.inr ⟨h.2.2.1, h.2.2.2⟩⟩
    · exact hcls v hv hvr y hvy
  refine ⟨hq, fun v hv => ?_, fun x hx y hxy => (htree x hx y hxy).1,
    no_cycle_of_tree s hinv seg w par2 dep2 htree⟩
  by_cases hvr : v ∈ [r]
  · rw [List.mem_singleton.mp hvr]
  · exact (hconn v hv hvr).mono fun _ _ hab => hab.1

theorem loops_cut_length (seg : Ptr) (s t : State) (h : loops_cut seg s t) :
    t.length = s.length := by
  have := congrArg List.length h.keys
  simpa using this

theorem loops_cut_live (seg : Ptr) (s t : State) (h : loops_cut seg s t) (r : Ptr)
    (hr : ∃ nr, deref s r = some nr ∧ nr._segment = seg) :
    ∃ mr, deref t r = some mr ∧ mr._segment = seg := by
  obtain ⟨nr, hnr, hseg⟩ := hr
  obtain ⟨m, hm, h1, _⟩ := h.node r nr hnr
  exact ⟨m, hm, h1.trans hseg⟩

/-- The call `a.disconnect( a )` on a node that is its own neighbor has no
defined result: the second `remove` erases the end iterator. -/
theorem disconnect_self_none (s : State) (a : Ptr) (na : node) (ha : deref s a = some na)
    (hmem : a ∈ na.connected) (hnd : na.connected.Nodup) (ha0 : a ≠ 0) :
    disconnect s a a = none := by
  have hd : deref (modify (upd fun l => l.erase a) a s) a =
      some (upd (fun l => l.erase a) na) := by
    rw [deref_modify_self, ha]
    rfl
  have hnot : a ∉ (upd (fun l => l.erase a) na).connected := by
    unfold upd
    simp only
    rw [hnd.mem_erase_iff]
    exact fun h => h.1 rfl
  unfold disconnect can_remove
  simp only [if_neg ha0, ha, decide_eq_true hmem, remove_eq s a a na ha hmem]
  unfold remove
  simp only [hd, if_neg hnot]

theorem loops_cut_self (seg : Ptr) (s t : State) (h : loops_cut seg s t) (x : Ptr)
    (hx : seg_edge s seg x x) : seg_edge t seg x x := by
  obtain ⟨nx, _, hnx, _, hmem, hsx, _⟩ := hx
  obtain ⟨m, hm, h1, _, _, _, _, h6⟩ := h.node x nx hnx
  have hmm : x ∈ m.connected := by
    by_contra hnm
    exact (h6 x hmem hnm).1 rfl
  exact ⟨m, m, hm, hm, hmm, h1.trans hsx, h1.trans hsx⟩

theorem self_connection_of_not (s : State) (hs : keys_sorted s) (seg : Ptr)
    (h : ¬ no_self_connection s seg) : ∃ x, seg_edge s seg x x := by
  unfold no_self_connection at h
  push_neg at h
  obtain ⟨⟨k, nd⟩, hmem, hseg, hself⟩ := h
  have hd := deref_of_mem s hs k nd hmem
  exact ⟨k, nd, nd, hd, hd, hself, hseg, hseg⟩

/-- The `while ( cycle_found )` loop of `fix_loops`.  Either it has no
result, and then some node of the segment is its own neighbor unless the
iterations ran out; or it returns, every removed connection lay on a cycle,
and afterwards no node of `component_set` lies on a cycle. -/
theorem fix_loops_while_spec (seg r : Ptr) (depth : Nat) :
    ∀ (iters : Nat) (s : State) (found : Bool) (cs : List Ptr) (p : Ptr × Ptr),
      Reachable s → (∃ nr, deref s r = some nr ∧ nr._segment = seg) → s.length < depth →
      (found = true → on_cycle s seg p.1 p.2) →
      (found = false → r ∈ cs ∧ ∀ x ∈ cs, ∀ y, ¬ on_cycle s seg x y) →
      (fix_loops_while depth r iters s found cs p = none ∧
        (ref_count s < iters → ∃ x, seg_edge s seg x x)) ∨
      ∃ s1 cs1 q1, fix_loops_while depth r iters s found cs p = some (s1, cs1, q1) ∧
        Reachable s1 ∧ loops_cut seg s s1 ∧ r ∈ cs1 ∧ ∀ x ∈ cs1, ∀ y, ¬ on_cycle s1 seg x y := by
  intro iters
  induction iters with
  | zero =>
    intro s found cs p _ _ _ _ _
    exact Or.inl ⟨rfl, fun h => absurd h (Nat.not_lt_zero _)⟩
  | succ k ih =>
    intro s found cs p hr hlive hdepth htrue hfalse
    unfold fix_loops_while
    cases found with
    | false =>
      obtain ⟨h1, h2⟩ := hfalse rfl
      exact Or.inr ⟨s, cs, p, rfl, hr, loops_cut_refl seg s, h1, h2⟩
    | true =>
      have hc := htrue rfl
      have hinv := inv_of_reachable s hr
      by_cases hxy : p.1 = p.2
      · left
        have hE := hc.1
        rw [← hxy] at hE
        refine ⟨?_, fun _ => ⟨p.1, hE⟩⟩
        obtain ⟨nx, _, hnx, _, hmem, _, _⟩ := hE
        have hx0 : p.1 ≠ 0 := fun e => by rw [e, hinv.closed.1] at hnx; cases hnx
        have hdis := disconnect_self_none s p.1 nx hnx hmem
          ((hinv.sorted p.1 nx hnx).imp fun h => Nat.ne_of_lt h) hx0
        rw [hxy] at hdis
        rw [← hxy]
        simp only [if_true, hxy, hdis]
      · obtain ⟨s1, hdis, hr1, hcut, hlt⟩ := cut_step s hr seg p.1 p.2 hc hxy
        obtain ⟨mr, hmr, hmseg⟩ := loops_cut_live seg s s1 hcut r hlive
        have hlen := loops_cut_length seg s s1 hcut
        obtain ⟨found2, w, q, hrun, hrw, htrue2, hfalse2⟩ :=
          find_cycle_root_spec s1 (inv_of_reachable s1 hr1) seg r mr hmr hmseg depth
            (by rw [hlen]; exact hdepth) p
        rcases ih s1 found2 w q hr1 ⟨mr, hmr, hmseg⟩ (by rw [hlen]; exact hdepth) htrue2
            (fun hf => ⟨hrw, (hfalse2 hf).2.2.2⟩) with ⟨hnone, hwhy⟩ | hsome
        · left
          refine ⟨?_, fun hk => ?_⟩
          · simp only [if_true, hdis, hrun]
            exact hnone
          · obtain ⟨x, hx⟩ := hwhy (by omega)
            exact ⟨x, loops_cut_seg_edge seg s s1 hcut x x hx⟩
        · right
          obtain ⟨s2, cs2, q2, hrun2, hr2, hcut2, hrcs, hno⟩ := hsome
          refine ⟨s2, cs2, q2, ?_, hr2, loops_cut_trans seg s s1 s2 hcut hcut2, hrcs, hno⟩
          simp only [if_true, hdis, hrun]
          exact hrun2

/-- The `for` loop of `fix_loops`.  Either it has no result, and then some
node of the segment is its own neighbor unless the bound was too small; or
it returns and no node that was visited or is in the list lies on a cycle
afterwards. -/
theorem fix_loops_loop_spec (seg : Ptr) (fuel : Nat) :
    ∀ (roots : List Ptr) (s : State) (visited : List Ptr) (p : Ptr × Ptr),
      Reachable s → (∀ r ∈ roots, ∃ nr, deref s r = some nr ∧ nr._segment = seg) →
      s.length < fuel → (∀ x ∈ visited, ∀ y, ¬ on_cycle s seg x y) →
      (fix_loops_loop fuel roots s visited p = none ∧
        (ref_count s < fuel → ∃ x, seg_edge s seg x x)) ∨
      ∃ t, fix_loops_loop fuel roots s visited p = some t ∧ Reachable t ∧ loops_cut seg s t ∧
        ∀ x, x ∈ visited ∨ x ∈ roots → ∀ y, ¬ on_cycle t seg x y := by
  intro roots
  induction roots with
  | nil =>
    intro s visited p hr _ _ hvis
    refine Or.inr ⟨s, rfl, hr, loops_cut_refl seg s, fun x hx => ?_⟩
    rcases hx with h | h
    · exact hvis x h
    · cases h
  | cons r rest ih =>
    intro s visited p hr hroots hlen hvis
    have hroots2 : ∀ r2 ∈ rest, ∃ nr, deref s r2 = some nr ∧ nr._segment = seg :=
      fun r2 h => hroots r2 (List.mem_cons_of_mem _ h)
    unfold fix_loops_loop
    by_cases hrv : r ∈ visited
    · rw [if_pos hrv]
      rcases ih s visited p hr hroots2 hlen hvis with hnone | ⟨t, hrun, hrt, hcut, hno⟩
      · exact Or.inl hnone
      · refine Or.inr ⟨t, hrun, hrt, hcut, fun x hx => ?_⟩
        rcases hx with h | h
        · exact hno x (Or.inl h)
        · rcases List.mem_cons.mp h with e | h2
          · rw [e]
            exact hno r (Or.inl hrv)
          · exact hno x (Or.inr h2)
    · rw [if_neg hrv]
      obtain ⟨nr, hnr, hseg⟩ := hroots r (List.mem_cons_self _ _)
      obtain ⟨found, w, q, hrun, hrw, htrue, hfalse⟩ :=
        find_cycle_root_spec s (inv_of_reachable s hr) seg r nr hnr hseg fuel hlen p
      rcases fix_loops_while_spec seg r fuel fuel s found w q hr ⟨nr, hnr, hseg⟩ hlen
          htrue (fun hf => ⟨hrw, (hfalse hf).2.2.2⟩) with
        ⟨hnone, hwhy⟩ | ⟨s1, cs1, q1, hrun1, hr1, hcut1, hrcs, hno1⟩
      · left
        refine ⟨?_, hwhy⟩
        simp only [hrun, hnone]
      · have hlen1 := loops_cut_length seg s s1 hcut1
        rcases ih s1 (cs1.foldl (fun acc i => set_insert i acc) visited) q1 hr1
            (fun r2 h => loops_cut_live seg s s1 hcut1 r2 (hroots2 r2 h))
            (by rw [hlen1]; exact hlen)
            (fun x hx y => by
              rcases (mem_foldl_set_insert cs1 visited x).mp hx with h | h
              · exact hno1 x h y
              · exact fun hc => hvis x h y (loops_cut_on_cycle seg s s1 hcut1 x y hc)) with
          ⟨hnone, hwhy⟩ | ⟨t, hrun2, hrt, hcut2, hno2⟩
        · left
          refine ⟨?_, fun hk => ?_⟩
          · simp only [hrun, hrun1]
            exact hnone
          · obtain ⟨x, hx⟩ := hwhy (lt_of_le_of_lt hcut1.count hk)
            exact ⟨x, loops_cut_seg_edge seg s s1 hcut1 x x hx⟩
        · right
          refine ⟨t, ?_, hrt, loops_cut_trans seg s s1 t hcut1 hcut2, fun x hx => ?_⟩
          · simp only [hrun, hrun1]
            exact hrun2
          · have hin : ∀ z, z ∈ visited ∨ z ∈ cs1 →
                z ∈ cs1.foldl (fun acc i => set_insert i acc) visited :=
              fun z hz => (mem_foldl_set_insert cs1 visited z).mpr hz.symm
            rcases hx with h | h
            · exact hno2 x (Or.inl (hin x (Or.inl h)))
            · rcases List.mem_cons.mp h with e | h2
              · rw [e]
                exact hno2 r (Or.inl (hin r (Or.inr hrcs)))
              · exact hno2 x (Or.inr h2)

/-- The method `fix_loops` with a recursion bound above the number of live
nodes.  Either it has no result, and then some node of the segment is its
own neighbor unless the bound was too small; or it returns, it has only
removed connections between nodes of the segment, the nodes of every
connection are still joined by a path, and no connection of the segment lies
on a cycle afterwards. -/
theorem fix_loops_fuel_spec (s : State) (hr : Reachable s) (seg : Ptr) (fuel : Nat)
    (hlen : s.length < fuel) :
    (fix_loops_fuel fuel s seg = none ∧ (ref_count s < fuel → ∃ x, seg_edge s seg x x)) ∨
    ∃ t, fix_loops_fuel fuel s seg = some t ∧ Reachable t ∧ loops_cut seg s t ∧
      ¬ has_cycle t seg := by
  have hs := keys_sorted_of_reachable s hr
  rcases fix_loops_loop_spec seg fuel (all_nodes s seg) s [] (0, 0) hr
      (fun r h => (mem_all_nodes s hs seg r).mp h) hlen (fun x hx => by cases hx) with
    hnone | ⟨t, hrun, hrt, hcut, hno⟩
  · exact Or.inl hnone
  · refine Or.inr ⟨t, hrun, hrt, hcut, ?_⟩
    rintro ⟨x, y, hc⟩
    have hE := loops_cut_seg_edge seg s t hcut x y hc.1
    obtain ⟨nx, _, hx, _, _, hsx, _⟩ := hE
    exact hno x (Or.inr ((mem_all_nodes s hs seg x).mpr ⟨nx, hx, hsx⟩)) y hc

/-- On a segment in which no node is its own neighbor, `fix_loops` returns,
and `has_loops` is false afterwards. -/
theorem fix_loops_total (s : State) (hr : Reachable s) (seg : Ptr)
    (hself : no_self_connection s seg) :
    ∃ t, fix_loops s seg = some t ∧ Reachable t ∧ loops_cut seg s t ∧
      has_loops t seg = some false := by
  rcases fix_loops_fuel_spec s hr seg (fuel_bound s) (by rw [fuel_bound_eq]; omega) with
    ⟨_, hwhy⟩ | ⟨t, hrun, hrt, hcut, hno⟩
  · obtain ⟨x, hx⟩ := hwhy (by rw [fuel_bound_eq]; omega)
    exact absurd hx (no_self_seg_edge s seg hself x)
  · refine ⟨t, hrun, hrt, hcut, ?_⟩
    obtain ⟨b, hb, hiff⟩ := has_loops_fuel_spec t (inv_of_reachable t hrt)
      (keys_sorted_of_reachable t hrt) seg (fuel_bound t) (by rw [fuel_bound_eq]; omega)
    cases b with
    | false => exact hb
    | true => exact absurd (hiff.mp rfl) hno

/-- On a segment in which some node is its own neighbor, `has_loops` is true
and `fix_loops` has no defined result: a connection of a node with itself
lies on a cycle and is never removed by a `disconnect` that succeeds. -/
theorem fix_loops_undefined (s : State) (hr : Reachable s) (seg : Ptr)
    (hself : ¬ no_self_connection s seg) :
    has_loops s seg = some true ∧ fix_loops s seg = none := by
  obtain ⟨x, hx⟩ := self_connection_of_not s (keys_sorted_of_reachable s hr) seg hself
  constructor
  · obtain ⟨b, hb, hiff⟩ := has_loops_fuel_spec s (inv_of_reachable s hr)
      (keys_sorted_of_reachable s hr) seg (fuel_bound s) (by rw [fuel_bound_eq]; omega)
    have hbt : b = true := hiff.mpr ⟨x, x, hx, Relation.ReflTransGen.refl⟩
    rw [hbt] at hb
    exact hb
  · rcases fix_loops_fuel_spec s hr seg (fuel_bound s) (by rw [fuel_bound_eq]; omega) with
      ⟨hnone, _⟩ | ⟨t, _, _, hcut, hno⟩
    · exact hnone
    · exact absurd ⟨x, x, loops_cut_self seg s t hcut x hx, Relation.ReflTransGen.refl⟩ hno

/-- The pairs of nodes for which `reachable` holds are kept when connections
are removed in the way `fix_loops` does. -/
theorem loops_cut_reachable (seg : Ptr) (s t : State) (hr : Reachable s) (hrt : Reachable t)
    (hcut : loops_cut seg s t) (u v : Ptr) (huv : reachable s u v = some true) :
    reachable t u v = some true := by
  by_cases hvu : v = u
  · unfold reachable
    rw [if_pos hvu]
  · cases hu : deref s u with
    | none =>
      unfold reachable at huv
      rw [if_neg hvu] at huv
      unfold find_node at huv
      simp [hu] at huv
    | some nu =>
      obtain ⟨mu, hmu, _⟩ := hcut.node u nu hu
      rw [reachable_true_iff s (inv_of_reachable s hr).closed u v nu hu] at huv
      rw [reachable_true_iff t (inv_of_reachable t hrt).closed u v mu hmu]
      exact rtg_bind hcut.paths huv

/-- C12. In a reachable state, `fix_loops` on a segment in which no node is
its own neighbor returns, and `has_loops` of the segment is false
afterwards.  On a segment in which some node is its own neighbor,
`has_loops` is true and `fix_loops` has no defined result, so no state
without loops is produced: the pair reported by `find_cycle` is eventually
that node with itself, and `disconnect` of a node from itself erases the end
iterator. -/
theorem fix_loops_removes_loops (s : State) (hr : Reachable s) (seg : Ptr) :
    (no_self_connection s seg →
      ∃ t, fix_loops s seg = some t ∧ has_loops t seg = some false) ∧
    (¬ no_self_connection s seg → has_loops s seg = some true ∧ fix_loops s seg = none) := by
  refine ⟨fun hself => ?_, fix_loops_undefined s hr seg⟩
  obtain ⟨t, hrun, _, _, hno⟩ := fix_loops_total s hr seg hself
  exact ⟨t, hrun, hno⟩

/-- C12 (failing input). The state with one endpoint connected to itself is
reachable, `has_loops` is true in it and `fix_loops` has no defined result,
because `disconnect` of the endpoint from itself has none; on the three
pairwise connected bridges `fix_loops` returns a state without loops. -/
theorem fix_loops_removes_loops_witness :
    (Reachable self_loop ∧ disconnect self_loop 1 1 = none ∧
      has_loops self_loop 100 = some true ∧ fix_loops self_loop 100 = none) ∧
    (Reachable triangle ∧ ∃ t, fix_loops triangle 100 = some t ∧
      has_loops t 100 = some false) :=
  ⟨⟨self_loop_reachable, rfl,
      (fix_loops_removes_loops self_loop self_loop_reachable 100).2 (by decide)⟩,
    ⟨triangle_reachable,
      (fix_loops_removes_loops triangle triangle_reachable 100).1 (by decide)⟩⟩

/-- C13. In a reachable state, `fix_loops` on a segment in which no node is
its own neighbor returns, and all nodes `u`, `v` of any segment for which
`u.reachable(v)` held before still have it afterwards.  On a segment in
which some node is its own neighbor `fix_loops` has no defined result, so
reachability is not preserved by it. -/
theorem fix_loops_preserves_reachable (s : State) (hr : Reachable s) (seg : Ptr) :
    (no_self_connection s seg →
      ∃ t, fix_loops s seg = some t ∧
        ∀ u v, reachable s u v = some true → reachable t u v = some true) ∧
    (¬ no_self_connection s seg → fix_loops s seg = none) := by
  refine ⟨fun hself => ?_, fun hself => (fix_loops_undefined s hr seg hself).2⟩
  obtain ⟨t, hrun, hrt, hcut, _⟩ := fix_loops_total s hr seg hself
  exact ⟨t, hrun, loops_cut_reachable seg s t hr hrt hcut⟩

/-- C13 (failing input). The bridge at `1` is connected to itself and to the
endpoint at `2`; the two reach each other, but `fix_loops` has no defined
result, because `disconnect` of the bridge from itself has none; on the
three pairwise connected bridges `fix_loops` returns and keeps every pair
reachable. -/
theorem fix_loops_preserves_reachable_witness :
    (Reachable self_loop_bridge ∧ reachable self_loop_bridge 2 1 = some true ∧
      reachable self_loop_bridge 1 2 = some true ∧ disconnect self_loop_bridge 1 1 = none ∧
      fix_loops self_loop_bridge 100 = none) ∧
    (Reachable triangle ∧ ∃ t, fix_loops triangle 100 = some t ∧
      ∀ u v, reachable triangle u v = some true → reachable t u v = some true) :=
  ⟨⟨self_loop_bridge_reachable, rfl, rfl, rfl,
      (fix_loops_preserves_reachable self_loop_bridge self_loop_bridge_reachable 100).2
        (by decide)⟩,
    ⟨triangle_reachable,
      (fix_loops_preserves_reachable triangle triangle_reachable 100).1 (by decide)⟩⟩

/-! ## The comparator `node_cmp` -/

theorem type_val_endpoint (t : node_type) : type_val t = 0 ↔ t = node_type.ENDPOINT := by
  cases t <;> simp [type_val]

/-- On the live nodes of a state without dangling references, `node_cmp` is
the lexicographic order of the sort keys. -/
theorem node_cmp_key (s : State) (hcl : closed s) (a b : Ptr) (da db : node)
    (ha : deref s a = some da) (hb : deref s b = some db) :
    node_cmp s a b = some (decide (cmp_key s a < cmp_key s b)) := by
  unfold node_cmp
  by_cases hab : a = b
  · rw [if_pos hab, hab]
    simp
  rw [if_neg hab]
  simp only [ha, hb]
  unfold cmp_key
  simp only [ha, hb]
  by_cases hty : da._type = db._type
  · rw [if_neg (not_not.mpr hty)]
    by_cases hep : da._type = node_type.ENDPOINT
    · have hep2 : db._type = node_type.ENDPOINT := hty ▸ hep
      rw [if_neg (not_not.mpr hep), if_pos hep, if_pos hep2]
      by_cases hlen : da.connected.length = db.connected.length
      · rw [if_neg (not_not.mpr hlen)]
        cases hca : da.connected with
        | nil =>
          have hcb : db.connected = [] := by
            rw [hca] at hlen
            exact List.length_eq_zero.mp hlen.symm
          simp only [first_kind, hca, hcb, Prod.Lex.lt_iff, lt_self_iff_false, List.length_nil,
            true_and, false_or]
        | cons i1 r1 =>
          cases hcb : db.connected with
          | nil =>
            rw [hca, hcb] at hlen
            simp at hlen
          | cons i2 r2 =>
            obtain ⟨e1, he1⟩ := hcl.2 a da ha i1 (by rw [hca]; exact List.mem_cons_self _ _)
            obtain ⟨e2, he2⟩ := hcl.2 b db hb i2 (by rw [hcb]; exact List.mem_cons_self _ _)
            have hl : (i1 :: r1).length = (i2 :: r2).length := by rw [← hca, ← hcb]; exact hlen
            simp only [first_kind, hca, hcb, he1, he2, Prod.Lex.lt_iff, lt_self_iff_false, hl,
              true_and, false_or]
            by_cases hk : e1._type = e2._type
            · rw [if_neg (not_not.mpr hk), hk]
              simp
            · rw [if_pos hk]
              have hne : type_val e1._type ≠ type_val e2._type :=
                fun e => hk (type_val_injective _ _ e)
              simp [hne]
      · rw [if_pos hlen]
        simp only [Prod.Lex.lt_iff, lt_self_iff_false, true_and, false_or]
        simp [hlen]
    · have hep2 : db._type ≠ node_type.ENDPOINT := hty ▸ hep
      rw [if_pos hep, if_neg hep, if_neg hep2]
      simp only [Prod.Lex.lt_iff, hty, lt_self_iff_false, true_and, false_or, and_false, or_false]
      by_cases hlt : get_id da < get_id db
      · rw [(str_lt_iff _ _).mpr hlt]
        simp [hlt]
      · have : str_lt (get_id da) (get_id db) = false := by
          cases h : str_lt (get_id da) (get_id db) with
          | false => rfl
          | true => exact absurd ((str_lt_iff _ _).mp h) hlt
        rw [this]
        simp [hlt]
  · rw [if_pos hty]
    have hne : type_val da._type ≠ type_val db._type := fun e => hty (type_val_injective _ _ e)
    have h0 : type_val node_type.ENDPOINT = 0 := rfl
    by_cases hea : da._type = node_type.ENDPOINT <;> by_cases heb : db._type = node_type.ENDPOINT
    · exact absurd (hea.trans heb.symm) hty
    · rw [if_pos hea, if_neg heb]
      rw [hea] at hne ⊢
      simp only [Prod.Lex.lt_iff, h0]
      simp [Ne.symm hne, h0] at hne ⊢
      simp [hne]
    · rw [if_neg hea, if_pos heb]
      rw [heb] at hne ⊢
      simp only [Prod.Lex.lt_iff, h0]
      simp [h0] at hne ⊢
      simp [hne]
    · rw [if_neg hea, if_neg heb]
      simp only [Prod.Lex.lt_iff]
      simp [hne]

/-- Two distinct live nodes have the same sort key exactly when they are
two bridges or two routers with the same identifier. -/
theorem cmp_key_eq_iff (s : State) (a b : Ptr) (da db : node) (ha : deref s a = some da)
    (hb : deref s b = some db) (hab : a ≠ b) :
    cmp_key s a = cmp_key s b ↔
      (da._type = db._type ∧ da._type ≠ node_type.ENDPOINT ∧ get_id da = get_id db) := by
  unfold cmp_key
  simp only [ha, hb]
  by_cases hea : da._type = node_type.ENDPOINT <;> by_cases heb : db._type = node_type.ENDPOINT
  · rw [if_pos hea, if_pos heb]
    constructor
    · intro h
      simp only [EmbeddingLike.apply_eq_iff_eq, Prod.mk.injEq] at h
      exact absurd h.2.2.2.2 hab
    · intro h
      exact absurd hea h.2.1
  · rw [if_pos hea, if_neg heb]
    constructor
    · intro h
      simp only [EmbeddingLike.apply_eq_iff_eq, Prod.mk.injEq] at h
      exact absurd ((type_val_endpoint _).mp h.1.symm) heb
    · intro h
      exact absurd hea h.2.1
  · rw [if_neg hea, if_pos heb]
    constructor
    · intro h
      simp only [EmbeddingLike.apply_eq_iff_eq, Prod.mk.injEq] at h
      exact absurd ((type_val_endpoint _).mp h.1) hea
    · intro h
      exact absurd (h.1 ▸ heb) hea
  · rw [if_neg hea, if_neg heb]
    constructor
    · intro h
      simp only [EmbeddingLike.apply_eq_iff_eq, Prod.mk.injEq] at h
      exact ⟨type_val_injective _ _ h.1, hea, h.2.1⟩
    · intro h
      rw [h.1, h.2.2]

/-- C21. In every reachable state `node_cmp` is a strict weak order on the
live nodes: it returns a value, it is irreflexive, asymmetric and transitive,
and incomparability is transitive. -/
theorem node_cmp_strict_weak_order (s : State) (h : Reachable s) (a b c : Ptr)
    (da db dc : node) (ha : deref s a = some da) (hb : deref s b = some db)
    (hc : deref s c = some dc) :
    node_cmp s a a = some false ∧
      (node_cmp s a b = some true ∨ node_cmp s a b = some false) ∧
      (node_cmp s a b = some true → node_cmp s b a = some false) ∧
      (node_cmp s a b = some true → node_cmp s b c = some true → node_cmp s a c = some true) ∧
      (node_cmp s a b = some false → node_cmp s b a = some false →
        node_cmp s b c = some false → node_cmp s c b = some false →
        node_cmp s a c = some false ∧ node_cmp s c a = some false) := by
  have hcl := (inv_of_reachable s h).closed
  rw [node_cmp_key s hcl a a da da ha ha, node_cmp_key s hcl a b da db ha hb,
    node_cmp_key s hcl b a db da hb ha, node_cmp_key s hcl b c db dc hb hc,
    node_cmp_key s hcl c b dc db hc hb, node_cmp_key s hcl a c da dc ha hc,
    node_cmp_key s hcl c a dc da hc ha]
  simp only [Option.some.injEq, decide_eq_true_eq, decide_eq_false_iff_not, lt_self_iff_false,
    not_false_eq_true, true_and]
  refine ⟨em _, fun h1 => lt_asymm h1, fun h1 h2 => lt_trans h1 h2, fun h1 h2 h3 h4 => ?_⟩
  have e1 : cmp_key s a = cmp_key s b := le_antisymm (not_lt.mp h2) (not_lt.mp h1)
  have e2 : cmp_key s b = cmp_key s c := le_antisymm (not_lt.mp h4) (not_lt.mp h3)
  rw [e1, e2]
  exact ⟨lt_irrefl _, lt_irrefl _⟩

/-- C21 (witness). The three bridges `A`, `B`, `C` of the triangle. -/
theorem node_cmp_strict_weak_order_witness :
    node_cmp triangle 1 1 = some false ∧
      (node_cmp triangle 1 2 = some true ∨ node_cmp triangle 1 2 = some false) ∧
      (node_cmp triangle 1 2 = some true → node_cmp triangle 2 1 = some false) ∧
      (node_cmp triangle 1 2 = some true → node_cmp triangle 2 3 = some true →
        node_cmp triangle 1 3 = some true) ∧
      (node_cmp triangle 1 2 = some false → node_cmp triangle 2 1 = some false →
        node_cmp triangle 2 3 = some false → node_cmp triangle 3 2 = some false →
        node_cmp triangle 1 3 = some false ∧ node_cmp triangle 3 1 = some false) :=
  node_cmp_strict_weak_order triangle triangle_reachable 1 2 3 _ _ _ rfl rfl rfl

/-- C22 (counterexample). The two routers `A` of different segments that are
connected to the router `c`: they are distinct, and `node_cmp` is false in
both directions. -/
theorem node_cmp_not_total :
    Reachable hub_low_first ∧ (2 : Ptr) ≠ 3 ∧
      (deref hub_low_first 2).map node._segment = some 200 ∧
      (deref hub_low_first 3).map node._segment = some 300 ∧
      node_cmp hub_low_first 2 3 = some false ∧ node_cmp hub_low_first 3 2 = some false :=
  ⟨hub_low_first_reachable, by decide, rfl, rfl, rfl, rfl⟩

/-- C22. In every reachable state, for two distinct live nodes exactly one of
`cmp(a, b)` and `cmp(b, a)` is true unless they are two bridges or two
routers with the same identifier; in that case both are false.  In
particular two distinct endpoints are always ordered. -/
theorem node_cmp_total_iff (s : State) (h : Reachable s) (a b : Ptr) (da db : node)
    (ha : deref s a = some da) (hb : deref s b = some db) (hab : a ≠ b) :
    (((node_cmp s a b = some true ∧ node_cmp s b a = some false) ∨
        (node_cmp s a b = some false ∧ node_cmp s b a = some true)) ↔
      ¬(da._type = db._type ∧ da._type ≠ node_type.ENDPOINT ∧ get_id da = get_id db)) ∧
    ((da._type = db._type ∧ da._type ≠ node_type.ENDPOINT ∧ get_id da = get_id db) →
      node_cmp s a b = some false ∧ node_cmp s b a = some false) ∧
    (da._type = node_type.ENDPOINT → db._type = node_type.ENDPOINT →
      (node_cmp s a b = some true ∧ node_cmp s b a = some false) ∨
        (node_cmp s a b = some false ∧ node_cmp s b a = some true)) := by
  have hcl := (inv_of_reachable s h).closed
  have hkey := cmp_key_eq_iff s a b da db ha hb hab
  rw [node_cmp_key s hcl a b da db ha hb, node_cmp_key s hcl b a db da hb ha]
  simp only [Option.some.injEq, decide_eq_true_eq, decide_eq_false_iff_not]
  have hmain : ((cmp_key s a < cmp_key s b ∧ ¬ cmp_key s b < cmp_key s a) ∨
      (¬ cmp_key s a < cmp_key s b ∧ cmp_key s b < cmp_key s a)) ↔
      cmp_key s a ≠ cmp_key s b := by
    constructor
    · rintro (⟨h1, _⟩ | ⟨_, h2⟩)
      · exact ne_of_lt h1
      · exact (ne_of_lt h2).symm
    · intro hne
      rcases lt_or_gt_of_ne hne with h1 | h1
      · exact Or.inl ⟨h1, lt_asymm h1⟩
      · exact Or.inr ⟨lt_asymm h1, h1⟩
  refine ⟨hmain.trans (not_congr hkey), fun hsame => ?_, fun hea _ => ?_⟩
  · rw [hkey.mpr hsame]
    exact ⟨lt_irrefl _, lt_irrefl _⟩
  · exact hmain.mpr fun e => (hkey.mp e).2.1 hea

/-- C22 (witness). The two endpoints of the two-segment state are ordered. -/
theorem node_cmp_total_iff_witness :
    (node_cmp two_segments 1 2 = some true ∧ node_cmp two_segments 2 1 = some false) ∨
      (node_cmp two_segments 1 2 = some false ∧ node_cmp two_segments 2 1 = some true) :=
  (node_cmp_total_iff two_segments two_segments_reachable 1 2 _ _ rfl rfl (by decide)).2.2
    rfl rfl

/-! ## Connection policies -/

theorem router_conflict_reachable : Reachable router_conflict := by
  have h1 := Reachable.step _ _ Reachable.init
    (Step.add_bridge [] 100 3 "b11" 1 (by decide) rfl)
  have h2 := Reachable.step _ _ h1 (Step.add_bridge _ 100 10 "b12" 2 (by decide) rfl)
  have h3 := Reachable.step _ _ h2 (Step.add_router _ 100 3 "r1" 3 (by decide) rfl)
  exact Reachable.step _ _ h3 (Step.connect _ 1 3 true router_conflict rfl)

theorem can_add_false_of_not (s : State) (a b : Ptr) (na nb : node) (hcl : closed s)
    (ha : deref s a = some na) (hb : deref s b = some nb) (h : ¬ may_add s na b nb) :
    can_add s a b = some false := by
  obtain ⟨c, hc⟩ := can_add_total s a b na nb hcl ha hb
  cases c with
  | false => exact hc
  | true => exact absurd ((can_add_true_iff s a b na nb hcl ha hb).mp hc) h

/-- A call of `connect` in which the node called on refuses. -/
theorem connect_refused_left (s : State) (a b : Ptr) (na nb : node)
    (ha : deref s a = some na) (hb : deref s b = some nb) (h : can_add s a b = some false) :
    connect s a b = some (false, s) := by
  have := connect_eq s a b na nb ha hb false false h (fun e => by cases e)
  simpa using this

/-- A call of `connect` in which the argument refuses. -/
theorem connect_refused_right (s : State) (a b : Ptr) (na nb : node) (hcl : closed s)
    (ha : deref s a = some na) (hb : deref s b = some nb) (h : can_add s b a = some false) :
    connect s a b = some (false, s) := by
  obtain ⟨c, hc⟩ := can_add_total s a b na nb hcl ha hb
  have := connect_eq s a b na nb ha hb c false hc (fun _ => h)
  simpa using this

/-- C23. In every reachable state, when the router `r` has a neighbor `i` in
the segment of the node `x`, both `r.connect(x)` and `x.connect(r)` return
false and leave the state unchanged, whatever the capacity of `r`. -/
theorem router_segment_conflict (s : State) (h : Reachable s) (r x i : Ptr) (nr nx ni : node)
    (hr : deref s r = some nr) (hty : nr._type = node_type.ROUTER) (hi : i ∈ nr.connected)
    (hni : deref s i = some ni) (hx : deref s x = some nx) (hseg : ni._segment = nx._segment) :
    connect s r x = some (false, s) ∧ connect s x r = some (false, s) := by
  have hcl := (inv_of_reachable s h).closed
  have hno : ¬ may_add s nr x nx := by
    unfold may_add
    rw [hty]
    exact fun hm => hm.1 i hi ni hni hseg
  have hfalse := can_add_false_of_not s r x nr nx hcl hr hx hno
  exact ⟨connect_refused_left s r x nr nx hr hx hfalse,
    connect_refused_right s x r nx nr hcl hx hr hfalse⟩

/-- C23 (witness). The router of capacity 3 that is connected to the bridge
`b11` of its segment refuses the bridge `b12` of the same segment. -/
theorem router_segment_conflict_witness :
    connect router_conflict 3 2 = some (false, router_conflict) ∧
      connect router_conflict 2 3 = some (false, router_conflict) :=
  router_segment_conflict router_conflict router_conflict_reachable 3 2 1 _ _ _ rfl rfl
    (by decide) rfl rfl rfl

theorem length_set_insert_of_not_mem (x : Ptr) (l : List Ptr) (h : x ∉ l) :
    (set_insert x l).length = l.length + 1 := by
  induction l with
  | nil => rfl
  | cons y ys ih =>
    unfold set_insert
    have hxy : x ≠ y := fun e => h (by rw [e]; exact List.mem_cons_self _ _)
    have hys : x ∉ ys := fun hm => h (List.mem_cons_of_mem _ hm)
    by_cases hlt : x < y
    · rw [if_pos hlt]
      rfl
    · rw [if_neg hlt, if_neg hxy]
      simp only [List.length_cons, ih hys]

theorem bridge_and_endpoints_reachable : Reachable bridge_and_endpoints := by
  have h1 := Reachable.step _ _ Reachable.init (Step.add_bridge [] 100 2 "b" 1 (by decide) rfl)
  have h2 := Reachable.step _ _ h1 (Step.add_endpoint _ 100 2 (by decide) rfl)
  have h3 := Reachable.step _ _ h2 (Step.add_endpoint _ 100 3 (by decide) rfl)
  exact Reachable.step _ _ h3 (Step.add_endpoint _ 100 4 (by decide) rfl)

/-- A bridge with `m` free ports is offered `m + 1` new nodes, each of which
accepts it: the first `m` calls of `connect` return true, the last one
false. -/
theorem bridge_fill (b : Ptr) :
    ∀ (ns : List Ptr) (s : State) (nb : node) (m : Nat), Reachable s → deref s b = some nb →
      nb._type = node_type.BRIDGE → nb.connected.length + m = nb.capacity →
      ns.length = m + 1 → ns.Nodup → (∀ n ∈ ns, n ∉ nb.connected) → accepts_each b ns s →
      ∃ t, connect_each b ns s = some (List.replicate m true ++ [false], t) := by
  intro ns
  induction ns with
  | nil => intro s nb m _ _ _ _ hlen; simp at hlen
  | cons n rest ih =>
    intro s nb m hr hb hty hcap hlen hnd hnew hacc
    have hinv := inv_of_reachable s hr
    have hcl := hinv.closed
    obtain ⟨hacc1, hacc2⟩ := hacc
    obtain ⟨nn, hn⟩ : ∃ nn, deref s n = some nn := by
      unfold can_add at hacc1
      cases hd : deref s n with
      | none => rw [hd] at hacc1; cases hacc1
      | some nn => exact ⟨nn, rfl⟩
    have hn0 : n ≠ 0 := fun e => by rw [e, hcl.1] at hn; cases hn
    have hnn : n ∉ nb.connected := hnew n (List.mem_cons_self _ _)
    unfold connect_each
    cases m with
    | zero =>
      have hrest : rest = [] := by
        simp only [List.length_cons, zero_add, add_left_eq_self] at hlen
        exact List.length_eq_zero.mp hlen
      have hfull : ¬ may_add s nb n nn := by
        unfold may_add
        rw [hty]
        intro hm
        omega
      have hfalse := can_add_false_of_not s b n nb nn hcl hb hn hfull
      rw [connect_refused_left s b n nb nn hb hn hfalse, hrest]
      exact ⟨s, rfl⟩
    | succ k =>
      have hfree : may_add s nb n nn := by
        unfold may_add
        rw [hty]
        exact ⟨hnn, by omega⟩
      have hca := (can_add_true_iff s b n nb nn hcl hb hn).mpr hfree
      have hcon := connect_eq s b n nb nn hb hn true true hca (fun _ => hacc1)
      simp only [Bool.and_self, if_true] at hcon
      rw [hcon]
      have hr1 : Reachable _ := Reachable.step _ _ hr (Step.connect s b n true _ hcon)
      have hd1 := deref_after_connect s b n b
      rw [hb] at hd1
      have hmem : ∀ x, x ∈ conn_after_connect b n b nb.connected ↔ x ∈ nb.connected ∨ x = n := by
        intro x
        rw [mem_conn_after_connect]
        constructor
        · rintro (h | ⟨_, h⟩ | ⟨h1, h2⟩)
          · exact Or.inl h
          · exact Or.inr h
          · exact Or.inr (h2.trans h1)
        · rintro (h | h)
          · exact Or.inl h
          · exact Or.inr (Or.inl ⟨rfl, h⟩)
      have hlen1 : (conn_after_connect b n b nb.connected).length = nb.connected.length + 1 := by
        rw [conn_after_connect_eq]
        by_cases hbn : b = n
        · rw [if_pos hbn]
          simp only [ite_self]
          rw [hbn]
          exact length_set_insert_of_not_mem n _ hnn
        · rw [if_neg hbn, if_pos rfl]
          exact length_set_insert_of_not_mem n _ hnn
      obtain ⟨t, ht⟩ := ih _ (upd (conn_after_connect b n b) nb) k hr1 hd1 hty
        (by show (conn_after_connect b n b nb.connected).length + k = nb.capacity; omega)
        (by simpa using hlen) (List.nodup_cons.mp hnd).2
        (fun x hx hm => by
          rcases (hmem x).mp hm with h | h
          · exact hnew x (List.mem_cons_of_mem _ hx) h
          · exact (List.nodup_cons.mp hnd).1 (h ▸ hx))
        (hacc2 true _ hcon)
      refine ⟨t, ?_⟩
      simp only [ht]
      rfl

/-- C24. In every reachable state, a bridge `b` of capacity `c` without
neighbors is offered `c + 1` pairwise distinct nodes, each of which can
accept `b` at the time it is tried: the first `c` calls `b.connect( n )`
return true and the last one returns false (for every `c`, also `c = 0`). -/
theorem bridge_uses_capacity (s : State) (h : Reachable s) (b : Ptr) (nb : node)
    (hb : deref s b = some nb) (hty : nb._type = node_type.BRIDGE) (c : Nat)
    (hcap : nb.capacity = c) (hempty : nb.connected = []) (ns : List Ptr)
    (hlen : ns.length = c + 1) (hnd : ns.Nodup) (hacc : accepts_each b ns s) :
    ∃ t, connect_each b ns s = some (List.replicate c true ++ [false], t) :=
  bridge_fill b ns s nb c h hb hty (by rw [hempty, hcap]; simp) hlen hnd
    (fun _ _ hm => by rw [hempty] at hm; cases hm) hacc

/-- C24 (witness). The bridge of capacity 2 and the three endpoints: the
calls return true, true, false. -/
theorem bridge_uses_capacity_witness :
    ∃ t, connect_each 1 [2, 3, 4] bridge_and_endpoints = some ([true, true, false], t) :=
  bridge_uses_capacity bridge_and_endpoints bridge_and_endpoints_reachable 1 _ rfl rfl 2 rfl
    rfl [2, 3, 4] rfl (by decide)
    ⟨rfl, fun _ _ e1 => ⟨by cases e1; rfl, fun _ _ e2 => ⟨by cases e1; cases e2; rfl,
      fun _ _ _ => trivial⟩⟩⟩

/-- A call of `connect` that both nodes accept: it returns true, and the new
state has exactly one connection more. -/
theorem connect_true_spec (s : State) (hr : Reachable s) (a b : Ptr) (na nb : node)
    (ha : deref s a = some na) (hb : deref s b = some nb) (hca : can_add s a b = some true)
    (hcb : can_add s b a = some true) :
    ∃ t, connect s a b = some (true, t) ∧ Reachable t ∧
      (∀ x y, edge t x y ↔ edge s x y ∨ (x = a ∧ y = b) ∨ (x = b ∧ y = a)) ∧
      ∀ q, deref t q = (deref s q).map (upd (conn_after_connect a b q)) := by
  have hcon := connect_eq s a b na nb ha hb true true hca (fun _ => hcb)
  simp only [Bool.and_self, if_true] at hcon
  exact ⟨_, hcon, Reachable.step _ _ hr (Step.connect s a b true _ hcon),
    edge_connect s a b na nb ha hb, deref_after_connect s a b⟩

/-- A call of `disconnect` on two distinct connected nodes: it returns true,
and the new state has exactly this connection less. -/
theorem disconnect_true_spec (s : State) (hr : Reachable s) (a b : Ptr) (hab : a ≠ b)
    (he : edge s a b) :
    ∃ t, disconnect s a b = some (true, t) ∧ Reachable t ∧
      (∀ x y, edge t x y ↔ edge s x y ∧ ¬(x = a ∧ y = b) ∧ ¬(x = b ∧ y = a)) ∧
      ∀ q, deref t q = (deref s q).map (upd (conn_after_disconnect a b q)) := by
  have hinv := inv_of_reachable s hr
  obtain ⟨na, ha, hmem⟩ := he
  obtain ⟨nb, hb, hmem2⟩ := hinv.symm a b ⟨na, ha, hmem⟩
  have ha0 : a ≠ 0 := fun e => by rw [e, hinv.closed.1] at ha; cases ha
  have hb0 : b ≠ 0 := fun e => by rw [e, hinv.closed.1] at hb; cases hb
  have hdis := disconnect_eq s a b na nb hab ha hb ha0 hb0
  rw [if_pos ⟨hmem, hmem2⟩, decide_eq_true ⟨hmem, hmem2⟩] at hdis
  exact ⟨_, hdis, Reachable.step _ _ hr (Step.disconnect s a b true _ hdis),
    edge_disconnect s a b hab hinv.sorted, deref_after_disconnect s a b⟩

/-- An endpoint accepts a node exactly when it has no neighbor. -/
theorem endpoint_can_add (s : State) (hcl : closed s) (e n : Ptr) (ne nn : node)
    (he : deref s e = some ne) (hn : deref s n = some nn) (hty : ne._type = node_type.ENDPOINT) :
    ((∀ y, ¬ edge s e y) → can_add s e n = some true) ∧
      ((∃ y, edge s e y) → can_add s e n = some false) := by
  have hiff : may_add s ne n nn ↔ ∀ y, ¬ edge s e y := by
    unfold may_add
    rw [hty]
    constructor
    · rintro h y ⟨nd, hd, hm⟩
      rw [he] at hd
      have e2 : ne = nd := by simpa using hd
      rw [← e2, h] at hm
      cases hm
    · intro h
      cases hc : ne.connected with
      | nil => rfl
      | cons y _ => exact absurd ⟨ne, he, by rw [hc]; exact List.mem_cons_self _ _⟩ (h y)
  constructor
  · intro h
    exact (can_add_true_iff s e n ne nn hcl he hn).mpr (hiff.mpr h)
  · rintro ⟨y, hy⟩
    exact can_add_false_of_not s e n ne nn hcl he hn fun hm => hiff.mp hm y hy

/-- C27. Scenario A in any reachable state: a bridge `b` of capacity 2
without neighbors and two distinct endpoints `e1`, `e2` without neighbors.
`b.connect(e1)` and `b.connect(e2)` return true, then `e1.reachable(e2)` is
true; `b.disconnect(e1)` returns true, after which `e1.reachable(e2)` is
false, `e2.reachable(b)` is true and `e1.connect(e2)` returns false. -/
theorem scenario_a (s : State) (h : Reachable s) (b e1 e2 : Ptr) (nb n1 n2 : node)
    (hb : deref s b = some nb) (h1 : deref s e1 = some n1) (h2 : deref s e2 = some n2)
    (tyb : nb._type = node_type.BRIDGE) (capb : nb.capacity = 2) (hbe : nb.connected = [])
    (ty1 : n1._type = node_type.ENDPOINT) (h1e : n1.connected = [])
    (ty2 : n2._type = node_type.ENDPOINT) (h2e : n2.connected = []) (hne : e1 ≠ e2) :
    ∃ s1 s2 s3, connect s b e1 = some (true, s1) ∧ connect s1 b e2 = some (true, s2) ∧
      reachable s2 e1 e2 = some true ∧ disconnect s2 b e1 = some (true, s3) ∧
      reachable s3 e1 e2 = some false ∧ reachable s3 e2 b = some true ∧
      connect s3 e1 e2 = some (false, s3) := by
  have hcl := (inv_of_reachable s h).closed
  have hb1 : b ≠ e1 := fun e => by
    rw [e, h1] at hb
    have e2 : n1 = nb := by simpa using hb
    rw [e2, tyb] at ty1
    cases ty1
  have hb2 : b ≠ e2 := fun e => by
    rw [e, h2] at hb
    have e3 : n2 = nb := by simpa using hb
    rw [e3, tyb] at ty2
    cases ty2
  have hnoe : ∀ p nd, deref s p = some nd → nd.connected = [] → ∀ y, ¬ edge s p y := by
    rintro p nd hp hc y ⟨nd2, hd, hm⟩
    rw [hp] at hd
    have e : nd = nd2 := by simpa using hd
    rw [← e, hc] at hm
    cases hm
  -- b.connect(e1)
  have hca1 : can_add s b e1 = some true := by
    apply (can_add_true_iff s b e1 nb n1 hcl hb h1).mpr
    unfold may_add
    rw [tyb, hbe, capb]
    exact ⟨List.not_mem_nil _, by decide⟩
  have hcb1 := (endpoint_can_add s hcl e1 b n1 nb h1 hb ty1).1 (hnoe e1 n1 h1 h1e)
  obtain ⟨s1, hcon1, hr1, hE1, hD1⟩ := connect_true_spec s h b e1 nb n1 hb h1 hca1 hcb1
  have hcl1 := (inv_of_reachable s1 hr1).closed
  have hb_1 : deref s1 b = some (upd (conn_after_connect b e1 b) nb) := by rw [hD1, hb]; rfl
  have h2_1 : deref s1 e2 = some (upd (conn_after_connect b e1 e2) n2) := by rw [hD1, h2]; rfl
  have hconn_b1 : conn_after_connect b e1 b nb.connected = [e1] := by
    rw [hbe, conn_after_connect_eq, if_neg hb1, if_pos rfl]
    rfl
  -- b.connect(e2)
  have hca2 : can_add s1 b e2 = some true := by
    apply (can_add_true_iff s1 b e2 _ _ hcl1 hb_1 h2_1).mpr
    unfold may_add
    show match nb._type with
      | node_type.ENDPOINT => _
      | node_type.BRIDGE => e2 ∉ conn_after_connect b e1 b nb.connected ∧
          (conn_after_connect b e1 b nb.connected).length < nb.capacity
      | node_type.ROUTER => _
    rw [tyb, hconn_b1, capb]
    exact ⟨fun hm => hne (List.mem_singleton.mp hm).symm, by simp⟩
  have hcb2 : can_add s1 e2 b = some true := by
    apply (endpoint_can_add s1 hcl1 e2 b _ _ h2_1 hb_1 ty2).1
    intro y hy
    rcases (hE1 e2 y).mp hy with h0 | ⟨h0, _⟩ | ⟨h0, _⟩
    · exact hnoe e2 n2 h2 h2e y h0
    · exact hb2 h0.symm
    · exact hne h0.symm
  obtain ⟨s2, hcon2, hr2, hE2, hD2⟩ := connect_true_spec s1 hr1 b e2 _ _ hb_1 h2_1 hca2 hcb2
  have hcl2 := (inv_of_reachable s2 hr2).closed
  have hlive2 : ∀ q nd, deref s q = some nd → ∃ md, deref s2 q = some md ∧ md._type = nd._type := by
    intro q nd hq
    exact ⟨upd (conn_after_connect b e2 q) (upd (conn_after_connect b e1 q) nd),
      by rw [hD2, hD1, hq]; rfl, rfl⟩
  have he1b : edge s2 e1 b := (hE2 e1 b).mpr (Or.inl ((hE1 e1 b).mpr (Or.inr (Or.inr ⟨rfl, rfl⟩))))
  have hbe2 : edge s2 b e2 := (hE2 b e2).mpr (Or.inr (Or.inl ⟨rfl, rfl⟩))
  have hbe1 : edge s2 b e1 := (hE2 b e1).mpr (Or.inl ((hE1 b e1).mpr (Or.inr (Or.inl ⟨rfl, rfl⟩))))
  obtain ⟨m1, hm1, _⟩ := hlive2 e1 n1 h1
  have hreach2 : reachable s2 e1 e2 = some true :=
    (reachable_true_iff s2 hcl2 e1 e2 m1 hm1).mpr
      (Relation.ReflTransGen.head he1b (Relation.ReflTransGen.single hbe2))
  -- b.disconnect(e1)
  obtain ⟨s3, hdis, hr3, hE3, hD3⟩ := disconnect_true_spec s2 hr2 b e1 hb1 hbe1
  have hcl3 := (inv_of_reachable s3 hr3).closed
  have hlive3 : ∀ q nd, deref s q = some nd → ∃ md, deref s3 q = some md ∧ md._type = nd._type := by
    intro q nd hq
    exact ⟨upd (conn_after_disconnect b e1 q)
      (upd (conn_after_connect b e2 q) (upd (conn_after_connect b e1 q) nd)),
      by rw [hD3, hD2, hD1, hq]; rfl, rfl⟩
  obtain ⟨k1, hk1, tk1⟩ := hlive3 e1 n1 h1
  obtain ⟨k2, hk2, tk2⟩ := hlive3 e2 n2 h2
  have hno1 : ∀ y, ¬ edge s3 e1 y := by
    intro y hy
    obtain ⟨hy2, _, hnot⟩ := (hE3 e1 y).mp hy
    rcases (hE2 e1 y).mp hy2 with h0 | ⟨h0, _⟩ | ⟨h0, _⟩
    · rcases (hE1 e1 y).mp h0 with h00 | ⟨h00, _⟩ | ⟨_, h00⟩
      · exact hnoe e1 n1 h1 h1e y h00
      · exact hb1 h00.symm
      · exact hnot ⟨rfl, h00⟩
    · exact hb1 h0.symm
    · exact hne h0
  have he2b : edge s3 e2 b :=
    (hE3 e2 b).mpr ⟨(hE2 e2 b).mpr (Or.inr (Or.inr ⟨rfl, rfl⟩)),
      fun e => hb2 e.1.symm, fun e => hne e.1.symm⟩
  have hreach3 : reachable s3 e1 e2 = some false := by
    obtain ⟨r, hrun, hiff⟩ := reachable_spec s3 hcl3 e1 e2 k1 hk1
    cases r with
    | false => exact hrun
    | true =>
      exfalso
      have hp := hiff.mp rfl
      rcases Relation.ReflTransGen.cases_head hp with e | ⟨c, hc, _⟩
      · exact hne e
      · exact hno1 c hc
  refine ⟨s1, s2, s3, hcon1, hcon2, hreach2, hdis, hreach3,
    (reachable_true_iff s3 hcl3 e2 b k2 hk2).mpr (Relation.ReflTransGen.single he2b), ?_⟩
  exact connect_refused_right s3 e1 e2 k1 k2 hcl3 hk1 hk2
    ((endpoint_can_add s3 hcl3 e2 e1 k2 k1 hk2 hk1 (tk2.trans ty2)).2 ⟨b, he2b⟩)

/-- C27 (witness). The bridge at `1` and the endpoints at `2` and `3`. -/
theorem scenario_a_witness :
    ∃ s1 s2 s3, connect bridge_and_endpoints 1 2 = some (true, s1) ∧
      connect s1 1 3 = some (true, s2) ∧ reachable s2 2 3 = some true ∧
      disconnect s2 1 2 = some (true, s3) ∧ reachable s3 2 3 = some false ∧
      reachable s3 3 1 = some true ∧ connect s3 2 3 = some (false, s3) :=
  scenario_a bridge_and_endpoints bridge_and_endpoints_reachable 1 2 3 _ _ _ rfl rfl rfl
    rfl rfl rfl rfl rfl rfl rfl (by decide)

theorem bridge_foreign_endpoint_before_reachable : Reachable bridge_foreign_endpoint_before :=
  Reachable.step _ _
    (Reachable.step _ _ Reachable.init (Step.add_bridge [] 100 2 "b" 1 (by decide) rfl))
    (Step.add_endpoint _ 200 2 (by decide) rfl)

theorem bridge_foreign_endpoint_reachable : Reachable bridge_foreign_endpoint :=
  Reachable.step _ _ bridge_foreign_endpoint_before_reachable
    (Step.connect _ 1 2 true bridge_foreign_endpoint rfl)

/-- C28 (counterexample). A bridge and an endpoint of different segments:
`connect` returns true, and the reachable state holds a connection between
two nodes of different segments neither of which is a router. -/
theorem cross_segment_without_router :
    Reachable bridge_foreign_endpoint_before ∧
      connect bridge_foreign_endpoint_before 1 2 = some (true, bridge_foreign_endpoint) ∧
      Reachable bridge_foreign_endpoint ∧ edge bridge_foreign_endpoint 1 2 ∧
      (deref bridge_foreign_endpoint 1).map node._segment = some 100 ∧
      (deref bridge_foreign_endpoint 2).map node._segment = some 200 ∧
      (deref bridge_foreign_endpoint 1).map node._type = some node_type.BRIDGE ∧
      (deref bridge_foreign_endpoint 2).map node._type = some node_type.ENDPOINT :=
  ⟨bridge_foreign_endpoint_before_reachable, rfl, bridge_foreign_endpoint_reachable,
    ⟨_, rfl, by decide⟩, rfl, rfl, rfl, rfl⟩

/-- The policy of a node that is not a router. -/
theorem can_add_port_free (s : State) (a b : Ptr) (na : node) (ha : deref s a = some na)
    (hty : na._type ≠ node_type.ROUTER) (hb0 : b ≠ 0) :
    can_add s a b = some (port_free na b) := by
  unfold can_add port_free
  simp only [ha]
  obtain ⟨seg, ty, cap, id, conn⟩ := na
  cases ty with
  | ENDPOINT => simp [hb0]
  | BRIDGE =>
    simp only [if_neg hb0]
    by_cases hm : b ∈ conn
    · simp [hm]
    · simp [hm]
  | ROUTER => exact absurd rfl hty

/-- C28. In every reachable state, for two nodes `a` and `b` neither of which
is a router, the result of `a.connect(b)` is decided by the free ports of
the two nodes alone; their segments are not looked at.  So `connect` returns
true for a bridge or endpoint with a free port and a bridge or endpoint with
a free port of another segment. -/
theorem connect_ignores_segments (s : State) (h : Reachable s) (a b : Ptr) (na nb : node)
    (ha : deref s a = some na) (hb : deref s b = some nb)
    (hta : na._type ≠ node_type.ROUTER) (htb : nb._type ≠ node_type.ROUTER) :
    connect s a b = some (port_free na b && port_free nb a,
      if (port_free na b && port_free nb a) = true then
        modify (fun nd => { nd with connected := set_insert a nd.connected }) b
          (modify (fun nd => { nd with connected := set_insert b nd.connected }) a s)
      else s) := by
  have hcl := (inv_of_reachable s h).closed
  have ha0 : a ≠ 0 := fun e => by rw [e, hcl.1] at ha; cases ha
  have hb0 : b ≠ 0 := fun e => by rw [e, hcl.1] at hb; cases hb
  exact connect_eq s a b na nb ha hb _ _ (can_add_port_free s a b na ha hta hb0)
    (fun _ => can_add_port_free s b a nb hb htb ha0)

/-- C28 (witness). The bridge of segment `100` and the endpoint of segment
`200`. -/
theorem connect_ignores_segments_witness :
    connect bridge_foreign_endpoint_before 1 2 = some (true, bridge_foreign_endpoint) :=
  connect_ignores_segments bridge_foreign_endpoint_before
    bridge_foreign_endpoint_before_reachable 1 2 _ _ rfl rfl (by decide) (by decide)

/-! ## `has_loops` and connections between segments -/

theorem two_segments_unlinked_reachable : Reachable two_segments_unlinked :=
  Reachable.step _ _ two_segments_reachable
    (Step.disconnect two_segments 3 4 true two_segments_unlinked rfl)

theorem has_cycle_congr (s t : State) (seg : Ptr)
    (hsame : ∀ x y, seg_edge s seg x y → seg_edge t seg x y) (hc : has_cycle s seg) :
    has_cycle t seg := by
  obtain ⟨x, y, hE, hpath⟩ := hc
  exact ⟨x, y, hsame x y hE, hpath.mono fun a b hab => ⟨hsame a b hab.1, hab.2⟩⟩

/-- Disconnecting two nodes of different segments does not change the
connections inside any segment. -/
theorem seg_edge_disconnect_cross (s : State) (hr : Reachable s) (a b : Ptr) (na nb : node)
    (ha : deref s a = some na) (hb : deref s b = some nb) (hseg : na._segment ≠ nb._segment)
    (seg x y : Ptr) :
    seg_edge (modify (upd fun l => l.erase a) b (modify (upd fun l => l.erase b) a s)) seg x y ↔
      seg_edge s seg x y := by
  have hab : a ≠ b := fun e => by
    rw [e, hb] at ha
    have e2 : nb = na := by simpa using ha
    exact hseg (by rw [e2])
  rw [seg_edge_disconnect s a b hab (inv_of_reachable s hr).sorted]
  constructor
  · exact fun h => h.1
  · intro h
    have hcross : ∀ u v nu nv, deref s u = some nu → deref s v = some nv →
        nu._segment ≠ nv._segment → ¬(x = u ∧ y = v) := by
      rintro u v nu nv hu hv hne ⟨e1, e2⟩
      obtain ⟨nx, ny, hx, hy, _, hsx, hsy⟩ := h
      rw [e1, hu] at hx
      rw [e2, hv] at hy
      have e3 : nu = nx := by simpa using hx
      have e4 : nv = ny := by simpa using hy
      exact hne (by rw [e3, e4, hsx, hsy])
    exact ⟨h, hcross a b na nb ha hb hseg, hcross b a nb na hb ha (Ne.symm hseg)⟩

/-- C25. Two reachable states with the same connections between nodes of
the same segment give the same value of `has_loops` for every segment,
however the connections between nodes of different segments differ. -/
theorem has_loops_ignores_cross_segment (s t : State) (hs : Reachable s) (ht : Reachable t)
    (hsame : ∀ seg x y, seg_edge s seg x y ↔ seg_edge t seg x y) (seg : Ptr) :
    has_loops s seg = has_loops t seg := by
  obtain ⟨b1, h1, hb1⟩ := has_loops_fuel_spec s (inv_of_reachable s hs)
    (keys_sorted_of_reachable s hs) seg (fuel_bound s) (by rw [fuel_bound_eq]; omega)
  obtain ⟨b2, h2, hb2⟩ := has_loops_fuel_spec t (inv_of_reachable t ht)
    (keys_sorted_of_reachable t ht) seg (fuel_bound t) (by rw [fuel_bound_eq]; omega)
  have hiff : b1 = true ↔ b2 = true :=
    hb1.trans (Iff.trans
      ⟨has_cycle_congr s t seg fun x y => (hsame seg x y).mp,
        has_cycle_congr t s seg fun x y => (hsame seg x y).mpr⟩ hb2.symm)
  unfold has_loops
  rw [h1, h2]
  cases b1 <;> cases b2 <;> simp at hiff ⊢

/-- C25 (witness). Two segments, each with a router and an endpoint attached
to it: with the two routers connected, the endpoints reach each other and
`has_loops` is false on both segments, as it is without that connection. -/
theorem has_loops_ignores_cross_segment_witness :
    (reachable two_segments 1 2 = some true ∧ reachable two_segments 2 1 = some true ∧
      has_loops two_segments 100 = some false ∧ has_loops two_segments 200 = some false) ∧
    has_loops two_segments 100 = has_loops two_segments_unlinked 100 ∧
    has_loops two_segments 200 = has_loops two_segments_unlinked 200 :=
  have hsame : ∀ seg x y, seg_edge two_segments seg x y ↔
      seg_edge two_segments_unlinked seg x y := fun seg x y =>
    (seg_edge_disconnect_cross two_segments two_segments_reachable 3 4 _ _ rfl rfl
      (by decide) seg x y).symm
  ⟨⟨rfl, rfl, rfl, rfl⟩,
    has_loops_ignores_cross_segment two_segments two_segments_unlinked two_segments_reachable
      two_segments_unlinked_reachable hsame 100,
    has_loops_ignores_cross_segment two_segments two_segments_unlinked two_segments_reachable
      two_segments_unlinked_reachable hsame 200⟩

/-! ## `deserialize` on malformed text -/

theorem connect_null (s : State) (a : Ptr) (na : node) (ha : deref s a = some na) :
    connect s a 0 = some (false, s) := by
  unfold connect
  rw [can_add_null s a na ha]

theorem deref_dealloc (p q : Ptr) (s : State) :
    deref (dealloc p s) q = if q = p then none else deref s q := by
  induction s with
  | nil =>
    unfold dealloc
    simp [deref]
  | cons e rest ih =>
    obtain ⟨k, x⟩ := e
    unfold dealloc at ih ⊢
    have hcons : ∀ (l : State), deref ((k, x) :: l) q = if k = q then some x else deref l q :=
      fun _ => rfl
    by_cases hk : k = p
    · rw [List.filter_cons_of_neg (by simpa using hk), ih, hcons]
      by_cases hq : q = p
      · rw [if_pos hq, if_pos hq]
      · rw [if_neg hq, if_neg hq, if_neg (fun e => hq (e.symm.trans hk))]
    · rw [List.filter_cons_of_pos (by simpa using hk), hcons, hcons]
      by_cases hkq : k = q
      · rw [if_pos hkq, if_pos hkq, if_neg (fun e => hk (hkq.trans e))]
      · rw [if_neg hkq, if_neg hkq, ih]

theorem well_linked_of_reachable (s : State) (h : Reachable s) : well_linked s where
  closed := (inv_of_reachable s h).closed
  nodup := fun p nd hp => ((inv_of_reachable s h).sorted p nd hp).imp fun hlt => Nat.ne_of_lt hlt
  symm := (inv_of_reachable s h).symm

/-- The loop of the destructor over neighbors that are live, are not the
node itself and hold the node in their neighbor sets: it returns, and the
node is erased from exactly these sets. -/
theorem destroy_loop_spec (this : Ptr) :
    ∀ (l : List Ptr) (s : State),
      (∀ n ∈ l, n ≠ this ∧ ∃ nn, deref s n = some nn ∧ this ∈ nn.connected) → l.Nodup →
      ∃ t, destroy_loop this l s = some t ∧
        ∀ q, deref t q = (deref s q).map (upd fun c => if q ∈ l then c.erase this else c) := by
  intro l
  induction l with
  | nil =>
    intro s _ _
    refine ⟨s, rfl, fun q => ?_⟩
    cases deref s q <;> rfl
  | cons n rest ih =>
    intro s hl hnd
    obtain ⟨hne, nn, hn, hmem⟩ := hl n (List.mem_cons_self _ _)
    have hnr : n ∉ rest := (List.nodup_cons.mp hnd).1
    unfold destroy_loop
    rw [if_neg hne, remove_eq s n this nn hn hmem]
    obtain ⟨t, hrun, hspec⟩ := ih (modify (upd fun c => c.erase this) n s)
      (fun n2 h2 => by
        obtain ⟨h3, nn2, h4, h5⟩ := hl n2 (List.mem_cons_of_mem _ h2)
        have hn2 : n2 ≠ n := fun e => hnr (e ▸ h2)
        exact ⟨h3, nn2, by rw [deref_modify_ne _ _ hn2]; exact h4, h5⟩)
      (List.nodup_cons.mp hnd).2
    refine ⟨t, hrun, fun q => ?_⟩
    rw [hspec q, deref_modify]
    by_cases hq : q = n
    · rw [if_pos hq, hq]
      simp only [hnr, if_false, List.mem_cons_self, if_true]
      cases deref s n <;> rfl
    · rw [if_neg hq]
      simp only [List.mem_cons, hq, false_or]

/-- The loop of the destructor of a node that is its own neighbor has no
defined result. -/
theorem destroy_loop_self (this : Ptr) :
    ∀ (l : List Ptr) (s : State), this ∈ l → destroy_loop this l s = none := by
  intro l
  induction l with
  | nil => intro s h; cases h
  | cons n rest ih =>
    intro s h
    unfold destroy_loop
    by_cases hn : n = this
    · rw [if_pos hn]
    · rw [if_neg hn]
      have hrest : this ∈ rest := by
        rcases List.mem_cons.mp h with e | h2
        · exact absurd e.symm hn
        · exact h2
      cases remove s n this with
      | none => rfl
      | some s1 => exact ih s1 hrest

/-- The destruction of a node that is not its own neighbor: the node is gone
and is erased from every neighbor set; the state stays well linked. -/
theorem destroy_node_spec (s : State) (hw : well_linked s) (p : Ptr) (np : node)
    (hp : deref s p = some np) (hself : p ∉ np.connected) :
    ∃ t, destroy_node s p = some t ∧ well_linked t ∧
      ∀ q, deref t q = if q = p then none else (deref s q).map (upd fun c => c.erase p) := by
  obtain ⟨t1, hrun, hspec⟩ := destroy_loop_spec p np.connected s
    (fun n hn => by
      refine ⟨fun e => hself (e ▸ hn), ?_⟩
      obtain ⟨nn, h1, h2⟩ := hw.symm p n ⟨np, hp, hn⟩
      exact ⟨nn, h1, h2⟩)
    (hw.nodup p np hp)
  have hform : ∀ q, deref (dealloc p t1) q =
      if q = p then none else (deref s q).map (upd fun c => c.erase p) := by
    intro q
    rw [deref_dealloc]
    by_cases hq : q = p
    · rw [if_pos hq, if_pos hq]
    · rw [if_neg hq, if_neg hq, hspec q]
      by_cases hmem : q ∈ np.connected
      · simp only [if_pos hmem]
      · simp only [if_neg hmem]
        cases hd : deref s q with
        | none => rfl
        | some nq =>
          have hnot : p ∉ nq.connected := by
            intro hm
            obtain ⟨nd, h1, h2⟩ := hw.symm q p ⟨nq, hd, hm⟩
            rw [hp] at h1
            have e : np = nd := by simpa using h1
            exact hmem (e ▸ h2)
          simp only [Option.map_some', upd, List.erase_of_not_mem hnot]
  refine ⟨dealloc p t1, ?_, ?_, hform⟩
  · unfold destroy_node
    simp only [hp, hrun]
  · have hlive : ∀ q nd, deref (dealloc p t1) q = some nd →
        q ≠ p ∧ ∃ n0, deref s q = some n0 ∧ nd.connected = n0.connected.erase p := by
      intro q nd hq
      rw [hform q] at hq
      by_cases hqp : q = p
      · rw [if_pos hqp] at hq
        cases hq
      · rw [if_neg hqp] at hq
        obtain ⟨n0, h0, e⟩ := Option.map_eq_some'.mp hq
        exact ⟨hqp, n0, h0, by rw [← e]; rfl⟩
    have hedge : ∀ x y, edge (dealloc p t1) x y ↔ edge s x y ∧ x ≠ p ∧ y ≠ p := by
      intro x y
      constructor
      · rintro ⟨nd, hd, hm⟩
        obtain ⟨hxp, n0, h0, e⟩ := hlive x nd hd
        rw [e, (hw.nodup x n0 h0).mem_erase_iff] at hm
        exact ⟨⟨n0, h0, hm.2⟩, hxp, hm.1⟩
      · rintro ⟨⟨n0, h0, hm⟩, hxp, hyp⟩
        refine ⟨upd (fun c => c.erase p) n0, by rw [hform x, if_neg hxp, h0]; rfl, ?_⟩
        show y ∈ n0.connected.erase p
        rw [(hw.nodup x n0 h0).mem_erase_iff]
        exact ⟨hyp, hm⟩
    constructor
    · constructor
      · rw [hform 0]
        by_cases h0 : (0 : Ptr) = p
        · rw [if_pos h0]
        · rw [if_neg h0, hw.closed.1]
          rfl
      · intro q nd hq i hi
        obtain ⟨hip, _⟩ := ((hedge q i).mp ⟨nd, hq, hi⟩).2
        obtain ⟨_, n0, h0, e⟩ := hlive q nd hq
        have hi : i ≠ p := ((hedge q i).mp ⟨nd, hq, hi⟩).2.2
        obtain ⟨ni, hni⟩ := hw.closed.2 q n0 h0 i
          (((hedge q i).mp ⟨nd, hq, by assumption⟩).1.elim fun nd2 h2 => by
            rw [h0] at h2
            have e2 : n0 = nd2 := by simpa using h2.1
            exact e2 ▸ h2.2)
        exact ⟨upd (fun c => c.erase p) ni, by rw [hform i, if_neg hi, hni]; rfl⟩
    · intro q nd hq
      obtain ⟨_, n0, h0, e⟩ := hlive q nd hq
      rw [e]
      exact (hw.nodup q n0 h0).sublist (List.erase_sublist p n0.connected)
    · intro x y hxy
      obtain ⟨h1, h2, h3⟩ := (hedge x y).mp hxy
      exact (hedge y x).mpr ⟨hw.symm x y h1, h3, h2⟩

/-- The destruction of a list of distinct live nodes none of which is its
own neighbor: the nodes are gone and are filtered out of every neighbor
set. -/
theorem destroy_nodes_spec :
    ∀ (order : List Ptr) (s : State), well_linked s → order.Nodup →
      (∀ p ∈ order, ∃ np, deref s p = some np ∧ p ∉ np.connected) →
      ∃ t, destroy_nodes order s = some t ∧ well_linked t ∧
        ∀ q, deref t q = if q ∈ order then none
          else (deref s q).map (upd (List.filter fun y => decide (y ∉ order))) := by
  intro order
  induction order with
  | nil =>
    intro s hw _ _
    refine ⟨s, rfl, hw, fun q => ?_⟩
    rw [if_neg (List.not_mem_nil q)]
    cases hd : deref s q with
    | none => rfl
    | some nd =>
      simp only [Option.map_some', upd, List.not_mem_nil, not_false_eq_true, decide_True,
        List.filter_true]
  | cons p rest ih =>
    intro s hw hnd hall
    obtain ⟨np, hp, hself⟩ := hall p (List.mem_cons_self _ _)
    obtain ⟨t1, hrun1, hw1, hform1⟩ := destroy_node_spec s hw p np hp hself
    have hpr : p ∉ rest := (List.nodup_cons.mp hnd).1
    obtain ⟨t, hrun, hwt, hform⟩ := ih t1 hw1 (List.nodup_cons.mp hnd).2
      (fun p2 h2 => by
        obtain ⟨n2, hn2, hs2⟩ := hall p2 (List.mem_cons_of_mem _ h2)
        have hne : p2 ≠ p := fun e => hpr (e ▸ h2)
        refine ⟨upd (fun c => c.erase p) n2, by rw [hform1 p2, if_neg hne, hn2]; rfl, ?_⟩
        exact fun hm => hs2 (List.mem_of_mem_erase hm))
    refine ⟨t, ?_, hwt, fun q => ?_⟩
    · unfold destroy_nodes
      simp only [hrun1, hrun]
    · rw [hform q, hform1 q]
      by_cases hqr : q ∈ rest
      · rw [if_pos hqr, if_pos (List.mem_cons_of_mem _ hqr)]
      · rw [if_neg hqr]
        by_cases hqp : q = p
        · rw [if_pos hqp, if_pos (by rw [hqp]; exact List.mem_cons_self _ _)]
          rfl
        · rw [if_neg hqp, if_neg (by simp [hqp, hqr])]
          cases hd : deref s q with
          | none => rfl
          | some nd =>
            simp only [Option.map_some', upd, Option.some.injEq, node.mk.injEq, true_and]
            rw [(hw.nodup q nd hd).erase_eq_filter, List.filter_filter]
            apply List.filter_congr
            intro y _
            simp only [List.mem_cons, not_or, Bool.decide_and, bne_iff_ne, ne_eq, decide_not]
            cases hy : decide (y ∈ rest) <;> cases hy2 : (y == p) <;>
              simp_all

/-- The destruction of a list of nodes one of which is its own neighbor has
no defined result. -/
theorem destroy_nodes_self :
    ∀ (order : List Ptr) (s : State), well_linked s →
      (∃ x ∈ order, ∃ nx, deref s x = some nx ∧ x ∈ nx.connected) →
      destroy_nodes order s = none := by
  intro order
  induction order with
  | nil => rintro s _ ⟨x, hx, _⟩; cases hx
  | cons p rest ih =>
    rintro s hw ⟨x, hx, nx, hnx, hself⟩
    unfold destroy_nodes
    cases hp : deref s p with
    | none =>
      unfold destroy_node
      simp only [hp]
    | some np =>
      by_cases hps : p ∈ np.connected
      · unfold destroy_node
        simp only [hp, destroy_loop_self p np.connected s hps]
      · obtain ⟨t1, hrun1, hw1, hform1⟩ := destroy_node_spec s hw p np hp hps
        simp only [hrun1]
        have hxp : x ≠ p := by
          intro e
          rw [e, hp] at hnx
          have e2 : np = nx := by simpa using hnx
          exact hps (e2 ▸ e ▸ hself)
        have hxr : x ∈ rest := by
          rcases List.mem_cons.mp hx with e | h
          · exact absurd e hxp
          · exact h
        refine ih t1 hw1 ⟨x, hxr, upd (fun c => c.erase p) nx,
          by rw [hform1 x, if_neg hxp, hnx]; rfl, ?_⟩
        show x ∈ nx.connected.erase p
        rw [(hw.nodup x nx hnx).mem_erase_iff]
        exact ⟨hxp, hself⟩

theorem mem_network_nodes (s : State) (hs : keys_sorted s) (seg p : Ptr) :
    p ∈ network_nodes s seg ↔ ∃ nd, deref s p = some nd ∧ nd._segment = seg := by
  unfold network_nodes
  rw [List.mem_map]
  constructor
  · rintro ⟨⟨k, nd⟩, hmem, hk⟩
    rw [List.mem_filter] at hmem
    simp only at hk
    rw [← hk]
    exact ⟨nd, deref_of_mem s hs k nd hmem.1, by simpa using hmem.2⟩
  · rintro ⟨nd, hd, hseg⟩
    refine ⟨(p, nd), ?_, rfl⟩
    rw [List.mem_filter]
    exact ⟨mem_of_deref s p nd hd, by simpa using hseg⟩

theorem nodup_network_nodes (s : State) (hs : keys_sorted s) (seg : Ptr) :
    (network_nodes s seg).Nodup := by
  unfold network_nodes
  exact ((keys_nodup s hs).sublist
    ((List.filter_sublist s).map Prod.fst))

/-- C30. The destruction of the segment `seg` in a reachable state, in any
order of its nodes.  When no node of the segment is its own neighbor, the
destruction returns: the nodes of the segment are gone, every surviving node
keeps everything but its neighbor set, from which exactly the nodes of the
segment are removed, and the neighbor relation is still symmetric.  When
some node of the segment is its own neighbor the destruction has no defined
result: the destructor erases the element of `connected` that its loop
stands on. -/
theorem segment_destruction (s : State) (h : Reachable s) (seg : Ptr) (order : List Ptr)
    (hperm : order.Perm (network_nodes s seg)) :
    (no_self_connection s seg →
      ∃ t, destroy_segment s seg order = some t ∧
        (∀ q ∈ network_nodes s seg, deref t q = none) ∧
        (∀ q n0, deref s q = some n0 → n0._segment ≠ seg →
          deref t q = some
            { n0 with connected :=
                n0.connected.filter fun y => decide (y ∉ network_nodes s seg) }) ∧
        (∀ q nd, deref t q = some nd → ∀ y ∈ nd.connected, y ∉ network_nodes s seg) ∧
        ∀ x y, edge t x y → edge t y x) ∧
    (¬ no_self_connection s seg → destroy_segment s seg order = none) := by
  have hs := keys_sorted_of_reachable s h
  have hw := well_linked_of_reachable s h
  have hmem : ∀ q, q ∈ order ↔ q ∈ network_nodes s seg := fun q => hperm.mem_iff
  unfold destroy_segment
  rw [if_pos hperm]
  constructor
  · intro hself
    obtain ⟨t, hrun, hwt, hform⟩ := destroy_nodes_spec order s hw
      (hperm.nodup_iff.mpr (nodup_network_nodes s hs seg))
      (fun p hp => by
        obtain ⟨np, hnp, hseg⟩ := (mem_network_nodes s hs seg p).mp ((hmem p).mp hp)
        exact ⟨np, hnp, hself (p, np) (mem_of_deref s p np hnp) hseg⟩)
    have hfilter : ∀ l : List Ptr, l.filter (fun y => decide (y ∉ order)) =
        l.filter fun y => decide (y ∉ network_nodes s seg) := by
      intro l
      apply List.filter_congr
      intro y _
      rw [decide_eq_decide]
      exact not_congr (hmem y)
    refine ⟨t, hrun, fun q hq => ?_, fun q n0 hq hseg => ?_, fun q nd hq y hy => ?_, hwt.symm⟩
    · rw [hform q, if_pos ((hmem q).mpr hq)]
    · have hqo : q ∉ order := fun hm => by
        obtain ⟨nd, hnd, hsg⟩ := (mem_network_nodes s hs seg q).mp ((hmem q).mp hm)
        rw [hq] at hnd
        have e : n0 = nd := by simpa using hnd
        exact hseg (e ▸ hsg)
      rw [hform q, if_neg hqo, hq]
      simp only [Option.map_some', upd, hfilter]
    · rw [hform q] at hq
      by_cases hqo : q ∈ order
      · rw [if_pos hqo] at hq
        cases hq
      · rw [if_neg hqo] at hq
        obtain ⟨n0, _, e⟩ := Option.map_eq_some'.mp hq
        rw [← e] at hy
        have hy2 : y ∈ n0.connected.filter fun y => decide (y ∉ order) := hy
        rw [List.mem_filter] at hy2
        exact fun hm => (of_decide_eq_true hy2.2) ((hmem y).mpr hm)
  · intro hself
    obtain ⟨x, hx⟩ := self_connection_of_not s hs seg hself
    obtain ⟨nx, _, hnx, _, hxx, hsx, _⟩ := hx
    exact destroy_nodes_self order s hw
      ⟨x, (hmem x).mpr ((mem_network_nodes s hs seg x).mpr ⟨nx, hnx, hsx⟩), nx, hnx, hxx⟩

/-- C30 (witness). The segment `200` of the two-segment state is destroyed,
router first: its nodes are gone and the router of the segment `100` keeps
the endpoint as its only neighbor.  The segment that holds the endpoint
connected to itself cannot be destroyed. -/
theorem segment_destruction_witness :
    (∃ t, destroy_segment two_segments 200 [4, 2] = some t ∧
      deref t 2 = none ∧ deref t 4 = none ∧ (deref t 3).map node.connected = some [1]) ∧
    Reachable self_loop ∧ destroy_segment self_loop 100 [1] = none :=
  ⟨by
    obtain ⟨t, hrun, hgone, hkeep, _, _⟩ :=
      (segment_destruction two_segments two_segments_reachable 200 [4, 2] (by decide)).1
        (by decide)
    refine ⟨t, hrun, hgone 2 (by decide), hgone 4 (by decide), ?_⟩
    rw [hkeep 3 _ rfl (by decide)]
    rfl,
  self_loop_reachable,
  (segment_destruction self_loop self_loop_reachable 100 [1] (by decide)).2 (by decide)⟩

/-! ## Counting the connections of a forest -/

theorem pair_adj_symm (Ed : Finset (Ptr × Ptr)) (x y : Ptr) (h : pair_adj Ed x y) :
    pair_adj Ed y x :=
  h.symm

theorem pair_adj_insert (Ed : Finset (Ptr × Ptr)) (x y u v : Ptr) :
    pair_adj (insert (x, y) Ed) u v ↔ pair_adj Ed u v ∨ (u = x ∧ v = y) ∨ (u = y ∧ v = x) := by
  unfold pair_adj
  simp only [Finset.mem_insert, Prod.mk.injEq]
  tauto

/-- A path that may use the connection between `x` and `y`, which joins two
components, is a path without it, or such a path to one of the two nodes
followed by such a path from the other. -/
theorem rtg_split (Ed : Finset (Ptr × Ptr)) (x y : Ptr)
    (hF : ¬ Relation.ReflTransGen (pair_adj Ed) x y) (a b : Ptr)
    (h : Relation.ReflTransGen (pair_adj (insert (x, y) Ed)) a b) :
    Relation.ReflTransGen (pair_adj Ed) a b ∨
      (Relation.ReflTransGen (pair_adj Ed) a x ∧ Relation.ReflTransGen (pair_adj Ed) y b) ∨
      (Relation.ReflTransGen (pair_adj Ed) a y ∧ Relation.ReflTransGen (pair_adj Ed) x b) := by
  have hsym : ∀ u v, Relation.ReflTransGen (pair_adj Ed) u v →
      Relation.ReflTransGen (pair_adj Ed) v u :=
    fun u v huv => Relation.ReflTransGen.symmetric (pair_adj_symm Ed) huv
  induction h with
  | refl => exact Or.inl Relation.ReflTransGen.refl
  | tail _ hstep ih =>
    rename_i b c _
    rcases (pair_adj_insert Ed x y b c).mp hstep with hR | ⟨hb, hc⟩ | ⟨hb, hc⟩
    · rcases ih with h1 | ⟨h1, h2⟩ | ⟨h1, h2⟩
      · exact Or.inl (h1.tail hR)
      · exact Or.inr (Or.inl ⟨h1, h2.tail hR⟩)
      · exact Or.inr (Or.inr ⟨h1, h2.tail hR⟩)
    · rw [hb] at ih
      rw [hc]
      rcases ih with h1 | ⟨_, h2⟩ | ⟨h1, _⟩
      · exact Or.inr (Or.inl ⟨h1, Relation.ReflTransGen.refl⟩)
      · exact absurd (hsym y x h2) hF
      · exact Or.inl h1
    · rw [hb] at ih
      rw [hc]
      rcases ih with h1 | ⟨h1, _⟩ | ⟨_, h2⟩
      · exact Or.inr (Or.inr ⟨h1, Relation.ReflTransGen.refl⟩)
      · exact Or.inl h1
      · exact absurd h2 hF

/-- A forest on the vertex set `V` whose components are represented by
`reps` has `|V| - |reps|` connections. -/
theorem forest_count (V : Finset Ptr) :
    ∀ (Ed : Finset (Ptr × Ptr)), (∀ e ∈ Ed, e.1 ∈ V ∧ e.2 ∈ V) →
      (∀ e ∈ Ed, ¬ Relation.ReflTransGen (pair_adj (Ed.erase e)) e.1 e.2) →
      ∀ reps : Finset Ptr, reps ⊆ V →
        (∀ x ∈ V, ∃ r ∈ reps, Relation.ReflTransGen (pair_adj Ed) r x) →
        (∀ r1 ∈ reps, ∀ r2 ∈ reps, Relation.ReflTransGen (pair_adj Ed) r1 r2 → r1 = r2) →
        Ed.card + reps.card = V.card := by
  intro Ed
  induction Ed using Finset.induction_on with
  | empty =>
    intro _ _ reps hsub hcover _
    have heq : ∀ a b, Relation.ReflTransGen (pair_adj ∅) a b → a = b := by
      intro a b hab
      induction hab with
      | refl => rfl
      | tail _ hstep _ =>
        rcases hstep with h | h <;> simp at h
    have : reps = V := by
      apply Finset.Subset.antisymm hsub
      intro x hx
      obtain ⟨r, hr, hrx⟩ := hcover x hx
      rw [← heq r x hrx]
      exact hr
    rw [this]
    simp
  | insert he ih =>
    rename_i e Ed
    obtain ⟨x, y⟩ := e
    intro hV hac reps hsub hcover huniq
    have hF : ¬ Relation.ReflTransGen (pair_adj Ed) x y := by
      have := hac (x, y) (Finset.mem_insert_self _ _)
      rw [Finset.erase_insert he] at this
      exact this
    have hsym : ∀ u v, Relation.ReflTransGen (pair_adj Ed) u v →
        Relation.ReflTransGen (pair_adj Ed) v u :=
      fun u v huv => Relation.ReflTransGen.symmetric (pair_adj_symm Ed) huv
    have hsymB : ∀ u v, Relation.ReflTransGen (pair_adj (insert (x, y) Ed)) u v →
        Relation.ReflTransGen (pair_adj (insert (x, y) Ed)) v u :=
      fun u v huv => Relation.ReflTransGen.symmetric (pair_adj_symm _) huv
    have hbig : ∀ u v, Relation.ReflTransGen (pair_adj Ed) u v →
        Relation.ReflTransGen (pair_adj (insert (x, y) Ed)) u v :=
      fun u v huv => huv.mono fun a b hab => (pair_adj_insert Ed x y a b).mpr (Or.inl hab)
    have hxy : Relation.ReflTransGen (pair_adj (insert (x, y) Ed)) x y :=
      Relation.ReflTransGen.single ((pair_adj_insert Ed x y x y).mpr (Or.inr (Or.inl ⟨rfl, rfl⟩)))
    have hxV := (hV (x, y) (Finset.mem_insert_self _ _)).1
    have hyV := (hV (x, y) (Finset.mem_insert_self _ _)).2
    have hV2 : ∀ f ∈ Ed, f.1 ∈ V ∧ f.2 ∈ V := fun f hf => hV f (Finset.mem_insert_of_mem hf)
    have hac2 : ∀ f ∈ Ed, ¬ Relation.ReflTransGen (pair_adj (Ed.erase f)) f.1 f.2 := by
      intro f hf hp
      apply hac f (Finset.mem_insert_of_mem hf)
      refine hp.mono fun a b hab => ?_
      unfold pair_adj at hab ⊢
      rcases hab with h | h
      · exact Or.inl (Finset.erase_subset_erase f (Finset.subset_insert _ _) h)
      · exact Or.inr (Finset.erase_subset_erase f (Finset.subset_insert _ _) h)
    obtain ⟨r0, hr0, hr0x⟩ := hcover x hxV
    have hcard : (insert (x, y) Ed).card = Ed.card + 1 := Finset.card_insert_of_not_mem he
    by_cases hA : Relation.ReflTransGen (pair_adj Ed) r0 x
    · -- the representative stays with `x`; `y` represents the other part
      have hnew : y ∉ reps := by
        intro hy
        have e := huniq r0 hr0 y hy (hr0x.trans hxy)
        rw [e] at hA
        exact hF (hsym y x hA)
      have key := ih hV2 hac2 (insert y reps)
        (Finset.insert_subset hyV hsub)
        (fun z hz => by
          obtain ⟨r, hr, hrz⟩ := hcover z hz
          rcases rtg_split Ed x y hF r z hrz with h1 | ⟨_, h2⟩ | ⟨h1, _⟩
          · exact ⟨r, Finset.mem_insert_of_mem hr, h1⟩
          · exact ⟨y, Finset.mem_insert_self _ _, h2⟩
          · exfalso
            have e := huniq r hr r0 hr0
              (((hbig r y h1).trans (hsymB x y hxy)).trans (hsymB r0 x hr0x))
            rw [e] at h1
            exact hF ((hsym r0 x hA).trans h1))
        (fun r1 h1 r2 h2 h12 => by
          have hyr : ∀ r ∈ reps, ¬ Relation.ReflTransGen (pair_adj Ed) y r := by
            intro r hr hyr
            have e := huniq r0 hr0 r hr ((hr0x.trans hxy).trans (hbig y r hyr))
            rw [← e] at hyr
            exact hF (hsym y x (hyr.trans hA))
          rcases Finset.mem_insert.mp h1 with e1 | m1 <;>
            rcases Finset.mem_insert.mp h2 with e2 | m2
          · rw [e1, e2]
          · rw [e1] at h12
            exact absurd h12 (hyr r2 m2)
          · rw [e2] at h12
            exact absurd (hsym r1 y h12) (hyr r1 m1)
          · exact huniq r1 m1 r2 m2 (hbig r1 r2 h12))
      rw [Finset.card_insert_of_not_mem hnew] at key
      omega
    · -- the representative goes with `y`; `x` represents the other part
      have hnew : x ∉ reps := by
        intro hx
        have e := huniq r0 hr0 x hx hr0x
        rw [e] at hA
        exact hA Relation.ReflTransGen.refl
      have key := ih hV2 hac2 (insert x reps)
        (Finset.insert_subset hxV hsub)
        (fun z hz => by
          obtain ⟨r, hr, hrz⟩ := hcover z hz
          rcases rtg_split Ed x y hF r z hrz with h1 | ⟨h1, _⟩ | ⟨_, h2⟩
          · exact ⟨r, Finset.mem_insert_of_mem hr, h1⟩
          · exfalso
            have e := huniq r hr r0 hr0 ((hbig r x h1).trans (hsymB r0 x hr0x))
            rw [e] at h1
            exact hA h1
          · exact ⟨x, Finset.mem_insert_self _ _, h2⟩)
        (fun r1 h1 r2 h2 h12 => by
          have hxr : ∀ r ∈ reps, ¬ Relation.ReflTransGen (pair_adj Ed) x r := by
            intro r hr hxr
            have e := huniq r0 hr0 r hr (hr0x.trans (hbig x r hxr))
            rw [← e] at hxr
            exact hA (hsym x r0 hxr)
          rcases Finset.mem_insert.mp h1 with e1 | m1 <;>
            rcases Finset.mem_insert.mp h2 with e2 | m2
          · rw [e1, e2]
          · rw [e1] at h12
            exact absurd h12 (hxr r2 m2)
          · rw [e2] at h12
            exact absurd (hsym r1 x h12) (hxr r1 m1)
          · exact huniq r1 m1 r2 m2 (hbig r1 r2 h12))
      rw [Finset.card_insert_of_not_mem hnew] at key
      omega

theorem mem_seg_connections (s : State) (hs : keys_sorted s) (seg x y : Ptr) :
    (x, y) ∈ seg_connections s seg ↔ seg_edge s seg x y ∧ x ≤ y := by
  unfold seg_connections
  simp only [List.mem_flatMap, List.mem_map, List.mem_filter, Prod.mk.injEq, Bool.and_eq_true,
    decide_eq_true_eq]
  constructor
  · rintro ⟨a, ha, b, ⟨hb, hle, hbn⟩, e1, e2⟩
    rw [← e1, ← e2]
    obtain ⟨na, hna, hsa⟩ := (mem_network_nodes s hs seg a).mp ha
    obtain ⟨nb, hnb, hsb⟩ := (mem_network_nodes s hs seg b).mp hbn
    obtain ⟨nd, hnd, hm⟩ := (mem_neighbors_iff s a b).mp hb
    rw [hna] at hnd
    have e : na = nd := by simpa using hnd
    exact ⟨⟨na, nb, hna, hnb, e ▸ hm, hsa, hsb⟩, hle⟩
  · rintro ⟨⟨nx, ny, hx, hy, hm, hsx, hsy⟩, hle⟩
    exact ⟨x, (mem_network_nodes s hs seg x).mpr ⟨nx, hx, hsx⟩, y,
      ⟨(mem_neighbors_iff s x y).mpr ⟨nx, hx, hm⟩, hle,
        (mem_network_nodes s hs seg y).mpr ⟨ny, hy, hsy⟩⟩, rfl, rfl⟩

theorem nodup_seg_connections (s : State) (hs : keys_sorted s)
    (hnd : ∀ p nd, deref s p = some nd → nd.connected.Nodup) (seg : Ptr) :
    (seg_connections s seg).Nodup := by
  unfold seg_connections
  rw [List.nodup_flatMap]
  constructor
  · intro x _
    apply List.Nodup.map (fun a b e => (Prod.mk.injEq _ _ _ _ ▸ e).2)
    apply List.Nodup.filter
    unfold neighbors
    cases hd : deref s x with
    | none => exact List.nodup_nil
    | some nd => exact hnd x nd hd
  · refine (nodup_network_nodes s hs seg).imp ?_
    intro a b hab
    intro e h1 h2
    rw [List.mem_map] at h1 h2
    obtain ⟨_, _, e1⟩ := h1
    obtain ⟨_, _, e2⟩ := h2
    rw [← e2] at e1
    exact hab (Prod.mk.injEq _ _ _ _ ▸ e1).1

/-- In a state whose segment `seg` has no cycle, the number of connections
of the segment plus the number of its components is the number of its
nodes. -/
theorem forest_connections_count (t : State) (hinv : Inv t) (hs : keys_sorted t) (seg : Ptr)
    (hno : ¬ has_cycle t seg) (reps : List Ptr) (hreps : is_component_system t seg reps) :
    (seg_connections t seg).length + reps.length = (network_nodes t seg).length := by
  have hnd : ∀ p nd, deref t p = some nd → nd.connected.Nodup :=
    fun p nd hp => (hinv.sorted p nd hp).imp fun hlt => Nat.ne_of_lt hlt
  have hsymm := seg_edge_symm t hinv seg
  have hself : ∀ x, ¬ seg_edge t seg x x :=
    fun x hx => hno ⟨x, x, hx, Relation.ReflTransGen.refl⟩
  obtain ⟨hrn, hrsub, hcover, huniq⟩ := hreps
  have hadj : ∀ u v, pair_adj (seg_connections t seg).toFinset u v ↔ seg_edge t seg u v := by
    intro u v
    unfold pair_adj
    rw [List.mem_toFinset, List.mem_toFinset, mem_seg_connections t hs, mem_seg_connections t hs]
    constructor
    · rintro (h | h)
      · exact h.1
      · exact hsymm v u h.1
    · intro h
      rcases Nat.le_total u v with hle | hle
      · exact Or.inl ⟨h, hle⟩
      · exact Or.inr ⟨hsymm u v h, hle⟩
  have hpath : ∀ u v, Relation.ReflTransGen (pair_adj (seg_connections t seg).toFinset) u v ↔
      Relation.ReflTransGen (seg_edge t seg) u v := fun u v =>
    ⟨fun h => h.mono fun a b hab => (hadj a b).mp hab,
      fun h => h.mono fun a b hab => (hadj a b).mpr hab⟩
  have hlive : ∀ u v, seg_edge t seg u v → u ∈ network_nodes t seg ∧ v ∈ network_nodes t seg := by
    rintro u v ⟨nu, nv, hu, hv, _, hsu, hsv⟩
    exact ⟨(mem_network_nodes t hs seg u).mpr ⟨nu, hu, hsu⟩,
      (mem_network_nodes t hs seg v).mpr ⟨nv, hv, hsv⟩⟩
  have key := forest_count (network_nodes t seg).toFinset (seg_connections t seg).toFinset
    (fun e he => by
      obtain ⟨x, y⟩ := e
      rw [List.mem_toFinset, mem_seg_connections t hs] at he
      exact ⟨List.mem_toFinset.mpr (hlive x y he.1).1, List.mem_toFinset.mpr (hlive x y he.1).2⟩)
    (fun e he hp => by
      obtain ⟨x, y⟩ := e
      have he2 := he
      rw [List.mem_toFinset, mem_seg_connections t hs] at he2
      obtain ⟨hE, hle⟩ := he2
      have hxy : x ≠ y := fun e => hself x (by rw [← e] at hE; exact hE)
      apply hno
      refine ⟨x, y, hE, hp.mono fun u v huv => ?_⟩
      unfold pair_adj at huv
      rcases huv with h | h
      · rw [Finset.mem_erase, List.mem_toFinset, mem_seg_connections t hs] at h
        refine ⟨h.2.1, fun e => h.1 (by rw [e.1, e.2]), fun e => ?_⟩
        have hle2 := h.2.2
        rw [e.1, e.2] at hle2
        exact hxy (Nat.le_antisymm hle hle2)
      · rw [Finset.mem_erase, List.mem_toFinset, mem_seg_connections t hs] at h
        refine ⟨hsymm v u h.2.1, fun e => ?_, fun e => h.1 (by rw [e.1, e.2])⟩
        have hle2 := h.2.2
        rw [e.1, e.2] at hle2
        exact hxy (Nat.le_antisymm hle hle2))
    reps.toFinset
    (fun r hr => List.mem_toFinset.mpr (hrsub r (List.mem_toFinset.mp hr)))
    (fun x hx => by
      obtain ⟨r, hr, hrx⟩ := hcover x (List.mem_toFinset.mp hx)
      exact ⟨r, List.mem_toFinset.mpr hr, (hpath r x).mpr hrx⟩)
    (fun r1 h1 r2 h2 h12 =>
      huniq r1 (List.mem_toFinset.mp h1) r2 (List.mem_toFinset.mp h2) ((hpath r1 r2).mp h12))
  rw [List.toFinset_card_of_nodup (nodup_seg_connections t hs hnd seg),
    List.toFinset_card_of_nodup hrn,
    List.toFinset_card_of_nodup (nodup_network_nodes t hs seg)] at key
  exact key

/-- The nodes of a segment and their components are the same before and
after `fix_loops`. -/
theorem loops_cut_components (seg : Ptr) (s t : State) (hs : keys_sorted s) (ht : keys_sorted t)
    (hcut : loops_cut seg s t) (reps : List Ptr) (hreps : is_component_system s seg reps) :
    is_component_system t seg reps ∧ (network_nodes t seg).length = (network_nodes s seg).length := by
  have hmem : ∀ q, q ∈ network_nodes t seg ↔ q ∈ network_nodes s seg := by
    intro q
    rw [mem_network_nodes t ht, mem_network_nodes s hs]
    constructor
    · rintro ⟨m, hm, hseg⟩
      obtain ⟨n, hn, h1, _⟩ := loops_cut_back seg s t hcut q m hm
      exact ⟨n, hn, h1 ▸ hseg⟩
    · rintro ⟨n, hn, hseg⟩
      exact loops_cut_live seg s t hcut q ⟨n, hn, hseg⟩
  have hpath : ∀ u v, Relation.ReflTransGen (seg_edge s seg) u v ↔
      Relation.ReflTransGen (seg_edge t seg) u v := fun u v =>
    ⟨fun h => rtg_bind hcut.seg_paths h,
      fun h => h.mono fun a b hab => loops_cut_seg_edge seg s t hcut a b hab⟩
  obtain ⟨hrn, hrsub, hcover, huniq⟩ := hreps
  refine ⟨⟨hrn, fun r hr => (hmem r).mpr (hrsub r hr), fun x hx => ?_, fun r1 h1 r2 h2 h12 =>
    huniq r1 h1 r2 h2 ((hpath r1 r2).mpr h12)⟩, ?_⟩
  · obtain ⟨r, hr, hrx⟩ := hcover x ((hmem x).mp hx)
    exact ⟨r, hr, (hpath r x).mp hrx⟩
  · rw [← List.toFinset_card_of_nodup (nodup_network_nodes t ht seg),
      ← List.toFinset_card_of_nodup (nodup_network_nodes s hs seg)]
    congr 1
    ext q
    rw [List.mem_toFinset, List.mem_toFinset]
    exact hmem q

theorem no_cycle_of_has_loops_false (t : State) (hr : Reachable t) (seg : Ptr)
    (h : has_loops t seg = some false) : ¬ has_cycle t seg := by
  obtain ⟨b, hb, hiff⟩ := has_loops_fuel_spec t (inv_of_reachable t hr)
    (keys_sorted_of_reachable t hr) seg (fuel_bound t) (by rw [fuel_bound_eq]; omega)
  intro hc
  have hbt := hiff.mpr hc
  rw [hbt] at hb
  unfold has_loops at h
  rw [hb] at h
  cases h

theorem triangle_components : is_component_system triangle 100 [1] := by
  have h12 : seg_edge triangle 100 1 2 := ⟨_, _, rfl, rfl, by decide, rfl, rfl⟩
  have h13 : seg_edge triangle 100 1 3 := ⟨_, _, rfl, rfl, by decide, rfl, rfl⟩
  refine ⟨by decide, by decide, fun x hx => ⟨1, by decide, ?_⟩, fun r1 h1 r2 h2 _ => ?_⟩
  · have hx2 : x ∈ [1, 2, 3] := hx
    simp only [List.mem_cons, List.mem_singleton, List.not_mem_nil, or_false] at hx2
    rcases hx2 with e | e | e
    · rw [e]
    · rw [e]
      exact Relation.ReflTransGen.single h12
    · rw [e]
      exact Relation.ReflTransGen.single h13
  · rw [List.mem_singleton.mp h1, List.mem_singleton.mp h2]

theorem self_loop_components : is_component_system self_loop 100 [1] := by
  refine ⟨by decide, by decide, fun x hx => ⟨1, by decide, ?_⟩, fun r1 h1 r2 h2 _ => ?_⟩
  · have hx2 : x ∈ [1] := hx
    rw [List.mem_singleton.mp hx2]
  · rw [List.mem_singleton.mp h1, List.mem_singleton.mp h2]

/-- C26. In a reachable state, let `reps` hold one node of every connected
component of the graph of the segment.  When no node of the segment is its
own neighbor, `fix_loops` returns, `has_loops` is false afterwards, and the
number of connections between nodes of the segment is then the number of
nodes of the segment minus the number of components before the call.  When
some node of the segment is its own neighbor, `fix_loops` has no defined
result. -/
theorem fix_loops_spanning_forest (s : State) (hr : Reachable s) (seg : Ptr) (reps : List Ptr)
    (hreps : is_component_system s seg reps) :
    (no_self_connection s seg →
      ∃ t, fix_loops s seg = some t ∧ has_loops t seg = some false ∧
        (seg_connections t seg).length + reps.length = (network_nodes s seg).length) ∧
    (¬ no_self_connection s seg → fix_loops s seg = none) := by
  refine ⟨fun hself => ?_, fun hself => (fix_loops_undefined s hr seg hself).2⟩
  obtain ⟨t, hrun, hrt, hcut, hfalse⟩ := fix_loops_total s hr seg hself
  have hs := keys_sorted_of_reachable s hr
  have ht := keys_sorted_of_reachable t hrt
  obtain ⟨hreps2, hlen⟩ := loops_cut_components seg s t hs ht hcut reps hreps
  refine ⟨t, hrun, hfalse, ?_⟩
  rw [← hlen]
  exact forest_connections_count t (inv_of_reachable t hrt) ht seg
    (no_cycle_of_has_loops_false t hrt seg hfalse) reps hreps2

set_option maxRecDepth 100000 in
/-- C26 (witness). Three bridges connected pairwise: `has_loops` is true,
`fix_loops` removes the connection between the bridges at `1` and `3`, two of
the three connections remain and the bridges still reach each other.  The
segment with the endpoint connected to itself is the failing input. -/
theorem fix_loops_spanning_forest_witness :
    (has_loops triangle 100 = some true ∧ fix_loops triangle 100 = some triangle_fixed ∧
      (seg_connections triangle 100).length = 3 ∧
      (seg_connections triangle_fixed 100).length = 2 ∧
      reachable triangle_fixed 1 2 = some true ∧ reachable triangle_fixed 2 3 = some true ∧
      reachable triangle_fixed 1 3 = some true) ∧
    (∃ t, fix_loops triangle 100 = some t ∧ has_loops t 100 = some false ∧
      (seg_connections t 100).length + [(1 : Ptr)].length = (network_nodes triangle 100).length) ∧
    (Reachable self_loop ∧ fix_loops self_loop 100 = none) :=
  ⟨⟨rfl, rfl, rfl, rfl, rfl, rfl, rfl⟩,
    (fix_loops_spanning_forest triangle triangle_reachable 100 [1] triangle_components).1
      (by decide),
    self_loop_reachable,
    (fix_loops_spanning_forest self_loop self_loop_reachable 100 [1] self_loop_components).2
      (by decide)⟩

/-! ## Termination of `reachable` -/

theorem find_node_loop_count_erase
    (call : Ptr → List Ptr → Option (Bool × List Ptr))
    (callc : Ptr → List Ptr → Option (Bool × List Ptr × Nat))
    (hcall : ∀ i v, (callc i v).map (fun x => (x.1, x.2.1)) = call i v) (n : Ptr) (l : List Ptr) :
    ∀ visited c, (find_node_loop_count callc n l visited c).map (fun x => (x.1, x.2.1)) =
      find_node_loop call n l visited := by
  induction l with
  | nil => intro visited c; rfl
  | cons i rest ih =>
    intro visited c
    unfold find_node_loop_count find_node_loop
    by_cases hv : i ∈ visited
    · rw [if_pos hv, if_pos hv]
      exact ih visited c
    · rw [if_neg hv, if_neg hv]
      by_cases hn : i = n
      · rw [if_pos hn, if_pos hn]
        rfl
      · rw [if_neg hn, if_neg hn, ← hcall i (set_insert i visited)]
        cases hc : callc i (set_insert i visited) with
        | none => rfl
        | some x =>
          obtain ⟨b, v, k⟩ := x
          cases b with
          | true => rfl
          | false => exact ih v (c + 1 + k)

/-- Without its counter `find_node_count` is `find_node`. -/
theorem find_node_count_erase (s : State) (n : Ptr) :
    ∀ (fuel : Nat) (this : Ptr) (visited : List Ptr),
      (find_node_count fuel s this n visited).map (fun x => (x.1, x.2.1)) =
        find_node fuel s this n visited := by
  intro fuel
  induction fuel with
  | zero => intro this visited; rfl
  | succ k ih =>
    intro this visited
    unfold find_node_count find_node
    cases hd : deref s this with
    | none => rfl
    | some nd =>
      exact find_node_loop_count_erase _ _ (fun i v => ih i v) n nd.connected visited 0

theorem unvisited_insert_le (s : State) (v : List Ptr) (i : Ptr) :
    unvisited s (set_insert i v) ≤ unvisited s v :=
  unvisited_mono s v _ fun a ha => (mem_set_insert a i v).mpr (Or.inr ha)

theorem find_node_loop_count_bound (s : State) (n : Ptr)
    (callc : Ptr → List Ptr → Option (Bool × List Ptr × Nat))
    (hcall : ∀ i v r w k, callc i v = some (r, w, k) → k + unvisited s w ≤ unvisited s v)
    (l : List Ptr) (hl : ∀ i ∈ l, ∃ ni, deref s i = some ni) :
    ∀ visited c r w k, find_node_loop_count callc n l visited c = some (r, w, k) →
      k + unvisited s w ≤ c + unvisited s visited := by
  induction l with
  | nil =>
    intro visited c r w k h
    unfold find_node_loop_count at h
    simp only [Option.some.injEq, Prod.mk.injEq] at h
    rw [← h.2.1, ← h.2.2]
  | cons i rest ih =>
    intro visited c r w k h
    have hrest : ∀ j ∈ rest, ∃ nj, deref s j = some nj :=
      fun j hj => hl j (List.mem_cons_of_mem _ hj)
    obtain ⟨ni, hni⟩ := hl i (List.mem_cons_self _ _)
    unfold find_node_loop_count at h
    by_cases hv : i ∈ visited
    · rw [if_pos hv] at h
      exact ih hrest visited c r w k h
    · rw [if_neg hv] at h
      by_cases hn : i = n
      · rw [if_pos hn] at h
        simp only [Option.some.injEq, Prod.mk.injEq] at h
        rw [← h.2.1, ← h.2.2]
        have := unvisited_insert_le s visited i
        omega
      · rw [if_neg hn] at h
        have hlt := unvisited_insert_lt s visited i ni hni hv
        cases hc : callc i (set_insert i visited) with
        | none => rw [hc] at h; cases h
        | some x =>
          obtain ⟨b, v, k1⟩ := x
          have hb := hcall i (set_insert i visited) b v k1 hc
          rw [hc] at h
          cases b with
          | true =>
            simp only [Option.some.injEq, Prod.mk.injEq] at h
            rw [← h.2.1, ← h.2.2]
            omega
          | false =>
            have := ih hrest v (c + 1 + k1) r w k h
            omega

/-- Every recursive call of `find_node` is paid for by a live node that is
new in `visited`. -/
theorem find_node_count_bound (s : State) (hcl : closed s) (n : Ptr) :
    ∀ (fuel : Nat) (this : Ptr) (visited : List Ptr) (r : Bool) (w : List Ptr) (k : Nat),
      find_node_count fuel s this n visited = some (r, w, k) →
      k + unvisited s w ≤ unvisited s visited := by
  intro fuel
  induction fuel with
  | zero => intro this visited r w k h; cases h
  | succ f ih =>
    intro this visited r w k h
    unfold find_node_count at h
    cases hd : deref s this with
    | none => rw [hd] at h; cases h
    | some nd =>
      rw [hd] at h
      have := find_node_loop_count_bound s n _ (fun i v r w k hc => ih i v r w k hc) nd.connected
        (fun i hi => hcl.2 this nd hd i hi) visited 0 r w k h
      omega

/-- C31. In every state without dangling pointers (cyclic or not)
`a.reachable( b )` returns for every live node `a` and every `b`.  The
recursion of `find_node` started by it returns as well, and the number `k` of
recursive calls it makes is at most the number of nodes: every recursive call
follows the insertion of a live node that was not in `visited`, so the calls
made plus the live nodes still unvisited at the end never exceed the number
of nodes. -/
theorem reachable_terminates (s : State) (hcl : closed s) (a b : Ptr) (na : node)
    (ha : deref s a = some na) :
    (∃ r, reachable s a b = some r) ∧
      ∃ r w k, find_node_count (s.length + 1) s a b [] = some (r, w, k) ∧
        find_node (s.length + 1) s a b [] = some (r, w) ∧
        k + unvisited s w ≤ s.length ∧ (b ≠ a → reachable s a b = some r) := by
  obtain ⟨r, w, hrun, _⟩ := find_node_spec s hcl b (s.length + 1) a [] ⟨na, ha⟩
    (Nat.lt_succ_of_le (unvisited_nil_le s))
  have her := find_node_count_erase s b (s.length + 1) a []
  rw [hrun] at her
  cases hc : find_node_count (s.length + 1) s a b [] with
  | none => rw [hc] at her; cases her
  | some x =>
    obtain ⟨r1, w1, k⟩ := x
    rw [hc] at her
    simp only [Option.map_some', Option.some.injEq, Prod.mk.injEq] at her
    obtain ⟨hr1, hw1⟩ := her
    subst hr1 hw1
    have hb := find_node_count_bound s hcl b (s.length + 1) a [] r1 w1 k hc
    have hn := unvisited_nil_le s
    refine ⟨?_, r1, w1, k, rfl, hrun, by omega, fun hba => ?_⟩
    · obtain ⟨r0, h0, _⟩ := reachable_spec s hcl a b na ha
      exact ⟨r0, h0⟩
    · unfold reachable
      rw [if_neg hba, hrun]
      rfl

/-- C31 (witness). On the three pairwise connected bridges, a graph with a
cycle, `reachable` returns and `find_node` makes at most three recursive
calls. -/
theorem reachable_terminates_witness :
    (∃ r, reachable triangle 1 3 = some r) ∧
      ∃ r w k, find_node_count (triangle.length + 1) triangle 1 3 [] = some (r, w, k) ∧
        find_node (triangle.length + 1) triangle 1 3 [] = some (r, w) ∧
        k + unvisited triangle w ≤ triangle.length ∧
        ((3 : Ptr) ≠ 1 → reachable triangle 1 3 = some r) :=
  reachable_terminates triangle (inv_of_reachable _ triangle_reachable).closed 1 3 _ rfl

/-! ## The connection cut by `fix_loops` -/

/-- A call of `disconnect` on two distinct connected nodes of a segment
returns true; the connections of every segment afterwards are the old ones
without this connection. -/
theorem disconnect_seg_spec (s : State) (hinv : Inv s) (seg x y : Ptr)
    (hE : seg_edge s seg x y) (hxy : x ≠ y) :
    ∃ s1, disconnect s x y = some (true, s1) ∧
      (∀ seg2 u v, seg_edge s1 seg2 u v ↔ seg_edge_except s seg2 x y u v) ∧
      ∀ u v, edge s1 u v ↔ edge s u v ∧ ¬(u = x ∧ v = y) ∧ ¬(u = y ∧ v = x) := by
  have hE2 := hE
  obtain ⟨nx, ny, hx, hy, hmem, hsx, hsy⟩ := hE2
  have hmem2 : x ∈ ny.connected := by
    obtain ⟨nd, hd, hm⟩ := hinv.symm x y ⟨nx, hx, hmem⟩
    rw [hy] at hd
    have e : ny = nd := by simpa using hd
    rw [e]
    exact hm
  have hx0 : x ≠ 0 := fun e => by rw [e, hinv.closed.1] at hx; cases hx
  have hy0 : y ≠ 0 := fun e => by rw [e, hinv.closed.1] at hy; cases hy
  have hdis := disconnect_eq s x y nx ny hxy hx hy hx0 hy0
  rw [if_pos ⟨hmem, hmem2⟩, decide_eq_true ⟨hmem, hmem2⟩] at hdis
  exact ⟨_, hdis, fun seg2 u v => seg_edge_disconnect s x y hxy hinv.sorted seg2 u v,
    fun u v => edge_disconnect s x y hxy hinv.sorted u v⟩

/-- A call of `disconnect` of a node of a segment from itself, when it is its
own neighbor, has undefined behaviour. -/
theorem disconnect_self_seg (s : State) (hinv : Inv s) (seg x : Ptr)
    (hE : seg_edge s seg x x) : disconnect s x x = none := by
  obtain ⟨nx, _, hx, _, hmem, _, _⟩ := hE
  have hx0 : x ≠ 0 := fun e => by rw [e, hinv.closed.1] at hx; cases hx
  exact disconnect_self_none s x nx hx hmem
    ((hinv.sorted x nx hx).imp fun hlt => Nat.ne_of_lt hlt) hx0

/-- A connection of a segment that is cut takes exactly one pair from the
list of the connections of the segment. -/
theorem seg_connections_cut (s s1 : State) (hinv : Inv s) (hinv1 : Inv s1)
    (hs : keys_sorted s) (hs1 : keys_sorted s1) (seg x y : Ptr)
    (hE : seg_edge s seg x y)
    (hcut : ∀ u v, seg_edge s1 seg u v ↔ seg_edge_except s seg x y u v) :
    (seg_connections s1 seg).length + 1 = (seg_connections s seg).length := by
  have hnd : ∀ p nd, deref s p = some nd → nd.connected.Nodup :=
    fun p nd hp => (hinv.sorted p nd hp).imp fun hlt => Nat.ne_of_lt hlt
  have hnd1 : ∀ p nd, deref s1 p = some nd → nd.connected.Nodup :=
    fun p nd hp => (hinv1.sorted p nd hp).imp fun hlt => Nat.ne_of_lt hlt
  have hsymm := seg_edge_symm s hinv seg
  rw [← List.toFinset_card_of_nodup (nodup_seg_connections s hs hnd seg),
    ← List.toFinset_card_of_nodup (nodup_seg_connections s1 hs1 hnd1 seg)]
  have hmain : ∀ a b : Ptr, a ≤ b → seg_edge s seg a b → (a = x ∧ b = y ∨ a = y ∧ b = x) →
      (seg_connections s1 seg).toFinset.card + 1 = (seg_connections s seg).toFinset.card := by
    intro a b hab hEab hor
    have hin : (a, b) ∈ (seg_connections s seg).toFinset :=
      List.mem_toFinset.mpr ((mem_seg_connections s hs seg a b).mpr ⟨hEab, hab⟩)
    have heq : (seg_connections s1 seg).toFinset = (seg_connections s seg).toFinset.erase (a, b) := by
      ext ⟨u, v⟩
      rw [Finset.mem_erase, List.mem_toFinset, List.mem_toFinset, mem_seg_connections s1 hs1,
        mem_seg_connections s hs, hcut]
      unfold seg_edge_except
      simp only [ne_eq, Prod.mk.injEq]
      constructor
      · rintro ⟨⟨huv, h1, h2⟩, hle⟩
        refine ⟨fun hc => ?_, huv, hle⟩
        rcases hor with h | h
        · exact h1 ⟨hc.1.trans h.1, hc.2.trans h.2⟩
        · exact h2 ⟨hc.1.trans h.1, hc.2.trans h.2⟩
      · rintro ⟨hne, huv, hle⟩
        refine ⟨⟨huv, fun hc => ?_, fun hc => ?_⟩, hle⟩
        · rcases hor with h | h
          · exact hne ⟨hc.1.trans h.1.symm, hc.2.trans h.2.symm⟩
          · have e1 : u = b := hc.1.trans h.2.symm
            have e2 : v = a := hc.2.trans h.1.symm
            rw [e1, e2] at hle
            have e3 : a = b := Nat.le_antisymm hab hle
            exact hne ⟨e1.trans e3.symm, e2.trans e3⟩
        · rcases hor with h | h
          · have e1 : u = b := hc.1.trans h.2.symm
            have e2 : v = a := hc.2.trans h.1.symm
            rw [e1, e2] at hle
            have e3 : a = b := Nat.le_antisymm hab hle
            exact hne ⟨e1.trans e3.symm, e2.trans e3⟩
          · exact hne ⟨hc.1.trans h.1.symm, hc.2.trans h.2.symm⟩
    rw [heq, Finset.card_erase_of_mem hin]
    have hpos : 0 < (seg_connections s seg).toFinset.card := Finset.card_pos.mpr ⟨_, hin⟩
    omega
  rcases Nat.le_total x y with hle | hle
  · exact hmain x y hle hE (Or.inl ⟨rfl, rfl⟩)
  · exact hmain y x hle (hsymm x y hE) (Or.inr ⟨rfl, rfl⟩)

/-- C37. The pair reported by `find_cycle` lies on a cycle.  In a state that
satisfies the invariant of the simulator (live, symmetric neighbor sets),
`find_cycle`, started from a root of the segment with `visited` holding the
root only and `from = nullptr`, returns; when it returns true with
`cycle_pair = (x, y)`, then `y` is a neighbor of `x`, both are nodes of the
segment, `y` is reached from `x` through connections of the segment other
than the connection between `x` and `y`, and for `x ≠ y` the call
`x->disconnect( y )` returns true and leaves a state in which `y` is no longer
a neighbor of `x` but still reachable from `x` inside the segment. -/
theorem find_cycle_pair_on_cycle (s : State) (hinv : Inv s) (seg r : Ptr) (nr : node)
    (hr : deref s r = some nr) (hseg : nr._segment = seg) (depth : Nat)
    (hdepth : s.length < depth) (p : Ptr × Ptr) :
    (∃ found w q, find_cycle depth s [r] 0 r p = some (found, w, q)) ∧
    ∀ w x y, find_cycle depth s [r] 0 r p = some (true, w, (x, y)) →
      edge s x y ∧
        (∃ nx ny, deref s x = some nx ∧ deref s y = some ny ∧ nx._segment = seg ∧
          ny._segment = seg) ∧
        Relation.ReflTransGen (seg_edge_except s seg x y) x y ∧
        (x ≠ y → ∃ s1, disconnect s x y = some (true, s1) ∧ ¬ edge s1 x y ∧
          Relation.ReflTransGen (seg_edge s1 seg) x y) := by
  obtain ⟨found, w1, q, hrun1, _, htrue, _⟩ :=
    find_cycle_root_spec s hinv seg r nr hr hseg depth hdepth p
  refine ⟨⟨found, w1, q, hrun1⟩, fun w x y hrun => ?_⟩
  rw [hrun] at hrun1
  simp only [Option.some.injEq, Prod.mk.injEq] at hrun1
  obtain ⟨hf, _, hq⟩ := hrun1
  have hc : on_cycle s seg x y := by
    have := htrue hf.symm
    rw [← hq] at this
    exact this
  obtain ⟨hE, hpath⟩ := hc
  have hE2 := hE
  obtain ⟨nx, ny, hx, hy, hmem, hsx, hsy⟩ := hE2
  refine ⟨⟨nx, hx, hmem⟩, ⟨nx, ny, hx, hy, hsx, hsy⟩, hpath, fun hxy => ?_⟩
  obtain ⟨s1, hdis, hseg1, hedge1⟩ := disconnect_seg_spec s hinv seg x y hE hxy
  refine ⟨s1, hdis, fun he => ?_, hpath.mono fun a b hab => (hseg1 seg a b).mpr hab⟩
  exact ((hedge1 x y).mp he).2.1 ⟨rfl, rfl⟩

/-- C37 (witness). On the three pairwise connected bridges `find_cycle` from
the bridge at `1` reports the pair `(3, 1)`; the two bridges are connected,
and after `disconnect` the bridge at `1` is still reached from the bridge at
`3`. -/
theorem find_cycle_pair_on_cycle_witness :
    find_cycle 4 triangle [1] 0 1 (0, 0) = some (true, [1, 2, 3], (3, 1)) ∧
    edge triangle 3 1 ∧
      (∃ nx ny, deref triangle 3 = some nx ∧ deref triangle 1 = some ny ∧ nx._segment = 100 ∧
        ny._segment = 100) ∧
      Relation.ReflTransGen (seg_edge_except triangle 100 3 1) 3 1 ∧
      ((3 : Ptr) ≠ 1 → ∃ s1, disconnect triangle 3 1 = some (true, s1) ∧ ¬ edge s1 3 1 ∧
        Relation.ReflTransGen (seg_edge s1 100) 3 1) :=
  ⟨rfl, (find_cycle_pair_on_cycle triangle (inv_of_reachable _ triangle_reachable) 100 1 _ rfl
    rfl 4 (by decide) (0, 0)).2 [1, 2, 3] 3 1 rfl⟩

/-- C38. In a reachable state, `fix_loops` on a segment `seg` in which no
node is its own neighbor returns a state with the same nodes at the same
addresses, each with its segment, kind, capacity and identifier; every
connection of the new state is a connection of the old one; every connection
that is gone joined two distinct nodes of `seg`; a connection with a node
outside `seg` is kept, and the connections inside every other segment are
the same.  On a segment in which some node is its own neighbor `fix_loops`
has no defined result, so nothing is guaranteed about the connections after
the call. -/
theorem fix_loops_frame (s : State) (hr : Reachable s) (seg : Ptr) :
    (no_self_connection s seg →
      ∃ t, fix_loops s seg = some t ∧ t.map Prod.fst = s.map Prod.fst ∧
        (∀ p n, deref s p = some n → ∃ m, deref t p = some m ∧ m._segment = n._segment ∧
          m._type = n._type ∧ m.capacity = n.capacity ∧ m._id = n._id) ∧
        (∀ x y, edge t x y → edge s x y) ∧
        (∀ x y, edge s x y → ¬ edge t x y → seg_edge s seg x y ∧ x ≠ y) ∧
        (∀ x y, edge s x y → ¬ seg_edge s seg x y → edge t x y) ∧
        ∀ seg2 x y, seg2 ≠ seg → (seg_edge t seg2 x y ↔ seg_edge s seg2 x y)) ∧
    (¬ no_self_connection s seg → fix_loops s seg = none) := by
  refine ⟨fun hself => ?_, fun hself => (fix_loops_undefined s hr seg hself).2⟩
  obtain ⟨t, hrun, _, hcut, _⟩ := fix_loops_total s hr seg hself
  have hback : ∀ x y, edge t x y → edge s x y := by
    rintro x y ⟨m, hm, hmem⟩
    obtain ⟨n, hn, _, _, hsub⟩ := loops_cut_back seg s t hcut x m hm
    exact ⟨n, hn, hsub y hmem⟩
  have hgone : ∀ x y, edge s x y → ¬ edge t x y → seg_edge s seg x y ∧ x ≠ y := by
    rintro x y ⟨n, hn, hmem⟩ hnot
    obtain ⟨m, hm, _, _, _, _, _, hlost⟩ := hcut.node x n hn
    have := hlost y hmem fun hy => hnot ⟨m, hm, hy⟩
    exact ⟨this.2, fun e => this.1 e.symm⟩
  refine ⟨t, hrun, hcut.keys, fun p n hn => ?_, hback, hgone, fun x y he hno => ?_,
    fun seg2 x y hne => ⟨fun h => ?_, fun h => ?_⟩⟩
  · obtain ⟨m, hm, h1, h2, h3, h4, _⟩ := hcut.node p n hn
    exact ⟨m, hm, h1, h2, h3, h4⟩
  · by_contra hc
    exact hno (hgone x y he hc).1
  · obtain ⟨mx, my, hx, hy, hmem, hsx, hsy⟩ := h
    obtain ⟨nx, hnx, h1, _, hsub⟩ := loops_cut_back seg s t hcut x mx hx
    obtain ⟨ny, hny, h2, _, _⟩ := loops_cut_back seg s t hcut y my hy
    exact ⟨nx, ny, hnx, hny, hsub y hmem, h1 ▸ hsx, h2 ▸ hsy⟩
  · obtain ⟨nx, ny, hx, hy, hmem, hsx, hsy⟩ := h
    obtain ⟨mx, hmx, h1, _, _, _, _, hlost⟩ := hcut.node x nx hx
    obtain ⟨my, hmy, h2, _⟩ := hcut.node y ny hy
    refine ⟨mx, my, hmx, hmy, ?_, h1.trans hsx, h2.trans hsy⟩
    by_contra hc
    obtain ⟨_, nx2, _, hx2, _, _, hsx2, _⟩ := hlost y hmem hc
    rw [hx] at hx2
    have e : nx = nx2 := by simpa using hx2
    rw [← e, hsx] at hsx2
    exact hne hsx2

/-- C38 (failing input). The state with one endpoint connected to itself is
reachable and `fix_loops` of its segment has no defined result; on the three
pairwise connected bridges `fix_loops` returns and the frame holds. -/
theorem fix_loops_frame_witness :
    (Reachable self_loop ∧ fix_loops self_loop 100 = none) ∧
    ∃ t, fix_loops triangle 100 = some t ∧ t.map Prod.fst = triangle.map Prod.fst ∧
      (∀ p n, deref triangle p = some n → ∃ m, deref t p = some m ∧ m._segment = n._segment ∧
        m._type = n._type ∧ m.capacity = n.capacity ∧ m._id = n._id) ∧
      (∀ x y, edge t x y → edge triangle x y) ∧
      (∀ x y, edge triangle x y → ¬ edge t x y → seg_edge triangle 100 x y ∧ x ≠ y) ∧
      (∀ x y, edge triangle x y → ¬ seg_edge triangle 100 x y → edge t x y) ∧
      ∀ seg2 x y, seg2 ≠ 100 → (seg_edge t seg2 x y ↔ seg_edge triangle seg2 x y) :=
  ⟨⟨self_loop_reachable, (fix_loops_frame self_loop self_loop_reachable 100).2 (by decide)⟩,
    (fix_loops_frame triangle triangle_reachable 100).1 (by decide)⟩

/-- C32. In a reachable state, whenever `find_cycle` from a root of the
segment reports a pair `(x, y)`, that pair is a connection of the segment;
for `x ≠ y` the call `x->disconnect( y )` returns true, leads to a reachable
state and takes exactly one connection from the segment, so `fix_loops`
returns on every segment in which no node is its own neighbor.  For `x = y`
the call `x->disconnect( x )` does not succeed: it has undefined behaviour,
and on a segment in which some node is its own neighbor `fix_loops` has no
defined result. -/
theorem fix_loops_terminates (s : State) (hr : Reachable s) (seg : Ptr) :
    (∀ r nr depth p w x y, deref s r = some nr → nr._segment = seg → s.length < depth →
      find_cycle depth s [r] 0 r p = some (true, w, (x, y)) →
      seg_edge s seg x y ∧
        (x ≠ y → ∃ s1, disconnect s x y = some (true, s1) ∧ Reachable s1 ∧
          (seg_connections s1 seg).length + 1 = (seg_connections s seg).length) ∧
        (x = y → disconnect s x y = none)) ∧
    (no_self_connection s seg → ∃ t, fix_loops s seg = some t) ∧
    (¬ no_self_connection s seg → fix_loops s seg = none) := by
  have hinv := inv_of_reachable s hr
  refine ⟨fun r nr depth p w x y hnr hseg hdepth hrun => ?_, fun hself => ?_,
    fun hself => (fix_loops_undefined s hr seg hself).2⟩
  · obtain ⟨found, w1, q, hrun1, _, htrue, _⟩ :=
      find_cycle_root_spec s hinv seg r nr hnr hseg depth hdepth p
    rw [hrun] at hrun1
    simp only [Option.some.injEq, Prod.mk.injEq] at hrun1
    obtain ⟨hf, _, hq⟩ := hrun1
    have hc : on_cycle s seg x y := by
      have := htrue hf.symm
      rw [← hq] at this
      exact this
    refine ⟨hc.1, fun hxy => ?_, fun hxy => ?_⟩
    · obtain ⟨s1, hdis, hseg1, _⟩ := disconnect_seg_spec s hinv seg x y hc.1 hxy
      have hr1 : Reachable s1 := Reachable.step _ _ hr (Step.disconnect s x y true _ hdis)
      exact ⟨s1, hdis, hr1, seg_connections_cut s s1 hinv (inv_of_reachable s1 hr1)
        (keys_sorted_of_reachable s hr) (keys_sorted_of_reachable s1 hr1) seg x y hc.1
        (hseg1 seg)⟩
    · have hE := hc.1
      rw [← hxy] at hE ⊢
      exact disconnect_self_seg s hinv seg x hE
  · obtain ⟨t, hrun, _⟩ := fix_loops_total s hr seg hself
    exact ⟨t, hrun⟩

/-- C32 (failing input). In the reachable state with one endpoint connected
to itself `find_cycle` reports the endpoint with itself, the `disconnect` of
that pair has undefined behaviour and `fix_loops` has no defined result; on
the three pairwise connected bridges `fix_loops` returns. -/
theorem fix_loops_terminates_witness :
    (Reachable self_loop ∧ find_cycle 2 self_loop [1] 0 1 (0, 0) = some (true, [1], (1, 1)) ∧
      disconnect self_loop 1 1 = none ∧ fix_loops self_loop 100 = none) ∧
    ∃ t, fix_loops triangle 100 = some t :=
  ⟨⟨self_loop_reachable, rfl,
      ((fix_loops_terminates self_loop self_loop_reachable 100).1 1 _ 2 (0, 0) [1] 1 1 rfl rfl
        (by decide) rfl).2.2 rfl,
      (fix_loops_terminates self_loop self_loop_reachable 100).2.2 (by decide)⟩,
    (fix_loops_terminates triangle triangle_reachable 100).2.1 (by decide)⟩

/-- On a segment without a cycle the loop of `fix_loops` changes nothing. -/
theorem fix_loops_loop_id (s : State) (hinv : Inv s) (seg : Ptr) (hno : ¬ has_cycle s seg)
    (fuel : Nat) (hlen : s.length < fuel) :
    ∀ (roots visited : List Ptr) (p : Ptr × Ptr),
      (∀ r ∈ roots, ∃ nr, deref s r = some nr ∧ nr._segment = seg) →
      fix_loops_loop fuel roots s visited p = some s := by
  obtain ⟨k, hk⟩ : ∃ k, fuel = k + 1 := ⟨fuel - 1, by omega⟩
  intro roots
  induction roots with
  | nil => intro visited p _; rfl
  | cons r rest ih =>
    intro visited p hroots
    have hroots2 : ∀ r2 ∈ rest, ∃ nr, deref s r2 = some nr ∧ nr._segment = seg :=
      fun r2 h => hroots r2 (List.mem_cons_of_mem _ h)
    unfold fix_loops_loop
    by_cases hrv : r ∈ visited
    · rw [if_pos hrv]
      exact ih visited p hroots2
    · rw [if_neg hrv]
      obtain ⟨nr, hnr, hseg⟩ := hroots r (List.mem_cons_self _ _)
      obtain ⟨found, w, q, hrun, _, htrue, _⟩ :=
        find_cycle_root_spec s hinv seg r nr hnr hseg fuel hlen p
      cases found with
      | true => exact absurd ⟨q.1, q.2, htrue rfl⟩ hno
      | false =>
        have hw : fix_loops_while fuel r fuel s false w q = some (s, w, q) := by
          rw [hk]
          rfl
        simp only [hrun, hw]
        exact ih _ q hroots2

/-- When `has_loops` is false, `fix_loops` returns the state it was given. -/
theorem fix_loops_id (s : State) (hr : Reachable s) (seg : Ptr)
    (h : has_loops s seg = some false) : fix_loops s seg = some s := by
  have hs := keys_sorted_of_reachable s hr
  exact fix_loops_loop_id s (inv_of_reachable s hr) seg (no_cycle_of_has_loops_false s hr seg h)
    (fuel_bound s) (by rw [fuel_bound_eq]; omega) (all_nodes s seg) [] (0, 0)
    (fun r h => (mem_all_nodes s hs seg r).mp h)

/-- C39. In a reachable state, `fix_loops` on a segment for which `has_loops`
is false returns the state it was given, unchanged.  On a segment in which no
node is its own neighbor `fix_loops` returns a state `t`, and `fix_loops` on
`t` returns `t` again, so that two calls give the state of one call.  On a
segment in which some node is its own neighbor neither one call nor two
calls have a defined result. -/
theorem fix_loops_idempotent (s : State) (hr : Reachable s) (seg : Ptr) :
    (has_loops s seg = some false → fix_loops s seg = some s) ∧
    (no_self_connection s seg →
      ∃ t, fix_loops s seg = some t ∧ fix_loops t seg = some t) ∧
    (¬ no_self_connection s seg → fix_loops s seg = none) := by
  refine ⟨fix_loops_id s hr seg, fun hself => ?_,
    fun hself => (fix_loops_undefined s hr seg hself).2⟩
  obtain ⟨t, hrun, hrt, _, hno⟩ := fix_loops_total s hr seg hself
  exact ⟨t, hrun, fix_loops_id t hrt seg hno⟩

/-- C39 (failing input). On the loop-free chain of three bridges `fix_loops`
returns the chain; on the three pairwise connected bridges one call and two
calls give the same state; in the reachable state with one endpoint
connected to itself `fix_loops` has no defined result. -/
theorem fix_loops_idempotent_witness :
    fix_loops triangle_fixed 100 = some triangle_fixed ∧
    (∃ t, fix_loops triangle 100 = some t ∧ fix_loops t 100 = some t) ∧
    (Reachable self_loop ∧ fix_loops self_loop 100 = none) :=
  ⟨(fix_loops_idempotent triangle_fixed triangle_fixed_reachable 100).1 rfl,
    (fix_loops_idempotent triangle triangle_reachable 100).2.1 (by decide),
    self_loop_reachable,
    (fix_loops_idempotent self_loop self_loop_reachable 100).2.2 (by decide)⟩

/-! ## The minimal simulator and the fuller one -/

theorem can_add_s2_eq (s : State) (a b : Ptr) (hb : b ≠ 0) : can_add_s2 s a b = can_add s a b := by
  unfold can_add_s2 can_add
  cases hd : deref s a with
  | none => rfl
  | some nd =>
    obtain ⟨seg, ty, cap, id, conn⟩ := nd
    cases ty <;> simp [hb]

theorem connect_s2_eq (s : State) (a b : Ptr) (hcl : closed s) (hb : b ≠ 0) :
    connect_s2 s a b = connect s a b := by
  unfold connect_s2 connect
  rw [can_add_s2_eq s a b hb]
  by_cases ha : a = 0
  · have : can_add s a b = none := by
      unfold can_add
      rw [ha, hcl.1]
    rw [this]
  · rw [can_add_s2_eq s b a ha]

theorem disconnect_s2_eq (s : State) (a b : Ptr) (h : a ≠ b ∨ a ∉ neighbors s a) :
    disconnect_s2 s a b = disconnect s a b := by
  unfold disconnect_s2 disconnect
  cases h1 : can_remove s a b with
  | none => rfl
  | some r1 =>
    cases r1 with
    | false => rfl
    | true =>
      cases h2 : can_remove s b a with
      | none => rfl
      | some r2 =>
        cases r2 with
        | false => rfl
        | true =>
          unfold can_remove at h1 h2
          by_cases hb0 : b = 0
          · rw [if_pos hb0] at h1
            cases h1
          rw [if_neg hb0] at h1
          by_cases ha0 : a = 0
          · rw [if_pos ha0] at h2
            cases h2
          rw [if_neg ha0] at h2
          cases hda : deref s a with
          | none => rw [hda] at h1; cases h1
          | some na =>
            cases hdb : deref s b with
            | none => rw [hdb] at h2; cases h2
            | some nb =>
              rw [hda] at h1
              rw [hdb] at h2
              have hm1 : b ∈ na.connected := by simpa using h1
              have hm2 : a ∈ nb.connected := by simpa using h2
              have hab : a ≠ b := by
                rcases h with h | h
                · exact h
                · intro e
                  apply h
                  unfold neighbors
                  rw [hda]
                  rw [e]
                  exact hm1
              have hr1 : remove_s2 s a b = remove s a b := by
                unfold remove_s2 remove
                simp only [hda, hm1, if_true]
              rw [hr1]
              cases hs1 : remove s a b with
              | none => rfl
              | some s1 =>
                have hs1e := remove_eq s a b na hda hm1
                rw [hs1] at hs1e
                have hs1v : s1 = modify (upd fun l => l.erase b) a s := by simpa using hs1e
                have hdb1 : deref s1 b = some nb := by
                  rw [hs1v, deref_modify_ne _ _ (fun e => hab e.symm), hdb]
                have hr2 : remove_s2 s1 b a = remove s1 b a := by
                  unfold remove_s2 remove
                  simp only [hdb1, hm2, if_true]
                simp only [hr2]

theorem fix_loops_while_s2_eq (seg r : Ptr) (depth : Nat) :
    ∀ (iters : Nat) (s : State) (found : Bool) (cs : List Ptr) (p : Ptr × Ptr), Reachable s →
      (∀ x, ¬ seg_edge s seg x x) → (∃ nr, deref s r = some nr ∧ nr._segment = seg) →
      s.length < depth → (found = true → on_cycle s seg p.1 p.2) →
      fix_loops_while_s2 depth r iters s found cs p = fix_loops_while depth r iters s found cs p := by
  intro iters
  induction iters with
  | zero => intro s found cs p _ _ _ _ _; rfl
  | succ k ih =>
    intro s found cs p hr hself hlive hlen htrue
    unfold fix_loops_while_s2 fix_loops_while
    cases found with
    | false => rfl
    | true =>
      have hc := htrue rfl
      have hxy : p.1 ≠ p.2 := fun e => hself p.1 (by
        have := hc.1
        rw [← e] at this
        exact this)
      rw [disconnect_s2_eq s p.1 p.2 (Or.inl hxy)]
      obtain ⟨s1, hdis, hr1, hcut, _⟩ := cut_step s hr seg p.1 p.2 hc hxy
      have hlive1 := loops_cut_live seg s s1 hcut r hlive
      have hlen1 : s1.length < depth := by rw [loops_cut_length seg s s1 hcut]; exact hlen
      obtain ⟨nr1, hnr1, hseg1⟩ := hlive1
      obtain ⟨found1, w, q, hrun, _, htrue1, _⟩ :=
        find_cycle_root_spec s1 (inv_of_reachable s1 hr1) seg r nr1 hnr1 hseg1 depth hlen1 p
      simp only [hdis, hrun, if_true]
      exact ih s1 found1 w q hr1
        (fun x hx => hself x (loops_cut_seg_edge seg s s1 hcut x x hx)) ⟨nr1, hnr1, hseg1⟩ hlen1
        htrue1

theorem fix_loops_loop_s2_eq (seg : Ptr) (fuel : Nat) :
    ∀ (roots : List Ptr) (s : State) (visited : List Ptr) (p : Ptr × Ptr), Reachable s →
      (∀ x, ¬ seg_edge s seg x x) → (∀ r ∈ roots, ∃ nr, deref s r = some nr ∧ nr._segment = seg) →
      s.length < fuel →
      fix_loops_loop_s2 fuel roots s visited p = fix_loops_loop fuel roots s visited p := by
  intro roots
  induction roots with
  | nil => intro s visited p _ _ _ _; rfl
  | cons r rest ih =>
    intro s visited p hr hself hroots hlen
    have hroots2 : ∀ r2 ∈ rest, ∃ nr, deref s r2 = some nr ∧ nr._segment = seg :=
      fun r2 h => hroots r2 (List.mem_cons_of_mem _ h)
    unfold fix_loops_loop_s2 fix_loops_loop
    by_cases hrv : r ∈ visited
    · rw [if_pos hrv, if_pos hrv]
      exact ih s visited p hr hself hroots2 hlen
    · rw [if_neg hrv, if_neg hrv]
      obtain ⟨nr, hnr, hseg⟩ := hroots r (List.mem_cons_self _ _)
      obtain ⟨found, w, q, hrun, hrw, htrue, hfalse⟩ :=
        find_cycle_root_spec s (inv_of_reachable s hr) seg r nr hnr hseg fuel hlen p
      have hw := fix_loops_while_s2_eq seg r fuel fuel s found w q hr hself ⟨nr, hnr, hseg⟩ hlen
        htrue
      rcases fix_loops_while_spec seg r fuel fuel s found w q hr ⟨nr, hnr, hseg⟩ hlen
          htrue (fun hf => ⟨hrw, (hfalse hf).2.2.2⟩) with
        ⟨hnone, _⟩ | ⟨s1, cs1, q1, hrun1, hr1, hcut1, _, _⟩
      · simp only [hrun, hw, hnone]
      · simp only [hrun, hw, hrun1]
        exact ih s1 _ q1 hr1 (fun x hx => hself x (loops_cut_seg_edge seg s s1 hcut1 x x hx))
          (fun r2 h => loops_cut_live seg s s1 hcut1 r2 (hroots2 r2 h))
          (by rw [loops_cut_length seg s s1 hcut1]; exact hlen)

theorem fix_loops_s2_eq (s : State) (hr : Reachable s) (seg : Ptr)
    (hself : no_self_connection s seg) : fix_loops_s2 s seg = fix_loops s seg := by
  have hs := keys_sorted_of_reachable s hr
  exact fix_loops_loop_s2_eq seg (fuel_bound s) (all_nodes s seg) s [] (0, 0) hr
    (no_self_seg_edge s seg hself) (fun r h => (mem_all_nodes s hs seg r).mp h)
    (by rw [fuel_bound_eq]; omega)

theorem call_s2_eq (s : State) (hr : Reachable s) (c : call) (h : plain_call s c = true) :
    call_s2 s c = call_s3 s c := by
  cases c with
  | connect a b =>
    exact connect_s2_eq s a b (inv_of_reachable s hr).closed (by simpa [plain_call] using h)
  | disconnect a b =>
    refine disconnect_s2_eq s a b ?_
    simpa [plain_call] using h
  | fix_loops seg =>
    have hself : no_self_connection s seg := by simpa [plain_call] using h
    simp only [call_s2, call_s3]
    rw [fix_loops_s2_eq s hr seg hself]
  | _ => rfl

theorem call_s3_reachable (s : State) (hr : Reachable s) (c : call) (r : Bool) (t : State)
    (h : call_s3 s c = some (r, t)) : Reachable t := by
  have hfresh : ∀ p, fresh s p = true → p ≠ 0 ∧ deref s p = none := by
    intro p hp
    unfold fresh at hp
    simp only [Bool.and_eq_true, decide_eq_true_eq, Option.isNone_iff_eq_none] at hp
    exact hp
  cases c with
  | add_endpoint seg p =>
    simp only [call_s3] at h
    by_cases hp : fresh s p = true
    · rw [if_pos hp] at h
      simp only [Option.some.injEq, Prod.mk.injEq] at h
      rw [← h.2]
      exact Reachable.step _ _ hr (Step.add_endpoint s seg p (hfresh p hp).1 (hfresh p hp).2)
    · rw [if_neg hp] at h
      cases h
  | add_bridge seg cap id p =>
    simp only [call_s3] at h
    by_cases hp : fresh s p = true
    · rw [if_pos hp] at h
      simp only [Option.some.injEq, Prod.mk.injEq] at h
      rw [← h.2]
      exact Reachable.step _ _ hr (Step.add_bridge s seg cap id p (hfresh p hp).1 (hfresh p hp).2)
    · rw [if_neg hp] at h
      cases h
  | add_router seg cap id p =>
    simp only [call_s3] at h
    by_cases hp : fresh s p = true
    · rw [if_pos hp] at h
      simp only [Option.some.injEq, Prod.mk.injEq] at h
      rw [← h.2]
      exact Reachable.step _ _ hr (Step.add_router s seg cap id p (hfresh p hp).1 (hfresh p hp).2)
    · rw [if_neg hp] at h
      cases h
  | connect a b => exact Reachable.step _ _ hr (Step.connect s a b r t h)
  | disconnect a b => exact Reachable.step _ _ hr (Step.disconnect s a b r t h)
  | reachable a b =>
    simp only [call_s3] at h
    obtain ⟨_, _, e⟩ := Option.map_eq_some'.mp h
    simp only [Prod.mk.injEq] at e
    rw [← e.2]
    exact hr
  | has_loops seg =>
    simp only [call_s3] at h
    obtain ⟨_, _, e⟩ := Option.map_eq_some'.mp h
    simp only [Prod.mk.injEq] at e
    rw [← e.2]
    exact hr
  | fix_loops seg =>
    simp only [call_s3] at h
    obtain ⟨u, hu, e⟩ := Option.map_eq_some'.mp h
    simp only [Prod.mk.injEq] at e
    rw [← e.2]
    exact Reachable.step _ _ hr (Step.fix_loops s seg (fuel_bound s) u hu)

theorem run_s2_eq : ∀ (cs : List call) (s : State), Reachable s → plain_run s cs = true →
    run call_s2 s cs = run call_s3 s cs := by
  intro cs
  induction cs with
  | nil => intro s _ _; rfl
  | cons c rest ih =>
    intro s hr hp
    unfold plain_run at hp
    simp only [Bool.and_eq_true] at hp
    unfold run
    rw [call_s2_eq s hr c hp.1]
    cases hc : call_s3 s c with
    | none => rfl
    | some x =>
      obtain ⟨r, t⟩ := x
      have hp2 := hp.2
      rw [hc] at hp2
      simp only at hp2 ⊢
      rw [ih t (call_s3_reachable s hr c r t hc) hp2]

theorem disconnect_s2_self (s : State) (hcl : closed s) (a : Ptr) (h : a ∈ neighbors s a) :
    ∃ t, disconnect_s2 s a a = some (true, t) := by
  unfold neighbors at h
  cases hd : deref s a with
  | none => rw [hd] at h; cases h
  | some na =>
    rw [hd] at h
    have ha0 : a ≠ 0 := fun e => by rw [e, hcl.1] at hd; cases hd
    have hcr : can_remove s a a = some true := by
      unfold can_remove
      rw [if_neg ha0, hd]
      simpa using h
    have hr1 : remove_s2 s a a =
        some (modify (fun nd => { nd with connected := nd.connected.erase a }) a s) := by
      unfold remove_s2
      rw [hd]
    have hd1 : deref (modify (fun nd => { nd with connected := nd.connected.erase a }) a s) a =
        some { na with connected := na.connected.erase a } := by
      rw [deref_modify_self, hd]
      rfl
    refine ⟨modify (fun nd => { nd with connected := nd.connected.erase a }) a
      (modify (fun nd => { nd with connected := nd.connected.erase a }) a s), ?_⟩
    unfold disconnect_s2
    simp only [hcr, hr1]
    unfold remove_s2
    simp only [hd1]

/-- C36. From a reachable state, a sequence of calls gives the same booleans
and the same final state on the minimal and on the fuller simulator when it
holds no `connect` with a null argument, no `disconnect` of a node from
itself while it is its own neighbor, and no `fix_loops` on a segment with
such a node (`reachable` and `has_loops` have the same bodies in both
files).  On the other calls the two differ: `connect( nullptr )` on an
endpoint without a neighbor returns false on the fuller simulator and
dereferences the null pointer on the minimal one; `disconnect` of a node
from itself while it is its own neighbor returns true on the minimal
simulator and has undefined behaviour on the fuller one, and so has
`fix_loops` on the segment of such a node. -/
theorem minimal_is_subset (s : State) (hr : Reachable s) :
    (∀ cs, plain_run s cs = true → run call_s2 s cs = run call_s3 s cs) ∧
    (∀ a na, deref s a = some na → na._type = node_type.ENDPOINT → na.connected = [] →
      connect s a 0 = some (false, s) ∧ connect_s2 s a 0 = none) ∧
    (∀ a, a ∈ neighbors s a →
      disconnect s a a = none ∧ ∃ t, disconnect_s2 s a a = some (true, t)) ∧
    (∀ seg, ¬ no_self_connection s seg → fix_loops s seg = none) := by
  have hinv := inv_of_reachable s hr
  refine ⟨fun cs h => run_s2_eq cs s hr h, fun a na ha hty hconn => ⟨connect_null s a na ha, ?_⟩,
    fun a h => ⟨?_, disconnect_s2_self s hinv.closed a h⟩,
    fun seg hself => (fix_loops_undefined s hr seg hself).2⟩
  · have h1 : can_add_s2 s a 0 = some true := by
      unfold can_add_s2
      rw [ha]
      simp only [hty, hconn, List.isEmpty_nil]
    have h2 : can_add_s2 s 0 a = none := by
      unfold can_add_s2
      rw [hinv.closed.1]
    unfold connect_s2
    simp only [h1, h2]
  · unfold neighbors at h
    cases hd : deref s a with
    | none => rw [hd] at h; cases h
    | some na =>
      rw [hd] at h
      have ha0 : a ≠ 0 := fun e => by rw [e, hinv.closed.1] at hd; cases hd
      exact disconnect_self_none s a na hd h
        ((hinv.sorted a na hd).imp fun hlt => Nat.ne_of_lt hlt) ha0

set_option maxRecDepth 100000 in
/-- C36 (failing input). A sequence of plain calls gives the same result on
both simulators.  After `add_endpoint`, the call `connect( nullptr )` on the
new endpoint returns false on the fuller simulator and has no defined result
on the minimal one; after the endpoint has been connected to itself,
`disconnect` of the endpoint from itself and `fix_loops` return on the
minimal simulator and have no defined result on the fuller one. -/
theorem minimal_is_subset_witness :
    run call_s2 [] [call.add_endpoint 100 1, call.add_endpoint 100 2, call.connect 1 2,
        call.reachable 1 2, call.has_loops 100, call.fix_loops 100, call.disconnect 1 2,
        call.reachable 1 2] =
      run call_s3 [] [call.add_endpoint 100 1, call.add_endpoint 100 2, call.connect 1 2,
        call.reachable 1 2, call.has_loops 100, call.fix_loops 100, call.disconnect 1 2,
        call.reachable 1 2] ∧
    (run call_s3 [] [call.add_endpoint 100 1, call.connect 1 0] =
        some ([true, false], add_endpoint [] 100 1) ∧
      run call_s2 [] [call.add_endpoint 100 1, call.connect 1 0] = none) ∧
    (run call_s3 [] [call.add_endpoint 100 1, call.connect 1 1] = some ([true, true], self_loop) ∧
      run call_s2 [] [call.add_endpoint 100 1, call.connect 1 1] = some ([true, true], self_loop) ∧
      run call_s3 [] [call.add_endpoint 100 1, call.connect 1 1, call.disconnect 1 1] = none ∧
      run call_s2 [] [call.add_endpoint 100 1, call.connect 1 1, call.disconnect 1 1] =
        some ([true, true, true], add_endpoint [] 100 1) ∧
      run call_s3 [] [call.add_endpoint 100 1, call.connect 1 1, call.fix_loops 100] = none ∧
      run call_s2 [] [call.add_endpoint 100 1, call.connect 1 1, call.fix_loops 100] =
        some ([true, true, true], add_endpoint [] 100 1)) ∧
    (connect (add_endpoint [] 100 1) 1 0 = some (false, add_endpoint [] 100 1) ∧
      connect_s2 (add_endpoint [] 100 1) 1 0 = none) ∧
    (disconnect self_loop 1 1 = none ∧ ∃ t, disconnect_s2 self_loop 1 1 = some (true, t)) :=
  ⟨(minimal_is_subset [] Reachable.init).1 _ rfl, ⟨rfl, rfl⟩, ⟨rfl, rfl, rfl, rfl, rfl, rfl⟩,
    (minimal_is_subset (add_endpoint [] 100 1)
      (Reachable.step _ _ Reachable.init (Step.add_endpoint [] 100 1 (by decide) rfl))).2.1
      1 _ rfl rfl rfl,
    (minimal_is_subset self_loop self_loop_reachable).2.2.1 1 (by decide)⟩

/-! ## The contents of a `std::set<node*,node_cmp>` -/

theorem cmp_insert_key (s : State) (hcl : closed s) (x : Ptr) (dx : node)
    (hx : deref s x = some dx) :
    ∀ acc : List Ptr, (∀ y ∈ acc, ∃ dy, deref s y = some dy) →
      acc.Pairwise (fun a b => cmp_key s a < cmp_key s b) →
      ∃ r, cmp_insert s x acc = some r ∧ r.Pairwise (fun a b => cmp_key s a < cmp_key s b) ∧
        (∀ y, y ∈ r → y = x ∨ y ∈ acc) ∧ (∀ y ∈ acc, y ∈ r) ∧
        (((∀ y ∈ acc, cmp_key s y ≠ cmp_key s x) ∧ r.Perm (x :: acc)) ∨
          ((∃ y ∈ acc, cmp_key s y = cmp_key s x) ∧ r = acc)) := by
  intro acc
  induction acc with
  | nil =>
    intro _ _
    exact ⟨[x], rfl, List.pairwise_singleton _ _, fun y hy => Or.inl (List.mem_singleton.mp hy),
      fun y hy => absurd hy (List.not_mem_nil _),
      Or.inl ⟨fun y hy => absurd hy (List.not_mem_nil _), List.Perm.refl _⟩⟩
  | cons y ys ih =>
    intro hlive hsorted
    obtain ⟨dy, hy⟩ := hlive y (List.mem_cons_self _ _)
    have hys := List.pairwise_cons.mp hsorted
    unfold cmp_insert
    rw [node_cmp_key s hcl x y dx dy hx hy]
    by_cases h1 : cmp_key s x < cmp_key s y
    · rw [decide_eq_true h1]
      refine ⟨x :: y :: ys, rfl, ?_, fun z hz => ?_, fun z hz => List.mem_cons_of_mem _ hz,
        Or.inl ⟨fun z hz => ?_, List.Perm.refl _⟩⟩
      · refine List.pairwise_cons.mpr ⟨fun z hz => ?_, hsorted⟩
        rcases List.mem_cons.mp hz with e | hz2
        · rw [e]; exact h1
        · exact lt_trans h1 (hys.1 z hz2)
      · rcases List.mem_cons.mp hz with e | hz2
        · exact Or.inl e
        · exact Or.inr hz2
      · rcases List.mem_cons.mp hz with e | hz2
        · rw [e]; exact ne_of_gt h1
        · exact ne_of_gt (lt_trans h1 (hys.1 z hz2))
    · rw [decide_eq_false h1, node_cmp_key s hcl y x dy dx hy hx]
      by_cases h2 : cmp_key s y < cmp_key s x
      · rw [decide_eq_true h2]
        obtain ⟨r, hr, hrs, hsub, hsup, hcase⟩ :=
          ih (fun z hz => hlive z (List.mem_cons_of_mem _ hz)) hys.2
        simp only [hr]
        refine ⟨y :: r, rfl, ?_, fun z hz => ?_, fun z hz => ?_, ?_⟩
        · refine List.pairwise_cons.mpr ⟨fun z hz => ?_, hrs⟩
          rcases hsub z hz with e | hz2
          · rw [e]; exact h2
          · exact hys.1 z hz2
        · rcases List.mem_cons.mp hz with e | hz2
          · exact Or.inr (e ▸ List.mem_cons_self _ _)
          · rcases hsub z hz2 with e | hz3
            · exact Or.inl e
            · exact Or.inr (List.mem_cons_of_mem _ hz3)
        · rcases List.mem_cons.mp hz with e | hz2
          · exact e ▸ List.mem_cons_self _ _
          · exact List.mem_cons_of_mem _ (hsup z hz2)
        · rcases hcase with ⟨hne, hperm⟩ | ⟨⟨z, hz, hzk⟩, hreq⟩
          · refine Or.inl ⟨fun z hz => ?_, (List.Perm.cons y hperm).trans (List.Perm.swap x y ys)⟩
            rcases List.mem_cons.mp hz with e | hz2
            · rw [e]; exact ne_of_lt h2
            · exact hne z hz2
          · exact Or.inr ⟨⟨z, List.mem_cons_of_mem _ hz, hzk⟩, by rw [hreq]⟩
      · rw [decide_eq_false h2]
        have hk : cmp_key s y = cmp_key s x :=
          le_antisymm (not_lt.mp h1) (not_lt.mp h2)
        exact ⟨y :: ys, rfl, hsorted, fun z hz => Or.inr hz, fun z hz => hz,
          Or.inr ⟨⟨y, List.mem_cons_self _ _, hk⟩, rfl⟩⟩

theorem cmp_insert_all_key (s : State) (hcl : closed s) :
    ∀ l acc : List Ptr, (∀ y ∈ l, ∃ dy, deref s y = some dy) →
      (∀ y ∈ acc, ∃ dy, deref s y = some dy) →
      acc.Pairwise (fun a b => cmp_key s a < cmp_key s b) →
      ∃ r, cmp_insert_all s l acc = some r ∧ r.Pairwise (fun a b => cmp_key s a < cmp_key s b) ∧
        (∀ y, y ∈ r → y ∈ l ∨ y ∈ acc) ∧ (∀ y ∈ acc, y ∈ r) ∧
        ∀ x ∈ l, ∃ y ∈ r, cmp_key s y = cmp_key s x := by
  intro l
  induction l with
  | nil =>
    intro acc _ _ hs
    exact ⟨acc, rfl, hs, fun y hy => Or.inr hy, fun y hy => hy,
      fun x hx => absurd hx (List.not_mem_nil _)⟩
  | cons x xs ih =>
    intro acc hl hacc hs
    obtain ⟨dx, hx⟩ := hl x (List.mem_cons_self _ _)
    obtain ⟨r1, hr1, hs1, hsub1, hsup1, hcase1⟩ := cmp_insert_key s hcl x dx hx acc hacc hs
    have hlive1 : ∀ y ∈ r1, ∃ dy, deref s y = some dy := by
      intro y hy
      rcases hsub1 y hy with e | h
      · exact ⟨dx, e ▸ hx⟩
      · exact hacc y h
    obtain ⟨r, hr, hsr, hsub, hsup, hrep⟩ :=
      ih r1 (fun y hy => hl y (List.mem_cons_of_mem _ hy)) hlive1 hs1
    unfold cmp_insert_all
    simp only [hr1]
    refine ⟨r, hr, hsr, fun y hy => ?_, fun y hy => hsup y (hsup1 y hy), fun z hz => ?_⟩
    · rcases hsub y hy with h | h
      · exact Or.inl (List.mem_cons_of_mem _ h)
      · rcases hsub1 y h with e | h2
        · exact Or.inl (e ▸ List.mem_cons_self _ _)
        · exact Or.inr h2
    · rcases List.mem_cons.mp hz with e | hz2
      · rw [e]
        rcases hcase1 with ⟨_, hperm⟩ | ⟨⟨y, hy, hyk⟩, hreq⟩
        · exact ⟨x, hsup x (hperm.mem_iff.mpr (List.mem_cons_self _ _)), rfl⟩
        · exact ⟨y, hsup y (hreq ▸ hy), hyk⟩
      · exact hrep z hz2

/-- The set `std::set<node*,node_cmp>` built from a neighbor set: it is in
strictly increasing comparator order, holds only neighbors, and holds for
every neighbor a node that the comparator does not tell from it. -/
theorem node_set_spec (s : State) (hcl : closed s) (conn : List Ptr)
    (hlive : ∀ y ∈ conn, ∃ dy, deref s y = some dy) :
    ∃ node_set, cmp_insert_all s conn [] = some node_set ∧
      node_set.Pairwise (fun a b => cmp_key s a < cmp_key s b) ∧ node_set.Nodup ∧
      (∀ y ∈ node_set, y ∈ conn) ∧ ∀ x ∈ conn, ∃ y ∈ node_set, cmp_key s y = cmp_key s x := by
  obtain ⟨r, hr, hs, hsub, _, hrep⟩ := cmp_insert_all_key s hcl conn [] hlive
    (fun y hy => absurd hy (List.not_mem_nil _)) List.Pairwise.nil
  refine ⟨r, hr, hs, hs.imp (fun h e => ?_), fun y hy => ?_, hrep⟩
  · rw [e] at h
    exact lt_irrefl _ h
  · rcases hsub y hy with h | h
    · exact h
    · exact absurd h (List.not_mem_nil _)

/-! ## The record of a bridge or router -/

theorem refs_to_string_eq (s : State) (system : List Ptr) (is_router : Bool) :
    ∀ (cs : List Ptr) (oss : String) (e_count : Nat),
      (∀ c ∈ cs, ∃ dc, deref s c = some dc) →
      refs_to_string s system is_router cs oss e_count =
        some (oss ++ concat_texts
            ((cs.filter fun c => !is_endpoint s c).map (ref_text_at s system is_router)),
          e_count + (cs.filter (is_endpoint s)).length) := by
  intro cs
  induction cs with
  | nil =>
    intro oss e_count _
    simp [refs_to_string, concat_texts, String.append_empty]
  | cons c rest ih =>
    intro oss e_count hlive
    obtain ⟨dc, hdc⟩ := hlive c (List.mem_cons_self _ _)
    have hrest : ∀ c2 ∈ rest, ∃ d, deref s c2 = some d :=
      fun c2 h => hlive c2 (List.mem_cons_of_mem _ h)
    unfold refs_to_string
    simp only [hdc]
    by_cases hep : dc._type = node_type.ENDPOINT
    · have hie : is_endpoint s c = true := by
        unfold is_endpoint
        rw [hdc]
        exact decide_eq_true hep
      rw [if_pos hep, ih oss (e_count + 1) hrest]
      simp only [List.filter_cons, hie, Bool.not_true, if_true, List.length_cons]
      simp only [Bool.false_eq_true, if_false]
      congr 2
      omega
    · have hie : is_endpoint s c = false := by
        unfold is_endpoint
        rw [hdc]
        exact decide_eq_false hep
      rw [if_neg hep, ih _ e_count hrest]
      simp only [List.filter_cons, hie, Bool.not_false, if_true, List.map_cons, concat_texts]
      simp only [Bool.false_eq_true, if_false]
      have htext : ref_text_at s system is_router c = ref_text system is_router dc := by
        unfold ref_text_at
        rw [hdc]
      rw [htext]
      unfold ref_text
      cases is_router with
      | true => simp only [if_true, String.append_assoc]
      | false => simp only [Bool.false_eq_true, if_false, String.append_assoc, String.empty_append]

/-- The text that `node_to_string` returns for a bridge or a router: its
head, one reference for every node of `node_set` that is not an endpoint, in
the order of `node_set`, and the number of endpoints of `node_set`. -/
theorem node_to_string_eq (s : State) (n : Ptr) (dn : node) (hn : deref s n = some dn)
    (hty : dn._type ≠ node_type.ENDPOINT) (system node_set : List Ptr)
    (hset : cmp_insert_all s dn.connected [] = some node_set)
    (hlive : ∀ c ∈ node_set, ∃ dc, deref s c = some dc) :
    node_to_string s n system =
      some (record_text s system dn (node_set.filter fun c => !is_endpoint s c)
        (node_set.filter (is_endpoint s)).length) := by
  have hrefs := refs_to_string_eq s system (decide (dn._type = node_type.ROUTER)) node_set
    (record_head dn) 0 hlive
  unfold node_to_string record_text
  rw [hn]
  obtain ⟨seg, ty, cap, id, conn⟩ := dn
  simp only at hty hset hrefs ⊢
  cases ty with
  | ENDPOINT => exact absurd rfl hty
  | BRIDGE =>
    simp only [hset]
    unfold record_head at hrefs ⊢
    simp only at hrefs ⊢
    rw [hrefs]
    simp only [Nat.zero_add]
  | ROUTER =>
    simp only [hset]
    unfold record_head at hrefs ⊢
    simp only at hrefs ⊢
    rw [hrefs]
    simp only [Nat.zero_add]

theorem length_filter_split (p : Ptr → Bool) (l : List Ptr) :
    (l.filter fun c => !p c).length + (l.filter p).length = l.length := by
  induction l with
  | nil => rfl
  | cons x xs ih =>
    simp only [List.filter_cons]
    cases p x <;> simp <;> omega

theorem same_reference_key (s : State) (a b : Ptr) (hab : a ≠ b) (da db : node)
    (ha : deref s a = some da) (hb : deref s b = some db) :
    same_reference s a b ↔ cmp_key s a = cmp_key s b := by
  rw [cmp_key_eq_iff s a b da db ha hb hab]
  constructor
  · rintro ⟨da2, db2, ha2, hb2, h⟩
    rw [ha] at ha2
    rw [hb] at hb2
    have e1 : da = da2 := by simpa using ha2
    have e2 : db = db2 := by simpa using hb2
    rw [e1, e2]
    exact h
  · intro h
    exact ⟨da, db, ha, hb, h⟩

/-- What the set `node_set` of `node_to_string` holds: every endpoint
neighbor, and all neighbors exactly when no two of them are bridges, or
routers, with the same identifier. -/
theorem node_set_count (s : State) (hcl : closed s) (conn : List Ptr) (hnd : conn.Nodup)
    (hlive : ∀ y ∈ conn, ∃ dy, deref s y = some dy) :
    ∃ node_set, cmp_insert_all s conn [] = some node_set ∧
      node_set.Pairwise (fun a b => cmp_key s a < cmp_key s b) ∧
      (∀ y ∈ node_set, y ∈ conn) ∧
      (node_set.filter (is_endpoint s)).length = (conn.filter (is_endpoint s)).length ∧
      ((∀ a ∈ conn, ∀ b ∈ conn, a ≠ b → ¬ same_reference s a b) → node_set.Perm conn) ∧
      ((∃ a ∈ conn, ∃ b ∈ conn, a ≠ b ∧ same_reference s a b) →
        node_set.length < conn.length) := by
  obtain ⟨node_set, hset, hsorted, hnd2, hsub, hrep⟩ := node_set_spec s hcl conn hlive
  have hkeys : ∀ a ∈ conn, ∀ b ∈ conn, a ≠ b → (same_reference s a b ↔ cmp_key s a = cmp_key s b) := by
    intro a ha b hb hab
    obtain ⟨da, hda⟩ := hlive a ha
    obtain ⟨db, hdb⟩ := hlive b hb
    exact same_reference_key s a b hab da db hda hdb
  have hsp : node_set.Subperm conn := List.subperm_of_subset hnd2 hsub
  refine ⟨node_set, hset, hsorted, hsub, ?_, fun hdist => ?_, fun hex => ?_⟩
  · refine List.Perm.length_eq ?_
    rw [List.perm_ext_iff_of_nodup (hnd2.filter _) (hnd.filter _)]
    intro a
    rw [List.mem_filter, List.mem_filter]
    constructor
    · exact fun h => ⟨hsub a h.1, h.2⟩
    · rintro ⟨ha, hep⟩
      refine ⟨?_, hep⟩
      obtain ⟨y, hy, hk⟩ := hrep a ha
      by_cases hya : y = a
      · rw [← hya]; exact hy
      · exfalso
        obtain ⟨_, db2, _, hdb2, h1, h2, _⟩ := (hkeys y (hsub y hy) a ha hya).mpr hk
        unfold is_endpoint at hep
        rw [hdb2] at hep
        have : db2._type = node_type.ENDPOINT := by simpa using hep
        rw [← h1] at this
        exact h2 this
  · rw [List.perm_ext_iff_of_nodup hnd2 hnd]
    intro a
    refine ⟨hsub a, fun ha => ?_⟩
    obtain ⟨y, hy, hk⟩ := hrep a ha
    by_cases hya : y = a
    · rw [← hya]; exact hy
    · exact absurd ((hkeys y (hsub y hy) a ha hya).mpr hk) (hdist y (hsub y hy) a ha hya)
  · obtain ⟨a, ha, b, hb, hab, hsame⟩ := hex
    by_contra hlen
    have hperm : node_set.Perm conn := hsp.perm_of_length_le (not_lt.mp hlen)
    have hmapnd : (conn.map (cmp_key s)).Nodup := by
      have h1 : (node_set.map (cmp_key s)).Nodup := by
        have : (node_set.map (cmp_key s)).Pairwise (· < ·) := List.pairwise_map.mpr hsorted
        exact this.imp fun h => ne_of_lt h
      exact ((hperm.map (cmp_key s)).nodup_iff).mp h1
    exact hab (List.inj_on_of_nodup_map hmapnd ha hb ((hkeys a ha b hb hab).mp hsame))

/-- C33. In a reachable state, `node_to_string` of a bridge or router `n`
returns the record of `n` with one reference for every non-endpoint node of
the set `node_set` built from the neighbors of `n`, in comparator order, and
with `e_count` equal to the number of endpoint neighbors of `n`.  When no two
neighbors of `n` are bridges, or routers, with the same identifier,
`node_set` holds all neighbors and the number of references plus `e_count` is
the number of neighbors.  When two neighbors of `n` are bridges, or routers,
with the same identifier (in one segment or in two), `node_set` keeps one of
them only, and the number of references plus `e_count` is less than the
number of neighbors. -/
theorem serialize_emits_neighbors (s : State) (hr : Reachable s) (n : Ptr) (dn : node)
    (hn : deref s n = some dn) (hty : dn._type ≠ node_type.ENDPOINT) (system : List Ptr) :
    ∃ node_set, cmp_insert_all s dn.connected [] = some node_set ∧
      node_to_string s n system =
        some (record_text s system dn (node_set.filter fun c => !is_endpoint s c)
          (dn.connected.filter (is_endpoint s)).length) ∧
      node_set.Pairwise (fun a b => cmp_key s a < cmp_key s b) ∧
      (∀ c ∈ node_set, c ∈ dn.connected) ∧
      ((∀ a ∈ dn.connected, ∀ b ∈ dn.connected, a ≠ b → ¬ same_reference s a b) →
        node_set.Perm dn.connected ∧
        (node_set.filter fun c => !is_endpoint s c).length +
          (dn.connected.filter (is_endpoint s)).length = dn.connected.length) ∧
      ((∃ a ∈ dn.connected, ∃ b ∈ dn.connected, a ≠ b ∧ same_reference s a b) →
        (node_set.filter fun c => !is_endpoint s c).length +
          (dn.connected.filter (is_endpoint s)).length < dn.connected.length) := by
  have hinv := inv_of_reachable s hr
  have hnd : dn.connected.Nodup := (hinv.sorted n dn hn).imp fun hlt => Nat.ne_of_lt hlt
  have hlive := hinv.closed.2 n dn hn
  obtain ⟨node_set, hset, hsorted, hsub, hcount, hall, hless⟩ :=
    node_set_count s hinv.closed dn.connected hnd hlive
  have htext := node_to_string_eq s n dn hn hty system node_set hset
    (fun c hc => hlive c (hsub c hc))
  rw [hcount] at htext
  have hsplit := length_filter_split (is_endpoint s) node_set
  rw [hcount] at hsplit
  refine ⟨node_set, hset, htext, hsorted, hsub, fun hdist => ?_, fun hex => ?_⟩
  · have hperm := hall hdist
    exact ⟨hperm, by rw [hsplit, hperm.length_eq]⟩
  · have := hless hex
    omega

/-- C33 (failing input). The router `c` of `hub_low_first` has the two routers
`A` of the second and third segment as neighbors; its record holds the single
reference `1:r_A` and `e_count= 0`.  The router of `router_conflict` has one
neighbor, and its record holds one reference. -/
theorem serialize_emits_neighbors_witness :
    (Reachable hub_low_first ∧ neighbors hub_low_first 1 = [2, 3] ∧
      same_reference hub_low_first 2 3 ∧
      node_to_string hub_low_first 1 [100, 200, 300] =
        some "node\x7b type= router id= c capacity= 2 connected=( 1:r_A ) e_count= 0 \x7d" ∧
      ∃ node_set, cmp_insert_all hub_low_first [2, 3] [] = some node_set ∧
        (node_set.filter fun c => !is_endpoint hub_low_first c).length +
          ([2, 3].filter (is_endpoint hub_low_first)).length < [2, 3].length) ∧
    ∃ node_set, cmp_insert_all router_conflict [1] [] = some node_set ∧
      (node_set.filter fun c => !is_endpoint router_conflict c).length +
        ([1].filter (is_endpoint router_conflict)).length = [1].length := by
  obtain ⟨ns, h1, _, _, _, _, h6⟩ :=
    serialize_emits_neighbors hub_low_first hub_low_first_reachable 1 _ rfl (by decide)
      [100, 200, 300]
  obtain ⟨ns2, g1, _, _, _, g5, _⟩ :=
    serialize_emits_neighbors router_conflict router_conflict_reachable 3 _ rfl (by decide) [100]
  have hsame : same_reference hub_low_first 2 3 := ⟨_, _, rfl, rfl, rfl, by decide, rfl⟩
  refine ⟨⟨hub_low_first_reachable, rfl, hsame, rfl, ns, h1, ?_⟩, ns2, g1, ?_⟩
  · exact h6 ⟨2, by decide, 3, by decide, by decide, hsame⟩
  · refine (g5 ?_).2
    intro a ha b hb hab
    simp only [List.mem_singleton] at ha hb
    exact absurd (ha.trans hb.symm) hab

/-! ## How `deserialize` reads a reference -/

theorem sorted_three_classes {α : Type} (f : α → Nat) :
    ∀ l : List α, l.Pairwise (fun a b => f a ≤ f b) → (∀ a ∈ l, f a ≤ 2) →
      l.map f = List.replicate (l.countP fun a => decide (f a = 0)) 0 ++
        List.replicate (l.countP fun a => decide (f a = 1)) 1 ++
        List.replicate (l.countP fun a => decide (f a = 2)) 2 := by
  intro l
  induction l with
  | nil => intro _ _; rfl
  | cons a rest ih =>
    intro hs hle
    have hs2 := List.pairwise_cons.mp hs
    have hrest := ih hs2.2 fun b hb => hle b (List.mem_cons_of_mem _ hb)
    have ha := hle a (List.mem_cons_self _ _)
    rw [List.map_cons, hrest]
    simp only [List.countP_cons]
    have hcases : f a = 0 ∨ f a = 1 ∨ f a = 2 := by omega
    rcases hcases with h | h | h
    · simp [h, List.replicate_succ]
    · have h0 : (rest.countP fun b => decide (f b = 0)) = 0 := by
        rw [List.countP_eq_zero]
        intro b hb
        have := hs2.1 b hb
        simp only [decide_eq_true_eq]
        omega
      simp [h, h0, List.replicate_succ]
    · have h0 : (rest.countP fun b => decide (f b = 0)) = 0 := by
        rw [List.countP_eq_zero]
        intro b hb
        have := hs2.1 b hb
        simp only [decide_eq_true_eq]
        omega
      have h1 : (rest.countP fun b => decide (f b = 1)) = 0 := by
        rw [List.countP_eq_zero]
        intro b hb
        have := hs2.1 b hb
        simp only [decide_eq_true_eq]
        omega
      simp [h, h0, h1, List.replicate_succ]

theorem endpoint_class_le (s : State) (p : Ptr) : endpoint_class s p ≤ 2 := by
  unfold endpoint_class
  cases deref s p with
  | none => exact Nat.zero_le _
  | some d =>
    obtain ⟨seg, ty, cap, id, conn⟩ := d
    cases conn with
    | nil => exact Nat.zero_le _
    | cons c _ =>
      simp only
      by_cases h : is_endpoint s c = true
      · rw [if_pos h]
        exact Nat.le_succ 1
      · rw [if_neg h]

/-- The comparator order of two endpoints follows their classes. -/
theorem endpoint_class_mono (s : State) (hinv : Inv s) (a b : Ptr) (da db : node)
    (ha : deref s a = some da) (hb : deref s b = some db)
    (ta : da._type = node_type.ENDPOINT) (tb : db._type = node_type.ENDPOINT)
    (hlt : cmp_key s a < cmp_key s b) : endpoint_class s a ≤ endpoint_class s b := by
  have hca := hinv.cap a da ha
  have hcb := hinv.cap b db hb
  have hfk : ∀ (p : Ptr) (d : node), deref s p = some d → ∀ c rest, d.connected = c :: rest →
      (first_kind s d = 0 → endpoint_class s p = 1) ∧
      (first_kind s d ≠ 0 → endpoint_class s p = 2) := by
    intro p d hp c rest hconn
    obtain ⟨dc, hdc⟩ := hinv.closed.2 p d hp c (by rw [hconn]; exact List.mem_cons_self _ _)
    unfold first_kind endpoint_class is_endpoint
    simp only [hp, hconn, hdc]
    obtain ⟨seg, ty, cap, id, conn⟩ := dc
    cases ty <;> simp [type_val]
  unfold cmp_key at hlt
  simp only [ha, hb, if_pos ta, if_pos tb] at hlt
  rw [Prod.Lex.lt_iff] at hlt
  simp only [lt_self_iff_false, true_and, false_or] at hlt
  rw [Prod.Lex.lt_iff] at hlt
  simp only [lt_self_iff_false, true_and, false_or] at hlt
  rw [Prod.Lex.lt_iff] at hlt
  simp only at hlt
  have hga : get_capacity da = 1 := by unfold get_capacity; rw [ta]
  have hgb : get_capacity db = 1 := by unfold get_capacity; rw [tb]
  rw [hga] at hca
  rw [hgb] at hcb
  cases hconna : da.connected with
  | nil =>
    unfold endpoint_class
    simp only [ha, hconna]
    exact Nat.zero_le _
  | cons ca resta =>
    rw [hconna] at hlt hca
    simp only [List.length_cons] at hlt hca
    cases hconnb : db.connected with
    | nil =>
      rw [hconnb] at hlt
      simp only [List.length_nil] at hlt
      omega
    | cons cb restb =>
      rw [hconnb] at hlt hcb
      simp only [List.length_cons] at hlt hcb
      have hla : resta.length = 0 := by omega
      have hlb : restb.length = 0 := by omega
      rw [hla, hlb] at hlt
      simp only [lt_self_iff_false, true_and, false_or] at hlt
      rw [Prod.Lex.lt_iff] at hlt
      simp only at hlt
      obtain ⟨a1, a2⟩ := hfk a da ha ca resta hconna
      obtain ⟨b1, b2⟩ := hfk b db hb cb restb hconnb
      by_cases hz : first_kind s db = 0
      · have hza : first_kind s da = 0 := by omega
        rw [a1 hza, b1 hz]
      · rw [b2 hz]
        exact endpoint_class_le s a

theorem node_to_string_endpoint (s : State) (hcl : closed s) (p : Ptr) (d : node)
    (hp : deref s p = some d) (hty : d._type = node_type.ENDPOINT) (system : List Ptr) :
    ∃ str, node_to_string s p system = some str ∧
      str ++ " " = endpoint_record (endpoint_class s p) := by
  unfold node_to_string endpoint_class
  rw [hp]
  obtain ⟨seg, ty, cap, id, conn⟩ := d
  simp only at hty
  subst hty
  cases conn with
  | nil => exact ⟨_, rfl, rfl⟩
  | cons c rest =>
    obtain ⟨dc, hdc⟩ := hcl.2 p _ hp c (List.mem_cons_self _ _)
    simp only [hdc, is_endpoint]
    by_cases hep : dc._type = node_type.ENDPOINT
    · rw [if_pos hep, decide_eq_true hep]
      exact ⟨_, rfl, rfl⟩
    · rw [if_neg hep, decide_eq_false hep]
      exact ⟨_, rfl, rfl⟩

theorem nodes_to_string_endpoints (s : State) (hcl : closed s) (system : List Ptr) :
    ∀ (es : List Ptr) (oss : String),
      (∀ p ∈ es, ∃ d, deref s p = some d ∧ d._type = node_type.ENDPOINT) →
      nodes_to_string s system es oss =
        some (oss ++ concat_texts (es.map fun p => endpoint_record (endpoint_class s p))) := by
  intro es
  induction es with
  | nil =>
    intro oss _
    simp [nodes_to_string, concat_texts, String.append_empty]
  | cons p rest ih =>
    intro oss hes
    obtain ⟨d, hp, hty⟩ := hes p (List.mem_cons_self _ _)
    obtain ⟨str, hstr, htext⟩ := node_to_string_endpoint s hcl p d hp hty system
    unfold nodes_to_string
    simp only [hstr]
    rw [ih _ fun q hq => hes q (List.mem_cons_of_mem _ hq)]
    simp only [List.map_cons, concat_texts, ← htext, String.append_assoc]

theorem node_to_string_total (s : State) (hr : Reachable s) (n : Ptr) (dn : node)
    (hn : deref s n = some dn) (system : List Ptr) :
    ∃ str, node_to_string s n system = some str := by
  have hinv := inv_of_reachable s hr
  by_cases hty : dn._type = node_type.ENDPOINT
  · obtain ⟨str, hstr, _⟩ := node_to_string_endpoint s hinv.closed n dn hn hty system
    exact ⟨str, hstr⟩
  · have hlive := hinv.closed.2 n dn hn
    obtain ⟨node_set, hset, _, _, hsub, _⟩ := node_set_spec s hinv.closed dn.connected hlive
    exact ⟨_, node_to_string_eq s n dn hn hty system node_set hset
      (fun c hc => hlive c (hsub c hc))⟩

theorem nodes_to_string_total (s : State) (hr : Reachable s) (system : List Ptr) :
    ∀ ns : List Ptr, (∀ n ∈ ns, ∃ dn, deref s n = some dn) →
      ∃ text, ∀ oss, nodes_to_string s system ns oss = some (oss ++ text) := by
  intro ns
  induction ns with
  | nil =>
    intro _
    exact ⟨"", fun oss => by simp [nodes_to_string, String.append_empty]⟩
  | cons n rest ih =>
    intro hns
    obtain ⟨dn, hn⟩ := hns n (List.mem_cons_self _ _)
    obtain ⟨str, hstr⟩ := node_to_string_total s hr n dn hn system
    obtain ⟨text, htext⟩ := ih fun q hq => hns q (List.mem_cons_of_mem _ hq)
    refine ⟨str ++ " " ++ text, fun oss => ?_⟩
    unfold nodes_to_string
    simp only [hstr, htext, String.append_assoc]

/-- The method `get_node_vec` returns in every reachable state: a list in
strictly increasing comparator order of nodes of the requested kind of the
segment. -/
theorem get_node_vec_total (s : State) (hr : Reachable s) (seg : Ptr) (type : node_type) :
    ∃ v, get_node_vec s seg type = some v ∧
      v.Pairwise (fun a b => cmp_key s a < cmp_key s b) ∧
      ∀ p ∈ v, ∃ d, deref s p = some d ∧ d._segment = seg ∧ d._type = type := by
  have hinv := inv_of_reachable s hr
  have hs := keys_sorted_of_reachable s hr
  have hlive : ∀ y ∈ nodes_of_kind s seg type, ∃ dy, deref s y = some dy := by
    intro y hy
    obtain ⟨d, hd, _⟩ := (mem_nodes_of_kind s hs seg type y).mp hy
    exact ⟨d, hd⟩
  obtain ⟨r, hrun, hsorted, hsub, _, _⟩ := cmp_insert_all_key s hinv.closed
    (nodes_of_kind s seg type) [] hlive (fun y hy => absurd hy (List.not_mem_nil _))
    List.Pairwise.nil
  refine ⟨r, hrun, hsorted, fun p hp => ?_⟩
  rcases hsub p hp with h | h
  · exact (mem_nodes_of_kind s hs seg type p).mp h
  · exact absurd h (List.not_mem_nil _)

theorem free_and_paired_reachable : Reachable free_and_paired := by
  have h1 := Reachable.step _ _ Reachable.init (Step.add_endpoint [] 100 1 (by decide) rfl)
  have h2 := Reachable.step _ _ h1 (Step.add_endpoint _ 100 2 (by decide) rfl)
  have h3 := Reachable.step _ _ h2 (Step.add_endpoint _ 100 3 (by decide) rfl)
  have h4 := Reachable.step _ _ h3 (Step.add_endpoint _ 100 4 (by decide) rfl)
  exact Reachable.step _ _ h4 (Step.connect _ 3 4 true free_and_paired rfl)

theorem four_endpoints_reachable : Reachable four_endpoints := by
  have h1 := Reachable.step _ _ Reachable.init (Step.add_endpoint [] 1000 1 (by decide) rfl)
  have h2 := Reachable.step _ _ h1 (Step.add_endpoint _ 1000 2 (by decide) rfl)
  have h3 := Reachable.step _ _ h2 (Step.add_endpoint _ 1000 3 (by decide) rfl)
  exact Reachable.step _ _ h3 (Step.add_endpoint _ 1000 4 (by decide) rfl)

/-- C40. In a reachable state, `net_to_string` of a segment returns, and the
endpoint group of its text is fixed by three counts: it holds one record with
`e_count= 0` for every endpoint of the segment without a neighbor, then one
record with `e_count= 1` for every endpoint whose neighbor is an endpoint,
then one record with `e_count= 0` for every endpoint whose neighbor is a
bridge or a router.  The counts are taken over the nodes of the segment and
do not depend on the comparator. -/
theorem endpoint_group_counts (s : State) (hr : Reachable s) (seg : Ptr) (system : List Ptr) :
    ∃ bridge_group router_group, net_to_string s seg system =
      some ("network[ endpoints=( " ++
        concat_texts
          (List.replicate (class_count s seg 0) "node\x7b type= endpoint e_count= 0 \x7d " ++
            List.replicate (class_count s seg 1) "node\x7b type= endpoint e_count= 1 \x7d " ++
            List.replicate (class_count s seg 2) "node\x7b type= endpoint e_count= 0 \x7d ")
        ++ ")\n" ++ "bridges=( " ++ bridge_group ++ ")\n" ++ "routers=( " ++ router_group
        ++ ") ]\n") := by
  have hinv := inv_of_reachable s hr
  have hs := keys_sorted_of_reachable s hr
  obtain ⟨es, hes, hsorted, hmem⟩ := get_node_vec_total s hr seg node_type.ENDPOINT
  obtain ⟨bs, hbs, _, hbmem⟩ := get_node_vec_total s hr seg node_type.BRIDGE
  obtain ⟨rs, hrs, _, hrmem⟩ := get_node_vec_total s hr seg node_type.ROUTER
  obtain ⟨es2, hes2, hperm⟩ := get_node_vec_perm s hinv.closed hs seg node_type.ENDPOINT
    (fun h => absurd rfl h)
  rw [hes] at hes2
  have e2 : es = es2 := by simpa using hes2
  rw [← e2] at hperm
  have hgroup := nodes_to_string_endpoints s hinv.closed system es "network[ endpoints=( "
    (fun p hp => by
      obtain ⟨d, hd, _, hty⟩ := hmem p hp
      exact ⟨d, hd, hty⟩)
  obtain ⟨bt, hbt⟩ := nodes_to_string_total s hr system bs (fun n hn => by
    obtain ⟨d, hd, _⟩ := hbmem n hn
    exact ⟨d, hd⟩)
  obtain ⟨rt, hrt⟩ := nodes_to_string_total s hr system rs (fun n hn => by
    obtain ⟨d, hd, _⟩ := hrmem n hn
    exact ⟨d, hd⟩)
  have hclass : es.Pairwise fun a b => endpoint_class s a ≤ endpoint_class s b := by
    refine hsorted.imp_of_mem fun {a b} ha hb hlt => ?_
    obtain ⟨da, hda, _, hta⟩ := hmem a ha
    obtain ⟨db, hdb, _, htb⟩ := hmem b hb
    exact endpoint_class_mono s hinv a b da db hda hdb hta htb hlt
  have hmap := sorted_three_classes (endpoint_class s) es hclass
    (fun a _ => endpoint_class_le s a)
  have hcount : ∀ k, (es.countP fun a => decide (endpoint_class s a = k)) = class_count s seg k :=
    fun k => hperm.countP_eq _
  rw [hcount 0, hcount 1, hcount 2] at hmap
  have hmap2 : (es.map fun p => endpoint_record (endpoint_class s p)) =
      List.replicate (class_count s seg 0) "node\x7b type= endpoint e_count= 0 \x7d " ++
        List.replicate (class_count s seg 1) "node\x7b type= endpoint e_count= 1 \x7d " ++
        List.replicate (class_count s seg 2) "node\x7b type= endpoint e_count= 0 \x7d " := by
    have : (es.map fun p => endpoint_record (endpoint_class s p)) =
        (es.map (endpoint_class s)).map endpoint_record := by
      rw [List.map_map]
      rfl
    rw [this, hmap, List.map_append, List.map_append, List.map_replicate, List.map_replicate,
      List.map_replicate]
    rfl
  rw [hmap2] at hgroup
  refine ⟨bt, rt, ?_⟩
  unfold net_to_string endpoints bridges routers
  simp only [hes, hbs, hrs, hgroup, hbt, hrt]

/-- C40 (witness). The segment of `free_and_paired` has two endpoints without
a neighbor and two whose neighbor is an endpoint: its endpoint group is two
records with `e_count= 0` followed by two with `e_count= 1`. -/
theorem endpoint_group_counts_witness :
    class_count free_and_paired 100 0 = 2 ∧ class_count free_and_paired 100 1 = 2 ∧
      class_count free_and_paired 100 2 = 0 ∧
      ∃ bridge_group router_group, net_to_string free_and_paired 100 [100] =
        some ("network[ endpoints=( " ++
          concat_texts
            (List.replicate (class_count free_and_paired 100 0)
                "node\x7b type= endpoint e_count= 0 \x7d " ++
              List.replicate (class_count free_and_paired 100 1)
                "node\x7b type= endpoint e_count= 1 \x7d " ++
              List.replicate (class_count free_and_paired 100 2)
                "node\x7b type= endpoint e_count= 0 \x7d ")
          ++ ")\n" ++ "bridges=( " ++ bridge_group ++ ")\n" ++ "routers=( " ++ router_group
          ++ ") ]\n") :=
  ⟨rfl, rfl, rfl, endpoint_group_counts free_and_paired free_and_paired_reachable 100 [100]⟩

/-! ## The pairing of endpoints in `deserialize` -/

/-- C35. In a reachable state, `connect_endpoint` for an endpoint `n` without
a neighbor connects `n` to the first node of the list `endpts`, other than
`n`, that has no neighbor, when that node is an endpoint: whether the record
of that endpoint carried `e_count= 1` or `e_count= 0` is not part of the
state, and is not looked at.  So `deserialize` pairs an endpoint read with
`e_count= 1` with an endpoint read with `e_count= 0` whenever the latter
comes first in the canonical order. -/
theorem connect_endpoint_first_free (s : State) (hr : Reachable s) (n e : Ptr) (dn de : node)
    (hn : deref s n = some dn) (htn : dn._type = node_type.ENDPOINT) (hfn : dn.connected = [])
    (he : deref s e = some de) (hte : de._type = node_type.ENDPOINT) (hfe : de.connected = [])
    (hne : n ≠ e) (pre post : List Ptr)
    (hpre : ∀ x ∈ pre, x = n ∨ ∃ dx, deref s x = some dx ∧ dx.connected ≠ []) :
    ∃ t, connect_endpoint s n (pre ++ e :: post) = some (true, t) ∧ Reachable t ∧
      neighbors t n = [e] ∧ neighbors t e = [n] := by
  have hinv := inv_of_reachable s hr
  have hno : ∀ (p : Ptr) (d : node), deref s p = some d → d.connected = [] → ∀ y, ¬ edge s p y := by
    rintro p d hp hd y ⟨d2, hd2, hm⟩
    rw [hp] at hd2
    have e2 : d = d2 := by simpa using hd2
    rw [← e2, hd] at hm
    cases hm
  have hca := (endpoint_can_add s hinv.closed n e dn de hn he htn).1 (hno n dn hn hfn)
  have hcb := (endpoint_can_add s hinv.closed e n de dn he hn hte).1 (hno e de he hfe)
  obtain ⟨t, hcon, hrt, _, hderef⟩ := connect_true_spec s hr n e dn de hn he hca hcb
  have hnn : neighbors t n = [e] := by
    unfold neighbors
    rw [hderef n, hn]
    simp only [Option.map_some', upd, conn_after_connect, hfn, if_neg hne, if_true, id]
    rfl
  have hen : neighbors t e = [n] := by
    unfold neighbors
    rw [hderef e, he]
    have hen2 : ¬ e = n := fun h => hne h.symm
    simp only [Option.map_some', upd, conn_after_connect, hfe, if_neg hen2, if_true, id]
    rfl
  refine ⟨t, ?_, hrt, hnn, hen⟩
  induction pre with
  | nil =>
    rw [List.nil_append]
    unfold connect_endpoint
    rw [if_neg hne]
    simp only [he, hfe, List.isEmpty_nil, if_true, hcon]
  | cons x rest ih =>
    have ih2 := ih fun y hy => hpre y (List.mem_cons_of_mem _ hy)
    rw [List.cons_append]
    unfold connect_endpoint
    rcases hpre x (List.mem_cons_self _ _) with hx | ⟨dx, hdx, hconn⟩
    · rw [if_pos hx.symm]
      exact ih2
    · by_cases hnx : n = x
      · rw [if_pos hnx]
        exact ih2
      · rw [if_neg hnx]
        have hemp : dx.connected.isEmpty = false := by
          cases hc : dx.connected with
          | nil => exact absurd hc hconn
          | cons _ _ => rfl
        simp only [hdx, hemp, Bool.false_eq_true, if_false]
        exact ih2

set_option maxRecDepth 100000 in
/-- C35 (failing input). The state `free_and_paired` is reachable; its
serialization has two endpoint records with `e_count= 0` followed by two with
`e_count= 1`.  In `deserialize`, after the first pass the four endpoints have
no neighbor and `endpoints()` lists them in address order, so the endpoint at
`3` (read with `e_count= 1`) is connected to the endpoint at `1` (read with
`e_count= 0`).  `deserialize` returns a segment in which the two endpoints
read with `e_count= 0` have endpoint neighbors, and `serialize` of the result
is a different text.  For one record with `e_count= 0` followed by two with
`e_count= 1` the assertion on the result of `connect_endpoint` fails. -/
theorem connect_endpoint_first_free_witness :
    (∃ t, connect_endpoint four_endpoints 3 ([] ++ 1 :: [2, 3, 4]) = some (true, t) ∧
      Reachable t ∧ neighbors t 3 = [1] ∧ neighbors t 1 = [3]) ∧
    Reachable free_and_paired ∧
    serialize free_and_paired [100] = some free_and_paired_text ∧
    endpoints four_endpoints 1000 = some [1, 2, 3, 4] ∧
    deserialize (fun i => 1000 + i) (fun k => k + 1) free_and_paired_text =
      some (free_and_paired_loaded, [1000]) ∧
    neighbors free_and_paired_loaded 1 = [3] ∧ neighbors free_and_paired_loaded 2 = [4] ∧
    serialize free_and_paired_loaded [1000] = some free_and_paired_text2 ∧
    free_and_paired_text ≠ free_and_paired_text2 ∧
    deserialize (fun i => 1000 + i) (fun k => k + 1) one_free_and_paired_text = none :=
  ⟨connect_endpoint_first_free four_endpoints four_endpoints_reachable 3 1 _ _ rfl rfl rfl rfl
      rfl rfl (by decide) [] [2, 3, 4] (fun x hx => absurd hx (List.not_mem_nil _)),
    free_and_paired_reachable, rfl, rfl, rfl, rfl, rfl, rfl, by decide, rfl⟩

/-! ## Self-connection -/

/-- C2. A call `a.connect( a )` is not rejected: neither `connect` nor any
`can_add` compares the argument with `this`.  In every reachable state the
call returns, for a live node `a`, exactly what the policy of `a` says about
any other node; in particular a node without neighbors and with a free port
accepts itself.  When the call returns false the state is unchanged; only a
node that already is its own neighbor is always refused.  When it returns
true the new state is reachable, `a` is in its own neighbor set and nothing
else has changed; in that state `a.disconnect( a )`, `fix_loops` on the
segment of `a` and the destructor of `a` have undefined behaviour. -/
theorem self_connect_policy (s : State) (hr : Reachable s) (a : Ptr) (na : node)
    (ha : deref s a = some na) :
    ∃ c t, connect s a a = some (c, t) ∧
      (c = true ↔ may_add s na a na) ∧
      (na.connected = [] → 0 < get_capacity na → c = true) ∧
      (a ∈ na.connected → c = false) ∧
      (c = false → t = s) ∧
      (c = true →
        Reachable t ∧
        deref t a = some { na with connected := set_insert a na.connected } ∧
        a ∈ neighbors t a ∧
        (∀ x, x ∈ neighbors t a ↔ x = a ∨ x ∈ neighbors s a) ∧
        (∀ q, q ≠ a → deref t q = deref s q) ∧
        disconnect t a a = none ∧ fix_loops t na._segment = none ∧
        destroy_node t a = none) := by
  have hcl := (inv_of_reachable s hr).closed
  obtain ⟨c, hc⟩ := can_add_total s a a na na hcl ha ha
  have hiff : c = true ↔ may_add s na a na := by
    rw [← can_add_true_iff s a a na na hcl ha ha, hc]
    simp
  have hconn := connect_eq s a a na na ha ha c c hc (fun _ => hc)
  rw [Bool.and_self] at hconn
  have hrt : Reachable _ := Reachable.step _ _ hr (Step.connect s a a c _ hconn)
  refine ⟨c, _, hconn, hiff, ?_, ?_, ?_, ?_⟩
  · intro hempty hcap
    refine hiff.mpr ?_
    unfold may_add
    unfold get_capacity at hcap
    obtain ⟨seg, ty, cap, id, conn⟩ := na
    simp only at hempty hcap ⊢
    subst hempty
    cases ty with
    | ENDPOINT => rfl
    | BRIDGE => exact ⟨List.not_mem_nil _, hcap⟩
    | ROUTER => exact ⟨fun i hi => absurd hi (List.not_mem_nil _), hcap⟩
  · intro hmem
    cases c with
    | false => rfl
    | true =>
      exfalso
      have hm := hiff.mp rfl
      unfold may_add at hm
      obtain ⟨seg, ty, cap, id, conn⟩ := na
      cases ty with
      | ENDPOINT =>
        simp only at hm hmem
        rw [hm] at hmem
        cases hmem
      | BRIDGE => exact hm.1 hmem
      | ROUTER => exact hm.1 a hmem _ ha rfl
  · intro hfalse
    rw [if_neg]
    rw [hfalse]
    exact Bool.false_ne_true
  · intro htrue
    rw [if_pos htrue] at hrt ⊢
    have hta : deref (modify (fun nd => { nd with connected := set_insert a nd.connected }) a
        (modify (fun nd => { nd with connected := set_insert a nd.connected }) a s)) a
        = some { na with connected := set_insert a na.connected } := by
      rw [deref_modify_self, deref_modify_self, ha]
      simp [set_insert_idem]
    have hmem : a ∈ set_insert a na.connected := (mem_set_insert a a na.connected).mpr (Or.inl rfl)
    have ha0 : a ≠ 0 := fun e => by rw [e, hcl.1] at ha; cases ha
    have hinvt := inv_of_reachable _ hrt
    refine ⟨hrt, hta, ?_, ?_, ?_, ?_, ?_, ?_⟩
    · simp only [neighbors, hta]
      exact hmem
    · intro x
      simp only [neighbors, hta, ha]
      exact mem_set_insert x a na.connected
    · intro q hq
      rw [deref_modify_ne _ _ hq, deref_modify_ne _ _ hq]
    · exact disconnect_self_none _ a _ hta hmem
        ((hinvt.sorted a _ hta).imp fun hlt => Nat.ne_of_lt hlt) ha0
    · refine (fix_loops_undefined _ hrt na._segment fun hno => ?_).2
      exact hno (a, _) (mem_of_deref _ a _ hta) rfl hmem
    · unfold destroy_node
      rw [hta]
      simp only
      rw [destroy_loop_self a _ _ hmem]

/-- C2 (failing input). A fresh endpoint, a fresh bridge of capacity 2 and a
fresh router of capacity 2 each accept a connection to themselves:
`a.connect( a )` returns true and `a` becomes its own neighbor; for the
endpoint the state reached is `self_loop`, in which `disconnect` of the
endpoint from itself, `fix_loops` and the destructor are undefined. -/
theorem self_connect_policy_witness :
    connect (add_endpoint [] 100 1) 1 1 = some (true, self_loop) ∧
    connect (add_bridge [] 100 2 "A" 1) 1 1 =
      some (true, [(1, { _segment := 100, _type := node_type.BRIDGE, capacity := 2,
                         _id := "A", connected := [1] })]) ∧
    connect (add_router [] 100 2 "A" 1) 1 1 =
      some (true, [(1, { _segment := 100, _type := node_type.ROUTER, capacity := 2,
                         _id := "A", connected := [1] })]) ∧
    ∃ c t, connect (add_endpoint [] 100 1) 1 1 = some (c, t) ∧ c = true ∧ Reachable t ∧
      (1 : Ptr) ∈ neighbors t 1 ∧ disconnect t 1 1 = none ∧ fix_loops t 100 = none ∧
      destroy_node t 1 = none := by
  obtain ⟨c, t, h1, _, h3, _, _, h6⟩ :=
    self_connect_policy (add_endpoint [] 100 1)
      (Reachable.step _ _ Reachable.init (Step.add_endpoint [] 100 1 (by decide) rfl)) 1 _ rfl
  have hc : c = true := h3 rfl (by decide)
  obtain ⟨g1, _, g3, _, _, g6, g7, g8⟩ := h6 hc
  exact ⟨rfl, rfl, rfl, c, t, h1, hc, g1, g3, g6, g7, g8⟩

/-! ## The node vectors and the factory calls -/

theorem kinds_modify_upd (g : List Ptr → List Ptr) (p : Ptr) (s : State) :
    kinds (modify (upd g) p s) = kinds s := by
  unfold kinds
  induction s with
  | nil => rfl
  | cons e rest ih =>
    obtain ⟨k, x⟩ := e
    by_cases hk : k = p
    · simp only [modify, hk, if_true, List.map_cons, ih]
      rfl
    · simp only [modify, hk, if_false, List.map_cons, ih]

theorem nodes_of_kind_kinds (s : State) (seg : Ptr) (type : node_type) :
    nodes_of_kind s seg type =
      ((kinds s).filter fun k => decide (k.2.1 = seg) && decide (k.2.2 = type)).map
        fun k => k.1 := by
  unfold nodes_of_kind kinds
  induction s with
  | nil => rfl
  | cons e rest ih =>
    simp only [List.filter_cons, List.map_cons]
    by_cases h : (decide (e.2._segment = seg) && decide (e.2._type = type)) = true
    · simp only [h, if_true, List.map_cons, ih]
    · simp only [h, Bool.false_eq_true, if_false, ih]

theorem alloc_perm (p : Ptr) (nd : node) (s : State) : (alloc p nd s).Perm ((p, nd) :: s) := by
  induction s with
  | nil => exact List.Perm.refl _
  | cons e rest ih =>
    obtain ⟨q, x⟩ := e
    unfold alloc
    by_cases h : p < q
    · rw [if_pos h]
    · rw [if_neg h]
      exact (List.Perm.cons _ ih).trans (List.Perm.swap _ _ _)

theorem nodes_of_kind_alloc (p : Ptr) (nd : node) (s : State) (seg : Ptr) (type : node_type) :
    (nodes_of_kind (alloc p nd s) seg type).length =
      (nodes_of_kind s seg type).length +
        if (decide (nd._segment = seg) && decide (nd._type = type)) = true then 1 else 0 := by
  unfold nodes_of_kind
  rw [List.length_map, List.length_map,
    ((alloc_perm p nd s).filter _).length_eq, List.filter_cons]
  by_cases h : (decide (nd._segment = seg) && decide (nd._type = type)) = true
  · simp only [h, if_true, List.length_cons]
  · simp only [h, if_false]
    rfl

theorem kinds_connect (s t : State) (a b : Ptr) (r : Bool) (h : connect s a b = some (r, t)) :
    kinds t = kinds s := by
  cases r with
  | false => rw [connect_false_inv s t a b h]
  | true =>
    obtain ⟨_, _, _, _, _, _, rfl⟩ := connect_true_inv s t a b h
    rw [kinds_modify_upd, kinds_modify_upd]

theorem kinds_disconnect (s t : State) (hinv : Inv s) (a b : Ptr) (r : Bool)
    (h : disconnect s a b = some (r, t)) : kinds t = kinds s := by
  cases r with
  | false => rw [disconnect_false_inv s t a b h]
  | true =>
    obtain ⟨_, _, _, _, _, _, _, rfl⟩ := disconnect_true_inv s t a b hinv.sorted h
    rw [kinds_modify_upd, kinds_modify_upd]

theorem kinds_fix_loops (s t : State) (hinv : Inv s) (seg : Ptr) (fuel : Nat)
    (h : fix_loops_fuel fuel s seg = some t) : kinds t = kinds s :=
  (fix_loops_induct (fun u => Inv u ∧ kinds u = kinds s)
    (fun u a b r v hu hd =>
      ⟨inv_disconnect u v a b r hu.1 hd, (kinds_disconnect u v hu.1 a b r hd).trans hu.2⟩)
    fuel s t seg ⟨hinv, rfl⟩ h).2

/-- One call changes the number of nodes of a kind of a segment by one when
it is the factory call for that kind on that segment, and not otherwise. -/
theorem nodes_of_kind_call (s : State) (hr : Reachable s) (c : call) (r : Bool) (t : State)
    (h : call_s3 s c = some (r, t)) (seg : Ptr) (type : node_type) :
    (nodes_of_kind t seg type).length =
      (nodes_of_kind s seg type).length + if creates seg type c = true then 1 else 0 := by
  have hinv := inv_of_reachable s hr
  have hsame : kinds t = kinds s → creates seg type c = false →
      (nodes_of_kind t seg type).length =
        (nodes_of_kind s seg type).length + if creates seg type c = true then 1 else 0 := by
    intro hk hc
    rw [nodes_of_kind_kinds t, nodes_of_kind_kinds s, hk, hc]
    rfl
  cases c with
  | add_endpoint sg p =>
    simp only [call_s3] at h
    by_cases hp : fresh s p = true
    · rw [if_pos hp] at h
      simp only [Option.some.injEq, Prod.mk.injEq] at h
      rw [← h.2]
      unfold add_endpoint
      rw [nodes_of_kind_alloc]
      rfl
    · rw [if_neg hp] at h
      cases h
  | add_bridge sg cap id p =>
    simp only [call_s3] at h
    by_cases hp : fresh s p = true
    · rw [if_pos hp] at h
      simp only [Option.some.injEq, Prod.mk.injEq] at h
      rw [← h.2]
      unfold add_bridge
      rw [nodes_of_kind_alloc]
      rfl
    · rw [if_neg hp] at h
      cases h
  | add_router sg cap id p =>
    simp only [call_s3] at h
    by_cases hp : fresh s p = true
    · rw [if_pos hp] at h
      simp only [Option.some.injEq, Prod.mk.injEq] at h
      rw [← h.2]
      unfold add_router
      rw [nodes_of_kind_alloc]
      rfl
    · rw [if_neg hp] at h
      cases h
  | connect a b => exact hsame (kinds_connect s t a b r h) rfl
  | disconnect a b => exact hsame (kinds_disconnect s t hinv a b r h) rfl
  | reachable a b =>
    simp only [call_s3] at h
    obtain ⟨_, _, e⟩ := Option.map_eq_some'.mp h
    simp only [Prod.mk.injEq] at e
    exact hsame (by rw [← e.2]) rfl
  | has_loops sg =>
    simp only [call_s3] at h
    obtain ⟨_, _, e⟩ := Option.map_eq_some'.mp h
    simp only [Prod.mk.injEq] at e
    exact hsame (by rw [← e.2]) rfl
  | fix_loops sg =>
    simp only [call_s3] at h
    obtain ⟨u, hu, e⟩ := Option.map_eq_some'.mp h
    simp only [Prod.mk.injEq] at e
    refine hsame ?_ rfl
    rw [← e.2]
    exact kinds_fix_loops s u hinv sg (fuel_bound s) hu

/-- A sequence of calls from a reachable state ends in a reachable state, and
the number of nodes of a kind of a segment grows by the number of factory
calls for that kind on that segment. -/
theorem run_s3_count : ∀ (cs : List call) (s : State) (rs : List Bool) (t : State),
    Reachable s → run call_s3 s cs = some (rs, t) →
    Reachable t ∧ ∀ seg type,
      (nodes_of_kind t seg type).length = (nodes_of_kind s seg type).length + added seg type cs := by
  intro cs
  induction cs with
  | nil =>
    intro s rs t hr h
    simp only [run, Option.some.injEq, Prod.mk.injEq] at h
    rw [← h.2]
    exact ⟨hr, fun seg type => rfl⟩
  | cons c rest ih =>
    intro s rs t hr h
    unfold run at h
    cases hc : call_s3 s c with
    | none => rw [hc] at h; cases h
    | some x =>
      obtain ⟨r, u⟩ := x
      rw [hc] at h
      simp only at h
      cases hrest : run call_s3 u rest with
      | none => rw [hrest] at h; cases h
      | some y =>
        obtain ⟨rs2, v⟩ := y
        rw [hrest] at h
        simp only [Option.some.injEq, Prod.mk.injEq] at h
        have hru := call_s3_reachable s hr c r u hc
        obtain ⟨hrv, hcount⟩ := ih u rs2 v hru hrest
        rw [← h.2]
        refine ⟨hrv, fun seg type => ?_⟩
        rw [hcount seg type, nodes_of_kind_call s hr c r u hc seg type]
        unfold added
        rw [List.countP_cons]
        omega

/-- C20. In every reachable state, for a segment whose bridge identifiers
are pairwise distinct and whose router identifiers are pairwise distinct,
`endpoints()`, `bridges()` and `routers()` each return a vector without
repetition that holds exactly the nodes of that kind owned by the segment.
When the state is the result of a sequence of calls from the empty state,
the size of each vector is the number of `add_endpoint`, `add_bridge` and
`add_router` calls of the sequence on the segment (every such call returns a
node).  A factory call at a free address returns; afterwards a node of the
requested kind, owned by the requested segment and without neighbors lives
at that address, and every other node is as before. -/
theorem node_vectors_exact (s : State) (h : Reachable s) (seg : Ptr)
    (hb : ids_distinct s seg node_type.BRIDGE) (hr : ids_distinct s seg node_type.ROUTER) :
    (∃ v, endpoints s seg = some v ∧ v.Nodup ∧
      (∀ p, p ∈ v ↔ ∃ nd, deref s p = some nd ∧ nd._segment = seg ∧
        nd._type = node_type.ENDPOINT) ∧
      v.length = (nodes_of_kind s seg node_type.ENDPOINT).length ∧
      ∀ cs rs, run call_s3 [] cs = some (rs, s) → v.length = added seg node_type.ENDPOINT cs) ∧
    (∃ v, bridges s seg = some v ∧ v.Nodup ∧
      (∀ p, p ∈ v ↔ ∃ nd, deref s p = some nd ∧ nd._segment = seg ∧
        nd._type = node_type.BRIDGE) ∧
      v.length = (nodes_of_kind s seg node_type.BRIDGE).length ∧
      ∀ cs rs, run call_s3 [] cs = some (rs, s) → v.length = added seg node_type.BRIDGE cs) ∧
    (∃ v, routers s seg = some v ∧ v.Nodup ∧
      (∀ p, p ∈ v ↔ ∃ nd, deref s p = some nd ∧ nd._segment = seg ∧
        nd._type = node_type.ROUTER) ∧
      v.length = (nodes_of_kind s seg node_type.ROUTER).length ∧
      ∀ cs rs, run call_s3 [] cs = some (rs, s) → v.length = added seg node_type.ROUTER cs) ∧
    ∀ (seg2 : Ptr) (cap : Int) (id : String) (p : Ptr), p ≠ 0 → deref s p = none →
      (call_s3 s (call.add_endpoint seg2 p) = some (true, add_endpoint s seg2 p) ∧
        deref (add_endpoint s seg2 p) p =
          some { _segment := seg2, _type := node_type.ENDPOINT, capacity := 1, _id := "",
                 connected := [] } ∧
        neighbors (add_endpoint s seg2 p) p = [] ∧
        ∀ q, q ≠ p → deref (add_endpoint s seg2 p) q = deref s q) ∧
      (call_s3 s (call.add_bridge seg2 cap id p) = some (true, add_bridge s seg2 cap id p) ∧
        deref (add_bridge s seg2 cap id p) p =
          some { _segment := seg2, _type := node_type.BRIDGE, capacity := to_size_t cap,
                 _id := id, connected := [] } ∧
        neighbors (add_bridge s seg2 cap id p) p = [] ∧
        ∀ q, q ≠ p → deref (add_bridge s seg2 cap id p) q = deref s q) ∧
      (call_s3 s (call.add_router seg2 cap id p) = some (true, add_router s seg2 cap id p) ∧
        deref (add_router s seg2 cap id p) p =
          some { _segment := seg2, _type := node_type.ROUTER, capacity := to_size_t cap,
                 _id := id, connected := [] } ∧
        neighbors (add_router s seg2 cap id p) p = [] ∧
        ∀ q, q ≠ p → deref (add_router s seg2 cap id p) q = deref s q) := by
  have hinv := inv_of_reachable s h
  have hkeys := keys_sorted_of_reachable s h
  have key : ∀ type, (type ≠ node_type.ENDPOINT → ids_distinct s seg type) →
      ∃ v, get_node_vec s seg type = some v ∧ v.Nodup ∧
        (∀ p, p ∈ v ↔ ∃ nd, deref s p = some nd ∧ nd._segment = seg ∧ nd._type = type) ∧
        v.length = (nodes_of_kind s seg type).length ∧
        ∀ cs rs, run call_s3 [] cs = some (rs, s) → v.length = added seg type cs := by
    intro type hid
    obtain ⟨v, hv, hp⟩ := get_node_vec_perm s hinv.closed hkeys seg type hid
    refine ⟨v, hv, hp.nodup_iff.mpr (nodup_nodes_of_kind s hkeys seg type), ?_, hp.length_eq,
      fun cs rs hrun => ?_⟩
    · intro p
      rw [hp.mem_iff]
      exact mem_nodes_of_kind s hkeys seg type p
    · rw [hp.length_eq, (run_s3_count cs [] rs s Reachable.init hrun).2 seg type]
      simp [nodes_of_kind]
  refine ⟨key _ (fun e => absurd rfl e), key _ (fun _ => hb), key _ (fun _ => hr), ?_⟩
  intro seg2 cap id p hp0 hfresh
  have hf : fresh s p = true := by
    unfold fresh
    simp only [Bool.and_eq_true, decide_eq_true_eq, Option.isNone_iff_eq_none]
    exact ⟨hp0, hfresh⟩
  have hnew : ∀ nd : node, deref (alloc p nd s) p = some nd ∧
      ∀ q, q ≠ p → deref (alloc p nd s) q = deref s q := by
    intro nd
    refine ⟨?_, fun q hq => ?_⟩
    · rw [deref_alloc p p nd s hfresh, if_pos rfl]
    · rw [deref_alloc p q nd s hfresh, if_neg hq]
  refine ⟨⟨?_, (hnew _).1, neighbors_alloc s p _ hfresh, (hnew _).2⟩,
    ⟨?_, (hnew _).1, neighbors_alloc s p _ hfresh, (hnew _).2⟩,
    ⟨?_, (hnew _).1, neighbors_alloc s p _ hfresh, (hnew _).2⟩⟩
  · simp only [call_s3, hf, if_true]
  · simp only [call_s3, hf, if_true]
  · simp only [call_s3, hf, if_true]

set_option maxRecDepth 100000 in
/-- C20 (witness). The calls of `main`: two `add_endpoint`, one `add_bridge`
and one `add_router` call on the first segment, and the vectors of that
segment have the sizes 2, 1 and 1; a further `add_endpoint` returns a node
without neighbors. -/
theorem node_vectors_exact_witness :
    run call_s3 [] main_calls = some (List.replicate 10 true, main_state) ∧
    (∃ v, endpoints main_state 100 = some v ∧ v.Nodup ∧
      (∀ p, p ∈ v ↔ ∃ nd, deref main_state p = some nd ∧ nd._segment = 100 ∧
        nd._type = node_type.ENDPOINT) ∧
      v.length = added 100 node_type.ENDPOINT main_calls ∧ v.length = 2) ∧
    (∃ v, bridges main_state 100 = some v ∧ v.Nodup ∧
      (∀ p, p ∈ v ↔ ∃ nd, deref main_state p = some nd ∧ nd._segment = 100 ∧
        nd._type = node_type.BRIDGE) ∧
      v.length = added 100 node_type.BRIDGE main_calls ∧ v.length = 1) ∧
    (∃ v, routers main_state 100 = some v ∧ v.Nodup ∧
      (∀ p, p ∈ v ↔ ∃ nd, deref main_state p = some nd ∧ nd._segment = 100 ∧
        nd._type = node_type.ROUTER) ∧
      v.length = added 100 node_type.ROUTER main_calls ∧ v.length = 1) ∧
    call_s3 main_state (call.add_endpoint 100 7) = some (true, add_endpoint main_state 100 7) ∧
    deref (add_endpoint main_state 100 7) 7 =
      some { _segment := 100, _type := node_type.ENDPOINT, capacity := 1, _id := "",
             connected := [] } ∧
    neighbors (add_endpoint main_state 100 7) 7 = [] := by
  have hrun : run call_s3 [] main_calls = some (List.replicate 10 true, main_state) := rfl
  have hreach : Reachable main_state := (run_s3_count main_calls [] _ _ Reachable.init hrun).1
  obtain ⟨⟨ve, he1, he2, he3, _, he5⟩, ⟨vb, hb1, hb2, hb3, _, hb5⟩, ⟨vr, hr1, hr2, hr3, _, hr5⟩,
      hfac⟩ :=
    node_vectors_exact main_state hreach 100 (ids_distinct_of_check _ _ _ (by decide))
      (ids_distinct_of_check _ _ _ (by decide))
  obtain ⟨⟨f1, f2, f3, _⟩, _, _⟩ := hfac 100 0 "" 7 (by decide) rfl
  have ae : added 100 node_type.ENDPOINT main_calls = 2 := by decide
  have ab : added 100 node_type.BRIDGE main_calls = 1 := by decide
  have ar : added 100 node_type.ROUTER main_calls = 1 := by decide
  exact ⟨hrun,
    ⟨ve, he1, he2, he3, he5 _ _ hrun, (he5 _ _ hrun).trans ae⟩,
    ⟨vb, hb1, hb2, hb3, hb5 _ _ hrun, (hb5 _ _ hrun).trans ab⟩,
    ⟨vr, hr1, hr2, hr3, hr5 _ _ hrun, (hr5 _ _ hrun).trans ar⟩, f1, f2, f3⟩

/-! ## What follows the segments of a text -/

end Network
